import Mathlib

/-!
Motion control kernel of the avrostr firmware.

Shallow embedding of `src/fw/driver.h` and `src/fw/motors.h`.

Machine integers are modelled as `Int`/`Nat`; every conversion to a fixed-width
type is an explicit wrap (`toInt16`, `toUInt8`, ...).  C++ `/` and `%` on signed
operands truncate toward zero and are modelled by `Int.tdiv` and `Int.tmod`.
-/

namespace Avrostr

/-! ## Fixed-width integer conversions -/

/-- Value of `x` after conversion to a signed two's-complement integer of `w` bits. -/
def wrapSigned (w : Nat) (x : Int) : Int :=
  (x + 2 ^ (w - 1)) % 2 ^ w - 2 ^ (w - 1)

/-- Conversion to `int8_t`. -/
def toInt8 (x : Int) : Int := wrapSigned 8 x
/-- Conversion to `int16_t`. -/
def toInt16 (x : Int) : Int := wrapSigned 16 x
/-- Conversion to `int32_t`. -/
def toInt32 (x : Int) : Int := wrapSigned 32 x
/-- Conversion to `int64_t`. -/
def toInt64 (x : Int) : Int := wrapSigned 64 x
/-- Conversion to `uint8_t`. -/
def toUInt8 (x : Int) : Int := x % 256
/-- Conversion to `uint16_t`. -/
def toUInt16 (x : Int) : Int := x % 65536

/-- Range of `int16_t`. -/
def IsInt16 (x : Int) : Prop := -32768 ≤ x ∧ x ≤ 32767
/-- Range of `int32_t`. -/
def IsInt32 (x : Int) : Prop := -2147483648 ≤ x ∧ x ≤ 2147483647
/-- Range of `int64_t`. -/
def IsInt64 (x : Int) : Prop := -9223372036854775808 ≤ x ∧ x ≤ 9223372036854775807

instance (x : Int) : Decidable (IsInt16 x) := by unfold IsInt16; infer_instance
instance (x : Int) : Decidable (IsInt32 x) := by unfold IsInt32; infer_instance
instance (x : Int) : Decidable (IsInt64 x) := by unfold IsInt64; infer_instance

/-! ## `Driver::Wheel` (driver.h) -/

/-- CPU frequency in Hz; `main.cc` asserts `F_CPU == 16000000`. -/
def F_CPU : Int := 16000000

/-- Kinematic state `struct Wheel`: position `s_` and velocity `v_`, 48-bit fixed point. -/
structure Wheel where
  s_ : Int := 0
  v_ : Int := 0
deriving Repr, DecidableEq

namespace Wheel

/-- Constant `kMaxV = (750ll << 48) / F_CPU`. -/
def kMaxV : Int := Int.tdiv (750 * 2 ^ 48) F_CPU

/-- Constant `kMaxA = kMaxV / (F_CPU / 10)`. -/
def kMaxA : Int := Int.tdiv kMaxV (Int.tdiv F_CPU 10)

/-- The intermediate `v_ + a * dt_ticks` of `Update`, as computed in `int64_t`. -/
def Update_v2 (w : Wheel) (dt_ticks : Nat) (a : Int) : Int :=
  toInt64 (w.v_ + toInt64 (a * dt_ticks))

/-- Method `Wheel::Update(dt_ticks, a)`: the new state and the returned step (`-1`, `0`, `1`). -/
def Update (w : Wheel) (dt_ticks : Nat) (a : Int) : Wheel × Int :=
  let v2 := Update_v2 w dt_ticks a
  let v2 := if v2 > kMaxV then kMaxV else if v2 < -kMaxV then -kMaxV else v2
  let s := toInt64 (w.s_ + Int.tdiv (toInt64 (toInt64 (w.v_ + v2) * dt_ticks)) 2)
  if s > 2 ^ 47 then
    (⟨toInt64 (s - 2 ^ 48), v2⟩, 1)
  else if s < -(2 ^ 47) then
    (⟨toInt64 (s + 2 ^ 48), v2⟩, -1)
  else
    (⟨s, v2⟩, 0)

/-- State after feeding `Update` a sequence of `(dt_ticks, a)` pairs, in order. -/
def run (w : Wheel) (ticks : List (Nat × Int)) : Wheel :=
  ticks.foldl (fun st t => (st.Update t.1 t.2).1) w

end Wheel

/-! ## `Driver::FractionalMove` (driver.h) -/

/-- Outcome of `FractionalMove`: the returned delta and the values left in the
`*position` and `*remainder` cells. -/
structure FractionalMoveResult where
  ret : Int
  position : Int
  remainder : Int
deriving Repr, DecidableEq

/-- The local `p = static_cast<int32_t>(s) * fraction + *remainder` of `FractionalMove`. -/
def FractionalMove_p (s fraction remainder : Int) : Int :=
  toInt32 (toInt32 (s * fraction) + remainder)

/-- Static method `Driver::FractionalMove(s, fraction, position, remainder)`.
`s` is a `uint16_t`, `fraction` and `*position` are `int16_t`, `*remainder` is a `uint16_t`. -/
def FractionalMove (s fraction position remainder : Int) : FractionalMoveResult :=
  let p := FractionalMove_p s fraction remainder
  let remainder1 := toUInt16 (Int.land p (2 ^ 14 - 1))
  let p := Int.shiftRight p 14
  let ret := toInt16 (toInt32 (p - position))
  { ret := ret, position := toInt16 p, remainder := remainder1 }

/-- Deltas returned by successive `FractionalMove` calls on the same cells, one call per
element of `ss`, together with the final cell contents `(position, remainder)`. -/
def FractionalMove_seq (fraction : Int) : List Int → Int → Int → List Int × Int × Int
  | [], position, remainder => ([], position, remainder)
  | s :: ss, position, remainder =>
    let r := FractionalMove s fraction position remainder
    let rest := FractionalMove_seq fraction ss r.position r.remainder
    (r.ret :: rest.1, rest.2)

/-- Whether a `FractionalMove` call stays within its 16-bit types: the shifted value
`p >> 14` and its difference to the old `*position` both fit in `int16_t`. -/
def FractionalMove_fits (s fraction position remainder : Int) : Bool :=
  let p := Int.shiftRight (FractionalMove_p s fraction remainder) 14
  decide (IsInt16 p) && decide (IsInt16 (p - position))

/-- Whether every call of `FractionalMove_seq` stays within its 16-bit types. -/
def FractionalMove_seq_fits (fraction : Int) : List Int → Int → Int → Bool
  | [], _, _ => true
  | s :: ss, position, remainder =>
    let r := FractionalMove s fraction position remainder
    FractionalMove_fits s fraction position remainder &&
      FractionalMove_seq_fits fraction ss r.position r.remainder

/-! ## `Driver::Forward` (driver.h) -/

/-- The `int32_t` expression `(um * 4096 + 79325) / 158650` of `Driver::Forward`. -/
def Forward_quotient (um : Int) : Int :=
  Int.tdiv (toInt32 (toInt32 (um * 4096) + 79325)) 158650

/-- The `int16_t steps` argument that `Driver::Forward(interrupted, um)` passes to
`ForwardSteps`. -/
def Forward_steps (um : Int) : Int :=
  toInt16 (Forward_quotient um)

/-! ## `Stepper` (motors.h) and `List` (utils.h) -/

/-- A coil pin as driven by `Stepper`: whether it was configured as an output and the
level last written with `Set`. -/
structure Gpio where
  output : Bool := false
  level : Bool := false
deriving Repr, DecidableEq

namespace Gpio

/-- Pin operation `ConfigureOutput()`. -/
def ConfigureOutput (c : Gpio) : Gpio := { c with output := true }

/-- Pin operation `Set(value)`. -/
def Set (c : Gpio) (value : Bool) : Gpio := { c with level := value }

end Gpio

/-- Heterogeneous list `List<T, Next...>` of utils.h: a head and a possibly empty tail. -/
structure CoilList where
  head_ : Gpio
  tail_ : List Gpio
deriving Repr, DecidableEq

namespace CoilList

/-- Static method `List::Len()`. -/
def Len (c : CoilList) : Nat := 1 + c.tail_.length

/-- Method `ForEach(f, offset)` on the tail; `offset` is a `uint8_t`. -/
def ForEachTail (f : Gpio → Int → Gpio) : List Gpio → Int → List Gpio
  | [], _ => []
  | c :: cs, offset => f c offset :: ForEachTail f cs (toUInt8 (offset + 1))

/-- Method `List::ForEach(f, offset = 0)`. -/
def ForEach (c : CoilList) (f : Gpio → Int → Gpio) : CoilList :=
  { head_ := f c.head_ 0, tail_ := ForEachTail f c.tail_ (toUInt8 (0 + 1)) }

/-- All pins, head first. -/
def toList (c : CoilList) : List Gpio := c.head_ :: c.tail_

/-- A list of `n + 1` fresh pins. -/
def fresh (n : Nat) : CoilList := { head_ := {}, tail_ := List.replicate n {} }

end CoilList

/-- Functor `Stepper::UpdateFn` with its two `uint8_t` fields. -/
structure UpdateFn where
  period : Int
  pos : Int
deriving Repr, DecidableEq

namespace UpdateFn

/-- Constructor `UpdateFn(uint8_t period_, uint8_t pos_)`. -/
def new (period_ pos_ : Int) : UpdateFn :=
  { period := toUInt8 period_, pos := toUInt8 pos_ }

/-- The value `(pos - 2*i + 1 + period) % period < 3` that `operator()` writes to coil `i`. -/
def energized (f : UpdateFn) (i : Int) : Bool :=
  decide (Int.tmod (f.pos - 2 * i + 1 + f.period) f.period < 3)

/-- Call `operator()(c, i)`. -/
def call (f : UpdateFn) (c : Gpio) (i : Int) : Gpio :=
  c.Set (f.energized i)

end UpdateFn

/-- Class `Stepper<C>`: the coil pins `c_` and the phase `pos_` (a `uint8_t`, initially 0). -/
structure Stepper where
  c_ : CoilList
  pos_ : Int := 0
deriving Repr, DecidableEq

namespace Stepper

/-- Constant `kPeriod = 2 * C::Len()`. -/
def kPeriod (st : Stepper) : Int := 2 * st.c_.Len

/-- Method `Stepper::Init()`. -/
def Init (st : Stepper) : Stepper :=
  let c := st.c_.ForEach (fun c _ => c.ConfigureOutput)
  { st with c_ := c.ForEach (fun c _ => c.Set false) }

/-- Method `Stepper::Off()`. -/
def Off (st : Stepper) : Stepper :=
  { st with c_ := st.c_.ForEach (fun c _ => c.Set false) }

/-- The phase stored by `Stepper::Move(delta)`, after its first two statements. -/
def Move_pos (st : Stepper) (delta : Int) : Int :=
  let pos := toUInt8 (st.pos_ + delta)
  toUInt8 (Int.tmod (pos + st.kPeriod) st.kPeriod)

/-- Method `Stepper::Move(delta)`; `delta` is an `int8_t`. -/
def Move (st : Stepper) (delta : Int) : Stepper :=
  let pos := st.Move_pos delta
  { c_ := st.c_.ForEach (UpdateFn.new st.kPeriod pos).call, pos_ := pos }

/-- Levels of the coil pins, coil 0 first. -/
def levels (st : Stepper) : List Bool := st.c_.toList.map Gpio.level

/-- Indices of the coils whose pin is high. -/
def energizedCoils (st : Stepper) : List Nat :=
  (List.range st.c_.Len).filter (fun i => st.levels.getD i false)

end Stepper

/-- One public operation of a stepper. -/
inductive StepperOp where
  | Init
  | Off
  | Move (delta : Int)
deriving Repr, DecidableEq

/-- Effect of one operation on a stepper. -/
def StepperOp.apply (st : Stepper) : StepperOp → Stepper
  | .Init => st.Init
  | .Off => st.Off
  | .Move delta => st.Move delta

/-! ## `Driver` (driver.h): data, collaborators and commands -/

/-- Conversion to `uint32_t`. -/
def toUInt32 (x : Int) : Int := x % 4294967296

/-- Stored directive `struct DataPoint`: `len`, the 15-bit `angle` and the 1-bit `pen`. -/
structure DataPoint where
  len : Int
  angle : Int
  pen : Bool
deriving Repr, DecidableEq

/-- Drawing `struct Image`: the count and the segment read at each index of `points`. -/
structure Image where
  num_points : Nat
  points : Nat → DataPoint

/-- Record `struct CalibrationData`. -/
structure CalibrationData where
  angle_offset : Int
  left_fraction : Int
  right_fraction : Int
  pen_down : Int
  pen_up : Int
deriving Repr, DecidableEq

/-- The world outside the driver: the value of the `k`-th sample of `Timer::GetTime()` and
the answer of the `k`-th evaluation of the cancellation predicate. -/
structure Env where
  time : Nat → Int
  interrupted : Nat → Bool

/-- A call made by the driver to one of its collaborators (the two steppers, the servo, the
cancellation predicate), with the predicate's answer. -/
inductive Event where
  | LeftInit
  | LeftOff
  | LeftMove (delta : Int)
  | RightInit
  | RightOff
  | RightMove (delta : Int)
  | ServoInit
  | ServoOff
  | ServoSet (v : Int)
  | Interrupted (result : Bool)
deriving Repr, DecidableEq

/-- State of class `Driver`: its data members, the calls made so far to the collaborators in
chronological order, and the numbers of timer samples and predicate evaluations so far. -/
structure Driver where
  calibration_ : CalibrationData
  angle_fraction_ : Int := 0
  pen_ : Bool := false
  left_remainder_ : Int := 0
  right_remainder_ : Int := 0
  log : List Event := []
  reads : Nat := 0
  polls : Nat := 0
deriving Repr, DecidableEq

/-- Locals of `Driver::Move`: the wheel `w`, the virtual counter `s`, the physical positions
`l` and `r`, and the previous timer sample `start`. -/
structure MoveLocals where
  w : Wheel := {}
  s : Int := 0
  l : Int := 0
  r : Int := 0
  start : Int := 0
deriving Repr, DecidableEq

namespace Driver

/-- Constant `kLiftPenWhenRotating`. -/
def kLiftPenWhenRotating : Bool := false

/-- A call recorded in the log. -/
def emit (drv : Driver) (e : Event) : Driver := { drv with log := drv.log ++ [e] }

/-- Call `Timer::GetTime()`: the next sample, as a `uint16_t`. -/
def GetTime (env : Env) (drv : Driver) : Int × Driver :=
  (toUInt16 (env.time drv.reads), { drv with reads := drv.reads + 1 })

/-- Call `interrupted()`: the next answer of the predicate. -/
def Poll (env : Env) (drv : Driver) : Bool × Driver :=
  (env.interrupted drv.polls,
    { drv with log := drv.log ++ [Event.Interrupted (env.interrupted drv.polls)],
               polls := drv.polls + 1 })

/-- The `while (true)` loop of `Driver::DelayUs`, at most `fuel` iterations. -/
def DelayUs_loop (env : Env) : Nat → Driver → Int → Int → Option Driver
  | 0, _, _, _ => none
  | fuel + 1, drv, t, begin =>
    let g := drv.GetTime env
    let delta := toUInt16 (g.1 - begin)
    if delta > t then some g.2
    else DelayUs_loop env fuel g.2 (toUInt32 (t - delta)) g.1

/-- Method `Driver::DelayUs(t)`. -/
def DelayUs (env : Env) (fuel : Nat) (drv : Driver) (t : Int) : Option Driver :=
  let t := toUInt32 (t * Int.tdiv F_CPU 1000000)
  let g := drv.GetTime env
  DelayUs_loop env fuel g.2 t g.1

/-- Method `Driver::Pen(down)`. -/
def Pen (env : Env) (fuel : Nat) (drv : Driver) (down : Bool) : Option Driver :=
  let drv := drv.emit
    (Event.ServoSet (if down then drv.calibration_.pen_down else drv.calibration_.pen_up))
  let drv := { drv with pen_ := down }
  DelayUs env fuel drv 200000

/-- Method `Driver::Init()`. -/
def Init (env : Env) (fuel : Nat) (drv : Driver) : Option Driver :=
  Pen env fuel (((drv.emit Event.LeftInit).emit Event.RightInit).emit Event.ServoInit) false

/-- Method `Driver::Off()`. -/
def Off (drv : Driver) : Driver :=
  ((drv.emit Event.LeftOff).emit Event.RightOff).emit Event.ServoOff

/-- The braking test `((w.v_ / (2 * kMaxA)) * w.v_) >> 48 >= d - s` of `Driver::Move`. -/
def Move_braking (w : Wheel) (d s : Int) : Bool :=
  decide (Int.shiftRight (toInt64 (toInt64 (Int.tdiv w.v_ (toInt64 (2 * Wheel.kMaxA))) * w.v_)) 48
    ≥ toUInt16 (d - s))

/-- One iteration of the `while (s < d)` loop of `Driver::Move`, up to and including the call
of the predicate: the predicate's answer, the driver and the locals. -/
def Move_tick (env : Env) (left_fraction right_fraction d : Int) (drv : Driver)
    (m : MoveLocals) : Bool × Driver × MoveLocals :=
  let g := drv.GetTime env
  let braking := Move_braking m.w d m.s
  let u := m.w.Update (toUInt16 (g.1 - m.start)).toNat
    (if braking then -Wheel.kMaxA else Wheel.kMaxA)
  let s := toUInt16 (m.s + toInt8 u.2)
  let fl := FractionalMove s left_fraction m.l g.2.left_remainder_
  let drv := ({ g.2 with left_remainder_ := fl.remainder }).emit (Event.LeftMove (toInt8 fl.ret))
  let fr := FractionalMove s right_fraction m.r drv.right_remainder_
  let drv := ({ drv with right_remainder_ := fr.remainder }).emit (Event.RightMove (toInt8 fr.ret))
  let q := drv.Poll env
  (q.1, q.2, { w := u.1, s := s, l := fl.position, r := fr.position, start := g.1 })

/-- The `while (s < d)` loop of `Driver::Move`, at most `fuel` iterations: whether it ran to
the end, the driver and the final locals. -/
def Move_loop (env : Env) (left_fraction right_fraction d : Int) :
    Nat → Driver → MoveLocals → Option (Bool × Driver × MoveLocals)
  | 0, drv, m => if m.s < d then none else some (true, drv, m)
  | fuel + 1, drv, m =>
    if m.s < d then
      let t := Move_tick env left_fraction right_fraction d drv m
      if t.1 then some (false, t.2.1, t.2.2)
      else Move_loop env left_fraction right_fraction d fuel t.2.1 t.2.2
    else some (true, drv, m)

/-- Method `Driver::Move(interrupted, left_fraction, right_fraction, d)` with the final values
of its locals; the fractions are `int16_t` and `d` is a `uint16_t`. -/
def Move_run (env : Env) (fuel : Nat) (drv : Driver) (left_fraction right_fraction d : Int) :
    Option (Bool × Driver × MoveLocals) :=
  let g := drv.GetTime env
  Move_loop env left_fraction right_fraction d fuel g.2 { start := g.1 }

/-- Method `Driver::Move(interrupted, left_fraction, right_fraction, d)`. -/
def Move (env : Env) (fuel : Nat) (drv : Driver) (left_fraction right_fraction d : Int) :
    Option (Bool × Driver) :=
  (Move_run env fuel drv left_fraction right_fraction d).map (fun x => (x.1, x.2.1))

/-- The arguments `(left_fraction, right_fraction, d)` that `ForwardSteps(steps)` passes to
`Move`. -/
def ForwardSteps_args (drv : Driver) (steps : Int) : Int × Int × Int :=
  let sign : Int := if steps < 0 then -1 else 1
  let steps := if steps < 0 then toInt16 (-steps) else steps
  (toInt16 (-sign * drv.calibration_.left_fraction),
   toInt16 (sign * drv.calibration_.right_fraction),
   toUInt16 steps)

/-- Method `Driver::ForwardSteps(interrupted, steps)`; `steps` is an `int16_t`. -/
def ForwardSteps (env : Env) (fuel : Nat) (drv : Driver) (steps : Int) : Option (Bool × Driver) :=
  let a := drv.ForwardSteps_args steps
  Move env fuel drv a.1 a.2.1 a.2.2

/-- The bias bookkeeping of `RotateSteps`: the steps `angle_fraction_ / 256` folded into the
command and the new `angle_fraction_ % 256`, after `angle_fraction_ += angle_offset`. -/
def RotateSteps_bias (angle_offset angle_fraction : Int) : Int × Int :=
  let af := toInt16 (angle_fraction + angle_offset)
  (Int.tdiv af 256, Int.tmod af 256)

/-- The arguments `(left_fraction, right_fraction, d)` that `RotateSteps` passes to `Move` for
the effective step count `steps` (bias included). -/
def RotateSteps_args (drv : Driver) (steps : Int) : Int × Int × Int :=
  let sign : Int := if steps < 0 then -1 else 1
  let steps := if steps < 0 then toInt16 (-steps) else steps
  (toInt16 (-sign * drv.calibration_.left_fraction),
   toInt16 (-sign * drv.calibration_.right_fraction),
   toUInt16 steps)

/-- Method `Driver::RotateSteps(interrupted, steps)`; `steps` is an `int16_t`. -/
def RotateSteps (env : Env) (fuel : Nat) (drv : Driver) (steps : Int) : Option (Bool × Driver) :=
  let b := RotateSteps_bias drv.calibration_.angle_offset drv.angle_fraction_
  let steps := toInt16 (steps + b.1)
  let drv := { drv with angle_fraction_ := b.2 }
  let a := drv.RotateSteps_args steps
  let pen := drv.pen_
  match (if kLiftPenWhenRotating && pen then Pen env fuel drv false else some drv) with
  | none => none
  | some drv =>
    match Move env fuel drv a.1 a.2.1 a.2.2 with
    | none => none
    | some (val, drv) =>
      match (if kLiftPenWhenRotating && pen then Pen env fuel drv true else some drv) with
      | none => none
      | some drv => some (val, drv)

/-- Body of the `for` loop of `Driver::DrawImage` for index `i`, entered with the local `pen`:
whether the loop goes on (neither `RotateSteps` nor `ForwardSteps` failed), the local `pen`
and the driver. -/
def DrawImage_segment (env : Env) (fuel : Nat) (image : Image) (i : Nat) (pen : Bool)
    (drv : Driver) : Option (Bool × Bool × Driver) :=
  let p := image.points i
  match (if i == 0 || pen != p.pen then Pen env fuel drv p.pen else some drv) with
  | none => none
  | some drv =>
    let pen := if i == 0 || pen != p.pen then p.pen else pen
    match RotateSteps env fuel drv p.angle with
    | none => none
    | some (false, drv) => some (false, pen, drv)
    | some (true, drv) =>
      match ForwardSteps env fuel drv p.len with
      | none => none
      | some (ok, drv) => some (ok, pen, drv)

/-- The `for (i = 0; i < image.num_points; ++i)` loop of `Driver::DrawImage` with `n`
iterations left: the index `i` at which it stops and the driver. -/
def DrawImage_loop (env : Env) (fuel : Nat) (image : Image) :
    Nat → Nat → Bool → Driver → Option (Nat × Driver)
  | 0, i, _, drv => some (i, drv)
  | n + 1, i, pen, drv =>
    match DrawImage_segment env fuel image i pen drv with
    | none => none
    | some (false, _, drv) => some (i, drv)
    | some (true, pen, drv) => DrawImage_loop env fuel image n (i + 1) pen drv

/-- Method `Driver::DrawImage(interrupted, image_ptr)`. -/
def DrawImage (env : Env) (fuel : Nat) (drv : Driver) (image : Image) : Option (Bool × Driver) :=
  match DrawImage_loop env fuel image image.num_points 0 false drv with
  | none => none
  | some (i, drv) =>
    match Pen env fuel drv false with
    | none => none
    | some drv => some (decide (i ≥ image.num_points), drv.Off)

/-- State reached after the first `k` segments of `image` were played with success, with the
value of the local `pen`. -/
def DrawImage_played (env : Env) (fuel : Nat) (image : Image) (drv : Driver) :
    Nat → Option (Bool × Driver)
  | 0 => some (false, drv)
  | k + 1 =>
    match DrawImage_played env fuel image drv k with
    | none => none
    | some (pen, d) =>
      match DrawImage_segment env fuel image k pen d with
      | some (true, pen, d) => some (pen, d)
      | _ => none

end Driver

/-- The calls recorded by successive iterations of the loop of `Move`, given the pair of
deltas sent to the steppers at each iteration and the number of earlier evaluations of the
predicate. -/
def Move_events (env : Env) : Nat → List (Int × Int) → List Event
  | _, [] => []
  | polls, ab :: ds =>
    Event.LeftMove ab.1 :: Event.RightMove ab.2 :: Event.Interrupted (env.interrupted polls) ::
      Move_events env (polls + 1) ds

/-- Calls that `Move` makes: stepper moves and evaluations of the predicate. -/
def Event.isMotion : Event → Bool
  | Event.LeftMove _ => true
  | Event.RightMove _ => true
  | Event.Interrupted _ => true
  | _ => false

/-- What a returning `Move` does to the driver: for some list `ds` of delta pairs, one pair
per iteration, the log grows by `Move_events`; the predicate is evaluated once per iteration
and answers `true` at most at the last one, exactly when the result `b` is `false`; the
calibration, the bias accumulator and the pen flag do not change. -/
def Driver.MoveEffect (env : Env) (drv drv1 : Driver) (b : Bool) (ds : List (Int × Int)) : Prop :=
  drv1.calibration_ = drv.calibration_ ∧ drv1.angle_fraction_ = drv.angle_fraction_ ∧
  drv1.pen_ = drv.pen_ ∧
  drv1.log = drv.log ++ Move_events env drv.polls ds ∧
  drv1.polls = drv.polls + ds.length ∧
  (∀ j : Nat, j + 1 < ds.length → env.interrupted (drv.polls + j) = false) ∧
  (b = false → ds ≠ [] ∧ env.interrupted (drv.polls + (ds.length - 1)) = true) ∧
  (b = true → ∀ j : Nat, j < ds.length → env.interrupted (drv.polls + j) = false)

/-- Total of the bias steps folded into the commands and the bias accumulator
`angle_fraction_`, after `n` successive `RotateSteps` calls starting from a zero
accumulator. -/
def RotateSteps_bias_run (angle_offset : Int) : Nat → Int × Int
  | 0 => (0, 0)
  | n + 1 =>
    let prev := RotateSteps_bias_run angle_offset n
    let b := Driver.RotateSteps_bias angle_offset prev.2
    (prev.1 + b.1, b.2)

/-- A world for examples: the timer advances by 65535 ticks (modulo `2^16`) between
consecutive samples and the predicate answers `true` from its `stop`-th evaluation on. -/
def sampleEnv (stop : Nat) : Env :=
  { time := fun k => -(k : Int), interrupted := fun k => decide (stop ≤ k) }

/-- A calibration for examples: unit gear ratios with the left wheel mounted mirrored. -/
def sampleCalibration : CalibrationData :=
  { angle_offset := 0, left_fraction := -16384, right_fraction := 16384,
    pen_down := 1400, pen_up := 800 }

/-- The calibration of the simulator build (smoke_test_avr.cc). -/
def unityCalibration : CalibrationData :=
  { angle_offset := 0, left_fraction := 16384, right_fraction := 16384,
    pen_down := 1400, pen_up := 800 }

/-- An image for examples: three segments moving one step forward each, pen down, up, up. -/
def sampleImage : Image :=
  { num_points := 3,
    points := fun i => { len := 1, angle := 0, pen := decide (i = 0) } }

/-- A stepper `Move` call with a non-zero delta. -/
def Event.isStep : Event → Bool
  | Event.LeftMove delta => decide (delta ≠ 0)
  | Event.RightMove delta => decide (delta ≠ 0)
  | _ => false

/-- Both allocator remainders of the driver lie in `[0, 2^14)`. -/
def Driver.RemaindersOk (drv : Driver) : Prop :=
  (0 ≤ drv.left_remainder_ ∧ drv.left_remainder_ < 2 ^ 14) ∧
  (0 ≤ drv.right_remainder_ ∧ drv.right_remainder_ < 2 ^ 14)

/-- The distances that the body of the loop of `DrawImage` commands for the segment `p` in
the state `drv`: the distance of the `Move` made by `RotateSteps(p.angle)`, the distance of
the `Move` made by `ForwardSteps(p.len)`, and the bias accumulator after the rotation. -/
def Driver.segmentDistances (drv : Driver) (p : DataPoint) : Int × Int × Int :=
  let b := Driver.RotateSteps_bias drv.calibration_.angle_offset drv.angle_fraction_
  ((drv.RotateSteps_args (toInt16 (p.angle + b.1))).2.2, (drv.ForwardSteps_args p.len).2.2, b.2)

/-- An image for examples: one step forward, then two segments without any motion. -/
def idleTailImage : Image :=
  { num_points := 3,
    points := fun i => { len := if i = 0 then 1 else 0, angle := 0, pen := true } }

/-- The driver of the examples after the first segment of `sampleImage`, played in the world
`sampleEnv 3` with `sampleCalibration`. -/
def sampleAfterFirst : Driver :=
  { calibration_ := sampleCalibration
    pen_ := true
    log := [Event.ServoSet 1400, Event.LeftMove 0, Event.RightMove 0, Event.Interrupted false,
      Event.LeftMove 0, Event.RightMove 0, Event.Interrupted false,
      Event.LeftMove 1, Event.RightMove 1, Event.Interrupted false]
    reads := 55
    polls := 3 }

/-- The driver of the examples after `Move(16384, 16384, 5)` was cancelled at its second
iteration in the world `sampleEnv 1`. -/
def sampleCancelled : Driver :=
  { calibration_ := sampleCalibration
    log := [Event.LeftMove 0, Event.RightMove 0, Event.Interrupted false,
      Event.LeftMove 0, Event.RightMove 0, Event.Interrupted true]
    reads := 3
    polls := 2 }

/-- A calibration for examples with gear ratios slightly above one. -/
def geared : CalibrationData :=
  { angle_offset := 0, left_fraction := -16385, right_fraction := 16385,
    pen_down := 1400, pen_up := 800 }

/-- A calibration for examples with both fractions at the most negative `int16_t`. -/
def extremeCalibration : CalibrationData :=
  { angle_offset := 0, left_fraction := -32768, right_fraction := -32768,
    pen_down := 1400, pen_up := 800 }

/-- Number of `ServoSet` calls in a log. -/
def countServoSet (log : List Event) : Nat :=
  (log.filter (fun e => match e with
    | Event.ServoSet _ => true
    | _ => false)).length

/-- Sum of the deltas passed to the left stepper in a log. -/
def sumLeftMoves : List Event → Int
  | [] => 0
  | Event.LeftMove delta :: es => delta + sumLeftMoves es
  | _ :: es => sumLeftMoves es

/-- Sum of the deltas passed to the right stepper in a log. -/
def sumRightMoves : List Event → Int
  | [] => 0
  | Event.RightMove delta :: es => delta + sumRightMoves es
  | _ :: es => sumRightMoves es

/-- A timer whose consecutive samples always differ (as `uint16_t`). -/
def Env.TimerAdvances (env : Env) : Prop :=
  ∀ k : Nat, toUInt16 (toUInt16 (env.time (k + 1)) - toUInt16 (env.time k)) ≠ 0

/-- The driver of the examples after `DrawImage` on `sampleImage` was cancelled in the world
`sampleEnv 3`, at the first iteration of the second segment. -/
def sampleAborted : Driver :=
  { calibration_ := sampleCalibration
    log := [Event.ServoSet 1400, Event.LeftMove 0, Event.RightMove 0, Event.Interrupted false,
      Event.LeftMove 0, Event.RightMove 0, Event.Interrupted false,
      Event.LeftMove 1, Event.RightMove 1, Event.Interrupted false,
      Event.ServoSet 800, Event.LeftMove 0, Event.RightMove 0, Event.Interrupted true,
      Event.ServoSet 800, Event.LeftOff, Event.RightOff, Event.ServoOff]
    reads := 158
    polls := 4 }

/-- The driver of the examples after the first two segments of `sampleImage`, played in a
world whose predicate stays `false`. -/
def sampleAfterSecond : Driver :=
  { calibration_ := sampleCalibration
    log := [Event.ServoSet 1400, Event.LeftMove 0, Event.RightMove 0, Event.Interrupted false,
      Event.LeftMove 0, Event.RightMove 0, Event.Interrupted false,
      Event.LeftMove 1, Event.RightMove 1, Event.Interrupted false,
      Event.ServoSet 800, Event.LeftMove 0, Event.RightMove 0, Event.Interrupted false,
      Event.LeftMove 0, Event.RightMove 0, Event.Interrupted false,
      Event.LeftMove 1, Event.RightMove 1, Event.Interrupted false]
    reads := 110
    polls := 6 }

/-- The driver of the examples after `ForwardSteps(1)` with the calibration `geared`, run to
the end from the initial state in the world `sampleEnv 1000`. -/
def sampleGeared : Driver :=
  { calibration_ := geared
    left_remainder_ := 1
    right_remainder_ := 1
    log := [Event.LeftMove 0, Event.RightMove 0, Event.Interrupted false,
      Event.LeftMove 0, Event.RightMove 0, Event.Interrupted false,
      Event.LeftMove 1, Event.RightMove 1, Event.Interrupted false]
    reads := 4
    polls := 3 }

/-- The `int16_t d` that `Driver::Rotate(interrupted, minutes)` passes to `RotateSteps`:
`(static_cast<int32_t>(minutes) * 10000) / 34496`; `minutes` is an `int16_t`. -/
def Rotate_steps (minutes : Int) : Int :=
  toInt16 (Int.tdiv (toInt32 (toInt32 minutes * 10000)) 34496)

/-- `Update` as the specification words it, over unbounded integers: the clamped velocity
`v1 = clamp(v_ + a * dt, -kMaxV, kMaxV)`, the position sum `q = s_ + (v_ + v1) * dt / 2`
(truncating division), the pulse (`1` for `q > 2^47`, `-1` for `q < -2^47`, else `0`), the
stored position `q - 2^48 * pulse` and the stored velocity `v1`. -/
def Wheel.Update_spec (w : Wheel) (dt_ticks : Nat) (a : Int) : Wheel × Int :=
  let v1 := max (-Wheel.kMaxV) (min Wheel.kMaxV (w.v_ + a * dt_ticks))
  let q := w.s_ + Int.tdiv ((w.v_ + v1) * dt_ticks) 2
  let pulse : Int := if q > 2 ^ 47 then 1 else if q < -(2 ^ 47) then -1 else 0
  ({ s_ := q - 2 ^ 48 * pulse, v_ := v1 }, pulse)

/-- Sum of the `uint16_t` differences `end - begin` between the consecutive timer samples
number `j`, `j + 1`, ..., `j + n`. -/
def Env.elapsed (env : Env) (j : Nat) : Nat → Int
  | 0 => 0
  | n + 1 => env.elapsed j n +
      toUInt16 (toUInt16 (env.time (j + n + 1)) - toUInt16 (env.time (j + n)))

namespace Driver

/-- Method `Driver::Forward(interrupted, um)`; `um` is an `int32_t`. -/
def Forward (env : Env) (fuel : Nat) (drv : Driver) (um : Int) : Option (Bool × Driver) :=
  ForwardSteps env fuel drv (Forward_steps um)

/-- Method `Driver::Rotate(interrupted, minutes)`; `minutes` is an `int16_t`. -/
def Rotate (env : Env) (fuel : Nat) (drv : Driver) (minutes : Int) : Option (Bool × Driver) :=
  RotateSteps env fuel drv (Rotate_steps minutes)

/-- The expression `val && f()` for a command `f` of the driver: `f` is only run when `val`
is `true`. -/
def andThen (val : Bool) (drv : Driver) (f : Driver → Option (Bool × Driver)) :
    Option (Bool × Driver) :=
  if val then f drv else some (false, drv)

/-- The expression statement
`Rotate(360 * 60) && Rotate(360 * 60) && Rotate(360 * 60);` of `Driver::Calibration`: its
value and the driver. -/
def Calibration_turns (env : Env) (fuel : Nat) (drv : Driver) : Option (Bool × Driver) :=
  match Rotate env fuel drv (360 * 60) with
  | none => none
  | some (r1, drv) =>
    match andThen r1 drv (fun d => Rotate env fuel d (360 * 60)) with
    | none => none
    | some (r2, drv) => andThen r2 drv (fun d => Rotate env fuel d (360 * 60))

/-- Method `Driver::Calibration(interrupted)`. -/
def Calibration (env : Env) (fuel : Nat) (drv : Driver) : Option (Bool × Driver) :=
  match Pen env fuel drv true with
  | none => none
  | some drv =>
    match Forward env fuel drv 200000 with
    | none => none
    | some (val, drv) =>
      match Pen env fuel drv false with
      | none => none
      | some drv =>
        match andThen val drv (fun d => Rotate env fuel d (180 * 60)) with
        | none => none
        | some (val, drv) =>
          match Calibration_turns env fuel drv with
          | none => none
          | some (_, drv) =>
            match Pen env fuel drv true with
            | none => none
            | some drv =>
              match andThen val drv (fun d => Forward env fuel d 200000) with
              | none => none
              | some (val, drv) =>
                match Pen env fuel drv false with
                | none => none
                | some drv => some (val, drv.Off)

end Driver

/-- The driver of the examples after `Calibration()` in the world `sampleEnv 1`, where the
first `Forward` is cancelled at its second iteration. -/
def sampleCalibrationRun : Driver :=
  { calibration_ := sampleCalibration
    log := [Event.ServoSet 1400, Event.LeftMove 0, Event.RightMove 0, Event.Interrupted false,
      Event.LeftMove 0, Event.RightMove 0, Event.Interrupted true,
      Event.ServoSet 800, Event.LeftMove 0, Event.RightMove 0, Event.Interrupted true,
      Event.ServoSet 1400, Event.ServoSet 800, Event.LeftOff, Event.RightOff, Event.ServoOff]
    reads := 205
    polls := 3 }

/-- Interval between the timer samples number `j` and `j + 1`: their `uint16_t` difference. -/
def Env.tick (env : Env) (j : Nat) : Int :=
  toUInt16 (toUInt16 (env.time (j + 1)) - toUInt16 (env.time j))

/-- A tick source whose consecutive samples are at least `lo` and at most `hi` ticks apart. -/
def Env.TicksWithin (env : Env) (lo hi : Int) : Prop :=
  ∀ k : Nat, lo ≤ env.tick k ∧ env.tick k ≤ hi

/-- A cancellation predicate that never answers `true`. -/
def Env.NeverInterrupted (env : Env) : Prop :=
  ∀ k : Nat, env.interrupted k = false

/-- The state of the loop of `Move(.., d)` between two iterations, for a tick source with
bounded intervals: the last sample taken is `start`, the wheel has `0 <= v_ <= kMaxV` and
`|s_| <= 2^47`, and the virtual counter has `0 <= s <= d`. -/
def Driver.MoveInv (env : Env) (d : Int) (drv : Driver) (m : MoveLocals) : Prop :=
  (∃ j : Nat, drv.reads = j + 1 ∧ m.start = toUInt16 (env.time j)) ∧
  (0 ≤ m.w.v_ ∧ m.w.v_ ≤ Wheel.kMaxV) ∧ |m.w.s_| ≤ 2 ^ 47 ∧ (0 ≤ m.s ∧ m.s ≤ d)

/-- The `main` of the simulator build (smoke_test_avr.cc): `state = 1`, then
`driver.Calibration(intr)` on a new driver with the calibration of that build, then
`state = 2`; the value of `state` when `main` returns. -/
def smoke_main (env : Env) (fuel : Nat) : Option Nat :=
  (Driver.Calibration env fuel { calibration_ := unityCalibration }).map (fun _ => 2)

/-- A world for examples: the timer advances by 1000 ticks between consecutive samples and
the predicate never answers `true`. -/
def steadyEnv : Env :=
  { time := fun k => 1000 * (k : Int), interrupted := fun _ => false }

/-- Step accounting of the loop of `Move` for fractions `2^14 * el` and `2^14 * er` with
`el`, `er` in `{1, -1}`: both remainders are 0, the positions `l` and `r` follow the virtual
counter `s`, and the deltas sent so far to the left and to the right stepper sum to
`SL + el * total` and `SR + er * total`. -/
def Driver.Accounts (el er SL SR total : Int) (drv : Driver) (m : MoveLocals) : Prop :=
  drv.left_remainder_ = 0 ∧ drv.right_remainder_ = 0 ∧
  m.l = toInt16 (el * m.s) ∧ m.r = toInt16 (er * m.s) ∧
  sumLeftMoves drv.log = SL + el * total ∧ sumRightMoves drv.log = SR + er * total

/-- Progress of the loop of `Move(.., d)` seen apart from the steppers: the number `j` of the
last timer sample taken, the wheel `w`, the virtual counter `s`, and the total of the pulses
returned by `Update` so far. -/
structure MoveProfile where
  j : Nat
  w : Wheel
  s : Int
  total : Int
deriving Repr, DecidableEq

/-- One iteration of the loop of `Move(.., d)` on a profile: the tick is the interval to the
next timer sample, the acceleration is chosen by the braking test, `s += w.Update(..)`. -/
def Move_profile_tick (env : Env) (d : Int) (p : MoveProfile) : MoveProfile :=
  let u := p.w.Update (env.tick p.j).toNat
    (if Driver.Move_braking p.w d p.s then -Wheel.kMaxA else Wheel.kMaxA)
  { j := p.j + 1, w := u.1, s := toUInt16 (p.s + toInt8 u.2), total := p.total + u.2 }

/-- The profile after `n` iterations of the loop of `Move(.., d)`, if the loop test `s < d`
holds before each of them. -/
def Move_profile_run (env : Env) (d : Int) : Nat → MoveProfile → Option MoveProfile
  | 0, p => some p
  | n + 1, p =>
    if p.s < d then Move_profile_run env d n (Move_profile_tick env d p) else none

/-- The driver and the locals of `Move` are at the profile `p`, with the step accounting of
`Driver.Accounts` for its total. -/
def Driver.AtProfile (env : Env) (el er SL SR : Int) (drv : Driver) (m : MoveLocals)
    (p : MoveProfile) : Prop :=
  drv.reads = p.j + 1 ∧ m.start = toUInt16 (env.time p.j) ∧ m.w = p.w ∧ m.s = p.s ∧
  Driver.Accounts el er SL SR p.total drv m

/-- A world for examples: the timer advances by 65535 ticks (modulo `2^16`) between
consecutive samples up to sample number 15831 and stands still from then on; the predicate
never answers `true`. -/
def overflowEnv : Env :=
  { time := fun k => -((min k 15831 : Nat) : Int), interrupted := fun _ => false }

/-- The stopping estimate `((w.v_ / (2 * kMaxA)) * w.v_) >> 48` of `Driver::Move`, in virtual
steps. -/
def Driver.Move_estimate (w : Wheel) : Int :=
  Int.shiftRight (toInt64 (toInt64 (Int.tdiv w.v_ (toInt64 (2 * Wheel.kMaxA))) * w.v_)) 48

/-- Range of `int8_t`. -/
def IsInt8 (x : Int) : Prop := -128 ≤ x ∧ x ≤ 127

/-- An image for examples: three segments that command no motion, pen down. -/
def idleImage : Image :=
  { num_points := 3, points := fun _ => { len := 0, angle := 0, pen := true } }

/-- An image whose segments all have angle 0 and length 0. -/
def Image.Idle (image : Image) : Prop :=
  ∀ i : Nat, (image.points i).angle = 0 ∧ (image.points i).len = 0

/-- Sum of the pulses that `Update` returns along a sequence of `(dt_ticks, a)` pairs. -/
def Wheel.run_pulses (w : Wheel) : List (Nat × Int) → Int
  | [] => 0
  | t :: ts => (w.Update t.1 t.2).2 + Wheel.run_pulses (w.Update t.1 t.2).1 ts

/-- Specification side: the accumulated integral of the trapezoid increments
`(v + v1) * dt / 2` along a sequence of `(dt_ticks, a)` pairs, in unbounded integers, where
`v1 = clamp(v + a * dt, -kMaxV, kMaxV)` is the velocity after the tick. -/
def Wheel.trapezoid_integral (v : Int) : List (Nat × Int) → Int
  | [] => 0
  | t :: ts =>
    Int.tdiv ((v + max (-Wheel.kMaxV) (min Wheel.kMaxV (v + t.2 * (t.1 : Int)))) * (t.1 : Int)) 2 +
      Wheel.trapezoid_integral (max (-Wheel.kMaxV) (min Wheel.kMaxV (v + t.2 * (t.1 : Int)))) ts

/-- The value that `w.Update(t - start, ..)` returns in one iteration of the loop of
`Driver::Move`, entered with the driver `drv` and the locals `m`. -/
def Driver.Move_tick_pulse (env : Env) (d : Int) (drv : Driver) (m : MoveLocals) : Int :=
  (m.w.Update (toUInt16 ((drv.GetTime env).1 - m.start)).toNat
    (if Driver.Move_braking m.w d m.s then -Wheel.kMaxA else Wheel.kMaxA)).2

/-- The states (driver and locals) in which the iterations of the loop of `Driver::Move` are
entered, for at most `n` iterations: the loop goes on while `s < d` and the predicate
answers `false`. -/
def Driver.Move_trace (env : Env) (left_fraction right_fraction d : Int) :
    Nat → Driver → MoveLocals → List (Driver × MoveLocals)
  | 0, _, _ => []
  | n + 1, drv, m =>
    if m.s < d then
      (drv, m) ::
        (if (Driver.Move_tick env left_fraction right_fraction d drv m).1 then []
         else Driver.Move_trace env left_fraction right_fraction d n
           (Driver.Move_tick env left_fraction right_fraction d drv m).2.1
           (Driver.Move_tick env left_fraction right_fraction d drv m).2.2)
    else []

/-- The two `int16_t` values that `FractionalMove` returns in one iteration of the loop of
`Driver::Move`, for the left and for the right wheel, before they are narrowed to `int8_t`
for `Stepper::Move`. -/
def Driver.Move_tick_deltas (env : Env) (left_fraction right_fraction d : Int) (drv : Driver)
    (m : MoveLocals) : Int × Int :=
  let s := toUInt16 (m.s + toInt8 (Driver.Move_tick_pulse env d drv m))
  ((FractionalMove s left_fraction m.l drv.left_remainder_).ret,
   (FractionalMove s right_fraction m.r drv.right_remainder_).ret)

/-- The allocator cells `(position, remainder)` follow the counter `s`: they are what a
`FractionalMove` call with this `s` leaves, for some incoming remainder in `[0, 2^14)`. -/
def Driver.Tracks (fraction s position remainder : Int) : Prop :=
  ∃ rp : Int, (0 ≤ rp ∧ rp < 2 ^ 14) ∧
    position = toInt16 ((s * fraction + rp) / 2 ^ 14) ∧
    remainder = (s * fraction + rp) % 2 ^ 14

/-- The state of the allocator between two iterations of the loop of `Move`: the counter is
a `uint16_t` and both pairs of cells follow it. -/
def Driver.MoveTracks (lf rf : Int) (drv : Driver) (m : MoveLocals) : Prop :=
  (0 ≤ m.s ∧ m.s ≤ 65535) ∧ Driver.Tracks lf m.s m.l drv.left_remainder_ ∧
  Driver.Tracks rf m.s m.r drv.right_remainder_

/-! ## The cancellation predicate of `main` (main.cc) -/

/-- Constant `kMaxConsecutivePowerFailures` of `main`. -/
def kMaxConsecutivePowerFailures : Int := 2

/-- The lambda `interrupted` of `main`: from the counter `power_failures` (a `uint16_t`), the
value of `button.Get()` (`false` when the button is pressed) and the value of `power.Ok()`,
the returned value and the counter afterwards. -/
def main_interrupted (power_failures : Int) (button_get power_ok : Bool) : Bool × Int :=
  if !button_get then (true, power_failures)
  else if power_failures > kMaxConsecutivePowerFailures then (true, power_failures)
  else
    let power_failures := if !power_ok then toUInt16 (power_failures + 1) else 0
    if power_failures > kMaxConsecutivePowerFailures then (true, power_failures)
    else (false, power_failures)

/-- The counter `power_failures` before the poll number `k`, when `button k` and `power k`
are what `button.Get()` and `power.Ok()` give at the poll number `k`; `main` starts it at 0. -/
def main_power_failures (button power : Nat → Bool) : Nat → Int
  | 0 => 0
  | k + 1 => (main_interrupted (main_power_failures button power k) (button k) (power k)).2

/-- The answer of `interrupted()` at the poll number `k`. -/
def main_interrupted_at (button power : Nat → Bool) (k : Nat) : Bool :=
  (main_interrupted (main_power_failures button power k) (button k) (power k)).1

/-- Specification side: the number of consecutive polls with power not good that end with
the poll number `k - 1`. -/
def main_bad_polls (power : Nat → Bool) : Nat → Nat
  | 0 => 0
  | k + 1 => if power k then 0 else main_bad_polls power k + 1

/-- Method `Stepper::Move(delta)` with the division made explicit: `UpdateFn::operator()`,
called for every coil, divides by its `uint8_t` field `period`, so `Move` has no result when
that field is 0. -/
def Stepper.Move_checked (st : Stepper) (delta : Int) : Option Stepper :=
  if (UpdateFn.new st.kPeriod (st.Move_pos delta)).period = 0 then none
  else some (st.Move delta)

/-- Effect of one operation on a stepper, if it has a result. -/
def StepperOp.apply_checked (st : Stepper) : StepperOp → Option Stepper
  | .Init => some st.Init
  | .Off => some st.Off
  | .Move delta => st.Move_checked delta

/-- A sequence of operations on a stepper, if each of them has a result. -/
def Stepper.run_checked : List StepperOp → Stepper → Option Stepper
  | [], st => some st
  | op :: ops, st => (op.apply_checked st).bind (Stepper.run_checked ops)

/-- An image for examples: two segments that command no motion, with the pen flag up. -/
def penUpImage : Image :=
  { num_points := 2, points := fun _ => { len := 0, angle := 0, pen := false } }

/-- The local `steps` of `RotateSteps(steps)` after `steps += angle_fraction_ / 256`: the
commanded count with the bias steps folded in, an `int16_t`. -/
def Driver.RotateSteps_count (drv : Driver) (steps : Int) : Int :=
  toInt16 (steps + (Driver.RotateSteps_bias drv.calibration_.angle_offset drv.angle_fraction_).1)

/-- Successive `RotateSteps` calls on the same driver, one per commanded count in `cmds`,
whatever they return: the bias steps `angle_fraction_ / 256` that each call adds to its
`steps`, call by call, and the driver after the last call. -/
def Driver.RotateSteps_seq (env : Env) (fuel : Nat) :
    Driver → List Int → Option (List Int × Driver)
  | drv, [] => some ([], drv)
  | drv, steps :: rest =>
    match Driver.RotateSteps env fuel drv steps with
    | none => none
    | some (_, drv1) =>
      match Driver.RotateSteps_seq env fuel drv1 rest with
      | none => none
      | some (qs, drv2) =>
        some ((Driver.RotateSteps_bias drv.calibration_.angle_offset
          drv.angle_fraction_).1 :: qs, drv2)

/-- Calibration data `kCalibrationData` of the firmware (main.cc, `ID == 1`). -/
def kCalibrationData : CalibrationData :=
  { angle_offset := 256, left_fraction := 2 ^ 14, right_fraction := 2 ^ 14,
    pen_down := 1400, pen_up := 800 }

/-- The driver of the firmware after one `RotateSteps(-2)` from its initial state, in the
world `sampleEnv 1000`: one step was made, the bias of one step per call being folded in. -/
def biasAfterFirst : Driver :=
  { calibration_ := kCalibrationData
    log := [Event.LeftMove 0, Event.RightMove 0, Event.Interrupted false,
      Event.LeftMove 0, Event.RightMove 0, Event.Interrupted false,
      Event.LeftMove 1, Event.RightMove 1, Event.Interrupted false]
    reads := 4
    polls := 3 }

/-- The driver of the firmware after a second `RotateSteps(-2)`. -/
def biasAfterSecond : Driver :=
  { calibration_ := kCalibrationData
    log := [Event.LeftMove 0, Event.RightMove 0, Event.Interrupted false,
      Event.LeftMove 0, Event.RightMove 0, Event.Interrupted false,
      Event.LeftMove 1, Event.RightMove 1, Event.Interrupted false,
      Event.LeftMove 0, Event.RightMove 0, Event.Interrupted false,
      Event.LeftMove 0, Event.RightMove 0, Event.Interrupted false,
      Event.LeftMove 1, Event.RightMove 1, Event.Interrupted false]
    reads := 8
    polls := 6 }

/-! ## Conversions are the identity on values in range -/

theorem toInt64_eq_self {x : Int} (h : IsInt64 x) : toInt64 x = x := by
  obtain ⟨h1, h2⟩ := h
  simp only [toInt64, wrapSigned]
  norm_num
  omega

theorem toInt32_eq_self {x : Int} (h : IsInt32 x) : toInt32 x = x := by
  obtain ⟨h1, h2⟩ := h
  simp only [toInt32, wrapSigned]
  norm_num
  omega

theorem toInt16_eq_self {x : Int} (h : IsInt16 x) : toInt16 x = x := by
  obtain ⟨h1, h2⟩ := h
  simp only [toInt16, wrapSigned]
  norm_num
  omega

theorem toInt16_isInt16 (x : Int) : IsInt16 (toInt16 x) := by
  simp only [toInt16, wrapSigned, IsInt16]
  norm_num
  omega

/-! ## Velocity profile engine -/

theorem Wheel.kMaxV_eq : Wheel.kMaxV = 13194139533 := by decide

theorem Wheel.kMaxA_eq : Wheel.kMaxA = 8246 := by decide

/-- The velocity stored by `Update` is the clamped intermediate. -/
theorem Wheel.Update_v_eq (w : Wheel) (dt_ticks : Nat) (a : Int) :
    (w.Update dt_ticks a).1.v_ =
      if Wheel.Update_v2 w dt_ticks a > Wheel.kMaxV then Wheel.kMaxV
      else if Wheel.Update_v2 w dt_ticks a < -Wheel.kMaxV then -Wheel.kMaxV
      else Wheel.Update_v2 w dt_ticks a := by
  unfold Wheel.Update
  simp only
  split_ifs <;> rfl

/-- The velocity stored by `Update` is clamped, whatever the inputs. -/
theorem Wheel.Update_abs_v_le (w : Wheel) (dt_ticks : Nat) (a : Int) :
    |(w.Update dt_ticks a).1.v_| ≤ Wheel.kMaxV := by
  have hk : (0 : Int) ≤ Wheel.kMaxV := by rw [Wheel.kMaxV_eq]; norm_num
  rw [Wheel.Update_v_eq, abs_le]
  generalize Wheel.kMaxV = K at hk ⊢
  generalize Wheel.Update_v2 w dt_ticks a = x
  split_ifs <;> constructor <;> omega

/-- After any number of updates from a state within the bound, the velocity is within the
bound. -/
theorem Wheel.run_abs_v_le (ticks : List (Nat × Int)) (w : Wheel)
    (hv : |w.v_| ≤ Wheel.kMaxV) : |(Wheel.run w ticks).v_| ≤ Wheel.kMaxV := by
  induction ticks generalizing w with
  | nil => simpa [Wheel.run] using hv
  | cons t ts ih =>
    have := ih (w.Update t.1 t.2).1 (Wheel.Update_abs_v_le w t.1 t.2)
    simpa [Wheel.run] using this

/-- The product `a * dt_ticks` and the sum `v_ + a * dt_ticks` fit in `int64_t`. -/
theorem Wheel.Update_no_overflow (w : Wheel) (dt_ticks : Nat) (a : Int)
    (hv : |w.v_| ≤ Wheel.kMaxV) (hdt : dt_ticks ≤ 65535) (ha : |a| ≤ Wheel.kMaxA) :
    |a * (dt_ticks : Int)| ≤ 540401610 ∧ |w.v_ + a * (dt_ticks : Int)| ≤ 13734541143 := by
  rw [Wheel.kMaxV_eq] at hv
  rw [Wheel.kMaxA_eq] at ha
  have hd : ((dt_ticks : Nat) : Int) ≤ 65535 := by exact_mod_cast hdt
  have hd0 : (0 : Int) ≤ (dt_ticks : Int) := Int.ofNat_nonneg _
  have h1 : |a * (dt_ticks : Int)| ≤ 540401610 := by
    rw [abs_mul, abs_of_nonneg hd0]
    calc |a| * (dt_ticks : Int) ≤ 8246 * 65535 :=
          mul_le_mul ha hd hd0 (by norm_num)
      _ = 540401610 := by norm_num
  refine ⟨h1, ?_⟩
  calc |w.v_ + a * (dt_ticks : Int)| ≤ |w.v_| + |a * (dt_ticks : Int)| := abs_add _ _
    _ ≤ 13194139533 + 540401610 := add_le_add hv h1
    _ = 13734541143 := by norm_num

/-- C1 (velocity bound). For a state with `|v_| ≤ kMaxV`, a tick count `dt_ticks ≤ 65535` and
an acceleration with `|a| ≤ kMaxA`: the `int64_t` product `a * dt_ticks` and sum
`v_ + a * dt_ticks` of `Wheel::Update` do not overflow (the computed intermediate is the exact
sum), and the velocity stored by `Update` satisfies `|v_| ≤ kMaxV`; hence, starting from rest,
the bound holds after every update of any sequence of such ticks and accelerations. -/
theorem Wheel_Update_velocity_bound (w : Wheel) (dt_ticks : Nat) (a : Int)
    (hv : |w.v_| ≤ Wheel.kMaxV) (hdt : dt_ticks ≤ 65535) (ha : |a| ≤ Wheel.kMaxA) :
    IsInt64 (a * (dt_ticks : Int)) ∧ IsInt64 (w.v_ + a * (dt_ticks : Int)) ∧
    Wheel.Update_v2 w dt_ticks a = w.v_ + a * (dt_ticks : Int) ∧
    |(w.Update dt_ticks a).1.v_| ≤ Wheel.kMaxV ∧
    ∀ ticks : List (Nat × Int),
      (∀ t ∈ ticks, t.1 ≤ 65535 ∧ |t.2| ≤ Wheel.kMaxA) →
      ∀ k : Nat, |(Wheel.run {} (ticks.take k)).v_| ≤ Wheel.kMaxV := by
  obtain ⟨h1, h2⟩ := Wheel.Update_no_overflow w dt_ticks a hv hdt ha
  rw [abs_le] at h1 h2
  have i1 : IsInt64 (a * (dt_ticks : Int)) := ⟨by omega, by omega⟩
  have i2 : IsInt64 (w.v_ + a * (dt_ticks : Int)) := ⟨by omega, by omega⟩
  refine ⟨i1, i2, ?_, Wheel.Update_abs_v_le w dt_ticks a, ?_⟩
  · unfold Wheel.Update_v2
    rw [toInt64_eq_self i1, toInt64_eq_self i2]
  · intro ticks _ k
    apply Wheel.run_abs_v_le
    rw [Wheel.kMaxV_eq]
    norm_num

theorem Wheel_Update_velocity_bound_witness :
    |(⟨0, 13194139533⟩ : Wheel).v_| ≤ Wheel.kMaxV ∧ (65535 : Nat) ≤ 65535 ∧
    |(8246 : Int)| ≤ Wheel.kMaxA ∧
    IsInt64 ((⟨0, 13194139533⟩ : Wheel).v_ + 8246 * ((65535 : Nat) : Int)) ∧
    |(Wheel.Update ⟨0, 13194139533⟩ 65535 8246).1.v_| ≤ Wheel.kMaxV :=
  ⟨by decide, by decide, by decide,
   (Wheel_Update_velocity_bound ⟨0, 13194139533⟩ 65535 8246
      (by decide) (by decide) (by decide)).2.1,
   (Wheel_Update_velocity_bound ⟨0, 13194139533⟩ 65535 8246
      (by decide) (by decide) (by decide)).2.2.2.1⟩

/-! ## Differential step allocator -/

theorem Nat_ldiff_mask (k m : Nat) : Nat.ldiff (2 ^ k - 1) m = 2 ^ k - (m % 2 ^ k + 1) := by
  apply Nat.eq_of_testBit_eq
  intro i
  have hlt : m % 2 ^ k < 2 ^ k := Nat.mod_lt _ (by positivity)
  rw [Nat.testBit_ldiff, Nat.testBit_two_pow_sub_one, Nat.testBit_two_pow_sub_succ hlt,
    Nat.testBit_mod_two_pow]
  by_cases h : i < k <;> simp [h]

/-- Masking with `2^k - 1` is the non-negative remainder modulo `2^k`, also for negative `p`. -/
theorem Int_land_mask (k : Nat) (p : Int) : Int.land p (2 ^ k - 1) = p % 2 ^ k := by
  have hk : ((2 : Int) ^ k - 1) = ((2 ^ k - 1 : Nat) : Int) := by
    have : 1 ≤ 2 ^ k := Nat.one_le_two_pow
    push_cast [Nat.cast_sub this]
    rfl
  rw [hk]
  cases p with
  | ofNat n =>
    show ((n &&& (2 ^ k - 1) : Nat) : Int) = _
    rw [Nat.and_pow_two_sub_one_eq_mod]
    simp
  | negSucc n =>
    show ((Nat.ldiff (2 ^ k - 1) n : Nat) : Int) = _
    rw [Nat_ldiff_mask]
    have hlt : n % 2 ^ k < 2 ^ k := Nat.mod_lt _ (by positivity)
    have habs : ((2 : Int) ^ k).natAbs = 2 ^ k := by
      rw [Int.natAbs_pow]; rfl
    rw [Int.emod_negSucc, habs, Int.subNatNat_eq_coe]
    push_cast [Nat.cast_sub (show n % 2 ^ k + 1 ≤ 2 ^ k by omega)]
    rfl

/-- The arithmetic right shift is the floor of the division by `2^k`. -/
theorem Int_shiftRight_floor (p : Int) (k : Nat) : Int.shiftRight p k = p / 2 ^ k := by
  have := Int.shiftRight_eq_div_pow p k
  simpa using this

/-- The product and the sum computed by `FractionalMove` fit in `int32_t`. -/
theorem FractionalMove_p_no_overflow (s fraction remainder : Int)
    (hs : 0 ≤ s ∧ s ≤ 65535) (hf : IsInt16 fraction) (hr : 0 ≤ remainder ∧ remainder ≤ 65535) :
    IsInt32 (s * fraction) ∧ IsInt32 (s * fraction + remainder) ∧
    FractionalMove_p s fraction remainder = s * fraction + remainder := by
  obtain ⟨hs0, hs1⟩ := hs
  obtain ⟨hf0, hf1⟩ := hf
  obtain ⟨hr0, hr1⟩ := hr
  have hu : s * fraction ≤ 65535 * 32767 := by nlinarith
  have hl : -(65535 * 32768) ≤ s * fraction := by nlinarith
  have i1 : IsInt32 (s * fraction) := ⟨by omega, by omega⟩
  have i2 : IsInt32 (s * fraction + remainder) := ⟨by omega, by omega⟩
  refine ⟨i1, i2, ?_⟩
  unfold FractionalMove_p
  rw [toInt32_eq_self i1, toInt32_eq_self i2]

theorem toInt16_toInt32_sub_emod (x : Int) : (toInt16 (toInt32 x) - x) % 65536 = 0 := by
  simp only [toInt16, toInt32, wrapSigned]
  norm_num
  omega

theorem toInt16_sub_emod (x : Int) : (toInt16 x - x) % 65536 = 0 := by
  simp only [toInt16, wrapSigned]
  norm_num
  omega

/-- The returned delta is congruent to the change of the position cell modulo `2^16`. -/
theorem FractionalMove_ret_emod (s fraction position remainder : Int) :
    ((FractionalMove s fraction position remainder).ret -
      ((FractionalMove s fraction position remainder).position - position)) % 65536 = 0 := by
  simp only [FractionalMove]
  generalize Int.shiftRight (FractionalMove_p s fraction remainder) 14 = q
  have h1 := toInt16_toInt32_sub_emod (q - position)
  have h2 := toInt16_sub_emod q
  omega

/-- When the call stays within its 16-bit types, the returned delta is the change of the position cell. -/
theorem FractionalMove_ret_exact (s fraction position remainder : Int)
    (h : FractionalMove_fits s fraction position remainder = true) :
    (FractionalMove s fraction position remainder).ret =
      (FractionalMove s fraction position remainder).position - position := by
  simp only [FractionalMove_fits, Bool.and_eq_true, decide_eq_true_eq] at h
  obtain ⟨hq, hd⟩ := h
  simp only [FractionalMove]
  generalize Int.shiftRight (FractionalMove_p s fraction remainder) 14 = q at hq hd
  have hd32 : IsInt32 (q - position) := by
    obtain ⟨a, b⟩ := hd
    exact ⟨by omega, by omega⟩
  rw [toInt32_eq_self hd32, toInt16_eq_self hd, toInt16_eq_self hq]

theorem FractionalMove_seq_emod (fraction : Int) (ss : List Int) :
    ∀ position remainder : Int,
      ((FractionalMove_seq fraction ss position remainder).1.sum -
        ((FractionalMove_seq fraction ss position remainder).2.1 - position)) % 65536 = 0 := by
  induction ss with
  | nil => intro position remainder; simp [FractionalMove_seq]
  | cons s ss ih =>
    intro position remainder
    have h1 := FractionalMove_ret_emod s fraction position remainder
    have h2 := ih (FractionalMove s fraction position remainder).position
      (FractionalMove s fraction position remainder).remainder
    simp only [FractionalMove_seq, List.sum_cons]
    omega

theorem FractionalMove_seq_exact (fraction : Int) (ss : List Int) :
    ∀ position remainder : Int,
      FractionalMove_seq_fits fraction ss position remainder = true →
      (FractionalMove_seq fraction ss position remainder).1.sum =
        (FractionalMove_seq fraction ss position remainder).2.1 - position := by
  induction ss with
  | nil => intro position remainder _; simp [FractionalMove_seq]
  | cons s ss ih =>
    intro position remainder h
    simp only [FractionalMove_seq_fits, Bool.and_eq_true] at h
    have h1 := FractionalMove_ret_exact s fraction position remainder h.1
    have h2 := ih _ _ h.2
    simp only [FractionalMove_seq, List.sum_cons]
    omega

theorem toInt16_toInt32 (x : Int) : toInt16 (toInt32 x) = toInt16 x := by
  simp only [toInt16, toInt32, wrapSigned]
  norm_num
  omega

/-- C2 (telescoping), as amended. For any finite sequence of `FractionalMove` calls on the same
`(position, remainder)` cells with a fixed fraction and arbitrary `s` values, whatever the
remainders are: the sum of the returned deltas is congruent modulo `2^16` to the final
position minus the initial position, and it is equal to it as long as, in every call, the
new position `p >> 14` and its difference to the old position fit in 16 bits. -/
theorem FractionalMove_telescoping (fraction : Int) (ss : List Int) (position remainder : Int) :
    ((FractionalMove_seq fraction ss position remainder).1.sum -
      ((FractionalMove_seq fraction ss position remainder).2.1 - position)) % 65536 = 0 ∧
    (FractionalMove_seq_fits fraction ss position remainder = true →
      (FractionalMove_seq fraction ss position remainder).1.sum =
        (FractionalMove_seq fraction ss position remainder).2.1 - position) :=
  ⟨FractionalMove_seq_emod fraction ss position remainder,
   FractionalMove_seq_exact fraction ss position remainder⟩

theorem FractionalMove_telescoping_witness :
    FractionalMove_seq_fits 16484 [1, 2, 5, 9, 300, 7000] 0 0 = true ∧
    (FractionalMove_seq 16484 [1, 2, 5, 9, 300, 7000] 0 0).1.sum =
      (FractionalMove_seq 16484 [1, 2, 5, 9, 300, 7000] 0 0).2.1 - 0 :=
  ⟨by decide, (FractionalMove_telescoping 16484 [1, 2, 5, 9, 300, 7000] 0 0).2 (by decide)⟩

/-- C2 as stated fails: from position 0 and remainder 0 with fraction `-16384`, the calls with
`s = 32768` and then `s = 0` leave the positions `-32768` and `0` (both fit in 16 bits) and
return `-32768` twice, so the deltas sum to `-65536` while the position did not change. -/
theorem FractionalMove_telescoping_counterexample :
    (FractionalMove 32768 (-16384) 0 0).position = -32768 ∧
    FractionalMove_seq (-16384) [32768, 0] 0 0 = ([-32768, -32768], 0, 0) ∧
    (FractionalMove_seq (-16384) [32768, 0] 0 0).1.sum ≠
      (FractionalMove_seq (-16384) [32768, 0] 0 0).2.1 - 0 := by
  have h : FractionalMove_seq (-16384) [32768, 0] 0 0 = ([-32768, -32768], 0, 0) := by
    simp only [FractionalMove_seq, FractionalMove, Int_land_mask]
    decide
  refine ⟨?_, h, ?_⟩
  · simp only [FractionalMove, Int_land_mask]
    decide
  · rw [h]
    decide

/-- C3, as amended. For every `s` in `[0, 65535]`, every `int16_t` fraction and every
remainder in `[0, 2^14)`, `FractionalMove` computes `p = s * fraction + remainder` without
32-bit overflow; `p & 0x3FFF` is `p mod 2^14` and `p >> 14` is the floor of `p / 2^14`, also
for negative `p`; it stores `remainder = p mod 2^14`, stores the position `p >> 14`
converted to `int16_t` and returns `(p >> 14) - position` converted to `int16_t`. When
`p >> 14` fits in 16 bits the stored position is `p >> 14` itself and
`2^14 * position + remainder = p`; when the difference fits as well, the returned value is
the new position minus the old one. -/
theorem FractionalMove_spec (s fraction position remainder : Int)
    (hs : 0 ≤ s ∧ s ≤ 65535) (hf : IsInt16 fraction)
    (hr : 0 ≤ remainder ∧ remainder < 2 ^ 14) :
    IsInt32 (s * fraction) ∧ IsInt32 (s * fraction + remainder) ∧
    FractionalMove_p s fraction remainder = s * fraction + remainder ∧
    Int.land (FractionalMove_p s fraction remainder) (2 ^ 14 - 1) =
      FractionalMove_p s fraction remainder % 2 ^ 14 ∧
    Int.shiftRight (FractionalMove_p s fraction remainder) 14 =
      FractionalMove_p s fraction remainder / 2 ^ 14 ∧
    (2 ^ 14 * (FractionalMove_p s fraction remainder / 2 ^ 14) ≤
        FractionalMove_p s fraction remainder ∧
      FractionalMove_p s fraction remainder <
        2 ^ 14 * (FractionalMove_p s fraction remainder / 2 ^ 14 + 1)) ∧
    (FractionalMove s fraction position remainder).remainder =
      FractionalMove_p s fraction remainder % 2 ^ 14 ∧
    (FractionalMove s fraction position remainder).position =
      toInt16 (FractionalMove_p s fraction remainder / 2 ^ 14) ∧
    (FractionalMove s fraction position remainder).ret =
      toInt16 (FractionalMove_p s fraction remainder / 2 ^ 14 - position) ∧
    (IsInt16 (FractionalMove_p s fraction remainder / 2 ^ 14) →
      (FractionalMove s fraction position remainder).position =
        FractionalMove_p s fraction remainder / 2 ^ 14 ∧
      2 ^ 14 * (FractionalMove s fraction position remainder).position +
        (FractionalMove s fraction position remainder).remainder = s * fraction + remainder ∧
      (IsInt16 (FractionalMove_p s fraction remainder / 2 ^ 14 - position) →
        (FractionalMove s fraction position remainder).ret =
          (FractionalMove s fraction position remainder).position - position)) := by
  have hr16 : 0 ≤ remainder ∧ remainder ≤ 65535 := by
    obtain ⟨a, b⟩ := hr
    norm_num at b
    exact ⟨a, by omega⟩
  obtain ⟨i1, i2, hp⟩ := FractionalMove_p_no_overflow s fraction remainder hs hf hr16
  have hrem : (FractionalMove s fraction position remainder).remainder =
      FractionalMove_p s fraction remainder % 2 ^ 14 := by
    simp only [FractionalMove, Int_land_mask, toUInt16]
    generalize FractionalMove_p s fraction remainder = p
    norm_num
    omega
  have hpos : (FractionalMove s fraction position remainder).position =
      toInt16 (FractionalMove_p s fraction remainder / 2 ^ 14) := by
    simp only [FractionalMove, Int_shiftRight_floor]
  have hret : (FractionalMove s fraction position remainder).ret =
      toInt16 (FractionalMove_p s fraction remainder / 2 ^ 14 - position) := by
    simp only [FractionalMove, Int_shiftRight_floor, toInt16_toInt32]
  have hfloor : 2 ^ 14 * (FractionalMove_p s fraction remainder / 2 ^ 14) ≤
        FractionalMove_p s fraction remainder ∧
      FractionalMove_p s fraction remainder <
        2 ^ 14 * (FractionalMove_p s fraction remainder / 2 ^ 14 + 1) := by
    generalize FractionalMove_p s fraction remainder = p
    norm_num
    omega
  refine ⟨i1, i2, hp, Int_land_mask 14 _, Int_shiftRight_floor _ 14, hfloor, hrem, hpos, hret, ?_⟩
  intro hq
  have hpos2 := hpos
  rw [toInt16_eq_self hq] at hpos2
  refine ⟨hpos2, ?_, ?_⟩
  · rw [hpos2, hrem, ← hp]
    generalize FractionalMove_p s fraction remainder = p
    norm_num
    omega
  · intro hd
    rw [hret, toInt16_eq_self hd, hpos2]

theorem FractionalMove_spec_witness :
    ((0 : Int) ≤ 5 ∧ (5 : Int) ≤ 65535) ∧ IsInt16 (-16383) ∧ ((0 : Int) ≤ 3 ∧ (3 : Int) < 2 ^ 14) ∧
    IsInt16 (FractionalMove_p 5 (-16383) 3 / 2 ^ 14) ∧
    2 ^ 14 * (FractionalMove 5 (-16383) 0 3).position + (FractionalMove 5 (-16383) 0 3).remainder =
      5 * -16383 + 3 :=
  ⟨by decide, by decide, by decide, by decide,
   ((FractionalMove_spec 5 (-16383) 0 3 (by decide) (by decide) (by decide)).2.2.2.2.2.2.2.2.2
      (by decide)).2.1⟩

/-- C3 as stated fails: for `s = 65535` and `fraction = 32767` (position and remainder 0)
`p >> 14` is `131066`, which does not fit in `int16_t`; the stored position and the returned
value are both `-6`. -/
theorem FractionalMove_spec_counterexample :
    Int.shiftRight (FractionalMove_p 65535 32767 0) 14 = 131066 ∧
    FractionalMove 65535 32767 0 0 = { ret := -6, position := -6, remainder := 1 } ∧
    (FractionalMove 65535 32767 0 0).position ≠
      Int.shiftRight (FractionalMove_p 65535 32767 0) 14 ∧
    (FractionalMove 65535 32767 0 0).ret ≠
      Int.shiftRight (FractionalMove_p 65535 32767 0) 14 - 0 := by
  decide

/-! ## Commutation pattern generator -/

/-- The energizing rule for period `2N`, spelled out on naturals. -/
theorem UpdateFn.energized_iff (N i ph : Nat) (hN : 2 ≤ N) (hi : i < N) (hph : ph < 2 * N) :
    UpdateFn.energized { period := 2 * (N : Int), pos := (ph : Int) } (i : Int) = true ↔
      (ph = 2 * i ∨ ph = 2 * i + 1 ∨ ph + 1 = 2 * i ∨ (i = 0 ∧ ph + 1 = 2 * N)) := by
  unfold UpdateFn.energized
  simp only [decide_eq_true_eq]
  have hx : (0 : Int) ≤ (ph : Int) - 2 * i + 1 + 2 * N := by omega
  rw [Int.tmod_eq_emod hx (by omega)]
  by_cases h1 : (ph : Int) - 2 * i + 1 < 0
  · rw [Int.emod_eq_of_lt hx (by omega)]
    omega
  · by_cases h2 : (ph : Int) - 2 * i + 1 < 2 * N
    · rw [Int.add_emod_self, Int.emod_eq_of_lt (by omega) h2]
      omega
    · have h3 : (ph : Int) - 2 * i + 1 = 2 * N := by omega
      rw [h3, Int.add_emod_self, Int.emod_self]
      omega

/-- The three residues `2i-1`, `2i`, `2i+1` modulo `2N`. -/
theorem window_residues (N i : Nat) (hN : 2 ≤ N) (hi : i < N) :
    (2 * (i : Int) - 1) % (2 * (N : Int)) = (if i = 0 then 2 * (N : Int) - 1 else 2 * (i : Int) - 1) ∧
    (2 * (i : Int)) % (2 * (N : Int)) = 2 * (i : Int) ∧
    (2 * (i : Int) + 1) % (2 * (N : Int)) = 2 * (i : Int) + 1 := by
  refine ⟨?_, Int.emod_eq_of_lt (by omega) (by omega), Int.emod_eq_of_lt (by omega) (by omega)⟩
  split_ifs with h0
  · subst h0
    have e : 2 * ((0 : Nat) : Int) - 1 + 2 * (N : Int) = 2 * (N : Int) - 1 := by
      push_cast
      ring
    rw [← Int.add_emod_self, e]
    exact Int.emod_eq_of_lt (by omega) (by omega)
  · exact Int.emod_eq_of_lt (by omega) (by omega)

/-- The phases at which coil `i` is energized, as a set. -/
theorem window_filter_eq (N i : Nat) (hN : 2 ≤ N) (hi : i < N) :
    (Finset.range (2 * N)).filter
        (fun ph : Nat => UpdateFn.energized { period := 2 * (N : Int), pos := (ph : Int) } (i : Int) = true) =
      {if i = 0 then 2 * N - 1 else 2 * i - 1, 2 * i, 2 * i + 1} := by
  ext ph
  simp only [Finset.mem_filter, Finset.mem_range, Finset.mem_insert, Finset.mem_singleton]
  constructor
  · rintro ⟨hph, he⟩
    rw [UpdateFn.energized_iff N i ph hN hi hph] at he
    split_ifs <;> omega
  · intro h
    have hph : ph < 2 * N := by split_ifs at h <;> omega
    refine ⟨hph, (UpdateFn.energized_iff N i ph hN hi hph).2 ?_⟩
    split_ifs at h <;> omega

/-- C4 (commutation coverage). For a stepper with `N ≥ 2` coils and period `P = 2N`, under the
rule "coil `i` is on iff `(phase - 2i + 1 + P) % P < 3`" each coil `i < N` is energized
exactly at the phases `2i-1`, `2i`, `2i+1` taken modulo `P`, which are 3 of the `P` phase
values. -/
theorem commutation_coverage (N i : Nat) (hN : 2 ≤ N) (hi : i < N) :
    (∀ ph : Nat, ph < 2 * N →
      (UpdateFn.energized { period := 2 * (N : Int), pos := (ph : Int) } (i : Int) = true ↔
        ((ph : Int) = (2 * (i : Int) - 1) % (2 * (N : Int)) ∨
         (ph : Int) = (2 * (i : Int)) % (2 * (N : Int)) ∨
         (ph : Int) = (2 * (i : Int) + 1) % (2 * (N : Int))))) ∧
    ((Finset.range (2 * N)).filter
      (fun ph : Nat => UpdateFn.energized { period := 2 * (N : Int), pos := (ph : Int) } (i : Int) = true)).card
      = 3 := by
  obtain ⟨r1, r2, r3⟩ := window_residues N i hN hi
  constructor
  · intro ph hph
    rw [UpdateFn.energized_iff N i ph hN hi hph, r1, r2, r3]
    split_ifs <;> omega
  · rw [window_filter_eq N i hN hi]
    apply Finset.card_eq_three.mpr
    refine ⟨_, _, _, ?_, ?_, ?_, rfl⟩
    · split_ifs <;> omega
    · split_ifs <;> omega
    · omega

theorem commutation_coverage_witness :
    ((Finset.range (2 * 4)).filter
      (fun ph : Nat => UpdateFn.energized { period := 2 * ((4 : Nat) : Int), pos := (ph : Int) }
        ((0 : Nat) : Int) = true)).card = 3 :=
  (commutation_coverage 4 0 (by decide) (by decide)).2

/-- The coils energized at phase `ph`, as a set. -/
theorem coils_filter_eq (N ph : Nat) (hN : 2 ≤ N) (hph : ph < 2 * N) :
    (Finset.range N).filter
        (fun i : Nat => UpdateFn.energized { period := 2 * (N : Int), pos := (ph : Int) } (i : Int) = true) =
      if ph % 2 = 0 then {ph / 2} else {ph / 2, if ph + 1 = 2 * N then 0 else ph / 2 + 1} := by
  ext i
  simp only [Finset.mem_filter, Finset.mem_range]
  constructor
  · rintro ⟨hi, he⟩
    rw [UpdateFn.energized_iff N i ph hN hi hph] at he
    split_ifs <;> simp only [Finset.mem_insert, Finset.mem_singleton] <;> omega
  · intro h
    have hi : i < N := by
      split_ifs at h <;> simp only [Finset.mem_insert, Finset.mem_singleton] at h <;> omega
    refine ⟨hi, (UpdateFn.energized_iff N i ph hN hi hph).2 ?_⟩
    split_ifs at h <;> simp only [Finset.mem_insert, Finset.mem_singleton] at h <;> omega

/-- C5, as amended. For `N ≥ 2` coils, at every phase in `[0, 2N)` at least one coil is
energized: exactly one coil at every even phase and exactly two at every odd phase. For
`N ≥ 3` the windows of the adjacent coils `i` and `i+1` (mod `N`) overlap in exactly one
phase position, `2i+1`. -/
theorem commutation_overlap (N : Nat) (hN : 2 ≤ N) :
    (∀ ph : Nat, ph < 2 * N →
      (∃ i : Nat, i < N ∧
        UpdateFn.energized { period := 2 * (N : Int), pos := (ph : Int) } (i : Int) = true) ∧
      ((Finset.range N).filter
        (fun i : Nat => UpdateFn.energized { period := 2 * (N : Int), pos := (ph : Int) } (i : Int) = true)).card
        = (if ph % 2 = 0 then 1 else 2)) ∧
    (3 ≤ N → ∀ i : Nat, i < N → ∀ ph : Nat, ph < 2 * N →
      ((UpdateFn.energized { period := 2 * (N : Int), pos := (ph : Int) } (i : Int) = true ∧
        UpdateFn.energized { period := 2 * (N : Int), pos := (ph : Int) }
          (((i + 1) % N : Nat) : Int) = true) ↔ ph = 2 * i + 1)) := by
  constructor
  · intro ph hph
    constructor
    · refine ⟨ph / 2, by omega, (UpdateFn.energized_iff N (ph / 2) ph hN (by omega) hph).2 ?_⟩
      omega
    · rw [coils_filter_eq N ph hN hph]
      split_ifs with h0 h1
      · exact Finset.card_singleton _
      · exact Finset.card_pair (by omega)
      · exact Finset.card_pair (by omega)
  · intro h3 i hi ph hph
    have hj : (i + 1) % N < N := Nat.mod_lt _ (by omega)
    rw [UpdateFn.energized_iff N i ph hN hi hph, UpdateFn.energized_iff N ((i + 1) % N) ph hN hj hph]
    by_cases hlast : i + 1 < N
    · rw [Nat.mod_eq_of_lt hlast]
      omega
    · have hiN : i + 1 = N := by omega
      rw [hiN, Nat.mod_self]
      omega

theorem commutation_overlap_witness :
    ((Finset.range 4).filter
      (fun i : Nat => UpdateFn.energized { period := 2 * ((4 : Nat) : Int), pos := ((7 : Nat) : Int) }
        (i : Int) = true)).card = (if 7 % 2 = 0 then 1 else 2) ∧
    ((UpdateFn.energized { period := 2 * ((4 : Nat) : Int), pos := ((7 : Nat) : Int) }
        ((3 : Nat) : Int) = true ∧
      UpdateFn.energized { period := 2 * ((4 : Nat) : Int), pos := ((7 : Nat) : Int) }
        (((3 + 1) % 4 : Nat) : Int) = true) ↔ 7 = 2 * 3 + 1) :=
  ⟨((commutation_overlap 4 (by decide)).1 7 (by decide)).2,
   (commutation_overlap 4 (by decide)).2 (by decide) 3 (by decide) 7 (by decide)⟩

/-- C5 as stated fails for `N = 2`: coils 0 and 1 are adjacent on both sides and their
windows share the two phases 1 and 3, not only `2 * 0 + 1`. -/
theorem commutation_overlap_counterexample :
    (Finset.range (2 * 2)).filter
      (fun ph : Nat =>
        UpdateFn.energized { period := 2 * 2, pos := (ph : Int) } 0 = true ∧
        UpdateFn.energized { period := 2 * 2, pos := (ph : Int) } (((0 + 1) % 2 : Nat) : Int) = true)
      = {1, 3} := by
  decide

/-- Enumeration for 4 coils: the phases in `0..7` at which each coil is energized. -/
theorem four_coil_windows :
    (List.range 4).map (fun i : Nat => (List.range 8).filter
      (fun ph : Nat => UpdateFn.energized { period := 8, pos := (ph : Int) } (i : Int))) =
      [[0, 1, 7], [1, 2, 3], [3, 4, 5], [5, 6, 7]] := by
  decide

/-- C6, as amended. For a 4-coil stepper (period 8), at phase 0 the set of energized coils is
exactly `{0}`; the set `{0, 3}` is energized at phase 7. Both for the rule and for the pins
written by `Move`. -/
theorem four_coil_phase_zero (g0 g1 g2 g3 : Gpio) :
    (List.range 4).filter
      (fun i : Nat => UpdateFn.energized { period := 8, pos := 0 } (i : Int)) = [0] ∧
    (List.range 4).filter
      (fun i : Nat => UpdateFn.energized { period := 8, pos := 7 } (i : Int)) = [0, 3] ∧
    (Stepper.Move { c_ := { head_ := g0, tail_ := [g1, g2, g3] }, pos_ := 0 } 0).pos_ = 0 ∧
    (Stepper.Move { c_ := { head_ := g0, tail_ := [g1, g2, g3] }, pos_ := 0 } 0).energizedCoils
      = [0] ∧
    (Stepper.Move { c_ := { head_ := g0, tail_ := [g1, g2, g3] }, pos_ := 0 } (-1)).pos_ = 7 ∧
    (Stepper.Move { c_ := { head_ := g0, tail_ := [g1, g2, g3] }, pos_ := 0 } (-1)).energizedCoils
      = [0, 3] := by
  have hlev : ∀ delta : Int,
      (Stepper.Move { c_ := { head_ := g0, tail_ := [g1, g2, g3] }, pos_ := 0 } delta).energizedCoils =
        (Stepper.Move { c_ := CoilList.fresh 3, pos_ := 0 } delta).energizedCoils := by
    intro delta
    rfl
  have hpos : ∀ delta : Int,
      (Stepper.Move { c_ := { head_ := g0, tail_ := [g1, g2, g3] }, pos_ := 0 } delta).pos_ =
        (Stepper.Move { c_ := CoilList.fresh 3, pos_ := 0 } delta).pos_ := by
    intro delta
    rfl
  refine ⟨by decide, by decide, ?_, ?_, ?_, ?_⟩
  · rw [hpos]; decide
  · rw [hlev]; decide
  · rw [hpos]; decide
  · rw [hlev]; decide

/-- C6 as stated fails: at phase 0 of a 4-coil stepper coil 3 is off, and the energized set is
`{0}`, not `{0, 3}`. -/
theorem four_coil_phase_zero_counterexample :
    UpdateFn.energized { period := 8, pos := 0 } 3 = false ∧
    (Stepper.Move { c_ := CoilList.fresh 3, pos_ := 0 } 0).pos_ = 0 ∧
    (Stepper.Move { c_ := CoilList.fresh 3, pos_ := 0 } 0).energizedCoils ≠ [0, 3] := by
  decide

/-- C7 (code defect). On a 3-coil stepper (period 6) `Move(-1)` from phase 0 stores phase 3,
while `(0 + -1) mod 6 = 5`: the `uint8_t` phase wraps to 255 before the reduction modulo the
period. -/
theorem Stepper_Move_three_coils :
    Stepper.kPeriod { c_ := CoilList.fresh 2, pos_ := 0 } = 6 ∧
    toUInt8 (0 + -1) = 255 ∧
    (Stepper.Move { c_ := CoilList.fresh 2, pos_ := 0 } (-1)).pos_ = 3 ∧
    ((0 : Int) + -1) % 6 = 5 := by
  decide

theorem Stepper.kPeriod_pos (st : Stepper) : 0 < st.kPeriod := by
  unfold Stepper.kPeriod CoilList.Len
  omega

/-- The phase stored by `Move` lies in `[0, kPeriod)` when the period is at most 256. -/
theorem Stepper.Move_pos_range (st : Stepper) (delta : Int) (h : st.kPeriod ≤ 256) :
    0 ≤ st.Move_pos delta ∧ st.Move_pos delta < st.kPeriod := by
  have hP := st.kPeriod_pos
  unfold Stepper.Move_pos
  simp only
  generalize st.kPeriod = P at h hP
  have hy : 0 ≤ toUInt8 (st.pos_ + delta) := by unfold toUInt8; omega
  generalize toUInt8 (st.pos_ + delta) = y at hy
  rw [Int.tmod_eq_emod (by omega) (by omega)]
  have h1 := Int.emod_nonneg (y + P) (show P ≠ 0 by omega)
  have h2 := Int.emod_lt_of_pos (y + P) hP
  generalize (y + P) % P = z at h1 h2
  unfold toUInt8
  omega

/-- When the period divides 256 (as for 4 coils), `Move` stores `(phase + delta) mod 2N`. -/
theorem Stepper.Move_pos_of_dvd (st : Stepper) (delta : Int) (hdvd : st.kPeriod ∣ 256) :
    st.Move_pos delta = (st.pos_ + delta) % st.kPeriod := by
  have hP := st.kPeriod_pos
  have hle : st.kPeriod ≤ 256 := Int.le_of_dvd (by norm_num) hdvd
  unfold Stepper.Move_pos
  simp only
  generalize st.kPeriod = P at hdvd hle hP
  have hy : 0 ≤ toUInt8 (st.pos_ + delta) := by unfold toUInt8; omega
  rw [Int.tmod_eq_emod (by omega) (by omega), Int.add_emod_self]
  have e : toUInt8 (st.pos_ + delta) % P = (st.pos_ + delta) % P := by
    unfold toUInt8
    exact Int.emod_emod_of_dvd _ hdvd
  rw [e]
  have h1 := Int.emod_nonneg (st.pos_ + delta) (show P ≠ 0 by omega)
  have h2 := Int.emod_lt_of_pos (st.pos_ + delta) hP
  generalize (st.pos_ + delta) % P = z at h1 h2
  unfold toUInt8
  omega

theorem CoilList.ForEachTail_length (f : Gpio → Int → Gpio) :
    ∀ (cs : List Gpio) (offset : Int), (CoilList.ForEachTail f cs offset).length = cs.length := by
  intro cs
  induction cs with
  | nil => intro offset; rfl
  | cons c cs ih => intro offset; simp [CoilList.ForEachTail, ih]

theorem CoilList.ForEach_Len (c : CoilList) (f : Gpio → Int → Gpio) :
    (c.ForEach f).Len = c.Len := by
  simp [CoilList.ForEach, CoilList.Len, CoilList.ForEachTail_length]

/-- Every operation keeps the number of coils. -/
theorem StepperOp.apply_Len (st : Stepper) (op : StepperOp) :
    (op.apply st).c_.Len = st.c_.Len := by
  cases op <;>
    simp [StepperOp.apply, Stepper.Init, Stepper.Off, Stepper.Move, CoilList.ForEach_Len]

/-- Every operation keeps the phase within `[0, kPeriod)`. -/
theorem StepperOp.apply_pos_range (st : Stepper) (op : StepperOp) (h : st.kPeriod ≤ 256)
    (hpos : 0 ≤ st.pos_ ∧ st.pos_ < st.kPeriod) :
    0 ≤ (op.apply st).pos_ ∧ (op.apply st).pos_ < st.kPeriod := by
  cases op with
  | Init => exact hpos
  | Off => exact hpos
  | Move delta => exact Stepper.Move_pos_range st delta h

theorem Stepper.foldl_invariant (N : Nat) (hN : 2 * (N : Int) ≤ 256) (ops : List StepperOp) :
    ∀ st : Stepper, st.c_.Len = N → (0 ≤ st.pos_ ∧ st.pos_ < 2 * (N : Int)) →
      0 ≤ (ops.foldl StepperOp.apply st).pos_ ∧
        (ops.foldl StepperOp.apply st).pos_ < 2 * (N : Int) := by
  induction ops with
  | nil => intro st _ hpos; exact hpos
  | cons op ops ih =>
    intro st hlen hpos
    have hk : st.kPeriod = 2 * (N : Int) := by unfold Stepper.kPeriod; rw [hlen]
    have h1 := StepperOp.apply_pos_range st op (by rw [hk]; exact hN) (by rw [hk]; exact hpos)
    rw [hk] at h1
    exact ih (op.apply st) (by rw [StepperOp.apply_Len, hlen]) h1

/-- Levels written by `ForEach(UpdateFn)` on the tail, as long as the `uint8_t` offset does
not wrap. -/
theorem CoilList.ForEachTail_levels (f : UpdateFn) :
    ∀ (cs : List Gpio) (off : Nat), off + cs.length ≤ 256 →
      (CoilList.ForEachTail f.call cs (off : Int)).map Gpio.level =
        (List.range cs.length).map (fun j : Nat => f.energized ((off + j : Nat) : Int)) := by
  intro cs
  induction cs with
  | nil => intro off _; rfl
  | cons c cs ih =>
    intro off h
    cases cs with
    | nil => simp [CoilList.ForEachTail, UpdateFn.call, Gpio.Set, List.range_succ]
    | cons d ds =>
      have hoff : toUInt8 ((off : Int) + 1) = ((off + 1 : Nat) : Int) := by
        simp only [List.length_cons] at h
        unfold toUInt8
        omega
      have := ih (off + 1) (by simp only [List.length_cons] at h ⊢; omega)
      rw [CoilList.ForEachTail, hoff, List.map_cons, this, List.length_cons (a := c)]
      rw [List.range_succ_eq_map (d :: ds).length, List.map_cons, List.map_map]
      simp only [UpdateFn.call, Gpio.Set, Nat.add_zero, List.cons.injEq, true_and]
      apply List.map_congr_left
      intro j _
      simp only [Function.comp, Nat.succ_eq_add_one]
      congr 2
      omega

/-- The pins written by `Move` follow the energizing rule for period `2N` at the new phase,
for up to 127 coils. -/
theorem Stepper.Move_levels (st : Stepper) (delta : Int) (h : st.c_.Len ≤ 127) :
    (st.Move delta).levels =
      (List.range st.c_.Len).map (fun i : Nat =>
        UpdateFn.energized { period := 2 * (st.c_.Len : Int), pos := st.Move_pos delta } (i : Int)) := by
  have hk : st.kPeriod ≤ 256 := by unfold Stepper.kPeriod; omega
  obtain ⟨hp0, hp1⟩ := Stepper.Move_pos_range st delta hk
  have hnew : UpdateFn.new st.kPeriod (st.Move_pos delta) =
      { period := 2 * (st.c_.Len : Int), pos := st.Move_pos delta } := by
    unfold UpdateFn.new toUInt8 Stepper.kPeriod at *
    congr 1 <;> omega
  unfold Stepper.levels Stepper.Move CoilList.toList CoilList.ForEach
  simp only [hnew, List.map_cons]
  have ht := CoilList.ForEachTail_levels
    { period := 2 * (st.c_.Len : Int), pos := st.Move_pos delta } st.c_.tail_ 1
    (by unfold CoilList.Len at h; omega)
  have h1 : toUInt8 (0 + 1) = ((1 : Nat) : Int) := by decide
  rw [h1, ht]
  have hlen : st.c_.Len = st.c_.tail_.length + 1 := by unfold CoilList.Len; omega
  rw [hlen, List.range_succ_eq_map, List.map_cons, List.map_map]
  simp only [UpdateFn.call, Gpio.Set, List.cons.injEq]
  refine ⟨by simp, ?_⟩
  apply List.map_congr_left
  intro j _
  simp only [Function.comp, Nat.succ_eq_add_one]
  congr 2
  omega

/-! ## Unit conversion -/

/-- C9 (rounding example). `Forward(300000)`, the call made by `TestDrive`, passes exactly 7745
steps to `ForwardSteps`: the `int32_t` product and sum do not overflow and the truncating
division `(300000 * 4096 + 79325) / 158650` is 7745. -/
theorem Forward_rounding_example :
    IsInt32 (300000 * 4096) ∧ IsInt32 (300000 * 4096 + 79325) ∧
    Int.tdiv (300000 * 4096 + 79325) 158650 = 7745 ∧
    Forward_quotient 300000 = 7745 ∧
    Forward_steps 300000 = 7745 := by
  decide

/-- For distances in `[-500000, 500000]` the `int32_t` arithmetic of `Forward` is exact. -/
theorem Forward_quotient_exact (um : Int) (h : -500000 ≤ um ∧ um ≤ 500000) :
    IsInt32 (um * 4096) ∧ IsInt32 (um * 4096 + 79325) ∧
    Forward_quotient um = Int.tdiv (um * 4096 + 79325) 158650 := by
  obtain ⟨h1, h2⟩ := h
  have i1 : IsInt32 (um * 4096) := ⟨by omega, by omega⟩
  have i2 : IsInt32 (um * 4096 + 79325) := ⟨by omega, by omega⟩
  refine ⟨i1, i2, ?_⟩
  unfold Forward_quotient
  rw [toInt32_eq_self i1, toInt32_eq_self i2]

/-- For distances in `[0, 500000]` the step count of `Forward` is the integer nearest to
`um * 4096 / 158650` and fits in `int16_t`. -/
theorem Forward_steps_nearest_of_nonneg (um : Int) (h : 0 ≤ um ∧ um ≤ 500000) :
    2 * |um * 4096 - Forward_steps um * 158650| ≤ 158650 ∧
    IsInt16 (Forward_quotient um) ∧ Forward_steps um = Forward_quotient um := by
  obtain ⟨h1, h2⟩ := h
  obtain ⟨_, _, hq⟩ := Forward_quotient_exact um ⟨by omega, h2⟩
  rw [Int.tdiv_eq_ediv (by omega) (by norm_num)] at hq
  have hfit : IsInt16 (Forward_quotient um) := by
    rw [hq]
    exact ⟨by omega, by omega⟩
  have hs : Forward_steps um = Forward_quotient um := by
    unfold Forward_steps
    exact toInt16_eq_self hfit
  refine ⟨?_, hfit, hs⟩
  rw [hs, hq]
  have habs : |um * 4096 - (um * 4096 + 79325) / 158650 * 158650| ≤ 79325 := by
    rw [abs_le]
    constructor <;> omega
  linarith

/-- For distances in `[-500000, -20]` the step count of `Forward` is one more than the integer
nearest to `um * 4096 / 158650`: the truncating division rounds the negative quotient up. -/
theorem Forward_steps_of_negative (um : Int) (h : -500000 ≤ um ∧ um ≤ -20) :
    2 * |um * 4096 - (Forward_steps um - 1) * 158650| ≤ 158650 ∧
    158650 < 2 * |um * 4096 - Forward_steps um * 158650| := by
  obtain ⟨h1, h2⟩ := h
  obtain ⟨_, _, hq⟩ := Forward_quotient_exact um ⟨h1, by omega⟩
  have hneg : um * 4096 + 79325 = -(-(um * 4096 + 79325)) := by ring
  rw [hneg, Int.neg_tdiv, Int.tdiv_eq_ediv (by omega) (by norm_num)] at hq
  have hfit : IsInt16 (Forward_quotient um) := by
    rw [hq]
    exact ⟨by omega, by omega⟩
  have hs : Forward_steps um = Forward_quotient um := by
    unfold Forward_steps
    exact toInt16_eq_self hfit
  rw [hs, hq]
  constructor
  · have habs : |um * 4096 - (-(-(um * 4096 + 79325) / 158650) - 1) * 158650| ≤ 79325 := by
      rw [abs_le]
      constructor <;> omega
    linarith
  · have habs : 79326 ≤ |um * 4096 - -(-(um * 4096 + 79325) / 158650) * 158650| := by
      rw [le_abs]
      right
      omega
    linarith

/-- C10 (code defect). At `Forward(-300000)` the computed step count is `-7744`, while the
integer nearest to `-300000 * 4096 / 158650 = -7745.35...` is `-7745`; `Forward(300000)` gives
`7745`. -/
theorem Forward_negative_rounding :
    Forward_quotient (-300000) = -7744 ∧ Forward_steps (-300000) = -7744 ∧
    Forward_steps 300000 = 7745 ∧
    158650 < 2 * |(-300000 : Int) * 4096 - Forward_steps (-300000) * 158650| ∧
    2 * |(-300000 : Int) * 4096 - (-7745) * 158650| ≤ 158650 := by
  decide

/-! ## Driver: timer waits -/

theorem toUInt16_range (x : Int) : 0 ≤ toUInt16 x ∧ toUInt16 x ≤ 65535 := by
  unfold toUInt16
  omega

theorem Driver.DelayUs_loop_mono (env : Env) (fuel : Nat) :
    ∀ (drv : Driver) (t b : Int) (r : Driver),
      Driver.DelayUs_loop env fuel drv t b = some r →
      ∀ k : Nat, Driver.DelayUs_loop env (fuel + k) drv t b = some r := by
  induction fuel with
  | zero => intro drv t b r h; simp [Driver.DelayUs_loop] at h
  | succ n ih =>
    intro drv t b r h k
    rw [show n + 1 + k = (n + k) + 1 by omega]
    simp only [Driver.DelayUs_loop] at h ⊢
    split_ifs at h ⊢ with hc
    · exact h
    · exact ih _ _ _ _ h k

/-- A wait that returns only took timer samples. -/
theorem Driver.DelayUs_loop_frame (env : Env) (fuel : Nat) :
    ∀ (drv : Driver) (t b : Int) (r : Driver),
      Driver.DelayUs_loop env fuel drv t b = some r →
      ∃ k : Nat, r = { drv with reads := drv.reads + k } := by
  induction fuel with
  | zero => intro drv t b r h; simp [Driver.DelayUs_loop] at h
  | succ n ih =>
    intro drv t b r h
    simp only [Driver.DelayUs_loop] at h
    split_ifs at h with hc
    · exact ⟨1, by simpa [Driver.GetTime] using h.symm⟩
    · obtain ⟨k, hk⟩ := ih _ _ _ _ h
      exact ⟨k + 1, by rw [hk]; simp [Driver.GetTime]; omega⟩

/-- With an advancing timer the wait loop ends within `t + 1` iterations. -/
theorem Driver.DelayUs_loop_terminates (env : Env) (hadv : env.TimerAdvances) (fuel : Nat) :
    ∀ (drv : Driver) (t : Int) (j : Nat),
      drv.reads = j + 1 → 0 ≤ t → t < fuel → t < 4294967296 →
      ∃ r, Driver.DelayUs_loop env fuel drv t (toUInt16 (env.time j)) = some r := by
  induction fuel with
  | zero => intro drv t j _ h0 h1 _; omega
  | succ n ih =>
    intro drv t j hj h0 h1 h2
    simp only [Driver.DelayUs_loop]
    split_ifs with hc
    · exact ⟨_, rfl⟩
    · have hd := hadv j
      have hr := toUInt16_range (toUInt16 (env.time (j + 1)) - toUInt16 (env.time j))
      simp only [Driver.GetTime, hj] at hc ⊢
      have ht : toUInt32 (t - toUInt16 (toUInt16 (env.time (j + 1)) - toUInt16 (env.time j))) =
          t - toUInt16 (toUInt16 (env.time (j + 1)) - toUInt16 (env.time j)) := by
        unfold toUInt32
        apply Int.emod_eq_of_lt <;> omega
      rw [ht]
      apply ih { drv with reads := j + 1 + 1 } _ (j + 1) rfl <;> omega

theorem Driver.DelayUs_mono (env : Env) (fuel k : Nat) (drv : Driver) (t : Int) (r : Driver)
    (h : Driver.DelayUs env fuel drv t = some r) : Driver.DelayUs env (fuel + k) drv t = some r :=
  Driver.DelayUs_loop_mono env fuel _ _ _ _ h k

theorem Driver.DelayUs_frame (env : Env) (fuel : Nat) (drv : Driver) (t : Int) (r : Driver)
    (h : Driver.DelayUs env fuel drv t = some r) :
    ∃ k : Nat, r = { drv with reads := drv.reads + k } := by
  obtain ⟨k, hk⟩ := Driver.DelayUs_loop_frame env fuel _ _ _ _ h
  exact ⟨k + 1, by rw [hk]; simp [Driver.GetTime]; omega⟩

/-- With an advancing timer `DelayUs(200000)` returns within 3200001 iterations. -/
theorem Driver.DelayUs_terminates (env : Env) (hadv : env.TimerAdvances) (fuel : Nat)
    (hf : 3200001 ≤ fuel) (drv : Driver) :
    ∃ r, Driver.DelayUs env fuel drv 200000 = some r := by
  unfold Driver.DelayUs
  have ht : toUInt32 (200000 * Int.tdiv F_CPU 1000000) = 3200000 := by decide
  rw [ht]
  exact Driver.DelayUs_loop_terminates env hadv fuel _ 3200000 drv.reads rfl (by norm_num)
    (by omega) (by norm_num)

theorem Driver.Pen_mono (env : Env) (fuel k : Nat) (drv : Driver) (down : Bool) (r : Driver)
    (h : Driver.Pen env fuel drv down = some r) : Driver.Pen env (fuel + k) drv down = some r :=
  Driver.DelayUs_mono env fuel k _ _ _ h

/-- Effect of a `Pen(down)` that returns: one `ServoSet` call, the pen flag, timer samples. -/
theorem Driver.Pen_frame (env : Env) (fuel : Nat) (drv : Driver) (down : Bool) (r : Driver)
    (h : Driver.Pen env fuel drv down = some r) :
    ∃ k : Nat, r = { drv with
      log := drv.log ++ [Event.ServoSet
        (if down then drv.calibration_.pen_down else drv.calibration_.pen_up)],
      pen_ := down, reads := drv.reads + k } := by
  obtain ⟨k, hk⟩ := Driver.DelayUs_frame env fuel _ _ _ h
  exact ⟨k, by rw [hk]; rfl⟩

theorem Driver.Pen_terminates (env : Env) (hadv : env.TimerAdvances) (fuel : Nat)
    (hf : 3200001 ≤ fuel) (drv : Driver) (down : Bool) :
    ∃ r, Driver.Pen env fuel drv down = some r :=
  Driver.DelayUs_terminates env hadv fuel hf _

/-! ## Driver: the loop of `Move` -/

theorem Move_events_append (env : Env) (ds es : List (Int × Int)) :
    ∀ polls : Nat, Move_events env polls (ds ++ es) =
      Move_events env polls ds ++ Move_events env (polls + ds.length) es := by
  induction ds with
  | nil => intro polls; simp [Move_events]
  | cons ab ds ih =>
    intro polls
    show Event.LeftMove ab.1 :: Event.RightMove ab.2 :: Event.Interrupted (env.interrupted polls) ::
      Move_events env (polls + 1) (ds ++ es) = _
    rw [ih (polls + 1), List.length_cons,
      show polls + 1 + ds.length = polls + (ds.length + 1) by omega]
    rfl

theorem Move_events_isMotion (env : Env) (ds : List (Int × Int)) :
    ∀ polls : Nat, ∀ e ∈ Move_events env polls ds, e.isMotion = true := by
  induction ds with
  | nil => intro polls e he; simp [Move_events] at he
  | cons ab ds ih =>
    intro polls e he
    simp only [Move_events, List.mem_cons] at he
    rcases he with h | h | h | h
    · rw [h]; rfl
    · rw [h]; rfl
    · rw [h]; rfl
    · exact ih _ e h

/-- One iteration of the loop of `Move`: what it does to the driver. -/
theorem Driver.Move_tick_fields (env : Env) (lf rf d : Int) (drv : Driver) (m : MoveLocals) :
    (Driver.Move_tick env lf rf d drv m).1 = env.interrupted drv.polls ∧
    (Driver.Move_tick env lf rf d drv m).2.1.calibration_ = drv.calibration_ ∧
    (Driver.Move_tick env lf rf d drv m).2.1.angle_fraction_ = drv.angle_fraction_ ∧
    (Driver.Move_tick env lf rf d drv m).2.1.pen_ = drv.pen_ ∧
    (Driver.Move_tick env lf rf d drv m).2.1.polls = drv.polls + 1 ∧
    ∃ a b : Int, (Driver.Move_tick env lf rf d drv m).2.1.log =
      drv.log ++ Move_events env drv.polls [(a, b)] := by
  have h : ∃ a b : Int, (Driver.Move_tick env lf rf d drv m).2.1.log =
      ((drv.log ++ [Event.LeftMove a]) ++ [Event.RightMove b]) ++
        [Event.Interrupted (env.interrupted drv.polls)] := ⟨_, _, rfl⟩
  obtain ⟨a, b, hab⟩ := h
  refine ⟨rfl, rfl, rfl, rfl, rfl, a, b, ?_⟩
  rw [hab]
  simp [Move_events]

theorem Driver.Move_loop_mono (env : Env) (lf rf d : Int) (fuel : Nat) :
    ∀ (drv : Driver) (m : MoveLocals) (r : Bool × Driver × MoveLocals),
      Driver.Move_loop env lf rf d fuel drv m = some r →
      ∀ k : Nat, Driver.Move_loop env lf rf d (fuel + k) drv m = some r := by
  induction fuel with
  | zero =>
    intro drv m r h k
    simp only [Driver.Move_loop] at h
    split_ifs at h with hc
    cases k with
    | zero => simp [Driver.Move_loop, hc, h]
    | succ k => simp [Driver.Move_loop, hc, h]
  | succ n ih =>
    intro drv m r h k
    rw [show n + 1 + k = (n + k) + 1 by omega]
    simp only [Driver.Move_loop] at h ⊢
    split_ifs at h ⊢ with hc ht
    · exact h
    · exact ih _ _ _ h k
    · exact h

/-- The loop of `Move`, from any state of its locals: a returning run has the effect
`MoveEffect` and ends with `s >= d` when it was not interrupted. -/
theorem Driver.Move_loop_effect (env : Env) (lf rf d : Int) (fuel : Nat) :
    ∀ (drv : Driver) (m : MoveLocals) (b : Bool) (drv1 : Driver) (m1 : MoveLocals),
      Driver.Move_loop env lf rf d fuel drv m = some (b, drv1, m1) →
      ∃ ds : List (Int × Int), Driver.MoveEffect env drv drv1 b ds ∧ (b = true → ¬ m1.s < d) := by
  have hstop : ∀ (drv : Driver) (m : MoveLocals), ¬ m.s < d →
      Driver.MoveEffect env drv drv true [] ∧ (true = true → ¬ m.s < d) := by
    intro drv m hc
    refine ⟨⟨rfl, rfl, rfl, by simp [Move_events], rfl, ?_, ?_, ?_⟩, fun _ => hc⟩
    · intro j hj; simp at hj
    · intro h; cases h
    · intro _ j hj; simp at hj
  induction fuel with
  | zero =>
    intro drv m b drv1 m1 h
    simp only [Driver.Move_loop] at h
    split_ifs at h with hc
    simp only [Option.some.injEq, Prod.mk.injEq] at h
    obtain ⟨rfl, rfl, rfl⟩ := h
    exact ⟨[], hstop drv m hc⟩
  | succ n ih =>
    intro drv m b drv1 m1 h
    simp only [Driver.Move_loop] at h
    obtain ⟨t1, t2, t3, t4, t5, a, c, t6⟩ := Driver.Move_tick_fields env lf rf d drv m
    split_ifs at h with hc ht
    · simp only [Option.some.injEq, Prod.mk.injEq] at h
      obtain ⟨rfl, rfl, rfl⟩ := h
      refine ⟨[(a, c)], ⟨t2, t3, t4, t6, t5, ?_, ?_, ?_⟩, ?_⟩
      · intro j hj; simp at hj
      · intro _
        refine ⟨by simp, ?_⟩
        simp only [List.length_singleton, Nat.sub_self, Nat.add_zero]
        rw [← t1]; exact ht
      · intro h; cases h
      · intro h; cases h
    · obtain ⟨ds, ⟨e1, e2, e3, e4, e5, e6, e7, e8⟩, e9⟩ := ih _ _ _ _ _ h
      have hfalse : env.interrupted drv.polls = false := by
        rw [← t1]; simpa using ht
      refine ⟨(a, c) :: ds, ⟨e1.trans t2, e2.trans t3, e3.trans t4, ?_, ?_, ?_, ?_, ?_⟩, e9⟩
      · rw [e4, t6, t5, List.append_assoc]
        rfl
      · rw [e5, t5, List.length_cons]; omega
      · intro j hj
        cases j with
        | zero => exact hfalse
        | succ j =>
          have := e6 j (by simp only [List.length_cons] at hj; omega)
          rw [t5] at this
          rw [show drv.polls + (j + 1) = drv.polls + 1 + j by omega]
          exact this
      · intro hb
        obtain ⟨hne, hlast⟩ := e7 hb
        refine ⟨by simp, ?_⟩
        have hpos : 0 < ds.length := List.length_pos.mpr hne
        rw [t5] at hlast
        rw [List.length_cons, show drv.polls + (ds.length + 1 - 1) = drv.polls + 1 + (ds.length - 1) by omega]
        exact hlast
      · intro hb j hj
        cases j with
        | zero => exact hfalse
        | succ j =>
          have := e8 hb j (by simp only [List.length_cons] at hj; omega)
          rw [t5] at this
          rw [show drv.polls + (j + 1) = drv.polls + 1 + j by omega]
          exact this
    · simp only [Option.some.injEq, Prod.mk.injEq] at h
      obtain ⟨rfl, rfl, rfl⟩ := h
      exact ⟨[], hstop drv m hc⟩

theorem Driver.Move_run_mono (env : Env) (fuel k : Nat) (drv : Driver) (lf rf d : Int)
    (r : Bool × Driver × MoveLocals) (h : Driver.Move_run env fuel drv lf rf d = some r) :
    Driver.Move_run env (fuel + k) drv lf rf d = some r :=
  Driver.Move_loop_mono env lf rf d fuel _ _ _ h k

theorem Driver.Move_mono (env : Env) (fuel k : Nat) (drv : Driver) (lf rf d : Int)
    (r : Bool × Driver) (h : Driver.Move env fuel drv lf rf d = some r) :
    Driver.Move env (fuel + k) drv lf rf d = some r := by
  unfold Driver.Move at h ⊢
  rw [Option.map_eq_some'] at h
  obtain ⟨x, hx, rfl⟩ := h
  rw [Driver.Move_run_mono env fuel k drv lf rf d x hx]
  rfl

theorem Driver.Move_run_effect (env : Env) (fuel : Nat) (drv : Driver) (lf rf d : Int)
    (b : Bool) (drv1 : Driver) (m1 : MoveLocals)
    (h : Driver.Move_run env fuel drv lf rf d = some (b, drv1, m1)) :
    ∃ ds : List (Int × Int), Driver.MoveEffect env drv drv1 b ds ∧ (b = true → ¬ m1.s < d) := by
  unfold Driver.Move_run at h
  obtain ⟨ds, hds, hb⟩ := Driver.Move_loop_effect env lf rf d fuel _ _ _ _ _ h
  exact ⟨ds, hds, hb⟩

theorem Driver.Move_effect (env : Env) (fuel : Nat) (drv : Driver) (lf rf d : Int)
    (b : Bool) (drv1 : Driver) (h : Driver.Move env fuel drv lf rf d = some (b, drv1)) :
    ∃ ds : List (Int × Int), Driver.MoveEffect env drv drv1 b ds := by
  unfold Driver.Move at h
  rw [Option.map_eq_some'] at h
  obtain ⟨⟨b1, d1, m1⟩, hx, he⟩ := h
  simp only [Prod.mk.injEq] at he
  obtain ⟨rfl, rfl⟩ := he
  obtain ⟨ds, hds, _⟩ := Driver.Move_run_effect env fuel drv lf rf d _ _ _ hx
  exact ⟨ds, hds⟩

/-- A `Move` with `d = 0` returns `true` at once: no iteration, one timer sample. -/
theorem Driver.Move_zero (env : Env) (fuel : Nat) (drv : Driver) (lf rf d : Int) (hd : d ≤ 0) :
    Driver.Move env fuel drv lf rf d = some (true, { drv with reads := drv.reads + 1 }) := by
  have hs : ¬ ((0 : Int) < d) := by omega
  cases fuel <;>
    simp [Driver.Move, Driver.Move_run, Driver.Move_loop, Driver.GetTime, hs]

theorem Driver.ForwardSteps_mono (env : Env) (fuel k : Nat) (drv : Driver) (steps : Int)
    (r : Bool × Driver) (h : Driver.ForwardSteps env fuel drv steps = some r) :
    Driver.ForwardSteps env (fuel + k) drv steps = some r :=
  Driver.Move_mono env fuel k drv _ _ _ r h

theorem Driver.ForwardSteps_effect (env : Env) (fuel : Nat) (drv : Driver) (steps : Int)
    (b : Bool) (drv1 : Driver) (h : Driver.ForwardSteps env fuel drv steps = some (b, drv1)) :
    ∃ ds : List (Int × Int), Driver.MoveEffect env drv drv1 b ds :=
  Driver.Move_effect env fuel drv _ _ _ b drv1 h

/-- With the pen-lifting policy switched off, `RotateSteps` is the bias bookkeeping followed
by one `Move`. -/
theorem Driver.RotateSteps_eq (env : Env) (fuel : Nat) (drv : Driver) (steps : Int) :
    Driver.RotateSteps env fuel drv steps =
      Driver.Move env fuel
        { drv with angle_fraction_ :=
            (RotateSteps_bias drv.calibration_.angle_offset drv.angle_fraction_).2 }
        (Driver.RotateSteps_args drv
          (toInt16 (steps +
            (RotateSteps_bias drv.calibration_.angle_offset drv.angle_fraction_).1))).1
        (Driver.RotateSteps_args drv
          (toInt16 (steps +
            (RotateSteps_bias drv.calibration_.angle_offset drv.angle_fraction_).1))).2.1
        (Driver.RotateSteps_args drv
          (toInt16 (steps +
            (RotateSteps_bias drv.calibration_.angle_offset drv.angle_fraction_).1))).2.2 := by
  simp only [Driver.RotateSteps, Driver.kLiftPenWhenRotating, Bool.false_and, Bool.false_eq_true,
    if_false]
  rcases hM : Driver.Move env fuel
        { drv with angle_fraction_ :=
            (RotateSteps_bias drv.calibration_.angle_offset drv.angle_fraction_).2 }
        (Driver.RotateSteps_args drv
          (toInt16 (steps +
            (RotateSteps_bias drv.calibration_.angle_offset drv.angle_fraction_).1))).1
        (Driver.RotateSteps_args drv
          (toInt16 (steps +
            (RotateSteps_bias drv.calibration_.angle_offset drv.angle_fraction_).1))).2.1
        (Driver.RotateSteps_args drv
          (toInt16 (steps +
            (RotateSteps_bias drv.calibration_.angle_offset drv.angle_fraction_).1))).2.2
    with _ | ⟨val, d1⟩
  · simp only [Driver.RotateSteps_args] at hM ⊢
    rw [hM]
  · simp only [Driver.RotateSteps_args] at hM ⊢
    rw [hM]

theorem Driver.RotateSteps_mono (env : Env) (fuel k : Nat) (drv : Driver) (steps : Int)
    (r : Bool × Driver) (h : Driver.RotateSteps env fuel drv steps = some r) :
    Driver.RotateSteps env (fuel + k) drv steps = some r := by
  rw [Driver.RotateSteps_eq] at h ⊢
  exact Driver.Move_mono env fuel k _ _ _ _ r h

/-- Effect of a returning `RotateSteps`: the bias accumulator is updated, then it moves. -/
theorem Driver.RotateSteps_effect (env : Env) (fuel : Nat) (drv : Driver) (steps : Int)
    (b : Bool) (drv1 : Driver) (h : Driver.RotateSteps env fuel drv steps = some (b, drv1)) :
    ∃ ds : List (Int × Int),
      Driver.MoveEffect env
        { drv with angle_fraction_ :=
            (RotateSteps_bias drv.calibration_.angle_offset drv.angle_fraction_).2 }
        drv1 b ds := by
  rw [Driver.RotateSteps_eq] at h
  exact Driver.Move_effect env fuel _ _ _ _ b drv1 h

/-! ## Calibration bias -/

theorem tdiv_tmod_256 (x : Int) :
    256 * Int.tdiv x 256 + Int.tmod x 256 = x ∧ -256 < Int.tmod x 256 ∧ Int.tmod x 256 < 256 := by
  have h := Int.tdiv_add_tmod x 256
  by_cases hx : 0 ≤ x
  · have hd : Int.tdiv x 256 = x / 256 := Int.tdiv_eq_ediv hx (by norm_num)
    refine ⟨h, ?_, ?_⟩ <;> omega
  · have hd : Int.tdiv x 256 = -((-x) / 256) := by
      have : x = -(-x) := by ring
      rw [this, Int.neg_tdiv, Int.tdiv_eq_ediv (by omega) (by norm_num)]
      simp
    refine ⟨h, ?_, ?_⟩ <;> omega

/-- One bias update from an accumulator below one step. -/
theorem RotateSteps_bias_step (angle_offset af : Int) (ho : |angle_offset| ≤ 32512)
    (haf : |af| < 256) :
    256 * (Driver.RotateSteps_bias angle_offset af).1 + (Driver.RotateSteps_bias angle_offset af).2 =
      af + angle_offset ∧
    |(Driver.RotateSteps_bias angle_offset af).2| < 256 := by
  rw [abs_le] at ho
  rw [abs_lt] at haf
  have hfit : toInt16 (af + angle_offset) = af + angle_offset :=
    toInt16_eq_self ⟨by omega, by omega⟩
  obtain ⟨h1, h2, h3⟩ := tdiv_tmod_256 (af + angle_offset)
  simp only [Driver.RotateSteps_bias, hfit]
  exact ⟨h1, abs_lt.mpr ⟨h2, h3⟩⟩

theorem RotateSteps_bias_run_inv (angle_offset : Int) (ho : |angle_offset| ≤ 32512) (n : Nat) :
    256 * (RotateSteps_bias_run angle_offset n).1 + (RotateSteps_bias_run angle_offset n).2 =
      n * angle_offset ∧
    |(RotateSteps_bias_run angle_offset n).2| < 256 := by
  induction n with
  | zero => simp [RotateSteps_bias_run]
  | succ n ih =>
    obtain ⟨h1, h2⟩ := ih
    obtain ⟨s1, s2⟩ := RotateSteps_bias_step angle_offset _ ho h2
    simp only [RotateSteps_bias_run]
    refine ⟨?_, s2⟩
    push_cast
    linarith

/-! ## Command-sequence player -/

theorem countServoSet_append (l1 l2 : List Event) :
    countServoSet (l1 ++ l2) = countServoSet l1 + countServoSet l2 := by
  simp [countServoSet, List.filter_append]

theorem countServoSet_motion (evs : List Event) (h : ∀ e ∈ evs, e.isMotion = true) :
    countServoSet evs = 0 := by
  unfold countServoSet
  rw [List.length_eq_zero, List.filter_eq_nil_iff]
  intro e he
  have := h e he
  cases e <;> simp_all [Event.isMotion]

/-- A returning loop body: the pen is actuated when `i == 0` or the flag differs from the
local `pen`, the local becomes the segment's flag, and every other call is a motion call;
the body reports success exactly when both `RotateSteps` and `ForwardSteps` returned
`true`, and `ForwardSteps` is not called after a failed `RotateSteps`. -/
theorem Driver.DrawImage_segment_effect (env : Env) (fuel : Nat) (image : Image) (i : Nat)
    (pen : Bool) (drv : Driver) (ok pen1 : Bool) (drv1 : Driver)
    (h : Driver.DrawImage_segment env fuel image i pen drv = some (ok, pen1, drv1)) :
    pen1 = (image.points i).pen ∧ drv1.calibration_ = drv.calibration_ ∧
    ∃ (dp : Driver) (evs : List Event),
      (if i = 0 ∨ pen ≠ (image.points i).pen
        then Driver.Pen env fuel drv (image.points i).pen = some dp else dp = drv) ∧
      drv1.log = dp.log ++ evs ∧ (∀ e ∈ evs, e.isMotion = true) ∧
      drv1.pen_ = dp.pen_ ∧
      ∃ (rot : Bool) (dr : Driver),
        Driver.RotateSteps env fuel dp (image.points i).angle = some (rot, dr) ∧
        (rot = false → ok = false ∧ drv1 = dr) ∧
        (rot = true →
          Driver.ForwardSteps env fuel dr (image.points i).len = some (ok, drv1)) := by
  unfold Driver.DrawImage_segment at h
  simp only [Bool.or_eq_true, beq_iff_eq, bne_iff_ne, ne_eq] at h
  have hpen1 : ∀ c : Prop, ∀ [Decidable c], (c ↔ (i = 0 ∨ ¬ pen = (image.points i).pen)) →
      (if c then (image.points i).pen else pen) = (image.points i).pen := by
    intro c _ hc
    split_ifs with h1
    · rfl
    · have : pen = (image.points i).pen := by
        by_contra hne
        exact h1 (hc.mpr (Or.inr hne))
      exact this
  rcases hP : (if i = 0 ∨ ¬ pen = (image.points i).pen
      then Driver.Pen env fuel drv (image.points i).pen else some drv) with _ | dp
  · rw [hP] at h; simp at h
  · rw [hP] at h
    simp only at h
    have hdp : (if i = 0 ∨ pen ≠ (image.points i).pen
        then Driver.Pen env fuel drv (image.points i).pen = some dp else dp = drv) := by
      split_ifs at hP ⊢ with hc
      · exact hP
      · exact (Option.some.inj hP).symm
    have hcal : dp.calibration_ = drv.calibration_ := by
      split_ifs at hdp with hc
      · obtain ⟨k, hk⟩ := Driver.Pen_frame env fuel drv _ dp hdp
        rw [hk]
      · rw [hdp]
    rcases hR : Driver.RotateSteps env fuel dp (image.points i).angle with _ | ⟨rot, dr⟩
    · rw [hR] at h; simp at h
    · rw [hR] at h
      obtain ⟨ds, r1, r2, r3, r4, _⟩ := Driver.RotateSteps_effect env fuel dp _ rot dr hR
      cases rot with
      | false =>
        simp only [Option.some.injEq, Prod.mk.injEq] at h
        obtain ⟨rfl, hp, rfl⟩ := h
        refine ⟨by rw [← hp]; exact hpen1 _ Iff.rfl, r1.trans hcal, dp, _, hdp, r4,
          Move_events_isMotion env ds _, r3, false, _, hR, fun _ => ⟨rfl, rfl⟩, ?_⟩
        intro hc; cases hc
      | true =>
        simp only at h
        rcases hF : Driver.ForwardSteps env fuel dr (image.points i).len with _ | ⟨okf, df⟩
        · rw [hF] at h; simp at h
        · rw [hF] at h
          simp only [Option.some.injEq, Prod.mk.injEq] at h
          obtain ⟨rfl, hp, rfl⟩ := h
          obtain ⟨es, f1, f2, f3, f4, _⟩ := Driver.ForwardSteps_effect env fuel dr _ _ _ hF
          refine ⟨by rw [← hp]; exact hpen1 _ Iff.rfl, (f1.trans r1).trans hcal, dp,
            Move_events env dp.polls ds ++ Move_events env dr.polls es, hdp, ?_, ?_,
            f3.trans r3, true, _, hR, ?_, fun _ => hF⟩
          · rw [f4, r4, List.append_assoc]
          · intro e he
            rcases List.mem_append.mp he with h1 | h1
            · exact Move_events_isMotion env ds _ e h1
            · exact Move_events_isMotion env es _ e h1
          · intro hc; cases hc

theorem Driver.DrawImage_segment_mono (env : Env) (fuel k : Nat) (image : Image) (i : Nat)
    (pen : Bool) (drv : Driver) (r : Bool × Bool × Driver)
    (h : Driver.DrawImage_segment env fuel image i pen drv = some r) :
    Driver.DrawImage_segment env (fuel + k) image i pen drv = some r := by
  unfold Driver.DrawImage_segment at h ⊢
  dsimp only at h ⊢
  rcases hP : (if (i == 0 || pen != (image.points i).pen) = true
      then Driver.Pen env fuel drv (image.points i).pen else some drv) with _ | dp
  · rw [hP] at h; simp at h
  · rw [hP] at h
    have hP2 : (if (i == 0 || pen != (image.points i).pen) = true
        then Driver.Pen env (fuel + k) drv (image.points i).pen else some drv) = some dp := by
      split_ifs at hP ⊢ with hc
      · exact Driver.Pen_mono env fuel k _ _ _ hP
      · exact hP
    rw [hP2]
    simp only at h ⊢
    rcases hR : Driver.RotateSteps env fuel dp (image.points i).angle with _ | ⟨rot, dr⟩
    · rw [hR] at h; simp at h
    · rw [hR] at h
      rw [Driver.RotateSteps_mono env fuel k _ _ _ hR]
      cases rot with
      | false => exact h
      | true =>
        simp only at h ⊢
        rcases hF : Driver.ForwardSteps env fuel dr (image.points i).len with _ | ⟨okf, df⟩
        · rw [hF] at h; simp at h
        · rw [hF] at h
          rw [Driver.ForwardSteps_mono env fuel k _ _ _ hF]
          exact h

theorem Driver.DrawImage_played_calibration (env : Env) (fuel : Nat) (image : Image)
    (drv : Driver) :
    ∀ (k : Nat) (pen : Bool) (d : Driver),
      Driver.DrawImage_played env fuel image drv k = some (pen, d) →
      d.calibration_ = drv.calibration_ := by
  intro k
  induction k with
  | zero =>
    intro pen d h
    simp only [Driver.DrawImage_played, Option.some.injEq, Prod.mk.injEq] at h
    rw [← h.2]
  | succ k ih =>
    intro pen d h
    simp only [Driver.DrawImage_played] at h
    rcases hk : Driver.DrawImage_played env fuel image drv k with _ | ⟨pk, dk⟩
    · rw [hk] at h; simp at h
    · rw [hk] at h
      simp only at h
      rcases hs : Driver.DrawImage_segment env fuel image k pk dk with _ | ⟨ok, p1, d1⟩
      · rw [hs] at h; simp at h
      · rw [hs] at h
        cases ok with
        | false => simp at h
        | true =>
          simp only [Option.some.injEq, Prod.mk.injEq] at h
          obtain ⟨_, rfl⟩ := h
          obtain ⟨_, hc, _⟩ := Driver.DrawImage_segment_effect env fuel image k pk dk _ _ _ hs
          rw [hc]
          exact ih pk dk hk

/-- The loop of `DrawImage` entered at index `i` after `i` segments played with success: it
stops at an index `j` with all segments before `j` played with success, and either `j` is
the end of the loop or segment `j` failed and the loop stopped right there. -/
theorem Driver.DrawImage_loop_char (env : Env) (fuel : Nat) (image : Image) (drv : Driver) :
    ∀ (n i : Nat) (pen : Bool) (d : Driver) (j : Nat) (drvL : Driver),
      Driver.DrawImage_played env fuel image drv i = some (pen, d) →
      Driver.DrawImage_loop env fuel image n i pen d = some (j, drvL) →
      i ≤ j ∧ j ≤ i + n ∧
      ∃ (pen_j : Bool) (d_j : Driver),
        Driver.DrawImage_played env fuel image drv j = some (pen_j, d_j) ∧
        (j = i + n → drvL = d_j) ∧
        (j < i + n → ∃ pen1 : Bool,
          Driver.DrawImage_segment env fuel image j pen_j d_j = some (false, pen1, drvL)) := by
  intro n
  induction n with
  | zero =>
    intro i pen d j drvL hp h
    simp only [Driver.DrawImage_loop, Option.some.injEq, Prod.mk.injEq] at h
    obtain ⟨rfl, rfl⟩ := h
    exact ⟨le_refl _, le_refl _, pen, d, hp, fun _ => rfl, fun hlt => absurd hlt (by omega)⟩
  | succ n ih =>
    intro i pen d j drvL hp h
    simp only [Driver.DrawImage_loop] at h
    rcases hs : Driver.DrawImage_segment env fuel image i pen d with _ | ⟨ok, p1, d1⟩
    · rw [hs] at h; simp at h
    · rw [hs] at h
      cases ok with
      | false =>
        simp only [Option.some.injEq, Prod.mk.injEq] at h
        obtain ⟨rfl, rfl⟩ := h
        exact ⟨le_refl _, by omega, pen, d, hp, fun hj => absurd hj (by omega),
          fun _ => ⟨p1, hs⟩⟩
      | true =>
        simp only at h
        have hp1 : Driver.DrawImage_played env fuel image drv (i + 1) = some (p1, d1) := by
          simp only [Driver.DrawImage_played, hp, hs]
        obtain ⟨h1, h2, pj, dj, h3, h4, h5⟩ := ih (i + 1) p1 d1 j drvL hp1 h
        exact ⟨by omega, by omega, pj, dj, h3, fun hj => h4 (by omega), fun hj => h5 (by omega)⟩

/-- Shape of a returning `DrawImage`: the first `i` segments were played with success; either
`i` is the number of segments and the result is `true`, or segment `i` failed and the
result is `false`; then `Pen(false)` and `Off()` follow at once. -/
theorem Driver.DrawImage_char (env : Env) (fuel : Nat) (drv : Driver) (image : Image)
    (b : Bool) (drv1 : Driver) (h : Driver.DrawImage env fuel drv image = some (b, drv1)) :
    ∃ (i : Nat) (pen_i : Bool) (d_i drvL drvP : Driver),
      i ≤ image.num_points ∧
      Driver.DrawImage_played env fuel image drv i = some (pen_i, d_i) ∧
      (b = true ↔ i = image.num_points) ∧
      (i = image.num_points → drvL = d_i) ∧
      (i < image.num_points → ∃ pen1 : Bool,
        Driver.DrawImage_segment env fuel image i pen_i d_i = some (false, pen1, drvL)) ∧
      Driver.Pen env fuel drvL false = some drvP ∧ drv1 = drvP.Off := by
  unfold Driver.DrawImage at h
  rcases hl : Driver.DrawImage_loop env fuel image image.num_points 0 false drv with _ | ⟨i, drvL⟩
  · rw [hl] at h; simp at h
  · rw [hl] at h
    simp only at h
    rcases hP : Driver.Pen env fuel drvL false with _ | drvP
    · rw [hP] at h; simp at h
    · rw [hP] at h
      simp only [Option.some.injEq, Prod.mk.injEq] at h
      obtain ⟨hb, rfl⟩ := h
      obtain ⟨_, h2, pj, dj, h3, h4, h5⟩ :=
        Driver.DrawImage_loop_char env fuel image drv image.num_points 0 false drv i drvL rfl hl
      refine ⟨i, pj, dj, drvL, drvP, by omega, h3, ?_, fun hi => h4 (by omega),
        fun hi => h5 (by omega), hP, rfl⟩
      rw [← hb]
      simp only [ge_iff_le, decide_eq_true_eq]
      omega

/-- C15. When `DrawImage` returns, it returns `true` if and only if every one of the `N`
segments was played with success (both its `RotateSteps` and its `ForwardSteps` returned
`true`; the loop index reached `N`); it returns `false` exactly when the body of some
segment `i < N` failed after all earlier ones succeeded, and then the state left by the
failing `RotateSteps` or `ForwardSteps` is followed only by `Pen(false)` and `Off()`: no later
segment is rotated, moved or pen-toggled. -/
theorem DrawImage_result (env : Env) (fuel : Nat) (drv : Driver) (image : Image)
    (b : Bool) (drv1 : Driver) (h : Driver.DrawImage env fuel drv image = some (b, drv1)) :
    ∃ (i : Nat) (pen_i : Bool) (d_i drvL drvP : Driver),
      i ≤ image.num_points ∧
      Driver.DrawImage_played env fuel image drv i = some (pen_i, d_i) ∧
      (b = true ↔ i = image.num_points) ∧
      (b = false ↔ i < image.num_points) ∧
      (i = image.num_points → drvL = d_i) ∧
      (i < image.num_points → ∃ (pen1 : Bool) (dp : Driver) (rot : Bool) (dr : Driver),
        Driver.DrawImage_segment env fuel image i pen_i d_i = some (false, pen1, drvL) ∧
        Driver.RotateSteps env fuel dp (image.points i).angle = some (rot, dr) ∧
        (rot = false → drvL = dr) ∧
        (rot = true →
          Driver.ForwardSteps env fuel dr (image.points i).len = some (false, drvL))) ∧
      Driver.Pen env fuel drvL false = some drvP ∧ drv1 = drvP.Off := by
  obtain ⟨i, pi, di, drvL, drvP, h1, h2, h3, h4, h5, h6, h7⟩ :=
    Driver.DrawImage_char env fuel drv image b drv1 h
  refine ⟨i, pi, di, drvL, drvP, h1, h2, h3, ?_, h4, ?_, h6, h7⟩
  · cases b with
    | false =>
      simp only [true_iff]
      have : ¬ i = image.num_points := fun hi => by simpa using h3.mpr hi
      omega
    | true =>
      have := h3.mp rfl
      simp only [Bool.true_eq_false, false_iff]
      omega
  · intro hi
    obtain ⟨p1, hs⟩ := h5 hi
    obtain ⟨_, _, dp, evs, _, _, _, _, rot, dr, hr, hr0, hr1⟩ :=
      Driver.DrawImage_segment_effect env fuel image i pi di _ _ _ hs
    exact ⟨p1, dp, rot, dr, hs, hr, fun h0 => (hr0 h0).2, hr1⟩

theorem Driver.DrawImage_terminal (env : Env) (fuel : Nat) (drv : Driver) (image : Image)
    (b : Bool) (drv1 : Driver) (h : Driver.DrawImage env fuel drv image = some (b, drv1)) :
    drv1.pen_ = false ∧ drv1.calibration_ = drv.calibration_ ∧
    ∃ pre : List Event, drv1.log = pre ++
      [Event.ServoSet drv.calibration_.pen_up, Event.LeftOff, Event.RightOff, Event.ServoOff] := by
  obtain ⟨i, pi, di, drvL, drvP, h1, h2, h3, h4, h5, h6, h7⟩ :=
    Driver.DrawImage_char env fuel drv image b drv1 h
  have hcal : drvL.calibration_ = drv.calibration_ := by
    have hdi := Driver.DrawImage_played_calibration env fuel image drv i pi di h2
    rcases Nat.lt_or_ge i image.num_points with hi | hi
    · obtain ⟨p1, hs⟩ := h5 hi
      obtain ⟨_, hc, _⟩ := Driver.DrawImage_segment_effect env fuel image i pi di _ _ _ hs
      rw [hc, hdi]
    · rw [h4 (by omega), hdi]
  obtain ⟨k, hk⟩ := Driver.Pen_frame env fuel drvL false drvP h6
  rw [h7, hk]
  refine ⟨rfl, hcal, drvL.log, ?_⟩
  simp [Driver.Off, Driver.emit, hcal]

/-- C14 (safe terminal state). Whenever `DrawImage` returns, completed or aborted, its last
actions are `Pen(false)` followed by `Off()`: on return `pen_` is `false` and the log of calls
ends with the servo set to `pen_up`, then `Off` on the left stepper, the right stepper and
the servo, with no stepper `Move` after that. -/
theorem DrawImage_safe_terminal_state (env : Env) (fuel : Nat) (drv : Driver) (image : Image)
    (b : Bool) (drv1 : Driver) (h : Driver.DrawImage env fuel drv image = some (b, drv1)) :
    drv1.pen_ = false ∧ drv1.calibration_ = drv.calibration_ ∧
    ∃ pre : List Event, drv1.log = pre ++
      [Event.ServoSet drv.calibration_.pen_up, Event.LeftOff, Event.RightOff, Event.ServoOff] :=
  Driver.DrawImage_terminal env fuel drv image b drv1 h

theorem sampleEnv_TimerAdvances (stop : Nat) : (sampleEnv stop).TimerAdvances := by
  intro k
  simp only [sampleEnv, toUInt16]
  omega

/-- C12 (idempotent no-op). With a free-running timer (consecutive samples differ),
`DrawImage` on an image with `num_points = 0` returns `true` for every predicate, in
particular an always-false one: the only calls it makes are `Set(pen_up)` on the servo and
`Off` on the left stepper, the right stepper and the servo; the pen flag is left `false`; no
stepper `Move` is issued and the predicate is never evaluated (`polls` is unchanged). -/
theorem DrawImage_no_points (env : Env) (hadv : env.TimerAdvances) (fuel : Nat)
    (hf : 3200001 ≤ fuel) (drv : Driver) (image : Image) (h0 : image.num_points = 0) :
    ∃ k : Nat, Driver.DrawImage env fuel drv image =
      some (true, { drv with
        log := drv.log ++ [Event.ServoSet drv.calibration_.pen_up, Event.LeftOff,
          Event.RightOff, Event.ServoOff],
        pen_ := false, reads := drv.reads + k }) := by
  obtain ⟨r, hr⟩ := Driver.Pen_terminates env hadv fuel hf drv false
  obtain ⟨k, hk⟩ := Driver.Pen_frame env fuel drv false r hr
  refine ⟨k, ?_⟩
  simp only [Driver.DrawImage, h0, Driver.DrawImage_loop, hr]
  rw [hk]
  simp [Driver.Off, Driver.emit]

theorem DrawImage_no_points_witness :
    ∃ k : Nat, Driver.DrawImage (sampleEnv 0) 3200001 { calibration_ := sampleCalibration }
        { num_points := 0, points := sampleImage.points } =
      some (true, {
        calibration_ := sampleCalibration,
        log := [Event.ServoSet 800, Event.LeftOff, Event.RightOff, Event.ServoOff],
        pen_ := false, reads := 0 + k }) :=
  DrawImage_no_points (sampleEnv 0) (sampleEnv_TimerAdvances 0) 3200001 (le_refl _)
    { calibration_ := sampleCalibration } { num_points := 0, points := sampleImage.points } rfl

theorem Driver.DrawImage_played_succ (env : Env) (fuel : Nat) (image : Image) (drv : Driver)
    (k : Nat) (pen1 : Bool) (d1 : Driver)
    (h : Driver.DrawImage_played env fuel image drv (k + 1) = some (pen1, d1)) :
    ∃ (pen : Bool) (d : Driver),
      Driver.DrawImage_played env fuel image drv k = some (pen, d) ∧
      Driver.DrawImage_segment env fuel image k pen d = some (true, pen1, d1) := by
  simp only [Driver.DrawImage_played] at h
  rcases hk : Driver.DrawImage_played env fuel image drv k with _ | ⟨pk, dk⟩
  · rw [hk] at h; simp at h
  · rw [hk] at h
    simp only at h
    rcases hs : Driver.DrawImage_segment env fuel image k pk dk with _ | ⟨ok, p1, d2⟩
    · rw [hs] at h; simp at h
    · rw [hs] at h
      cases ok with
      | false => simp at h
      | true =>
        simp only [Option.some.injEq, Prod.mk.injEq] at h
        obtain ⟨rfl, rfl⟩ := h
        exact ⟨pk, dk, rfl, hs⟩

/-- After at least one segment the local `pen` is the flag of the last segment played. -/
theorem Driver.DrawImage_played_pen (env : Env) (fuel : Nat) (image : Image) (drv : Driver)
    (k : Nat) (pen1 : Bool) (d1 : Driver)
    (h : Driver.DrawImage_played env fuel image drv (k + 1) = some (pen1, d1)) :
    pen1 = (image.points k).pen := by
  obtain ⟨pen, d, _, hs⟩ := Driver.DrawImage_played_succ env fuel image drv k pen1 d1 h
  exact (Driver.DrawImage_segment_effect env fuel image k pen d _ _ _ hs).1

/-- C16 (pen toggles), as amended. While an image is played, segment `k` (played with success after the segments
before it) actuates the pen, with one `Set` call on the servo and its settle delay, exactly
when `k = 0` or its pen flag differs from the flag of segment `k - 1`; all other calls made
for the segment are motion calls, so two consecutive segments with equal pen flags cause no
`Pen` call between them. -/
theorem DrawImage_pen_toggles (env : Env) (fuel : Nat) (image : Image) (drv : Driver)
    (k : Nat) (pen : Bool) (d : Driver) (pen1 : Bool) (d1 : Driver)
    (hk : Driver.DrawImage_played env fuel image drv k = some (pen, d))
    (hk1 : Driver.DrawImage_played env fuel image drv (k + 1) = some (pen1, d1)) :
    (0 < k → pen = (image.points (k - 1)).pen) ∧
    countServoSet d1.log = countServoSet d.log +
      (if k = 0 ∨ (image.points k).pen ≠ (image.points (k - 1)).pen then 1 else 0) ∧
    ∃ evs : List Event, (∀ e ∈ evs, e.isMotion = true) ∧
      d1.log = d.log ++
        (if k = 0 ∨ (image.points k).pen ≠ (image.points (k - 1)).pen
          then [Event.ServoSet (if (image.points k).pen then drv.calibration_.pen_down
            else drv.calibration_.pen_up)]
          else []) ++ evs := by
  have hpen : 0 < k → pen = (image.points (k - 1)).pen := by
    intro hpos
    obtain ⟨j, rfl⟩ : ∃ j, k = j + 1 := ⟨k - 1, by omega⟩
    exact Driver.DrawImage_played_pen env fuel image drv j pen d hk
  obtain ⟨pen0, d0, hk0, hs⟩ := Driver.DrawImage_played_succ env fuel image drv k pen1 d1 hk1
  rw [hk] at hk0
  simp only [Option.some.injEq, Prod.mk.injEq] at hk0
  obtain ⟨rfl, rfl⟩ := hk0
  have hcal := Driver.DrawImage_played_calibration env fuel image drv k pen d hk
  obtain ⟨_, _, dp, evs, hdp, hlog, hev, _, _⟩ :=
    Driver.DrawImage_segment_effect env fuel image k pen d _ _ _ hs
  have hcond : (k = 0 ∨ pen ≠ (image.points k).pen) ↔
      (k = 0 ∨ (image.points k).pen ≠ (image.points (k - 1)).pen) := by
    rcases Nat.eq_zero_or_pos k with h0 | hpos
    · simp [h0]
    · rw [hpen hpos]
      constructor
      · rintro (h | h)
        · exact Or.inl h
        · exact Or.inr (fun e => h e.symm)
      · rintro (h | h)
        · exact Or.inl h
        · exact Or.inr (fun e => h e.symm)
  have hlog2 : d1.log = d.log ++
        (if k = 0 ∨ (image.points k).pen ≠ (image.points (k - 1)).pen
          then [Event.ServoSet (if (image.points k).pen then drv.calibration_.pen_down
            else drv.calibration_.pen_up)]
          else []) ++ evs := by
    rw [hlog]
    by_cases hc : k = 0 ∨ pen ≠ (image.points k).pen
    · rw [if_pos hc] at hdp
      rw [if_pos (hcond.mp hc)]
      obtain ⟨n, hn⟩ := Driver.Pen_frame env fuel d _ dp hdp
      rw [hn, hcal]
    · rw [if_neg hc] at hdp
      rw [if_neg (fun h => hc (hcond.mpr h)), hdp]
      simp
  refine ⟨hpen, ?_, evs, hev, hlog2⟩
  rw [hlog2, countServoSet_append, countServoSet_append, countServoSet_motion evs hev]
  split_ifs <;> simp [countServoSet]

/-! ## Cancellation at the first tick of a motion -/

/-- The pulse returned by `Update`, from the position sum `q`. -/
theorem Wheel.Update_pulse_eq (w : Wheel) (dt_ticks : Nat) (a : Int) :
    (w.Update dt_ticks a).2 =
      if toInt64 (w.s_ + Int.tdiv
          (toInt64 (toInt64 (w.v_ + (w.Update dt_ticks a).1.v_) * dt_ticks)) 2) > 2 ^ 47 then 1
      else if toInt64 (w.s_ + Int.tdiv
          (toInt64 (toInt64 (w.v_ + (w.Update dt_ticks a).1.v_) * dt_ticks)) 2) < -(2 ^ 47) then -1
      else 0 := by
  rw [Wheel.Update_v_eq]
  unfold Wheel.Update
  simp only
  split_ifs <;> rfl

/-- From rest, one `Update` with acceleration `kMaxA` emits no pulse, whatever the tick
count. -/
theorem Wheel.Update_from_rest (dt : Nat) (hdt : dt ≤ 65535) :
    (Wheel.Update {} dt Wheel.kMaxA).2 = 0 := by
  have hd : ((dt : Nat) : Int) ≤ 65535 := by exact_mod_cast hdt
  have hd0 : (0 : Int) ≤ (dt : Int) := Int.ofNat_nonneg _
  have hsq : (dt : Int) * (dt : Int) ≤ 65535 * 65535 := mul_le_mul hd hd hd0 (by norm_num)
  have hsq0 : 0 ≤ (dt : Int) * (dt : Int) := mul_nonneg hd0 hd0
  have hv2 : Wheel.Update_v2 {} dt Wheel.kMaxA = 8246 * (dt : Int) := by
    unfold Wheel.Update_v2
    rw [Wheel.kMaxA_eq]
    show toInt64 (0 + toInt64 (8246 * (dt : Int))) = _
    rw [zero_add, toInt64_eq_self (x := 8246 * (dt : Int)) ⟨by omega, by omega⟩,
      toInt64_eq_self (x := 8246 * (dt : Int)) ⟨by omega, by omega⟩]
  have hv : (Wheel.Update {} dt Wheel.kMaxA).1.v_ = 8246 * (dt : Int) := by
    rw [Wheel.Update_v_eq, hv2, Wheel.kMaxV_eq]
    rw [if_neg (by omega), if_neg (by omega)]
  rw [Wheel.Update_pulse_eq, hv]
  show (if toInt64 (0 + Int.tdiv (toInt64 (toInt64 (0 + 8246 * (dt : Int)) * (dt : Int))) 2)
      > 2 ^ 47 then (1 : Int)
    else if toInt64 (0 + Int.tdiv (toInt64 (toInt64 (0 + 8246 * (dt : Int)) * (dt : Int))) 2)
      < -(2 ^ 47) then -1 else 0) = 0
  have hprod : 8246 * (dt : Int) * (dt : Int) = 8246 * ((dt : Int) * (dt : Int)) := by ring
  have h3 : Int.tdiv (8246 * ((dt : Int) * (dt : Int))) 2 = 4123 * ((dt : Int) * (dt : Int)) := by
    rw [Int.tdiv_eq_ediv (by omega) (by norm_num)]
    omega
  rw [zero_add, zero_add, toInt64_eq_self (x := 8246 * (dt : Int)) ⟨by omega, by omega⟩, hprod,
    toInt64_eq_self (x := 8246 * ((dt : Int) * (dt : Int))) ⟨by omega, by omega⟩, h3,
    toInt64_eq_self (x := 4123 * ((dt : Int) * (dt : Int))) ⟨by omega, by omega⟩]
  rw [if_neg (by norm_num; omega), if_neg (by norm_num; omega)]


/-- At rest the braking test is negative for every distance `d` in `[1, 65535]`. -/
theorem Driver.Move_braking_at_rest (d : Int) (h1 : 1 ≤ d) (h2 : d ≤ 65535) :
    Driver.Move_braking {} d 0 = false := by
  unfold Driver.Move_braking
  have hz : Int.shiftRight (toInt64 (toInt64 (Int.tdiv ({} : Wheel).v_
      (toInt64 (2 * Wheel.kMaxA))) * ({} : Wheel).v_)) 48 = 0 := by decide
  rw [hz]
  have hu : toUInt16 (d - 0) = d := by unfold toUInt16; omega
  rw [hu]
  simp only [ge_iff_le, decide_eq_false_iff_not, not_le]
  omega

/-- With `s = 0`, position 0 and a remainder below `2^14` the allocator returns 0 and leaves
the remainder unchanged. -/
theorem FractionalMove_at_zero (fraction remainder : Int)
    (hr : 0 ≤ remainder ∧ remainder < 2 ^ 14) :
    FractionalMove 0 fraction 0 remainder = { ret := 0, position := 0, remainder := remainder } := by
  obtain ⟨h0, h1⟩ := hr
  norm_num at h1
  have hp : FractionalMove_p 0 fraction remainder = remainder := by
    unfold FractionalMove_p
    rw [zero_mul, toInt32_eq_self (x := 0) ⟨by norm_num, by norm_num⟩, zero_add,
      toInt32_eq_self ⟨by omega, by omega⟩]
  unfold FractionalMove
  simp only [hp, Int_land_mask, Int_shiftRight_floor]
  have e1 : remainder % 2 ^ 14 = remainder := Int.emod_eq_of_lt h0 (by norm_num; omega)
  have e2 : remainder / 2 ^ 14 = 0 := Int.ediv_eq_zero_of_lt h0 (by norm_num; omega)
  rw [e1, e2]
  have e3 : toUInt16 remainder = remainder := by unfold toUInt16; omega
  rw [e3]
  have e4 : toInt16 (toInt32 (0 - 0)) = 0 := by decide
  have e5 : toInt16 0 = 0 := by decide
  rw [e4, e5]


/-- The first iteration of a `Move` from rest sends delta 0 to both steppers and keeps the
remainders. -/
theorem Driver.Move_tick_first (env : Env) (lf rf d : Int) (drv : Driver) (start : Int)
    (hd : 1 ≤ d ∧ d ≤ 65535)
    (hl : 0 ≤ drv.left_remainder_ ∧ drv.left_remainder_ < 2 ^ 14)
    (hr : 0 ≤ drv.right_remainder_ ∧ drv.right_remainder_ < 2 ^ 14) :
    (Driver.Move_tick env lf rf d drv { start := start }).1 = env.interrupted drv.polls ∧
    (Driver.Move_tick env lf rf d drv { start := start }).2.1 =
      { drv with
        log := drv.log ++ [Event.LeftMove 0, Event.RightMove 0,
          Event.Interrupted (env.interrupted drv.polls)],
        reads := drv.reads + 1, polls := drv.polls + 1 } := by
  have hb := Driver.Move_braking_at_rest d hd.1 hd.2
  have hdt : (toUInt16 (toUInt16 (env.time drv.reads) - start)).toNat ≤ 65535 := by
    have := toUInt16_range (toUInt16 (env.time drv.reads) - start)
    omega
  have hu := Wheel.Update_from_rest (toUInt16 (toUInt16 (env.time drv.reads) - start)).toNat hdt
  have hs : toUInt16 ((0 : Int) + toInt8 0) = 0 := by decide
  have h8 : toInt8 0 = 0 := by decide
  have hfl := FractionalMove_at_zero lf drv.left_remainder_ hl
  have hfr := FractionalMove_at_zero rf drv.right_remainder_ hr
  refine ⟨?_, ?_⟩
  · unfold Driver.Move_tick
    dsimp only [Driver.Poll, Driver.emit, Driver.GetTime]
  unfold Driver.Move_tick
  dsimp only [Driver.GetTime]
  rw [hb]
  simp only [Bool.false_eq_true, if_false]
  rw [hu, hs, hfl]
  dsimp only [Driver.emit]
  rw [hfr]
  dsimp only [Driver.Poll, Driver.GetTime]
  rw [h8]
  simp

/-- A `Move` with a non-zero distance whose first evaluation of the predicate answers `true`
returns `false` after one iteration in which both steppers received delta 0. -/
theorem Driver.Move_abort_first_tick (env : Env) (fuel : Nat) (hf : 1 ≤ fuel) (drv : Driver)
    (lf rf d : Int) (hd : 1 ≤ d ∧ d ≤ 65535)
    (hl : 0 ≤ drv.left_remainder_ ∧ drv.left_remainder_ < 2 ^ 14)
    (hr : 0 ≤ drv.right_remainder_ ∧ drv.right_remainder_ < 2 ^ 14)
    (hint : env.interrupted drv.polls = true) :
    Driver.Move env fuel drv lf rf d = some (false,
      { drv with
        log := drv.log ++ [Event.LeftMove 0, Event.RightMove 0, Event.Interrupted true],
        reads := drv.reads + 2, polls := drv.polls + 1 }) := by
  obtain ⟨n, rfl⟩ : ∃ n, fuel = n + 1 := ⟨fuel - 1, by omega⟩
  obtain ⟨t1, t2⟩ := Driver.Move_tick_first env lf rf d (drv.GetTime env).2
    (drv.GetTime env).1 hd hl hr
  have hlt : (0 : Int) < d := by omega
  unfold Driver.Move Driver.Move_run
  simp only [Driver.Move_loop, hlt, if_true]
  rw [t1, t2]
  simp [Driver.GetTime, hint]

/-! ## Remainders stay below `2^14` -/

theorem FractionalMove_remainder_range (s fraction position remainder : Int) :
    0 ≤ (FractionalMove s fraction position remainder).remainder ∧
    (FractionalMove s fraction position remainder).remainder < 2 ^ 14 := by
  simp only [FractionalMove, Int_land_mask, toUInt16]
  generalize FractionalMove_p s fraction remainder = p
  norm_num
  omega

theorem Driver.Move_tick_remainders (env : Env) (lf rf d : Int) (drv : Driver) (m : MoveLocals) :
    (Driver.Move_tick env lf rf d drv m).2.1.RemaindersOk := by
  unfold Driver.Move_tick
  dsimp only [Driver.RemaindersOk, Driver.Poll, Driver.emit, Driver.GetTime]
  exact ⟨FractionalMove_remainder_range _ _ _ _, FractionalMove_remainder_range _ _ _ _⟩

theorem Driver.Move_loop_remainders (env : Env) (lf rf d : Int) (fuel : Nat) :
    ∀ (drv : Driver) (m : MoveLocals) (b : Bool) (drv1 : Driver) (m1 : MoveLocals),
      drv.RemaindersOk →
      Driver.Move_loop env lf rf d fuel drv m = some (b, drv1, m1) → drv1.RemaindersOk := by
  induction fuel with
  | zero =>
    intro drv m b drv1 m1 hok h
    simp only [Driver.Move_loop] at h
    split_ifs at h with hc
    simp only [Option.some.injEq, Prod.mk.injEq] at h
    obtain ⟨_, rfl, _⟩ := h
    exact hok
  | succ n ih =>
    intro drv m b drv1 m1 hok h
    simp only [Driver.Move_loop] at h
    split_ifs at h with hc ht
    · simp only [Option.some.injEq, Prod.mk.injEq] at h
      obtain ⟨_, rfl, _⟩ := h
      exact Driver.Move_tick_remainders env lf rf d drv m
    · exact ih _ _ _ _ _ (Driver.Move_tick_remainders env lf rf d drv m) h
    · simp only [Option.some.injEq, Prod.mk.injEq] at h
      obtain ⟨_, rfl, _⟩ := h
      exact hok

theorem Driver.Move_remainders (env : Env) (fuel : Nat) (drv : Driver) (lf rf d : Int)
    (b : Bool) (drv1 : Driver) (hok : drv.RemaindersOk)
    (h : Driver.Move env fuel drv lf rf d = some (b, drv1)) : drv1.RemaindersOk := by
  unfold Driver.Move at h
  rw [Option.map_eq_some'] at h
  obtain ⟨⟨b1, d1, m1⟩, hx, he⟩ := h
  simp only [Prod.mk.injEq] at he
  obtain ⟨rfl, rfl⟩ := he
  unfold Driver.Move_run at hx
  refine Driver.Move_loop_remainders env lf rf d fuel _ _ _ _ _ ?_ hx
  exact hok

theorem Driver.DrawImage_segment_remainders (env : Env) (fuel : Nat) (image : Image) (i : Nat)
    (pen : Bool) (drv : Driver) (ok pen1 : Bool) (drv1 : Driver) (hok : drv.RemaindersOk)
    (h : Driver.DrawImage_segment env fuel image i pen drv = some (ok, pen1, drv1)) :
    drv1.RemaindersOk := by
  obtain ⟨_, _, dp, evs, hdp, _, _, _, rot, dr, hr, hr0, hr1⟩ :=
    Driver.DrawImage_segment_effect env fuel image i pen drv _ _ _ h
  have hdpok : dp.RemaindersOk := by
    split_ifs at hdp with hc
    · obtain ⟨k, hk⟩ := Driver.Pen_frame env fuel drv _ dp hdp
      rw [hk]; exact hok
    · rw [hdp]; exact hok
  have hdrok : dr.RemaindersOk := by
    rw [Driver.RotateSteps_eq] at hr
    refine Driver.Move_remainders env fuel _ _ _ _ _ _ ?_ hr
    exact hdpok
  cases rot with
  | false => rw [(hr0 rfl).2]; exact hdrok
  | true => exact Driver.Move_remainders env fuel _ _ _ _ _ _ hdrok (hr1 rfl)

/-! ## Playing on once the predicate answers `true` -/

/-- A `Move` made when the next evaluation of the predicate answers `true`: it returns, with
`true` exactly when the distance is 0, and sends no non-zero delta to the steppers. -/
theorem Driver.Move_cut (env : Env) (fuel : Nat) (hf : 1 ≤ fuel) (drv : Driver)
    (lf rf d : Int) (hd : 0 ≤ d ∧ d ≤ 65535) (hok : drv.RemaindersOk)
    (hint : env.interrupted drv.polls = true) :
    ∃ (b : Bool) (drv1 : Driver) (evs : List Event),
      Driver.Move env fuel drv lf rf d = some (b, drv1) ∧
      drv1.log = drv.log ++ evs ∧ (∀ e ∈ evs, e.isStep = false) ∧ drv1.RemaindersOk ∧
      drv1.calibration_ = drv.calibration_ ∧ drv1.angle_fraction_ = drv.angle_fraction_ ∧
      drv1.pen_ = drv.pen_ ∧ drv.polls ≤ drv1.polls ∧ (b = true ↔ d = 0) := by
  by_cases h0 : d = 0
  · refine ⟨true, _, [], Driver.Move_zero env fuel drv lf rf d (by omega), by simp, by simp,
      hok, rfl, rfl, rfl, le_refl _, by simp [h0]⟩
  · refine ⟨false, _, _, Driver.Move_abort_first_tick env fuel hf drv lf rf d
      ⟨by omega, hd.2⟩ hok.1 hok.2 hint, rfl, ?_, hok, rfl, rfl, rfl, by simp, by simp [h0]⟩
    intro e he
    simp only [List.mem_cons, List.mem_singleton, List.not_mem_nil, or_false] at he
    rcases he with h | h | h <;> rw [h] <;> rfl

theorem Driver.RotateSteps_args_distance_range (drv : Driver) (steps : Int) :
    0 ≤ (drv.RotateSteps_args steps).2.2 ∧ (drv.RotateSteps_args steps).2.2 ≤ 65535 :=
  toUInt16_range _

theorem Driver.ForwardSteps_args_distance_range (drv : Driver) (steps : Int) :
    0 ≤ (drv.ForwardSteps_args steps).2.2 ∧ (drv.ForwardSteps_args steps).2.2 ≤ 65535 :=
  toUInt16_range _

/-- The body of the loop of `DrawImage` entered when every further evaluation of the
predicate answers `true`, with a free-running timer: it returns, it succeeds exactly when
both commanded distances are 0, and it sends no non-zero delta to the steppers. -/
theorem Driver.DrawImage_segment_cut (env : Env) (hadv : env.TimerAdvances) (fuel : Nat)
    (hf : 3200001 ≤ fuel) (image : Image) (i : Nat) (pen : Bool) (d : Driver)
    (hok : d.RemaindersOk) (hint : ∀ j : Nat, d.polls ≤ j → env.interrupted j = true) :
    ∃ (ok pen1 : Bool) (d1 : Driver) (evs : List Event),
      Driver.DrawImage_segment env fuel image i pen d = some (ok, pen1, d1) ∧
      d1.log = d.log ++ evs ∧ (∀ e ∈ evs, e.isStep = false) ∧ d1.RemaindersOk ∧
      d1.calibration_ = d.calibration_ ∧
      d1.angle_fraction_ = (d.segmentDistances (image.points i)).2.2 ∧
      d.polls ≤ d1.polls ∧
      (ok = true ↔ (d.segmentDistances (image.points i)).1 = 0 ∧
        (d.segmentDistances (image.points i)).2.1 = 0) := by
  -- the optional pen actuation
  have hpen : ∃ (dp : Driver) (evp : List Event),
      (if (i == 0 || pen != (image.points i).pen) = true
        then Driver.Pen env fuel d (image.points i).pen else some d) = some dp ∧
      dp.log = d.log ++ evp ∧ (∀ e ∈ evp, e.isStep = false) ∧ dp.RemaindersOk ∧
      dp.calibration_ = d.calibration_ ∧ dp.angle_fraction_ = d.angle_fraction_ ∧
      dp.polls = d.polls := by
    by_cases hc : (i == 0 || pen != (image.points i).pen) = true
    · obtain ⟨r, hr⟩ := Driver.Pen_terminates env hadv fuel hf d (image.points i).pen
      obtain ⟨k, hk⟩ := Driver.Pen_frame env fuel d _ r hr
      refine ⟨r, _, by rw [if_pos hc]; exact hr, by rw [hk], ?_, by rw [hk]; exact hok,
        by rw [hk], by rw [hk], by rw [hk]⟩
      intro e he
      simp only [List.mem_singleton] at he
      rw [he]; rfl
    · exact ⟨d, [], by rw [if_neg hc], by simp, by simp, hok, rfl, rfl, rfl⟩
  obtain ⟨dp, evp, hP, p1, p2, p3, p4, p5, p6⟩ := hpen
  -- the rotation
  have hrd := Driver.RotateSteps_args_distance_range dp
    (toInt16 ((image.points i).angle +
      (Driver.RotateSteps_bias dp.calibration_.angle_offset dp.angle_fraction_).1))
  obtain ⟨rot, dr, evr, hR, r1, r2, r3, r4, r5, r6, r7, r8⟩ :=
    Driver.Move_cut env fuel (by omega)
      { dp with angle_fraction_ :=
          (Driver.RotateSteps_bias dp.calibration_.angle_offset dp.angle_fraction_).2 }
      (dp.RotateSteps_args (toInt16 ((image.points i).angle +
        (Driver.RotateSteps_bias dp.calibration_.angle_offset dp.angle_fraction_).1))).1
      (dp.RotateSteps_args (toInt16 ((image.points i).angle +
        (Driver.RotateSteps_bias dp.calibration_.angle_offset dp.angle_fraction_).1))).2.1
      (dp.RotateSteps_args (toInt16 ((image.points i).angle +
        (Driver.RotateSteps_bias dp.calibration_.angle_offset dp.angle_fraction_).1))).2.2
      hrd p3 (hint _ (by rw [p6]))
  rw [← Driver.RotateSteps_eq] at hR
  have hrdist : (dp.RotateSteps_args (toInt16 ((image.points i).angle +
        (Driver.RotateSteps_bias dp.calibration_.angle_offset dp.angle_fraction_).1))).2.2 =
      (d.segmentDistances (image.points i)).1 := by
    simp only [Driver.segmentDistances, Driver.RotateSteps_args, p4, p5]
  have haf : dr.angle_fraction_ = (d.segmentDistances (image.points i)).2.2 := by
    rw [r5]
    simp only [Driver.segmentDistances, p4, p5]
  have hpoll : d.polls ≤ dr.polls := by
    have : dp.polls ≤ dr.polls := r7
    omega
  unfold Driver.DrawImage_segment
  dsimp only
  rw [hP]
  dsimp only
  rw [hR]
  cases rot with
  | false =>
    refine ⟨false, _, dr, evp ++ evr, rfl, ?_, ?_, r3, r4.trans p4, haf, hpoll, ?_⟩
    · rw [r1]
      show dp.log ++ evr = _
      rw [p1, List.append_assoc]
    · intro e he
      rcases List.mem_append.mp he with h | h
      · exact p2 e h
      · exact r2 e h
    · have hne : ¬ (d.segmentDistances (image.points i)).1 = 0 := by
        rw [← hrdist]
        intro h0
        have := r8.mpr h0
        cases this
      simp [hne]
  | true =>
    have hrz : (d.segmentDistances (image.points i)).1 = 0 := by
      rw [← hrdist]; exact r8.mp rfl
    have hfd := Driver.ForwardSteps_args_distance_range dr (image.points i).len
    obtain ⟨okf, df, evf, hF, f1, f2, f3, f4, f5, f6, f7, f8⟩ :=
      Driver.Move_cut env fuel (by omega) dr
        (dr.ForwardSteps_args (image.points i).len).1
        (dr.ForwardSteps_args (image.points i).len).2.1
        (dr.ForwardSteps_args (image.points i).len).2.2
        hfd r3 (hint _ hpoll)
    have hfdist : (dr.ForwardSteps_args (image.points i).len).2.2 =
        (d.segmentDistances (image.points i)).2.1 := by
      simp only [Driver.segmentDistances, Driver.ForwardSteps_args]
    have hF2 : Driver.ForwardSteps env fuel dr (image.points i).len = some (okf, df) := hF
    dsimp only
    rw [hF2]
    refine ⟨okf, _, df, evp ++ (evr ++ evf), rfl, ?_, ?_, f3, (f4.trans r4).trans p4,
      f5.trans haf, le_trans hpoll f7, ?_⟩
    · rw [f1, r1]
      show (dp.log ++ evr) ++ evf = _
      rw [p1, List.append_assoc, List.append_assoc]
    · intro e he
      rcases List.mem_append.mp he with h | h
      · exact p2 e h
      · rcases List.mem_append.mp h with h | h
        · exact r2 e h
        · exact f2 e h
    · rw [f8, hfdist]
      simp [hrz]

theorem Driver.DrawImage_played_remainders (env : Env) (fuel : Nat) (image : Image)
    (drv : Driver) (hok : drv.RemaindersOk) :
    ∀ (k : Nat) (pen : Bool) (d : Driver),
      Driver.DrawImage_played env fuel image drv k = some (pen, d) → d.RemaindersOk := by
  intro k
  induction k with
  | zero =>
    intro pen d h
    simp only [Driver.DrawImage_played, Option.some.injEq, Prod.mk.injEq] at h
    rw [← h.2]; exact hok
  | succ k ih =>
    intro pen d h
    obtain ⟨p0, d0, h0, hs⟩ := Driver.DrawImage_played_succ env fuel image drv k pen d h
    exact Driver.DrawImage_segment_remainders env fuel image k p0 d0 _ _ _ (ih p0 d0 h0) hs

/-- The distances of a segment only depend on the calibration and the bias accumulator. -/
theorem Driver.segmentDistances_congr (a b : Driver) (p : DataPoint)
    (hc : a.calibration_ = b.calibration_) (ha : a.angle_fraction_ = b.angle_fraction_) :
    a.segmentDistances p = b.segmentDistances p := by
  simp only [Driver.segmentDistances, Driver.RotateSteps_args, Driver.ForwardSteps_args, hc, ha]

/-- A 3-segment image whose first segment was played with success, when every further
evaluation of the predicate answers `true`. -/
theorem Driver.DrawImage_cut_after_first (env : Env) (hadv : env.TimerAdvances) (fuel : Nat)
    (hf : 3200001 ≤ fuel) (drv : Driver) (hok : drv.RemaindersOk) (image : Image)
    (h3 : image.num_points = 3) (pen1 : Bool) (d1 : Driver)
    (hfirst : Driver.DrawImage_played env fuel image drv 1 = some (pen1, d1))
    (hint : ∀ j : Nat, d1.polls ≤ j → env.interrupted j = true) :
    ∃ (b : Bool) (drv1 : Driver) (evs : List Event),
      Driver.DrawImage env fuel drv image = some (b, drv1) ∧
      drv1.pen_ = false ∧
      drv1.log = d1.log ++ evs ++
        [Event.ServoSet drv.calibration_.pen_up, Event.LeftOff, Event.RightOff,
          Event.ServoOff] ∧
      (∀ e ∈ evs, e.isStep = false) ∧
      (b = false ↔
        ¬ (((d1.segmentDistances (image.points 1)).1 = 0 ∧
            (d1.segmentDistances (image.points 1)).2.1 = 0) ∧
          (({ d1 with angle_fraction_ := (d1.segmentDistances (image.points 1)).2.2 } :
              Driver).segmentDistances (image.points 2)).1 = 0 ∧
          (({ d1 with angle_fraction_ := (d1.segmentDistances (image.points 1)).2.2 } :
              Driver).segmentDistances (image.points 2)).2.1 = 0)) := by
  have hcal1 := Driver.DrawImage_played_calibration env fuel image drv 1 pen1 d1 hfirst
  have hok1 := Driver.DrawImage_played_remainders env fuel image drv hok 1 pen1 d1 hfirst
  obtain ⟨p0, d0, h0, hs0⟩ := Driver.DrawImage_played_succ env fuel image drv 0 pen1 d1 hfirst
  simp only [Driver.DrawImage_played, Option.some.injEq, Prod.mk.injEq] at h0
  obtain ⟨rfl, rfl⟩ := h0
  -- what remains of the loop after the first segment
  have hloop : ∃ (j : Nat) (dL : Driver) (evs : List Event),
      Driver.DrawImage_loop env fuel image 2 1 pen1 d1 = some (j, dL) ∧
      dL.log = d1.log ++ evs ∧ (∀ e ∈ evs, e.isStep = false) ∧
      dL.calibration_ = d1.calibration_ ∧
      (j < 3 ↔
        ¬ (((d1.segmentDistances (image.points 1)).1 = 0 ∧
            (d1.segmentDistances (image.points 1)).2.1 = 0) ∧
          (({ d1 with angle_fraction_ := (d1.segmentDistances (image.points 1)).2.2 } :
              Driver).segmentDistances (image.points 2)).1 = 0 ∧
          (({ d1 with angle_fraction_ := (d1.segmentDistances (image.points 1)).2.2 } :
              Driver).segmentDistances (image.points 2)).2.1 = 0)) := by
    obtain ⟨ok2, p2, d2, ev2, hs2, a1, a2, a3, a4, a5, a6, a7⟩ :=
      Driver.DrawImage_segment_cut env hadv fuel hf image 1 pen1 d1 hok1 hint
    simp only [Driver.DrawImage_loop, hs2]
    cases ok2 with
    | false =>
      refine ⟨1, d2, ev2, rfl, a1, a2, a4, ?_⟩
      have hne : ¬ ((d1.segmentDistances (image.points 1)).1 = 0 ∧
          (d1.segmentDistances (image.points 1)).2.1 = 0) := by
        intro h
        have := a7.mpr h
        cases this
      simp [hne]
    | true =>
      have hidle2 := a7.mp rfl
      obtain ⟨ok3, p3, d3, ev3, hs3, b1, b2, b3, b4, b5, b6, b7⟩ :=
        Driver.DrawImage_segment_cut env hadv fuel hf image 2 p2 d2 a3
          (fun j hj => hint j (le_trans a6 hj))
      have hcongr := Driver.segmentDistances_congr d2
        ({ d1 with angle_fraction_ := (d1.segmentDistances (image.points 1)).2.2 } : Driver)
        (image.points 2) a4 a5
      simp only [hs3]
      cases ok3 with
      | false =>
        refine ⟨2, d3, ev2 ++ ev3, rfl, by rw [b1, a1, List.append_assoc], ?_, b4.trans a4, ?_⟩
        · intro e he
          rcases List.mem_append.mp he with h | h
          · exact a2 e h
          · exact b2 e h
        · have hne : ¬ ((d2.segmentDistances (image.points 2)).1 = 0 ∧
              (d2.segmentDistances (image.points 2)).2.1 = 0) := by
            intro h
            have := b7.mpr h
            cases this
          rw [hcongr] at hne
          simp [hne]
      | true =>
        have hidle3 := b7.mp rfl
        rw [hcongr] at hidle3
        refine ⟨3, d3, ev2 ++ ev3, rfl, by rw [b1, a1, List.append_assoc], ?_, b4.trans a4, ?_⟩
        · intro e he
          rcases List.mem_append.mp he with h | h
          · exact a2 e h
          · exact b2 e h
        · simp [hidle2, hidle3]
  obtain ⟨j, dL, evs, hl, l1, l2, l3, l4⟩ := hloop
  obtain ⟨r, hr⟩ := Driver.Pen_terminates env hadv fuel hf dL false
  obtain ⟨k, hk⟩ := Driver.Pen_frame env fuel dL false r hr
  refine ⟨decide (j ≥ 3), r.Off, evs, ?_, ?_, ?_, l2, ?_⟩
  · have e : Driver.DrawImage_loop env fuel image 3 0 false drv =
        Driver.DrawImage_loop env fuel image 2 1 pen1 d1 := by
      show (match Driver.DrawImage_segment env fuel image 0 false drv with
        | none => none
        | some (false, _, drv) => some (0, drv)
        | some (true, pen, drv) => Driver.DrawImage_loop env fuel image 2 (0 + 1) pen drv) = _
      rw [hs0]
    unfold Driver.DrawImage
    rw [h3, e, hl]
    dsimp only
    rw [hr]
  · rw [hk]; rfl
  · rw [hk]
    simp [Driver.Off, Driver.emit, l1, l3, hcal1]
  · rw [← l4]
    simp

theorem Driver.DrawImage_played_mono (env : Env) (fuel n : Nat) (image : Image) (drv : Driver) :
    ∀ (k : Nat) (r : Bool × Driver),
      Driver.DrawImage_played env fuel image drv k = some r →
      Driver.DrawImage_played env (fuel + n) image drv k = some r := by
  intro k
  induction k with
  | zero => intro r h; exact h
  | succ k ih =>
    intro r h
    obtain ⟨p0, d0, h0, hs⟩ := Driver.DrawImage_played_succ env fuel image drv k r.1 r.2 h
    simp only [Driver.DrawImage_played, ih _ h0,
      Driver.DrawImage_segment_mono env fuel n image k p0 d0 _ hs]

/-! ## Claims on the player, on `Move` and on `ForwardSteps` -/

/-- C13 (abort safety), as amended. With a free-running timer, for every 3-segment image
whose first segment was played with success (the predicate was `false` throughout it) and
every predicate that answers `true` from then on: `DrawImage` returns; it returns `false`
if and only if the second or the third segment commands a non-empty motion (a rotation or
a forward distance different from 0), and `true` when both are empty; after the first
segment no stepper receives a non-zero delta; and it ends with the pen up (`pen_ = false`,
servo set to `pen_up`) and `Off` called on both steppers and the servo. -/
theorem DrawImage_abort_safety (env : Env) (hadv : env.TimerAdvances) (fuel : Nat)
    (hf : 3200001 ≤ fuel) (drv : Driver) (hok : drv.RemaindersOk) (image : Image)
    (h3 : image.num_points = 3) (pen1 : Bool) (d1 : Driver)
    (hfirst : Driver.DrawImage_played env fuel image drv 1 = some (pen1, d1))
    (hint : ∀ j : Nat, d1.polls ≤ j → env.interrupted j = true) :
    ∃ (b : Bool) (drv1 : Driver) (evs : List Event),
      Driver.DrawImage env fuel drv image = some (b, drv1) ∧
      drv1.pen_ = false ∧
      drv1.log = d1.log ++ evs ++
        [Event.ServoSet drv.calibration_.pen_up, Event.LeftOff, Event.RightOff,
          Event.ServoOff] ∧
      (∀ e ∈ evs, e.isStep = false) ∧
      (b = false ↔
        ¬ (((d1.segmentDistances (image.points 1)).1 = 0 ∧
            (d1.segmentDistances (image.points 1)).2.1 = 0) ∧
          (({ d1 with angle_fraction_ := (d1.segmentDistances (image.points 1)).2.2 } :
              Driver).segmentDistances (image.points 2)).1 = 0 ∧
          (({ d1 with angle_fraction_ := (d1.segmentDistances (image.points 1)).2.2 } :
              Driver).segmentDistances (image.points 2)).2.1 = 0)) :=
  Driver.DrawImage_cut_after_first env hadv fuel hf drv hok image h3 pen1 d1 hfirst hint

set_option maxRecDepth 100000 in
theorem DrawImage_abort_safety_witness :
    Driver.DrawImage_played (sampleEnv 3) 3200001 sampleImage
      { calibration_ := sampleCalibration } 1 = some (true, sampleAfterFirst) ∧
    ∃ (b : Bool) (drv1 : Driver) (evs : List Event),
      Driver.DrawImage (sampleEnv 3) 3200001 { calibration_ := sampleCalibration } sampleImage =
        some (b, drv1) ∧
      drv1.pen_ = false ∧
      drv1.log = sampleAfterFirst.log ++ evs ++
        [Event.ServoSet 800, Event.LeftOff, Event.RightOff, Event.ServoOff] ∧
      (∀ e ∈ evs, e.isStep = false) ∧
      (b = false ↔
        ¬ (((sampleAfterFirst.segmentDistances (sampleImage.points 1)).1 = 0 ∧
            (sampleAfterFirst.segmentDistances (sampleImage.points 1)).2.1 = 0) ∧
          (({ sampleAfterFirst with angle_fraction_ :=
              (sampleAfterFirst.segmentDistances (sampleImage.points 1)).2.2 } :
              Driver).segmentDistances (sampleImage.points 2)).1 = 0 ∧
          (({ sampleAfterFirst with angle_fraction_ :=
              (sampleAfterFirst.segmentDistances (sampleImage.points 1)).2.2 } :
              Driver).segmentDistances (sampleImage.points 2)).2.1 = 0)) :=
  ⟨Driver.DrawImage_played_mono (sampleEnv 3) 60 3199941 sampleImage
    { calibration_ := sampleCalibration } 1 (true, sampleAfterFirst) (by decide),
   DrawImage_abort_safety (sampleEnv 3) (sampleEnv_TimerAdvances 3) 3200001 (le_refl _)
    { calibration_ := sampleCalibration } (by simp [Driver.RemaindersOk]) sampleImage rfl true
    sampleAfterFirst
    (Driver.DrawImage_played_mono (sampleEnv 3) 60 3199941 sampleImage
      { calibration_ := sampleCalibration } 1 (true, sampleAfterFirst) (by decide))
    (by intro j hj; simpa [sampleEnv, sampleAfterFirst] using hj)⟩

set_option maxRecDepth 100000 in
/-- C13 as stated fails: in the world `sampleEnv 3` the predicate is `false` for the three
evaluations made during the first segment of `idleTailImage` and `true` from then on, but the
second and third segments command no motion, the predicate is not evaluated again and
`DrawImage` returns `true`. -/
theorem DrawImage_abort_safety_counterexample :
    idleTailImage.num_points = 3 ∧
    (Driver.DrawImage_played (sampleEnv 3) 60 idleTailImage
      { calibration_ := sampleCalibration } 1).map (fun x => x.2.polls) = some 3 ∧
    (sampleEnv 3).interrupted 2 = false ∧ (sampleEnv 3).interrupted 3 = true ∧
    (Driver.DrawImage (sampleEnv 3) 60 { calibration_ := sampleCalibration } idleTailImage).map
      (fun x => (x.1, x.2.polls)) = some (true, 3) := by
  decide

/-! ## Examples of played images -/

set_option maxRecDepth 100000 in
theorem Driver.sampleImage_aborted :
    Driver.DrawImage (sampleEnv 3) 60 { calibration_ := sampleCalibration } sampleImage =
      some (false, sampleAborted) := by
  decide

set_option maxRecDepth 100000 in
theorem Driver.sampleImage_played_one :
    Driver.DrawImage_played (sampleEnv 1000) 60 sampleImage
      { calibration_ := sampleCalibration } 1 = some (true, sampleAfterFirst) := by
  decide

set_option maxRecDepth 100000 in
theorem Driver.sampleImage_played_two :
    Driver.DrawImage_played (sampleEnv 1000) 60 sampleImage
      { calibration_ := sampleCalibration } 2 = some (false, sampleAfterSecond) := by
  decide

theorem DrawImage_safe_terminal_state_witness :
    Driver.DrawImage (sampleEnv 3) 60 { calibration_ := sampleCalibration } sampleImage =
      some (false, sampleAborted) ∧
    sampleAborted.pen_ = false ∧ sampleAborted.calibration_ = sampleCalibration ∧
    ∃ pre : List Event, sampleAborted.log = pre ++
      [Event.ServoSet 800, Event.LeftOff, Event.RightOff, Event.ServoOff] :=
  ⟨Driver.sampleImage_aborted,
    DrawImage_safe_terminal_state (sampleEnv 3) 60 { calibration_ := sampleCalibration }
      sampleImage false sampleAborted Driver.sampleImage_aborted⟩

theorem DrawImage_result_witness :
    ∃ (i : Nat) (pen_i : Bool) (d_i drvL drvP : Driver),
      i ≤ 3 ∧
      Driver.DrawImage_played (sampleEnv 3) 60 sampleImage
        { calibration_ := sampleCalibration } i = some (pen_i, d_i) ∧
      (false = true ↔ i = 3) ∧
      (false = false ↔ i < 3) ∧
      (i = 3 → drvL = d_i) ∧
      (i < 3 → ∃ (pen1 : Bool) (dp : Driver) (rot : Bool) (dr : Driver),
        Driver.DrawImage_segment (sampleEnv 3) 60 sampleImage i pen_i d_i =
          some (false, pen1, drvL) ∧
        Driver.RotateSteps (sampleEnv 3) 60 dp (sampleImage.points i).angle = some (rot, dr) ∧
        (rot = false → drvL = dr) ∧
        (rot = true →
          Driver.ForwardSteps (sampleEnv 3) 60 dr (sampleImage.points i).len =
            some (false, drvL))) ∧
      Driver.Pen (sampleEnv 3) 60 drvL false = some drvP ∧ sampleAborted = drvP.Off :=
  DrawImage_result (sampleEnv 3) 60 { calibration_ := sampleCalibration } sampleImage false
    sampleAborted Driver.sampleImage_aborted

theorem DrawImage_pen_toggles_witness :
    (0 < 1 → true = (sampleImage.points (1 - 1)).pen) ∧
    countServoSet sampleAfterSecond.log = countServoSet sampleAfterFirst.log +
      (if 1 = 0 ∨ (sampleImage.points 1).pen ≠ (sampleImage.points (1 - 1)).pen then 1 else 0) ∧
    ∃ evs : List Event, (∀ e ∈ evs, e.isMotion = true) ∧
      sampleAfterSecond.log = sampleAfterFirst.log ++
        (if 1 = 0 ∨ (sampleImage.points 1).pen ≠ (sampleImage.points (1 - 1)).pen
          then [Event.ServoSet (if (sampleImage.points 1).pen then 1400 else 800)]
          else []) ++ evs :=
  DrawImage_pen_toggles (sampleEnv 1000) 60 sampleImage { calibration_ := sampleCalibration }
    1 true sampleAfterFirst false sampleAfterSecond Driver.sampleImage_played_one
    Driver.sampleImage_played_two

/-! ## What a `Move` starts from -/

/-- With a fraction that is a multiple of `2^14` a zero remainder stays zero. -/
theorem FractionalMove_remainder_zero (s fraction position : Int) (hf : 16384 ∣ fraction) :
    (FractionalMove s fraction position 0).remainder = 0 := by
  obtain ⟨k, rfl⟩ := hf
  have e : s * (16384 * k) = 16384 * (s * k) := by ring
  simp only [FractionalMove, Int_land_mask, FractionalMove_p, toUInt16, toInt32, wrapSigned, e]
  generalize s * k = m
  norm_num
  omega

theorem Driver.Move_tick_remainders_zero (env : Env) (lf rf d : Int) (drv : Driver)
    (m : MoveLocals) (hl : 16384 ∣ lf) (hr : 16384 ∣ rf)
    (h0 : drv.left_remainder_ = 0 ∧ drv.right_remainder_ = 0) :
    (Driver.Move_tick env lf rf d drv m).2.1.left_remainder_ = 0 ∧
    (Driver.Move_tick env lf rf d drv m).2.1.right_remainder_ = 0 := by
  unfold Driver.Move_tick
  dsimp only [Driver.Poll, Driver.emit, Driver.GetTime]
  rw [h0.1, h0.2]
  exact ⟨FractionalMove_remainder_zero _ _ _ hl, FractionalMove_remainder_zero _ _ _ hr⟩

theorem Driver.Move_loop_remainders_zero (env : Env) (lf rf d : Int) (hl : 16384 ∣ lf)
    (hr : 16384 ∣ rf) (fuel : Nat) :
    ∀ (drv : Driver) (m : MoveLocals) (b : Bool) (drv1 : Driver) (m1 : MoveLocals),
      drv.left_remainder_ = 0 ∧ drv.right_remainder_ = 0 →
      Driver.Move_loop env lf rf d fuel drv m = some (b, drv1, m1) →
      drv1.left_remainder_ = 0 ∧ drv1.right_remainder_ = 0 := by
  induction fuel with
  | zero =>
    intro drv m b drv1 m1 hok h
    simp only [Driver.Move_loop] at h
    split_ifs at h with hc
    simp only [Option.some.injEq, Prod.mk.injEq] at h
    obtain ⟨_, rfl, _⟩ := h
    exact hok
  | succ n ih =>
    intro drv m b drv1 m1 hok h
    simp only [Driver.Move_loop] at h
    split_ifs at h with hc ht
    · simp only [Option.some.injEq, Prod.mk.injEq] at h
      obtain ⟨_, rfl, _⟩ := h
      exact Driver.Move_tick_remainders_zero env lf rf d drv m hl hr hok
    · exact ih _ _ _ _ _ (Driver.Move_tick_remainders_zero env lf rf d drv m hl hr hok) h
    · simp only [Option.some.injEq, Prod.mk.injEq] at h
      obtain ⟨_, rfl, _⟩ := h
      exact hok

set_option maxRecDepth 100000 in
theorem Driver.geared_forward_one :
    Driver.ForwardSteps (sampleEnv 1000) 5 { calibration_ := geared } 1 =
      some (true, sampleGeared) := by
  decide

/-- C17, as amended. Every `Move` enters its loop with a fresh wheel (virtual velocity 0 and
virtual position 0), the virtual counter `s = 0` and both physical position counters at 0,
whatever the state left by earlier commands; the two remainders are not reset: the loop is
entered with the values the driver holds, which a returning `Move` leaves in `[0, 2^14)`,
and which stay 0 when they were 0 and both fractions are multiples of `2^14`. -/
theorem Move_starts_from_rest (env : Env) (fuel : Nat) (drv : Driver) (lf rf d : Int) :
    Driver.Move_run env fuel drv lf rf d =
      Driver.Move_loop env lf rf d fuel
        { drv with reads := drv.reads + 1 }
        { w := { s_ := 0, v_ := 0 }, s := 0, l := 0, r := 0,
          start := toUInt16 (env.time drv.reads) } ∧
    ∀ (b : Bool) (drv1 : Driver) (m1 : MoveLocals),
      Driver.Move_run env fuel drv lf rf d = some (b, drv1, m1) →
      (drv.RemaindersOk → drv1.RemaindersOk) ∧
      (16384 ∣ lf → 16384 ∣ rf → drv.left_remainder_ = 0 ∧ drv.right_remainder_ = 0 →
        drv1.left_remainder_ = 0 ∧ drv1.right_remainder_ = 0) := by
  refine ⟨rfl, ?_⟩
  intro b drv1 m1 h
  refine ⟨?_, ?_⟩
  · intro hok
    refine Driver.Move_loop_remainders env lf rf d fuel _ _ _ _ _ ?_ h
    exact hok
  · intro hl hr h0
    refine Driver.Move_loop_remainders_zero env lf rf d hl hr fuel _ _ _ _ _ ?_ h
    exact h0

set_option maxRecDepth 100000 in
theorem Move_starts_from_rest_witness :
    Driver.Move_run (sampleEnv 1) 5 { calibration_ := sampleCalibration } 16384 16384 5 =
      some (false, sampleCancelled,
        { w := { s_ := 70830439022700, v_ := 1080803220 }, s := 0, l := 0, r := 0,
          start := 65534 }) ∧
    sampleCancelled.RemaindersOk ∧
    sampleCancelled.left_remainder_ = 0 ∧ sampleCancelled.right_remainder_ = 0 :=
  ⟨by decide,
    ((Move_starts_from_rest (sampleEnv 1) 5 { calibration_ := sampleCalibration } 16384 16384
      5).2 false sampleCancelled
      { w := { s_ := 70830439022700, v_ := 1080803220 }, s := 0, l := 0, r := 0, start := 65534 }
      (by decide)).1 (by simp [Driver.RemaindersOk]),
    ((Move_starts_from_rest (sampleEnv 1) 5 { calibration_ := sampleCalibration } 16384 16384
      5).2 false sampleCancelled
      { w := { s_ := 70830439022700, v_ := 1080803220 }, s := 0, l := 0, r := 0, start := 65534 }
      (by decide)).2 (dvd_refl _) (dvd_refl _) ⟨rfl, rfl⟩⟩

/-- C17 as stated fails for the remainders: with the calibration `geared` (fractions
`16385`), `ForwardSteps(1)` from the initial state runs to the end and leaves both remainders
at 1, so the next `Move` enters its loop with `left_remainder_ = right_remainder_ = 1`. -/
theorem Move_starts_from_rest_counterexample :
    Driver.ForwardSteps (sampleEnv 1000) 5 { calibration_ := geared } 1 =
      some (true, sampleGeared) ∧
    Driver.Move_run (sampleEnv 1000) 5 sampleGeared 16385 16385 1 =
      Driver.Move_loop (sampleEnv 1000) 16385 16385 1 5
        { sampleGeared with reads := 5 }
        { w := { s_ := 0, v_ := 0 }, s := 0, l := 0, r := 0, start := 65532 } ∧
    ({ sampleGeared with reads := 5 } : Driver).left_remainder_ = 1 ∧
    ({ sampleGeared with reads := 5 } : Driver).right_remainder_ = 1 :=
  ⟨Driver.geared_forward_one, rfl, rfl, rfl⟩

/-! ## Cancellation inside `Move`, and the sign conventions -/

/-- C18 (cooperative cancellation). A returning `Move` ran some number of loop iterations,
one per element of `ds`; each iteration calls `Move` on the left stepper, then on the right
stepper, then evaluates the predicate once (`Move_events`), so the predicate was evaluated
exactly once per iteration. `Move` returns `false` if and only if some evaluation answered
`true`; every evaluation before the last one answered `false`, so the `true` answer is that
of the last iteration and no stepper call follows it. `Move` returns `true` only with the
virtual counter `s` no longer below `d`. -/
theorem Move_cooperative_cancellation (env : Env) (fuel : Nat) (drv : Driver) (lf rf d : Int)
    (b : Bool) (drv1 : Driver) (m1 : MoveLocals)
    (h : Driver.Move_run env fuel drv lf rf d = some (b, drv1, m1)) :
    ∃ ds : List (Int × Int),
      drv1.log = drv.log ++ Move_events env drv.polls ds ∧
      drv1.polls = drv.polls + ds.length ∧
      (b = false ↔ ∃ j : Nat, j < ds.length ∧ env.interrupted (drv.polls + j) = true) ∧
      (∀ j : Nat, j + 1 < ds.length → env.interrupted (drv.polls + j) = false) ∧
      (b = false → ds ≠ [] ∧ env.interrupted (drv.polls + (ds.length - 1)) = true) ∧
      (b = true → ¬ m1.s < d) := by
  obtain ⟨ds, ⟨_, _, _, e4, e5, e6, e7, e8⟩, e9⟩ :=
    Driver.Move_run_effect env fuel drv lf rf d b drv1 m1 h
  refine ⟨ds, e4, e5, ?_, e6, e7, e9⟩
  constructor
  · intro hb
    obtain ⟨hne, hlast⟩ := e7 hb
    have hpos : 0 < ds.length := List.length_pos.mpr hne
    exact ⟨ds.length - 1, by omega, hlast⟩
  · rintro ⟨j, hj, hjt⟩
    cases b with
    | false => rfl
    | true =>
      have := e8 rfl j hj
      rw [this] at hjt
      cases hjt

set_option maxRecDepth 100000 in
theorem Move_cooperative_cancellation_witness :
    ∃ ds : List (Int × Int),
      sampleCancelled.log =
        ({ calibration_ := sampleCalibration } : Driver).log ++ Move_events (sampleEnv 1) 0 ds ∧
      sampleCancelled.polls = 0 + ds.length ∧
      (false = false ↔ ∃ j : Nat, j < ds.length ∧ (sampleEnv 1).interrupted (0 + j) = true) ∧
      (∀ j : Nat, j + 1 < ds.length → (sampleEnv 1).interrupted (0 + j) = false) ∧
      (false = false → ds ≠ [] ∧ (sampleEnv 1).interrupted (0 + (ds.length - 1)) = true) ∧
      (false = true → ¬ (0 : Int) < 5) :=
  Move_cooperative_cancellation (sampleEnv 1) 5 { calibration_ := sampleCalibration } 16384 16384
    5 false sampleCancelled
    { w := { s_ := 70830439022700, v_ := 1080803220 }, s := 0, l := 0, r := 0, start := 65534 }
    (by decide)

theorem toUInt16_eq_self {x : Int} (h : 0 ≤ x ∧ x ≤ 65535) : toUInt16 x = x := by
  unfold toUInt16
  omega

/-- The arguments of the `Move` made by `ForwardSteps(n)` when no negation overflows. -/
theorem Driver.ForwardSteps_args_eq (drv : Driver) (n : Int) (hn : |n| ≤ 32767)
    (hl : |drv.calibration_.left_fraction| ≤ 32767)
    (hr : |drv.calibration_.right_fraction| ≤ 32767) :
    drv.ForwardSteps_args n =
      (-(if n < 0 then -1 else 1) * drv.calibration_.left_fraction,
        (if n < 0 then -1 else 1) * drv.calibration_.right_fraction, |n|) := by
  obtain ⟨hl1, hl2⟩ := abs_le.mp hl
  obtain ⟨hr1, hr2⟩ := abs_le.mp hr
  obtain ⟨hn1, hn2⟩ := abs_le.mp hn
  unfold Driver.ForwardSteps_args
  by_cases hneg : n < 0
  · simp only [hneg, if_true]
    rw [abs_of_neg hneg, toInt16_eq_self (x := -n) ⟨by omega, by omega⟩,
      toInt16_eq_self (x := - -1 * drv.calibration_.left_fraction) ⟨by omega, by omega⟩,
      toInt16_eq_self (x := -1 * drv.calibration_.right_fraction) ⟨by omega, by omega⟩,
      toUInt16_eq_self (x := -n) ⟨by omega, by omega⟩]
  · simp only [hneg, if_false]
    rw [abs_of_nonneg (not_lt.mp hneg),
      toInt16_eq_self (x := -1 * drv.calibration_.left_fraction) ⟨by omega, by omega⟩,
      toInt16_eq_self (x := 1 * drv.calibration_.right_fraction) ⟨by omega, by omega⟩,
      toUInt16_eq_self (x := n) ⟨by omega, by omega⟩]

/-- The arguments of the `Move` made by `RotateSteps` for the effective step count `n` when
no negation of a fraction overflows. -/
theorem Driver.RotateSteps_args_eq (drv : Driver) (n : Int) (hn : -32768 ≤ n ∧ n ≤ 32767)
    (hl : |drv.calibration_.left_fraction| ≤ 32767)
    (hr : |drv.calibration_.right_fraction| ≤ 32767) :
    drv.RotateSteps_args n =
      (-(if n < 0 then -1 else 1) * drv.calibration_.left_fraction,
        -(if n < 0 then -1 else 1) * drv.calibration_.right_fraction, |n|) := by
  obtain ⟨hl1, hl2⟩ := abs_le.mp hl
  obtain ⟨hr1, hr2⟩ := abs_le.mp hr
  obtain ⟨hn1, hn2⟩ := hn
  unfold Driver.RotateSteps_args
  by_cases hneg : n < 0
  · simp only [hneg, if_true]
    have hd : toUInt16 (toInt16 (-n)) = -n := by
      unfold toUInt16 toInt16 wrapSigned
      norm_num
      omega
    rw [abs_of_neg hneg, hd,
      toInt16_eq_self (x := - -1 * drv.calibration_.left_fraction) ⟨by omega, by omega⟩,
      toInt16_eq_self (x := - -1 * drv.calibration_.right_fraction) ⟨by omega, by omega⟩]
  · simp only [hneg, if_false]
    rw [abs_of_nonneg (not_lt.mp hneg),
      toInt16_eq_self (x := -1 * drv.calibration_.left_fraction) ⟨by omega, by omega⟩,
      toInt16_eq_self (x := -1 * drv.calibration_.right_fraction) ⟨by omega, by omega⟩,
      toUInt16_eq_self (x := n) ⟨by omega, by omega⟩]

/-- C20 (forward sign convention), as amended. When neither calibrated fraction is the most
negative `int16_t` (`|fraction| <= 32767`), for every `n` with `0 < |n| <= 32767`:
`ForwardSteps(n)` is the `Move` with left fraction `-sign(n) * left_fraction`, right fraction
`sign(n) * right_fraction` and distance `|n|`; `ForwardSteps(-n)` uses the same distance and
the negated pair of fractions; and when the calibrated fractions have equal sign (their
product is positive) the two wheels receive fractions of opposite sign. -/
theorem ForwardSteps_sign_convention (env : Env) (fuel : Nat) (drv : Driver) (n : Int)
    (hn : 0 < |n| ∧ |n| ≤ 32767)
    (hl : |drv.calibration_.left_fraction| ≤ 32767)
    (hr : |drv.calibration_.right_fraction| ≤ 32767) :
    Driver.ForwardSteps env fuel drv n =
      Driver.Move env fuel drv (-Int.sign n * drv.calibration_.left_fraction)
        (Int.sign n * drv.calibration_.right_fraction) |n| ∧
    drv.ForwardSteps_args (-n) =
      (-(drv.ForwardSteps_args n).1, -(drv.ForwardSteps_args n).2.1,
        (drv.ForwardSteps_args n).2.2) ∧
    (0 < drv.calibration_.left_fraction * drv.calibration_.right_fraction →
      (drv.ForwardSteps_args n).1 * (drv.ForwardSteps_args n).2.1 < 0) := by
  have h1 := Driver.ForwardSteps_args_eq drv n hn.2 hl hr
  have h2 := Driver.ForwardSteps_args_eq drv (-n) (by rw [abs_neg]; exact hn.2) hl hr
  have hne : n ≠ 0 := fun h0 => by rw [h0] at hn; simp at hn
  refine ⟨?_, ?_, ?_⟩
  · unfold Driver.ForwardSteps
    dsimp only
    rw [h1]
    rcases lt_or_gt_of_ne hne with hneg | hpos
    · rw [Int.sign_eq_neg_one_of_neg hneg, if_pos hneg]
    · rw [Int.sign_eq_one_of_pos hpos, if_neg (by omega)]
  · rw [h2, h1, abs_neg]
    rcases lt_or_gt_of_ne hne with hneg | hpos
    · rw [if_pos hneg, if_neg (by omega)]
      simp
    · rw [if_neg (by omega : ¬ n < 0), if_pos (by omega : -n < 0)]
      simp
  · intro hprod
    rw [h1]
    dsimp only
    by_cases hneg : n < 0
    · rw [if_pos hneg]
      nlinarith
    · rw [if_neg hneg]
      nlinarith

theorem ForwardSteps_sign_convention_witness :
    Driver.ForwardSteps (sampleEnv 3) 60 { calibration_ := unityCalibration } (-5) =
      Driver.Move (sampleEnv 3) 60 { calibration_ := unityCalibration }
        (-Int.sign (-5) * 16384) (Int.sign (-5) * 16384) |(-5 : Int)| ∧
    ({ calibration_ := unityCalibration } : Driver).ForwardSteps_args (- -5) =
      (-(({ calibration_ := unityCalibration } : Driver).ForwardSteps_args (-5)).1,
        -(({ calibration_ := unityCalibration } : Driver).ForwardSteps_args (-5)).2.1,
        (({ calibration_ := unityCalibration } : Driver).ForwardSteps_args (-5)).2.2) ∧
    ((0 : Int) < 16384 * 16384 →
      (({ calibration_ := unityCalibration } : Driver).ForwardSteps_args (-5)).1 *
        (({ calibration_ := unityCalibration } : Driver).ForwardSteps_args (-5)).2.1 < 0) :=
  ForwardSteps_sign_convention (sampleEnv 3) 60 { calibration_ := unityCalibration } (-5)
    (by decide) (by decide) (by decide)

/-- C20 as stated fails when the calibrated fractions are the most negative `int16_t`: the
negation wraps, so `ForwardSteps(1)` and `ForwardSteps(-1)` pass the same pair of fractions
`(-32768, -32768)` to `Move`, which is not `(32768, -32768)`, is not negated by reversing the
sign of `n`, and gives both wheels the same sign although the calibrated fractions have equal
sign. -/
theorem ForwardSteps_sign_convention_counterexample :
    extremeCalibration.left_fraction = -32768 ∧ extremeCalibration.right_fraction = -32768 ∧
    ({ calibration_ := extremeCalibration } : Driver).ForwardSteps_args 1 = (-32768, -32768, 1) ∧
    ({ calibration_ := extremeCalibration } : Driver).ForwardSteps_args (-1) =
      (-32768, -32768, 1) := by
  decide

/-- C21 (rotate sign convention), as amended. When neither calibrated fraction is the most
negative `int16_t`, `RotateSteps(steps)` is, after the bias bookkeeping, the `Move` with left
fraction `-sign * left_fraction`, right fraction `-sign * right_fraction` and distance `|n|`,
where `n` is the effective step count (bias folded in, as an `int16_t`) and `sign` is `-1`
for `n < 0` and `1` otherwise (the sign of `n` when `n` is not 0): both wheels receive the
calibrated fractions multiplied by the same sign. For every `m` with `0 < |m| <= 32767`,
reversing the sign of `m` keeps the distance and negates both fractions. -/
theorem RotateSteps_sign_convention (env : Env) (fuel : Nat) (drv : Driver) (steps : Int)
    (hl : |drv.calibration_.left_fraction| ≤ 32767)
    (hr : |drv.calibration_.right_fraction| ≤ 32767) :
    ∃ n sign : Int,
      n = toInt16 (steps +
        (Driver.RotateSteps_bias drv.calibration_.angle_offset drv.angle_fraction_).1) ∧
      sign = (if n < 0 then -1 else 1) ∧ (n ≠ 0 → sign = Int.sign n) ∧
      Driver.RotateSteps env fuel drv steps =
        Driver.Move env fuel
          { drv with angle_fraction_ :=
              (Driver.RotateSteps_bias drv.calibration_.angle_offset drv.angle_fraction_).2 }
          (-sign * drv.calibration_.left_fraction) (-sign * drv.calibration_.right_fraction)
          |n| ∧
      ∀ m : Int, 0 < |m| ∧ |m| ≤ 32767 →
        drv.RotateSteps_args (-m) =
          (-(drv.RotateSteps_args m).1, -(drv.RotateSteps_args m).2.1,
            (drv.RotateSteps_args m).2.2) := by
  refine ⟨_, _, rfl, rfl, ?_, ?_, ?_⟩
  · intro hne
    rcases lt_or_gt_of_ne hne with hneg | hpos
    · rw [Int.sign_eq_neg_one_of_neg hneg, if_pos hneg]
    · rw [Int.sign_eq_one_of_pos hpos, if_neg (by omega)]
  · have hn := toInt16_isInt16 (steps +
      (Driver.RotateSteps_bias drv.calibration_.angle_offset drv.angle_fraction_).1)
    rw [Driver.RotateSteps_eq, Driver.RotateSteps_args_eq drv _ hn hl hr]
  · intro m hm
    obtain ⟨hm1, hm2⟩ := abs_le.mp hm.2
    have hne : m ≠ 0 := fun h0 => by rw [h0] at hm; simp at hm
    rw [Driver.RotateSteps_args_eq drv m ⟨by omega, by omega⟩ hl hr,
      Driver.RotateSteps_args_eq drv (-m) ⟨by omega, by omega⟩ hl hr, abs_neg]
    rcases lt_or_gt_of_ne hne with hneg | hpos
    · rw [if_pos hneg, if_neg (by omega)]
      simp
    · rw [if_neg (by omega : ¬ m < 0), if_pos (by omega : -m < 0)]
      simp

theorem RotateSteps_sign_convention_witness :
    ∃ n sign : Int,
      n = toInt16 (-7 + (Driver.RotateSteps_bias 0 0).1) ∧
      sign = (if n < 0 then -1 else 1) ∧ (n ≠ 0 → sign = Int.sign n) ∧
      Driver.RotateSteps (sampleEnv 3) 60 { calibration_ := unityCalibration } (-7) =
        Driver.Move (sampleEnv 3) 60
          { calibration_ := unityCalibration,
            angle_fraction_ := (Driver.RotateSteps_bias 0 0).2 }
          (-sign * 16384) (-sign * 16384) |n| ∧
      ∀ m : Int, 0 < |m| ∧ |m| ≤ 32767 →
        ({ calibration_ := unityCalibration } : Driver).RotateSteps_args (-m) =
          (-(({ calibration_ := unityCalibration } : Driver).RotateSteps_args m).1,
            -(({ calibration_ := unityCalibration } : Driver).RotateSteps_args m).2.1,
            (({ calibration_ := unityCalibration } : Driver).RotateSteps_args m).2.2) :=
  RotateSteps_sign_convention (sampleEnv 3) 60 { calibration_ := unityCalibration } (-7)
    (by decide) (by decide)

/-- C21 as stated fails when the calibrated fractions are the most negative `int16_t`: the
negation wraps, so the effective step counts `1` and `-1` both make `RotateSteps` pass the
pair `(-32768, -32768)` to `Move`, instead of `(32768, 32768)` for `1`, and reversing the
sign does not negate the fractions; reversing the sign of the step count `0` does not negate
them either, with any calibration. -/
theorem RotateSteps_sign_convention_counterexample :
    extremeCalibration.left_fraction = -32768 ∧ extremeCalibration.right_fraction = -32768 ∧
    ({ calibration_ := extremeCalibration } : Driver).RotateSteps_args 1 = (-32768, -32768, 1) ∧
    ({ calibration_ := extremeCalibration } : Driver).RotateSteps_args (-1) =
      (-32768, -32768, 1) ∧
    ({ calibration_ := unityCalibration } : Driver).RotateSteps_args (-0) =
      ({ calibration_ := unityCalibration } : Driver).RotateSteps_args 0 ∧
    ({ calibration_ := unityCalibration } : Driver).RotateSteps_args 0 = (-16384, -16384, 0) := by
  decide

/-! ## `Rotate`: arc minutes to steps -/

/-- Truncating division by a positive number, by cases on the sign of the dividend. -/
theorem tdiv_eq_cases (x k : Int) (hk : 0 < k) :
    Int.tdiv x k = if 0 ≤ x then x / k else -((-x) / k) := by
  by_cases hx : 0 ≤ x
  · rw [if_pos hx, Int.tdiv_eq_ediv hx (le_of_lt hk)]
  · rw [if_neg hx]
    have : x = -(-x) := by ring
    rw [this, Int.neg_tdiv, Int.tdiv_eq_ediv (by omega) (le_of_lt hk)]
    simp

theorem Rotate_steps_eq (m : Int) (hm : IsInt16 m) :
    IsInt32 (m * 10000) ∧ Rotate_steps m = Int.tdiv (m * 10000) 34496 ∧
    |Int.tdiv (m * 10000) 34496| ≤ 9499 ∧
    (-32767 ≤ m → |Int.tdiv (m * 10000) 34496| ≤ 9498) := by
  obtain ⟨h1, h2⟩ := hm
  have hc := tdiv_eq_cases (m * 10000) 34496 (by norm_num)
  have hb : -9499 ≤ Int.tdiv (m * 10000) 34496 ∧ Int.tdiv (m * 10000) 34496 ≤ 9499 := by
    rw [hc]
    split_ifs <;> constructor <;> omega
  have hb2 : -32767 ≤ m →
      -9498 ≤ Int.tdiv (m * 10000) 34496 ∧ Int.tdiv (m * 10000) 34496 ≤ 9498 := by
    intro h3
    rw [hc]
    split_ifs <;> constructor <;> omega
  refine ⟨⟨by omega, by omega⟩, ?_, abs_le.mpr hb, fun h3 => abs_le.mpr (hb2 h3)⟩
  unfold Rotate_steps
  rw [toInt32_eq_self (x := m) ⟨by omega, by omega⟩,
    toInt32_eq_self (x := m * 10000) ⟨by omega, by omega⟩,
    toInt16_eq_self (x := Int.tdiv (m * 10000) 34496) ⟨by omega, by omega⟩]

/-- C22 (`Rotate` numerics), as amended. For every `int16_t` value `m` of `minutes` the
product `m * 10000` fits in 32 bits, the steps passed to `RotateSteps` are the quotient
`(m * 10000) / 34496` truncated toward zero, and `|d| <= 9499`, so `d` fits in `int16_t`; the
bound `|d| <= 9498` and the oddness `d(-m) = -d(m)` hold for every `m >= -32767`; a full turn
of 21600 arc minutes gives 6261 steps. -/
theorem Rotate_steps_spec (m : Int) (hm : IsInt16 m) :
    IsInt32 (m * 10000) ∧ Rotate_steps m = Int.tdiv (m * 10000) 34496 ∧
    |Rotate_steps m| ≤ 9499 ∧ IsInt16 (Int.tdiv (m * 10000) 34496) ∧
    (-32767 ≤ m → |Rotate_steps m| ≤ 9498 ∧ Rotate_steps (-m) = -Rotate_steps m) ∧
    Rotate_steps 21600 = 6261 := by
  obtain ⟨e1, e2, e3, e4⟩ := Rotate_steps_eq m hm
  have e3b := abs_le.mp e3
  have e3c := e3b.1
  have e3d := e3b.2
  refine ⟨e1, e2, by rw [e2]; exact e3, ⟨by omega, by omega⟩, ?_, by decide⟩
  intro h3
  obtain ⟨hm1, hm2⟩ := hm
  obtain ⟨_, f2, _, _⟩ := Rotate_steps_eq (-m) ⟨by omega, by omega⟩
  refine ⟨by rw [e2]; exact e4 h3, ?_⟩
  rw [f2, e2, neg_mul, Int.neg_tdiv]

theorem Rotate_steps_spec_witness :
    IsInt32 (10800 * 10000) ∧ Rotate_steps 10800 = Int.tdiv (10800 * 10000) 34496 ∧
    |Rotate_steps 10800| ≤ 9499 ∧ IsInt16 (Int.tdiv (10800 * 10000) 34496) ∧
    (-32767 ≤ (10800 : Int) →
      |Rotate_steps 10800| ≤ 9498 ∧ Rotate_steps (-10800) = -Rotate_steps 10800) ∧
    Rotate_steps 21600 = 6261 :=
  Rotate_steps_spec 10800 (by decide)

/-- C22 as stated fails at the most negative `int16_t`: `Rotate(-32768)` passes `-9499` steps,
whose magnitude exceeds 9498. -/
theorem Rotate_steps_spec_counterexample :
    IsInt16 (-32768) ∧ Rotate_steps (-32768) = -9499 ∧ ¬ |Rotate_steps (-32768)| ≤ 9498 := by
  decide

/-! ## `Wheel::Update` against its specification -/

/-- The position stored by `Update`, from the position sum. -/
theorem Wheel.Update_s_eq (w : Wheel) (dt_ticks : Nat) (a : Int) :
    (w.Update dt_ticks a).1.s_ =
      if toInt64 (w.s_ + Int.tdiv
          (toInt64 (toInt64 (w.v_ + (w.Update dt_ticks a).1.v_) * dt_ticks)) 2) > 2 ^ 47 then
        toInt64 (toInt64 (w.s_ + Int.tdiv
          (toInt64 (toInt64 (w.v_ + (w.Update dt_ticks a).1.v_) * dt_ticks)) 2) - 2 ^ 48)
      else if toInt64 (w.s_ + Int.tdiv
          (toInt64 (toInt64 (w.v_ + (w.Update dt_ticks a).1.v_) * dt_ticks)) 2) < -(2 ^ 47) then
        toInt64 (toInt64 (w.s_ + Int.tdiv
          (toInt64 (toInt64 (w.v_ + (w.Update dt_ticks a).1.v_) * dt_ticks)) 2) + 2 ^ 48)
      else toInt64 (w.s_ + Int.tdiv
          (toInt64 (toInt64 (w.v_ + (w.Update dt_ticks a).1.v_) * dt_ticks)) 2) := by
  rw [Wheel.Update_v_eq]
  unfold Wheel.Update
  simp only
  split_ifs <;> rfl

/-- The pulse returned by `Update` is `-1`, `0` or `1`, whatever the inputs. -/
theorem Wheel.Update_pulse_cases (w : Wheel) (dt_ticks : Nat) (a : Int) :
    (w.Update dt_ticks a).2 = -1 ∨ (w.Update dt_ticks a).2 = 0 ∨ (w.Update dt_ticks a).2 = 1 := by
  rw [Wheel.Update_pulse_eq]
  split_ifs
  · exact Or.inr (Or.inr rfl)
  · exact Or.inl rfl
  · exact Or.inr (Or.inl rfl)

/-- The velocity stored by `Update` for inputs in range: the exact sum, clamped. -/
theorem Wheel.Update_v_exact (w : Wheel) (dt_ticks : Nat) (a : Int)
    (hv : |w.v_| ≤ Wheel.kMaxV) (hdt : dt_ticks ≤ 65535) (ha : |a| ≤ Wheel.kMaxA) :
    (w.Update dt_ticks a).1.v_ =
      max (-Wheel.kMaxV) (min Wheel.kMaxV (w.v_ + a * (dt_ticks : Int))) := by
  obtain ⟨h1, h2⟩ := Wheel.Update_no_overflow w dt_ticks a hv hdt ha
  rw [abs_le] at h1 h2
  have e : Wheel.Update_v2 w dt_ticks a = w.v_ + a * (dt_ticks : Int) := by
    unfold Wheel.Update_v2
    rw [toInt64_eq_self (x := a * (dt_ticks : Int)) ⟨by omega, by omega⟩,
      toInt64_eq_self (x := w.v_ + a * (dt_ticks : Int)) ⟨by omega, by omega⟩]
  have hk : (0 : Int) ≤ Wheel.kMaxV := by rw [Wheel.kMaxV_eq]; norm_num
  rw [Wheel.Update_v_eq, e]
  generalize Wheel.kMaxV = K at hk ⊢
  generalize w.v_ + a * (dt_ticks : Int) = x
  split_ifs with c1 c2
  · rw [min_eq_left (by omega), max_eq_right (by omega)]
  · rw [min_eq_right (by omega), max_eq_left (by omega)]
  · rw [min_eq_right (by omega), max_eq_right (by omega)]

/-- For a state and inputs in range no `int64_t` operation of `Update` overflows and `Update`
computes what the specification says. -/
theorem Wheel.Update_exact (w : Wheel) (dt_ticks : Nat) (a : Int)
    (hs : |w.s_| ≤ 2 ^ 62) (hv : |w.v_| ≤ Wheel.kMaxV) (hdt : dt_ticks ≤ 65535)
    (ha : |a| ≤ Wheel.kMaxA) :
    w.Update dt_ticks a = w.Update_spec dt_ticks a := by
  have hV := Wheel.Update_abs_v_le w dt_ticks a
  have hve := Wheel.Update_v_exact w dt_ticks a hv hdt ha
  have hp := Wheel.Update_pulse_eq w dt_ticks a
  have hq := Wheel.Update_s_eq w dt_ticks a
  rw [Wheel.kMaxV_eq] at hv hV
  have hd : ((dt_ticks : Nat) : Int) ≤ 65535 := by exact_mod_cast hdt
  have hd0 : (0 : Int) ≤ (dt_ticks : Int) := Int.ofNat_nonneg _
  rcases hU : w.Update dt_ticks a with ⟨⟨us, V⟩, up⟩
  rw [hU] at hV hve hp hq
  dsimp only at hV hve hp hq
  have hsum : |w.v_ + V| ≤ 26388279066 :=
    le_trans (abs_add _ _) (by linarith)
  have hprod : |(w.v_ + V) * (dt_ticks : Int)| ≤ 1729355868590310 := by
    rw [abs_mul, abs_of_nonneg hd0]
    calc |w.v_ + V| * (dt_ticks : Int) ≤ 26388279066 * 65535 :=
          mul_le_mul hsum hd hd0 (by norm_num)
      _ = 1729355868590310 := by norm_num
  have hsb := abs_le.mp hs
  have hsumb := abs_le.mp hsum
  have hprodb := abs_le.mp hprod
  have hs1 := hsb.1
  have hs2 := hsb.2
  norm_num at hs1 hs2
  have i1 : toInt64 (w.v_ + V) = w.v_ + V := toInt64_eq_self ⟨by omega, by omega⟩
  have i2 : toInt64 ((w.v_ + V) * (dt_ticks : Int)) = (w.v_ + V) * (dt_ticks : Int) :=
    toInt64_eq_self ⟨by omega, by omega⟩
  rw [i1, i2] at hp hq
  have hc := tdiv_eq_cases ((w.v_ + V) * (dt_ticks : Int)) 2 (by norm_num)
  have hdiv : -1729355868590310 ≤ Int.tdiv ((w.v_ + V) * (dt_ticks : Int)) 2 ∧
      Int.tdiv ((w.v_ + V) * (dt_ticks : Int)) 2 ≤ 1729355868590310 := by
    rw [hc]
    split_ifs <;> constructor <;> omega
  unfold Wheel.Update_spec
  dsimp only
  rw [← hve]
  generalize Int.tdiv ((w.v_ + V) * (dt_ticks : Int)) 2 = D at hp hq hdiv ⊢
  have i3 : toInt64 (w.s_ + D) = w.s_ + D := toInt64_eq_self ⟨by omega, by omega⟩
  rw [i3] at hp hq
  have i4 : toInt64 (w.s_ + D - 2 ^ 48) = w.s_ + D - 2 ^ 48 :=
    toInt64_eq_self ⟨by norm_num; omega, by norm_num; omega⟩
  have i5 : toInt64 (w.s_ + D + 2 ^ 48) = w.s_ + D + 2 ^ 48 :=
    toInt64_eq_self ⟨by norm_num; omega, by norm_num; omega⟩
  rw [i4, i5] at hq
  by_cases c1 : w.s_ + D > 2 ^ 47
  · rw [if_pos c1] at hp hq
    rw [if_pos c1, hp, hq, mul_one]
  · rw [if_neg c1] at hp hq
    rw [if_neg c1]
    by_cases c2 : w.s_ + D < -(2 ^ 47)
    · rw [if_pos c2] at hp hq
      rw [if_pos c2, hp, hq]
      simp
    · rw [if_neg c2] at hp hq
      rw [if_neg c2, hp, hq]
      simp

/-- C25 (`Update` against its specification), as amended. For every input the returned pulse
is `-1`, `0` or `1` and the stored velocity is the clamped one. For a state with
`|s_| <= 2^62` and `|v_| <= kMaxV`, a tick count `dt <= 65535` and `|a| <= kMaxA`, no
`int64_t` operation overflows and `Update` is `Update_spec`: with
`v1 = clamp(v_ + a * dt, -kMaxV, kMaxV)` and `q = s_ + (v_ + v1) * dt / 2` it returns `1` iff
`q > 2^47`, `-1` iff `q < -2^47` and `0` otherwise, stores the position `q - 2^48 * pulse`
and stores the velocity `v1`. -/
theorem Wheel_Update_refines_spec (w : Wheel) (dt_ticks : Nat) (a : Int)
    (hs : |w.s_| ≤ 2 ^ 62) (hv : |w.v_| ≤ Wheel.kMaxV) (hdt : dt_ticks ≤ 65535)
    (ha : |a| ≤ Wheel.kMaxA) :
    w.Update dt_ticks a = w.Update_spec dt_ticks a ∧
    ((w.Update dt_ticks a).2 = 1 ↔
      w.s_ + Int.tdiv ((w.v_ + (w.Update_spec dt_ticks a).1.v_) * dt_ticks) 2 > 2 ^ 47) ∧
    ((w.Update dt_ticks a).2 = -1 ↔
      w.s_ + Int.tdiv ((w.v_ + (w.Update_spec dt_ticks a).1.v_) * dt_ticks) 2 < -(2 ^ 47)) ∧
    ∀ (w1 : Wheel) (dt1 : Nat) (a1 : Int),
      ((w1.Update dt1 a1).2 = -1 ∨ (w1.Update dt1 a1).2 = 0 ∨ (w1.Update dt1 a1).2 = 1) ∧
      |(w1.Update dt1 a1).1.v_| ≤ Wheel.kMaxV := by
  have he := Wheel.Update_exact w dt_ticks a hs hv hdt ha
  refine ⟨he, ?_, ?_, fun w1 dt1 a1 =>
    ⟨Wheel.Update_pulse_cases w1 dt1 a1, Wheel.Update_abs_v_le w1 dt1 a1⟩⟩
  · rw [he]
    unfold Wheel.Update_spec
    dsimp only
    generalize w.s_ + Int.tdiv ((w.v_ + max (-Wheel.kMaxV) (min Wheel.kMaxV
      (w.v_ + a * (dt_ticks : Int)))) * (dt_ticks : Int)) 2 = q
    split_ifs with c1 c2
    · exact ⟨fun _ => c1, fun _ => rfl⟩
    · exact ⟨fun h => absurd h (by norm_num), fun h => absurd h c1⟩
    · exact ⟨fun h => absurd h (by norm_num), fun h => absurd h c1⟩
  · rw [he]
    unfold Wheel.Update_spec
    dsimp only
    generalize w.s_ + Int.tdiv ((w.v_ + max (-Wheel.kMaxV) (min Wheel.kMaxV
      (w.v_ + a * (dt_ticks : Int)))) * (dt_ticks : Int)) 2 = q
    have h0 : (0 : Int) < 2 ^ 47 := by norm_num
    split_ifs with c1 c2
    · exact ⟨fun h => absurd h (by norm_num), fun h => by linarith⟩
    · exact ⟨fun _ => c2, fun _ => rfl⟩
    · exact ⟨fun h => absurd h (by norm_num), fun h => absurd h c2⟩

set_option maxRecDepth 100000 in
theorem Wheel_Update_refines_spec_witness :
    Wheel.Update ⟨140737488355328, 13194139533⟩ 21333 (-8246) =
      Wheel.Update_spec ⟨140737488355328, 13194139533⟩ 21333 (-8246) ∧
    (Wheel.Update ⟨140737488355328, 13194139533⟩ 21333 (-8246)).2 = 1 :=
  ⟨(Wheel_Update_refines_spec ⟨140737488355328, 13194139533⟩ 21333 (-8246)
      (by decide) (by decide) (by decide) (by decide)).1, by decide⟩

set_option maxRecDepth 100000 in
/-- C25 as stated fails for states close to the end of the `int64_t` range: from
`s_ = 2^63 - 1` and `v_ = kMaxV`, one tick with `a = 0` gives `q = 2^63 - 1 + kMaxV > 2^47`,
an `int64_t` overflow; the code (with wrapping arithmetic) returns `-1`, not `1`. -/
theorem Wheel_Update_refines_spec_counterexample :
    (Wheel.Update ⟨9223372036854775807, 13194139533⟩ 1 0).2 = -1 ∧
    (Wheel.Update_spec ⟨9223372036854775807, 13194139533⟩ 1 0).2 = 1 ∧
    (9223372036854775807 : Int) + Int.tdiv ((13194139533 + 13194139533) * 1) 2 > 2 ^ 47 := by
  decide

/-- C24 (no steps lost), as amended. For a state with `|s_| <= 2^47` and `|v_| <= kMaxV`, a
tick count `dt <= 21333` and `|a| <= kMaxA`, after `Update` the position again satisfies
`|s_| <= 2^47`, and it is the position sum `q` less `2^48` times the returned pulse: the
single pulse accounts for the whole advance of the tick. -/
theorem Wheel_Update_position_bound (w : Wheel) (dt_ticks : Nat) (a : Int)
    (hs : |w.s_| ≤ 2 ^ 47) (hv : |w.v_| ≤ Wheel.kMaxV) (hdt : dt_ticks ≤ 21333)
    (ha : |a| ≤ Wheel.kMaxA) :
    |(w.Update dt_ticks a).1.s_| ≤ 2 ^ 47 ∧
    (w.Update dt_ticks a).1.s_ =
      w.s_ + Int.tdiv ((w.v_ + (w.Update dt_ticks a).1.v_) * dt_ticks) 2 -
        2 ^ 48 * (w.Update dt_ticks a).2 := by
  have hV := Wheel.Update_abs_v_le w dt_ticks a
  have he := Wheel.Update_exact w dt_ticks a (le_trans hs (by norm_num)) hv (by omega) ha
  have hd : ((dt_ticks : Nat) : Int) ≤ 21333 := by exact_mod_cast hdt
  have hd0 : (0 : Int) ≤ (dt_ticks : Int) := Int.ofNat_nonneg _
  rw [Wheel.kMaxV_eq] at hv hV
  have hve : (w.Update dt_ticks a).1.v_ = (w.Update_spec dt_ticks a).1.v_ := by rw [he]
  rw [he]
  rw [hve] at hV
  unfold Wheel.Update_spec at hV ⊢
  dsimp only at hV ⊢
  generalize max (-Wheel.kMaxV) (min Wheel.kMaxV (w.v_ + a * (dt_ticks : Int))) = V at hV ⊢
  have hsum : |w.v_ + V| ≤ 26388279066 :=
    le_trans (abs_add _ _) (le_trans (add_le_add hv hV) (by norm_num))
  have hprod : |(w.v_ + V) * (dt_ticks : Int)| ≤ 562941157314978 := by
    rw [abs_mul, abs_of_nonneg hd0]
    calc |w.v_ + V| * (dt_ticks : Int) ≤ 26388279066 * 21333 :=
          mul_le_mul hsum hd hd0 (by norm_num)
      _ = 562941157314978 := by norm_num
  have hprodb := abs_le.mp hprod
  have hc := tdiv_eq_cases ((w.v_ + V) * (dt_ticks : Int)) 2 (by norm_num)
  have hdiv : -281470578657489 ≤ Int.tdiv ((w.v_ + V) * (dt_ticks : Int)) 2 ∧
      Int.tdiv ((w.v_ + V) * (dt_ticks : Int)) 2 ≤ 281470578657489 := by
    rw [hc]
    split_ifs <;> constructor <;> omega
  generalize Int.tdiv ((w.v_ + V) * (dt_ticks : Int)) 2 = D at hdiv ⊢
  have hsb := abs_le.mp hs
  have hs1 := hsb.1
  have hs2 := hsb.2
  norm_num at hs1 hs2
  refine ⟨?_, rfl⟩
  rw [abs_le]
  norm_num
  split_ifs <;> constructor <;> omega

set_option maxRecDepth 100000 in
theorem Wheel_Update_position_bound_witness :
    |(Wheel.Update ⟨140737488355328, 13194139533⟩ 21333 0).1.s_| ≤ 2 ^ 47 ∧
    (Wheel.Update ⟨140737488355328, 13194139533⟩ 21333 0).2 = 1 :=
  ⟨(Wheel_Update_position_bound ⟨140737488355328, 13194139533⟩ 21333 0
      (by decide) (by decide) (by decide) (by decide)).1, by decide⟩

set_option maxRecDepth 100000 in
/-- C24 as stated fails for long ticks: from `s_ = 0` at the velocity `kMaxV`, one tick of
65535 timer ticks with `a = 0` advances the position by more than three half-periods; `Update`
returns the single pulse `1` and stores `s_ = 583202957584499 > 2^47`. -/
theorem Wheel_Update_position_bound_counterexample :
    |(⟨0, 13194139533⟩ : Wheel).s_| ≤ 2 ^ 47 ∧ |(⟨0, 13194139533⟩ : Wheel).v_| ≤ Wheel.kMaxV ∧
    |(0 : Int)| ≤ Wheel.kMaxA ∧
    Wheel.Update ⟨0, 13194139533⟩ 65535 0 = (⟨583202957584499, 13194139533⟩, 1) ∧
    ¬ |(Wheel.Update ⟨0, 13194139533⟩ 65535 0).1.s_| ≤ 2 ^ 47 := by
  decide

/-- C26 (bounded acceleration). For a state with `|v_| <= kMaxV`, a tick count
`dt <= 65535` (any `uint16_t`) and `|a| <= kMaxA`, one `Update` changes the velocity by at
most `|a| * dt <= kMaxA * dt` in magnitude, and the change has the sign of `a` or is zero:
clamping never increases the change. -/
theorem Wheel_Update_bounded_acceleration (w : Wheel) (dt_ticks : Nat) (a : Int)
    (hv : |w.v_| ≤ Wheel.kMaxV) (hdt : dt_ticks ≤ 65535) (ha : |a| ≤ Wheel.kMaxA) :
    |(w.Update dt_ticks a).1.v_ - w.v_| ≤ |a * (dt_ticks : Int)| ∧
    |(w.Update dt_ticks a).1.v_ - w.v_| ≤ Wheel.kMaxA * (dt_ticks : Int) ∧
    (0 ≤ a → w.v_ ≤ (w.Update dt_ticks a).1.v_) ∧
    (a ≤ 0 → (w.Update dt_ticks a).1.v_ ≤ w.v_) := by
  have hve := Wheel.Update_v_exact w dt_ticks a hv hdt ha
  have hd0 : (0 : Int) ≤ (dt_ticks : Int) := Int.ofNat_nonneg _
  have hk : (0 : Int) ≤ Wheel.kMaxV := by rw [Wheel.kMaxV_eq]; norm_num
  have hle : |a * (dt_ticks : Int)| ≤ Wheel.kMaxA * (dt_ticks : Int) := by
    rw [abs_mul, abs_of_nonneg hd0]
    exact mul_le_mul_of_nonneg_right ha hd0
  have hvb := abs_le.mp hv
  have hpos : 0 ≤ a → 0 ≤ a * (dt_ticks : Int) := fun h => mul_nonneg h hd0
  have hneg : a ≤ 0 → a * (dt_ticks : Int) ≤ 0 := fun h => mul_nonpos_of_nonpos_of_nonneg h hd0
  rw [hve]
  generalize Wheel.kMaxV = K at hk hvb ⊢
  generalize a * (dt_ticks : Int) = x at hle hpos hneg ⊢
  generalize Wheel.kMaxA * (dt_ticks : Int) = B at hle
  have hmain : |max (-K) (min K (w.v_ + x)) - w.v_| ≤ |x| := by
    rw [abs_le]
    rcases le_total 0 x with hx | hx
    · rw [abs_of_nonneg hx]
      rcases le_total K (w.v_ + x) with h1 | h1
      · rw [min_eq_left h1, max_eq_right (by omega)]
        constructor <;> omega
      · rw [min_eq_right h1, max_eq_right (by omega)]
        constructor <;> omega
    · rw [abs_of_nonpos hx]
      rw [min_eq_right (by omega)]
      rcases le_total (-K) (w.v_ + x) with h1 | h1
      · rw [max_eq_right h1]
        constructor <;> omega
      · rw [max_eq_left h1]
        constructor <;> omega
  refine ⟨hmain, le_trans hmain hle, ?_, ?_⟩
  · intro h0
    have hx := hpos h0
    rcases le_total K (w.v_ + x) with h1 | h1
    · rw [min_eq_left h1, max_eq_right (by omega)]
      omega
    · rw [min_eq_right h1, max_eq_right (by omega)]
      omega
  · intro h0
    have hx := hneg h0
    rw [min_eq_right (by omega)]
    rcases le_total (-K) (w.v_ + x) with h1 | h1
    · rw [max_eq_right h1]
      omega
    · rw [max_eq_left h1]
      omega

set_option maxRecDepth 100000 in
theorem Wheel_Update_bounded_acceleration_witness :
    |(Wheel.Update ⟨0, 13194139000⟩ 65535 8246).1.v_ - 13194139000| ≤
      |(8246 : Int) * ((65535 : Nat) : Int)| ∧
    (Wheel.Update ⟨0, 13194139000⟩ 65535 8246).1.v_ = 13194139533 :=
  ⟨(Wheel_Update_bounded_acceleration ⟨0, 13194139000⟩ 65535 8246
      (by decide) (by decide) (by decide)).1, by decide⟩

/-! ## The allocator remainders over the lifetime of the driver -/

theorem Driver.DrawImage_remainders (env : Env) (fuel : Nat) (drv : Driver) (image : Image)
    (b : Bool) (drv1 : Driver) (hok : drv.RemaindersOk)
    (h : Driver.DrawImage env fuel drv image = some (b, drv1)) : drv1.RemaindersOk := by
  obtain ⟨i, pi, di, drvL, drvP, h1, h2, h3, h4, h5, h6, h7⟩ :=
    Driver.DrawImage_char env fuel drv image b drv1 h
  have hdi := Driver.DrawImage_played_remainders env fuel image drv hok i pi di h2
  have hL : drvL.RemaindersOk := by
    rcases Nat.lt_or_ge i image.num_points with hi | hi
    · obtain ⟨p1, hs⟩ := h5 hi
      exact Driver.DrawImage_segment_remainders env fuel image i pi di _ _ _ hdi hs
    · rw [h4 (by omega)]; exact hdi
  obtain ⟨k, hk⟩ := Driver.Pen_frame env fuel drvL false drvP h6
  rw [h7, hk]
  exact hL

/-- C27 (allocator remainder invariant). After every `FractionalMove` call, whatever `s`,
the fraction, the position and the incoming remainder, the stored remainder lies in
`[0, 2^14)`. Hence both remainders of the driver are in `[0, 2^14)` for its lifetime: they
are 0 in a new driver, every iteration of the loop of `Move` leaves them in range, and
`Pen`, `Move` and `DrawImage` keep them in range. -/
theorem FractionalMove_remainder_invariant (s fraction position remainder : Int) :
    (0 ≤ (FractionalMove s fraction position remainder).remainder ∧
      (FractionalMove s fraction position remainder).remainder < 2 ^ 14) ∧
    (∀ c : CalibrationData, ({ calibration_ := c } : Driver).RemaindersOk) ∧
    (∀ (env : Env) (lf rf d : Int) (drv : Driver) (m : MoveLocals),
      (Driver.Move_tick env lf rf d drv m).2.1.RemaindersOk) ∧
    (∀ (env : Env) (fuel : Nat) (drv : Driver) (lf rf d : Int) (b : Bool) (drv1 : Driver),
      drv.RemaindersOk → Driver.Move env fuel drv lf rf d = some (b, drv1) →
      drv1.RemaindersOk) ∧
    (∀ (env : Env) (fuel : Nat) (drv : Driver) (down : Bool) (r : Driver),
      drv.RemaindersOk → Driver.Pen env fuel drv down = some r → r.RemaindersOk) ∧
    (∀ (env : Env) (fuel : Nat) (drv : Driver) (image : Image) (b : Bool) (drv1 : Driver),
      drv.RemaindersOk → Driver.DrawImage env fuel drv image = some (b, drv1) →
      drv1.RemaindersOk) := by
  refine ⟨FractionalMove_remainder_range s fraction position remainder, ?_,
    Driver.Move_tick_remainders, ?_, ?_, ?_⟩
  · intro c
    simp [Driver.RemaindersOk]
  · intro env fuel drv lf rf d b drv1 hok h
    exact Driver.Move_remainders env fuel drv lf rf d b drv1 hok h
  · intro env fuel drv down r hok h
    obtain ⟨k, hk⟩ := Driver.Pen_frame env fuel drv down r h
    rw [hk]
    exact hok
  · intro env fuel drv image b drv1 hok h
    exact Driver.DrawImage_remainders env fuel drv image b drv1 hok h

set_option maxRecDepth 100000 in
theorem FractionalMove_remainder_invariant_witness :
    (FractionalMove 3 (-16385) 0 5).remainder = 2 ∧
    (0 ≤ (FractionalMove 3 (-16385) 0 5).remainder ∧
      (FractionalMove 3 (-16385) 0 5).remainder < 2 ^ 14) ∧
    sampleGeared.RemaindersOk :=
  ⟨by simp only [FractionalMove, Int_land_mask]; decide,
    (FractionalMove_remainder_invariant 3 (-16385) 0 5).1,
    (FractionalMove_remainder_invariant 3 (-16385) 0 5).2.2.2.1 (sampleEnv 1000) 5
      { calibration_ := geared } 16385 16385 1 true sampleGeared
      ((FractionalMove_remainder_invariant 3 (-16385) 0 5).2.1 geared)
      Driver.geared_forward_one⟩

/-! ## Elapsed time measured by `DelayUs` -/

theorem Env.elapsed_nonneg (env : Env) (j n : Nat) : 0 ≤ env.elapsed j n := by
  induction n with
  | zero => exact le_refl _
  | succ n ih =>
    have := (toUInt16_range (toUInt16 (env.time (j + n + 1)) - toUInt16 (env.time (j + n)))).1
    show 0 ≤ env.elapsed j n + _
    omega

theorem Env.elapsed_shift (env : Env) (j n : Nat) :
    env.elapsed j (n + 1) =
      toUInt16 (toUInt16 (env.time (j + 1)) - toUInt16 (env.time j)) + env.elapsed (j + 1) n := by
  induction n with
  | zero => simp [Env.elapsed]
  | succ n ih =>
    show env.elapsed j (n + 1) + _ = _ + (env.elapsed (j + 1) n + _)
    rw [ih, show j + 1 + n + 1 = j + (n + 1) + 1 by omega, show j + 1 + n = j + (n + 1) by omega]
    ring

/-- The loop of `DelayUs` entered after sample `j` with `t` ticks still to wait: when it
returns after `n` further samples, the differences over these samples sum to more than `t`,
and the sum without the last difference did not exceed `t`. -/
theorem Driver.DelayUs_loop_elapsed (env : Env) (fuel : Nat) :
    ∀ (drv : Driver) (t : Int) (j : Nat) (r : Driver),
      drv.reads = j + 1 → 0 ≤ t → t < 4294967296 →
      Driver.DelayUs_loop env fuel drv t (toUInt16 (env.time j)) = some r →
      ∃ n : Nat, r = { drv with reads := drv.reads + (n + 1) } ∧
        env.elapsed j (n + 1) > t ∧ env.elapsed j n ≤ t := by
  induction fuel with
  | zero => intro drv t j r _ _ _ h; simp [Driver.DelayUs_loop] at h
  | succ k ih =>
    intro drv t j r hj h0 h1 h
    simp only [Driver.DelayUs_loop, Driver.GetTime, hj] at h
    have hr := toUInt16_range (toUInt16 (env.time (j + 1)) - toUInt16 (env.time j))
    split_ifs at h with hc
    · refine ⟨0, ?_, ?_, h0⟩
      · simp only [Option.some.injEq] at h
        rw [← h, hj]
      · rw [Env.elapsed_shift]
        show _ + 0 > t
        omega
    · have ht : toUInt32 (t - toUInt16 (toUInt16 (env.time (j + 1)) - toUInt16 (env.time j))) =
          t - toUInt16 (toUInt16 (env.time (j + 1)) - toUInt16 (env.time j)) := by
        unfold toUInt32
        apply Int.emod_eq_of_lt <;> omega
      rw [ht] at h
      obtain ⟨n, hn, e1, e2⟩ := ih { drv with reads := j + 1 + 1 } _ (j + 1) r rfl
        (by omega) (by omega) h
      refine ⟨n + 1, ?_, ?_, ?_⟩
      · rw [hn, hj]
        simp
        omega
      · rw [Env.elapsed_shift]
        omega
      · rw [Env.elapsed_shift]
        omega

/-- What `DelayUs(t)` waits for: it takes the sample `begin` and `n + 1` further samples, and
the differences between consecutive samples sum to more than `(t * 16) mod 2^32` ticks,
while the sum without the last difference does not. -/
theorem Driver.DelayUs_elapsed (env : Env) (fuel : Nat) (drv : Driver) (t : Int) (r : Driver)
    (h : Driver.DelayUs env fuel drv t = some r) :
    ∃ n : Nat, r = { drv with reads := drv.reads + (n + 2) } ∧
      env.elapsed drv.reads (n + 1) > toUInt32 (t * Int.tdiv F_CPU 1000000) ∧
      env.elapsed drv.reads n ≤ toUInt32 (t * Int.tdiv F_CPU 1000000) := by
  unfold Driver.DelayUs at h
  have hr : 0 ≤ toUInt32 (t * Int.tdiv F_CPU 1000000) ∧
      toUInt32 (t * Int.tdiv F_CPU 1000000) < 4294967296 := by
    unfold toUInt32
    omega
  obtain ⟨n, hn, e1, e2⟩ := Driver.DelayUs_loop_elapsed env fuel (drv.GetTime env).2 _
    drv.reads r rfl hr.1 hr.2 h
  refine ⟨n, ?_, e1, e2⟩
  rw [hn]
  simp [Driver.GetTime]
  omega

/-- C30 (`DelayUs` timekeeping), as amended. For `0 <= t < 2^28` microseconds, so that
`t * (F_CPU / 1000000)` fits the `uint32_t` it is computed in, and for every sequence of timer
samples: if `DelayUs(t)` returns, it took `n + 2` samples and the `uint16_t` differences
`end - begin` between consecutive samples sum to strictly more than `t * (F_CPU / 1000000)`
ticks; it did not return earlier: the sum up to the sample before the last one was at most
that number. -/
theorem DelayUs_never_early (env : Env) (fuel : Nat) (drv : Driver) (t : Int) (r : Driver)
    (ht : 0 ≤ t ∧ t < 2 ^ 28) (h : Driver.DelayUs env fuel drv t = some r) :
    ∃ n : Nat, r = { drv with reads := drv.reads + (n + 2) } ∧
      env.elapsed drv.reads (n + 1) > t * Int.tdiv F_CPU 1000000 ∧
      env.elapsed drv.reads n ≤ t * Int.tdiv F_CPU 1000000 := by
  obtain ⟨n, hn, e1, e2⟩ := Driver.DelayUs_elapsed env fuel drv t r h
  have h16 : Int.tdiv F_CPU 1000000 = 16 := by decide
  have hfit : toUInt32 (t * Int.tdiv F_CPU 1000000) = t * Int.tdiv F_CPU 1000000 := by
    rw [h16]
    obtain ⟨t0, t1⟩ := ht
    norm_num at t1
    unfold toUInt32
    apply Int.emod_eq_of_lt <;> omega
  rw [hfit] at e1 e2
  exact ⟨n, hn, e1, e2⟩

set_option maxRecDepth 100000 in
theorem DelayUs_never_early_witness :
    Driver.DelayUs (sampleEnv 0) 10 { calibration_ := sampleCalibration } 10000 =
      some { calibration_ := sampleCalibration, reads := 4 } ∧
    ∃ n : Nat, ({ calibration_ := sampleCalibration, reads := 4 } : Driver) =
        { calibration_ := sampleCalibration, reads := 0 + (n + 2) } ∧
      (sampleEnv 0).elapsed 0 (n + 1) > 10000 * Int.tdiv F_CPU 1000000 ∧
      (sampleEnv 0).elapsed 0 n ≤ 10000 * Int.tdiv F_CPU 1000000 :=
  ⟨by decide,
    DelayUs_never_early (sampleEnv 0) 10 { calibration_ := sampleCalibration } 10000
      { calibration_ := sampleCalibration, reads := 4 } (by decide) (by decide)⟩

set_option maxRecDepth 100000 in
/-- C30 as stated fails for long waits: for `t = 2^28` microseconds the product
`t * (F_CPU / 1000000) = 2^32` wraps to 0 in the `uint32_t` it is computed in, and `DelayUs`
returns after its second sample, when 65535 ticks have elapsed, far fewer than `2^32`. -/
theorem DelayUs_never_early_counterexample :
    Driver.DelayUs (sampleEnv 0) 10 { calibration_ := sampleCalibration } 268435456 =
      some { calibration_ := sampleCalibration, reads := 2 } ∧
    (sampleEnv 0).elapsed 0 1 = 65535 ∧
    ¬ ((sampleEnv 0).elapsed 0 1 > 268435456 * Int.tdiv F_CPU 1000000) := by
  decide

/-- C23 (`Pen`). A `Pen(down)` that returns made exactly one call to a collaborator, setting
the servo to `pen_down` when `down` is `true` and to `pen_up` when it is `false` (so it made
no stepper `Move`), set `pen_` to `down`, and returned only after its busy-wait: the
differences between the consecutive timer samples it took sum to more than 3,200,000 ticks
(200000 us at 16 MHz), and the sum without the last difference does not. -/
theorem Pen_sets_servo_and_waits (env : Env) (fuel : Nat) (drv : Driver) (down : Bool)
    (r : Driver) (h : Driver.Pen env fuel drv down = some r) :
    ∃ n : Nat,
      r = { drv with
        log := drv.log ++
          [Event.ServoSet (if down then drv.calibration_.pen_down else drv.calibration_.pen_up)],
        pen_ := down, reads := drv.reads + (n + 2) } ∧
      env.elapsed drv.reads (n + 1) > 3200000 ∧ env.elapsed drv.reads n ≤ 3200000 := by
  unfold Driver.Pen at h
  have h32 : toUInt32 (200000 * Int.tdiv F_CPU 1000000) = 3200000 := by decide
  obtain ⟨n, hn, e1, e2⟩ := Driver.DelayUs_elapsed env fuel _ 200000 r h
  rw [h32] at e1 e2
  exact ⟨n, hn, e1, e2⟩

set_option maxRecDepth 100000 in
theorem Pen_sets_servo_and_waits_witness :
    ∃ n : Nat,
      ({ calibration_ := sampleCalibration, pen_ := true, log := [Event.ServoSet 1400],
          reads := 50 } : Driver) =
        { calibration_ := sampleCalibration,
          log := [] ++ [Event.ServoSet (if true = true then 1400 else 800)],
          pen_ := true, reads := 0 + (n + 2) } ∧
      (sampleEnv 0).elapsed 0 (n + 1) > 3200000 ∧ (sampleEnv 0).elapsed 0 n ≤ 3200000 :=
  Pen_sets_servo_and_waits (sampleEnv 0) 60 { calibration_ := sampleCalibration } true
    { calibration_ := sampleCalibration, pen_ := true, log := [Event.ServoSet 1400],
      reads := 50 } (by decide)

/-! ## `Calibration` -/

/-- Shape of a returning `Calibration`: the commands it ran, in order, with their results. -/
theorem Driver.Calibration_char (env : Env) (fuel : Nat) (drv : Driver) (b : Bool)
    (drv1 : Driver) (h : Driver.Calibration env fuel drv = some (b, drv1)) :
    ∃ (d1 d2 d3 d4 d5 d6 d7 d8 : Driver) (f1 r0 t f2 : Bool),
      Driver.Pen env fuel drv true = some d1 ∧
      Driver.Forward env fuel d1 200000 = some (f1, d2) ∧
      Driver.Pen env fuel d2 false = some d3 ∧
      Driver.andThen f1 d3 (fun d => Driver.Rotate env fuel d (180 * 60)) = some (r0, d4) ∧
      Driver.Calibration_turns env fuel d4 = some (t, d5) ∧
      Driver.Pen env fuel d5 true = some d6 ∧
      Driver.andThen r0 d6 (fun d => Driver.Forward env fuel d 200000) = some (f2, d7) ∧
      Driver.Pen env fuel d7 false = some d8 ∧
      b = f2 ∧ drv1 = d8.Off := by
  unfold Driver.Calibration at h
  rcases h1 : Driver.Pen env fuel drv true with _ | d1
  · rw [h1] at h; simp at h
  rw [h1] at h
  dsimp only at h
  rcases h2 : Driver.Forward env fuel d1 200000 with _ | ⟨f1, d2⟩
  · rw [h2] at h; simp at h
  rw [h2] at h
  dsimp only at h
  rcases h3 : Driver.Pen env fuel d2 false with _ | d3
  · rw [h3] at h; simp at h
  rw [h3] at h
  dsimp only at h
  rcases h4 : Driver.andThen f1 d3 (fun d => Driver.Rotate env fuel d (180 * 60))
    with _ | ⟨r0, d4⟩
  · rw [h4] at h; simp at h
  rw [h4] at h
  dsimp only at h
  rcases h5 : Driver.Calibration_turns env fuel d4 with _ | ⟨t, d5⟩
  · rw [h5] at h; simp at h
  rw [h5] at h
  dsimp only at h
  rcases h6 : Driver.Pen env fuel d5 true with _ | d6
  · rw [h6] at h; simp at h
  rw [h6] at h
  dsimp only at h
  rcases h7 : Driver.andThen r0 d6 (fun d => Driver.Forward env fuel d 200000)
    with _ | ⟨f2, d7⟩
  · rw [h7] at h; simp at h
  rw [h7] at h
  dsimp only at h
  rcases h8 : Driver.Pen env fuel d7 false with _ | d8
  · rw [h8] at h; simp at h
  rw [h8] at h
  simp only [Option.some.injEq, Prod.mk.injEq] at h
  exact ⟨d1, d2, d3, d4, d5, d6, d7, d8, f1, r0, t, f2, rfl, h2, h3, h4, h5, h6, h7, h8,
    h.1.symm, h.2.symm⟩

theorem Driver.andThen_char (val : Bool) (drv : Driver) (f : Driver → Option (Bool × Driver))
    (r : Bool) (d : Driver) (h : Driver.andThen val drv f = some (r, d)) :
    (val = true → f drv = some (r, d)) ∧ (val = false → r = false ∧ d = drv) := by
  unfold Driver.andThen at h
  cases val with
  | false =>
    rw [if_neg (by simp)] at h
    simp only [Option.some.injEq, Prod.mk.injEq] at h
    refine ⟨fun hv => (by cases hv), fun _ => ?_⟩
    exact ⟨h.1.symm, h.2.symm⟩
  | true =>
    rw [if_pos rfl] at h
    refine ⟨fun _ => h, fun hv => ?_⟩
    cases hv

/-- C29 (`Calibration`). A returning `Calibration` ran `Pen(true)`, the first `Forward`,
`Pen(false)`, then `Rotate(180 * 60)` only if the first `Forward` returned `true`; then the
statement of the three `Rotate(360 * 60)` calls, whose first call is executed whatever the
running flag and whose results are discarded; then `Pen(true)`, the second `Forward` only if
the running flag is still `true`, `Pen(false)` and `Off()`. The value returned is
(first `Forward`) AND (`Rotate(180 * 60)`) AND (second `Forward`), with short-circuiting. -/
theorem Calibration_return_value (env : Env) (fuel : Nat) (drv : Driver) (b : Bool)
    (drv1 : Driver) (h : Driver.Calibration env fuel drv = some (b, drv1)) :
    ∃ (d1 d2 d3 d4 d4a d5 d6 d7 d8 : Driver) (f1 r0 q1 t f2 : Bool),
      Driver.Pen env fuel drv true = some d1 ∧
      Driver.Forward env fuel d1 200000 = some (f1, d2) ∧
      Driver.Pen env fuel d2 false = some d3 ∧
      (f1 = true → Driver.Rotate env fuel d3 (180 * 60) = some (r0, d4)) ∧
      (f1 = false → r0 = false ∧ d4 = d3) ∧
      Driver.Rotate env fuel d4 (360 * 60) = some (q1, d4a) ∧
      Driver.Calibration_turns env fuel d4 = some (t, d5) ∧
      Driver.Pen env fuel d5 true = some d6 ∧
      (r0 = true → Driver.Forward env fuel d6 200000 = some (f2, d7)) ∧
      (r0 = false → f2 = false ∧ d7 = d6) ∧
      Driver.Pen env fuel d7 false = some d8 ∧
      drv1 = d8.Off ∧
      b = (f1 && r0 && f2) := by
  obtain ⟨d1, d2, d3, d4, d5, d6, d7, d8, f1, r0, t, f2, h1, h2, h3, h4, h5, h6, h7, h8, hb,
    hd⟩ := Driver.Calibration_char env fuel drv b drv1 h
  obtain ⟨a1, a2⟩ := Driver.andThen_char _ _ _ _ _ h4
  obtain ⟨c1, c2⟩ := Driver.andThen_char _ _ _ _ _ h7
  have hq : ∃ (q1 : Bool) (d4a : Driver),
      Driver.Rotate env fuel d4 (360 * 60) = some (q1, d4a) := by
    unfold Driver.Calibration_turns at h5
    rcases hR : Driver.Rotate env fuel d4 (360 * 60) with _ | ⟨q1, d4a⟩
    · rw [hR] at h5; simp at h5
    · exact ⟨q1, d4a, rfl⟩
  obtain ⟨q1, d4a, hq1⟩ := hq
  refine ⟨d1, d2, d3, d4, d4a, d5, d6, d7, d8, f1, r0, q1, t, f2, h1, h2, h3, a1, a2, hq1, h5,
    h6, c1, c2, h8, hd, ?_⟩
  rw [hb]
  cases f1 with
  | false =>
    have := (a2 rfl).1
    rw [this] at c2 ⊢
    rw [(c2 rfl).1]
    rfl
  | true =>
    cases r0 with
    | false => rw [(c2 rfl).1]; rfl
    | true => rfl


set_option maxRecDepth 100000 in
theorem Driver.sampleCalibration_run :
    Driver.Calibration (sampleEnv 1) 60 { calibration_ := sampleCalibration } =
      some (false, sampleCalibrationRun) := by
  decide

theorem Calibration_return_value_witness :
    ∃ (d1 d2 d3 d4 d4a d5 d6 d7 d8 : Driver) (f1 r0 q1 t f2 : Bool),
      Driver.Pen (sampleEnv 1) 60 { calibration_ := sampleCalibration } true = some d1 ∧
      Driver.Forward (sampleEnv 1) 60 d1 200000 = some (f1, d2) ∧
      Driver.Pen (sampleEnv 1) 60 d2 false = some d3 ∧
      (f1 = true → Driver.Rotate (sampleEnv 1) 60 d3 (180 * 60) = some (r0, d4)) ∧
      (f1 = false → r0 = false ∧ d4 = d3) ∧
      Driver.Rotate (sampleEnv 1) 60 d4 (360 * 60) = some (q1, d4a) ∧
      Driver.Calibration_turns (sampleEnv 1) 60 d4 = some (t, d5) ∧
      Driver.Pen (sampleEnv 1) 60 d5 true = some d6 ∧
      (r0 = true → Driver.Forward (sampleEnv 1) 60 d6 200000 = some (f2, d7)) ∧
      (r0 = false → f2 = false ∧ d7 = d6) ∧
      Driver.Pen (sampleEnv 1) 60 d7 false = some d8 ∧
      sampleCalibrationRun = d8.Off ∧
      false = (f1 && r0 && f2) :=
  Calibration_return_value (sampleEnv 1) 60 { calibration_ := sampleCalibration } false
    sampleCalibrationRun Driver.sampleCalibration_run

/-! ## The wheel inside the loop of `Move` -/

/-- While `Move` brakes with a distance still to go, the velocity is at least
`2100000000`: below it the stopping estimate `((v / (2 * kMaxA)) * v) >> 48` is 0. -/
theorem Driver.Move_braking_speed (w : Wheel) (d s : Int)
    (hv : 0 ≤ w.v_ ∧ w.v_ ≤ Wheel.kMaxV) (hds : 1 ≤ toUInt16 (d - s))
    (hb : Driver.Move_braking w d s = true) : 2100000000 ≤ w.v_ := by
  obtain ⟨hv0, hv1⟩ := hv
  rw [Wheel.kMaxV_eq] at hv1
  by_contra hlt
  have hlt : w.v_ < 2100000000 := not_le.mp hlt
  unfold Driver.Move_braking at hb
  rw [decide_eq_true_eq] at hb
  have h2A : toInt64 (2 * Wheel.kMaxA) = 16492 := by decide
  rw [h2A, tdiv_eq_cases w.v_ 16492 (by norm_num), if_pos hv0] at hb
  have hk0 : 0 ≤ w.v_ / 16492 := by omega
  have hk1 : w.v_ / 16492 ≤ 127334 := by omega
  rw [toInt64_eq_self (x := w.v_ / 16492) ⟨by omega, by omega⟩] at hb
  have hp0 : 0 ≤ w.v_ / 16492 * w.v_ := mul_nonneg hk0 hv0
  have hp1 : w.v_ / 16492 * w.v_ ≤ 127334 * 2100000000 :=
    mul_le_mul hk1 (le_of_lt hlt) hv0 (by norm_num)
  generalize w.v_ / 16492 * w.v_ = P at hb hp0 hp1
  rw [toInt64_eq_self (x := P) ⟨by omega, by omega⟩, Int_shiftRight_floor] at hb
  have hz : P / 2 ^ 48 = 0 := Int.ediv_eq_zero_of_lt hp0 (by norm_num; omega)
  rw [hz] at hb
  omega

/-- One `Update` as `Move` makes it, for a tick of at most 21333 timer ticks: from a state
with `0 <= v_ <= kMaxV` and `|s_| <= 2^47`, with acceleration `kMaxA`, or `-kMaxA` at a
velocity of at least `2100000000`. The pulse is 0 or 1, the state stays in range, and the
total position `2^48 * pulse + s_` advances by the exact trapezoid, at least 4123 when the
tick is not empty. -/
theorem Wheel.Update_in_move (w : Wheel) (dt_ticks : Nat) (a : Int)
    (hs : |w.s_| ≤ 2 ^ 47) (hv : 0 ≤ w.v_ ∧ w.v_ ≤ Wheel.kMaxV) (hdt : dt_ticks ≤ 21333)
    (ha : a = Wheel.kMaxA ∨ (a = -Wheel.kMaxA ∧ 2100000000 ≤ w.v_)) :
    ((w.Update dt_ticks a).2 = 0 ∨ (w.Update dt_ticks a).2 = 1) ∧
    (0 ≤ (w.Update dt_ticks a).1.v_ ∧ (w.Update dt_ticks a).1.v_ ≤ Wheel.kMaxV) ∧
    |(w.Update dt_ticks a).1.s_| ≤ 2 ^ 47 ∧
    w.s_ ≤ 2 ^ 48 * (w.Update dt_ticks a).2 + (w.Update dt_ticks a).1.s_ ∧
    (1 ≤ dt_ticks →
      w.s_ + 4123 ≤ 2 ^ 48 * (w.Update dt_ticks a).2 + (w.Update dt_ticks a).1.s_) := by
  obtain ⟨hv0, hv1⟩ := hv
  have hva : |w.v_| ≤ Wheel.kMaxV := abs_le.mpr ⟨by rw [Wheel.kMaxV_eq]; omega, hv1⟩
  have haa : |a| ≤ Wheel.kMaxA := by
    rcases ha with h | ⟨h, _⟩
    · rw [h, Wheel.kMaxA_eq]; norm_num
    · rw [h, Wheel.kMaxA_eq]; norm_num
  have he := Wheel.Update_exact w dt_ticks a (le_trans hs (by norm_num)) hva (by omega) haa
  have hd : ((dt_ticks : Nat) : Int) ≤ 21333 := by exact_mod_cast hdt
  have hd0 : (0 : Int) ≤ (dt_ticks : Int) := Int.ofNat_nonneg _
  rw [he]
  unfold Wheel.Update_spec
  dsimp only
  rw [Wheel.kMaxV_eq] at hv1 ⊢
  -- the clamped velocity
  have hV : ∃ V : Int, V = max (-13194139533) (min 13194139533 (w.v_ + a * (dt_ticks : Int))) ∧
      0 ≤ V ∧ V ≤ 13194139533 ∧ (1 ≤ (dt_ticks : Int) → 8246 ≤ V) := by
    refine ⟨_, rfl, ?_, ?_, ?_⟩
    · rcases ha with h | ⟨h, h2⟩
      · rw [h, Wheel.kMaxA_eq]
        have : 0 ≤ 8246 * (dt_ticks : Int) := by omega
        rcases le_total 13194139533 (w.v_ + 8246 * (dt_ticks : Int)) with h1 | h1
        · rw [min_eq_left h1, max_eq_right (by omega)]; omega
        · rw [min_eq_right h1, max_eq_right (by omega)]; omega
      · rw [h, Wheel.kMaxA_eq]
        rw [min_eq_right (by omega), max_eq_right (by omega)]
        omega
    · rcases le_total 13194139533 (w.v_ + a * (dt_ticks : Int)) with h1 | h1
      · rw [min_eq_left h1, max_eq_right (by omega)]
      · rw [min_eq_right h1]
        exact max_le (by omega) h1
    · intro h1d
      rcases ha with h | ⟨h, h2⟩
      · rw [h, Wheel.kMaxA_eq]
        rcases le_total 13194139533 (w.v_ + 8246 * (dt_ticks : Int)) with h1 | h1
        · rw [min_eq_left h1, max_eq_right (by omega)]; omega
        · rw [min_eq_right h1, max_eq_right (by omega)]; omega
      · rw [h, Wheel.kMaxA_eq]
        rw [min_eq_right (by omega), max_eq_right (by omega)]
        omega
  obtain ⟨V, hVe, hV0, hV1, hV2⟩ := hV
  rw [← hVe]
  -- the trapezoid
  have hsum0 : 0 ≤ w.v_ + V := by omega
  have hsum1 : w.v_ + V ≤ 26388279066 := by omega
  have hp0 : 0 ≤ (w.v_ + V) * (dt_ticks : Int) := mul_nonneg hsum0 hd0
  have hp1 : (w.v_ + V) * (dt_ticks : Int) ≤ 26388279066 * 21333 :=
    mul_le_mul hsum1 hd hd0 (by norm_num)
  have hp2 : 1 ≤ (dt_ticks : Int) → 8246 ≤ (w.v_ + V) * (dt_ticks : Int) := by
    intro h1d
    have h8 : 8246 ≤ w.v_ + V := by have := hV2 h1d; omega
    calc (8246 : Int) = 8246 * 1 := by norm_num
      _ ≤ (w.v_ + V) * (dt_ticks : Int) := mul_le_mul h8 h1d (by norm_num) hsum0
  rw [tdiv_eq_cases _ 2 (by norm_num), if_pos hp0]
  generalize (w.v_ + V) * (dt_ticks : Int) = P at hp0 hp1 hp2
  have hD0 : 0 ≤ P / 2 := by omega
  have hD1 : P / 2 ≤ 281470578657489 := by omega
  have hD2 : 1 ≤ (dt_ticks : Int) → 4123 ≤ P / 2 := by
    intro h1d
    have := hp2 h1d
    omega
  generalize P / 2 = D at hD0 hD1 hD2
  obtain ⟨hs1, hs2⟩ := abs_le.mp hs
  norm_num at hs1 hs2
  have h1d : 1 ≤ dt_ticks → 1 ≤ (dt_ticks : Int) := fun h => by exact_mod_cast h
  rw [show (2 : Int) ^ 47 = 140737488355328 by norm_num,
    show (2 : Int) ^ 48 = 281474976710656 by norm_num]
  split_ifs with c1 c2
  · exact ⟨Or.inr rfl, ⟨hV0, hV1⟩, abs_le.mpr ⟨by omega, by omega⟩, by omega,
      fun h => by have := hD2 (h1d h); omega⟩
  · exact absurd c2 (by omega)
  · exact ⟨Or.inl rfl, ⟨hV0, hV1⟩, abs_le.mpr ⟨by omega, by omega⟩, by omega,
      fun h => by have := hD2 (h1d h); omega⟩

/-- The locals after one iteration of the loop of `Move`, whatever the fractions. -/
theorem Driver.Move_tick_locals (env : Env) (lf rf d : Int) (drv : Driver) (m : MoveLocals) :
    (Driver.Move_tick env lf rf d drv m).2.2.w =
      (m.w.Update (toUInt16 (toUInt16 (env.time drv.reads) - m.start)).toNat
        (if Driver.Move_braking m.w d m.s then -Wheel.kMaxA else Wheel.kMaxA)).1 ∧
    (Driver.Move_tick env lf rf d drv m).2.2.s =
      toUInt16 (m.s + toInt8
        (m.w.Update (toUInt16 (toUInt16 (env.time drv.reads) - m.start)).toNat
          (if Driver.Move_braking m.w d m.s then -Wheel.kMaxA else Wheel.kMaxA)).2) ∧
    (Driver.Move_tick env lf rf d drv m).2.2.start = toUInt16 (env.time drv.reads) ∧
    (Driver.Move_tick env lf rf d drv m).2.1.reads = drv.reads + 1 := by
  unfold Driver.Move_tick
  dsimp only [Driver.Poll, Driver.emit, Driver.GetTime]
  exact ⟨rfl, rfl, rfl, rfl⟩

/-- One iteration of the loop of `Move` with ticks of at most 21333 timer ticks keeps the
loop state in range; the virtual counter stays or advances by one, and the total position
`2^48 * s + s_` does not decrease, and grows by at least 4123 when the tick is not empty. -/
theorem Driver.Move_tick_inv (env : Env) (lo : Int) (hT : env.TicksWithin lo 21333)
    (lf rf d : Int) (hd : d ≤ 65535) (drv : Driver) (m : MoveLocals)
    (hI : Driver.MoveInv env d drv m) (hlt : m.s < d) :
    Driver.MoveInv env d (Driver.Move_tick env lf rf d drv m).2.1
      (Driver.Move_tick env lf rf d drv m).2.2 ∧
    ((Driver.Move_tick env lf rf d drv m).2.2.s = m.s ∨
      (Driver.Move_tick env lf rf d drv m).2.2.s = m.s + 1) ∧
    2 ^ 48 * m.s + m.w.s_ ≤
      2 ^ 48 * (Driver.Move_tick env lf rf d drv m).2.2.s +
        (Driver.Move_tick env lf rf d drv m).2.2.w.s_ ∧
    (1 ≤ lo → 2 ^ 48 * m.s + m.w.s_ + 4123 ≤
      2 ^ 48 * (Driver.Move_tick env lf rf d drv m).2.2.s +
        (Driver.Move_tick env lf rf d drv m).2.2.w.s_) := by
  obtain ⟨⟨j, hj, hst⟩, hv, hs, hs0, hs1⟩ := hI
  obtain ⟨l1, l2, l3, l4⟩ := Driver.Move_tick_locals env lf rf d drv m
  have htick : toUInt16 (toUInt16 (env.time drv.reads) - m.start) = env.tick j := by
    rw [hj, hst]; rfl
  obtain ⟨ht0, ht1⟩ := hT j
  have hr := toUInt16_range (toUInt16 (env.time drv.reads) - m.start)
  rw [htick] at l1 l2 hr
  have hnat : ((env.tick j).toNat : Int) = env.tick j := Int.toNat_of_nonneg hr.1
  have hdt : (env.tick j).toNat ≤ 21333 := by omega
  have hds : toUInt16 (d - m.s) = d - m.s := toUInt16_eq_self ⟨by omega, by omega⟩
  have ha : (if Driver.Move_braking m.w d m.s then -Wheel.kMaxA else Wheel.kMaxA) = Wheel.kMaxA ∨
      ((if Driver.Move_braking m.w d m.s then -Wheel.kMaxA else Wheel.kMaxA) = -Wheel.kMaxA ∧
        2100000000 ≤ m.w.v_) := by
    by_cases hb : Driver.Move_braking m.w d m.s = true
    · rw [if_pos hb]
      exact Or.inr ⟨rfl, Driver.Move_braking_speed m.w d m.s hv (by rw [hds]; omega) hb⟩
    · rw [if_neg hb]
      exact Or.inl rfl
  obtain ⟨u1, u2, u3, u4, u5⟩ := Wheel.Update_in_move m.w (env.tick j).toNat _ hs hv hdt ha
  generalize m.w.Update (env.tick j).toNat
    (if Driver.Move_braking m.w d m.s then -Wheel.kMaxA else Wheel.kMaxA) = U at l1 l2 u1 u2 u3 u4 u5
  have hsnew : (Driver.Move_tick env lf rf d drv m).2.2.s = m.s + U.2 := by
    rw [l2]
    rcases u1 with h | h
    · rw [h, show toInt8 0 = 0 by decide]
      exact toUInt16_eq_self ⟨by omega, by omega⟩
    · rw [h, show toInt8 1 = 1 by decide]
      exact toUInt16_eq_self ⟨by omega, by omega⟩
  unfold Driver.MoveInv
  rw [hsnew, l1]
  refine ⟨⟨⟨j + 1, by rw [l4, hj], by rw [l3, hj]⟩, u2, u3, ?_, ?_⟩, ?_, ?_, ?_⟩
  · rcases u1 with h | h <;> rw [h] <;> omega
  · rcases u1 with h | h <;> rw [h] <;> omega
  · rcases u1 with h | h
    · exact Or.inl (by rw [h]; omega)
    · exact Or.inr (by rw [h])
  · have : (2 : Int) ^ 48 * (m.s + U.2) = 2 ^ 48 * m.s + 2 ^ 48 * U.2 := by ring
    rw [this]
    omega
  · intro h1
    have h5 := u5 (by omega)
    have : (2 : Int) ^ 48 * (m.s + U.2) = 2 ^ 48 * m.s + 2 ^ 48 * U.2 := by ring
    rw [this]
    omega

/-- The loop of `Move` keeps its state in range, and ends with `s = d` when it runs to the
end. -/
theorem Driver.Move_loop_inv (env : Env) (lo : Int) (hT : env.TicksWithin lo 21333)
    (lf rf d : Int) (hd : d ≤ 65535) (fuel : Nat) :
    ∀ (drv : Driver) (m : MoveLocals) (b : Bool) (drv1 : Driver) (m1 : MoveLocals),
      Driver.MoveInv env d drv m →
      Driver.Move_loop env lf rf d fuel drv m = some (b, drv1, m1) →
      Driver.MoveInv env d drv1 m1 ∧ (b = true → m1.s = d) := by
  have hstop : ∀ (drv : Driver) (m : MoveLocals), Driver.MoveInv env d drv m → ¬ m.s < d →
      Driver.MoveInv env d drv m ∧ (true = true → m.s = d) := by
    intro drv m hI hc
    refine ⟨hI, fun _ => ?_⟩
    have := hI.2.2.2.2
    omega
  induction fuel with
  | zero =>
    intro drv m b drv1 m1 hI h
    simp only [Driver.Move_loop] at h
    split_ifs at h with hc
    simp only [Option.some.injEq, Prod.mk.injEq] at h
    obtain ⟨rfl, rfl, rfl⟩ := h
    exact hstop drv m hI hc
  | succ n ih =>
    intro drv m b drv1 m1 hI h
    simp only [Driver.Move_loop] at h
    split_ifs at h with hc ht
    · simp only [Option.some.injEq, Prod.mk.injEq] at h
      obtain ⟨rfl, rfl, rfl⟩ := h
      exact ⟨(Driver.Move_tick_inv env lo hT lf rf d hd drv m hI hc).1, fun hb => by cases hb⟩
    · exact ih _ _ _ _ _ (Driver.Move_tick_inv env lo hT lf rf d hd drv m hI hc).1 h
    · simp only [Option.some.injEq, Prod.mk.injEq] at h
      obtain ⟨rfl, rfl, rfl⟩ := h
      exact hstop drv m hI hc

/-- With ticks of 1 to 21333 timer ticks and a predicate that never answers `true`, the loop
of `Move` runs to the end once the fuel covers what is left of the total position, which
grows by at least 4123 per iteration. -/
theorem Driver.Move_loop_terminates (env : Env) (hT : env.TicksWithin 1 21333)
    (hN : env.NeverInterrupted) (lf rf d : Int) (hd : d ≤ 65535) (fuel : Nat) :
    ∀ (drv : Driver) (m : MoveLocals),
      Driver.MoveInv env d drv m →
      2 ^ 48 * d - 2 ^ 47 + 1 ≤ 2 ^ 48 * m.s + m.w.s_ + 4123 * (fuel : Int) →
      ∃ (drv1 : Driver) (m1 : MoveLocals),
        Driver.Move_loop env lf rf d fuel drv m = some (true, drv1, m1) := by
  have hlast : ∀ (m : MoveLocals), |m.w.s_| ≤ 2 ^ 47 → m.s < d →
      2 ^ 48 * m.s + m.w.s_ ≤ 2 ^ 48 * d - 2 ^ 47 := by
    intro m hs hlt
    obtain ⟨_, hs2⟩ := abs_le.mp hs
    have : (2 : Int) ^ 48 * m.s ≤ 2 ^ 48 * (d - 1) :=
      mul_le_mul_of_nonneg_left (by omega) (by norm_num)
    have e : (2 : Int) ^ 48 * (d - 1) = 2 ^ 48 * d - 2 ^ 48 := by ring
    have e2 : (2 : Int) ^ 48 = 2 ^ 47 + 2 ^ 47 := by norm_num
    linarith
  induction fuel with
  | zero =>
    intro drv m hI hf
    simp only [Driver.Move_loop]
    by_cases hc : m.s < d
    · have := hlast m hI.2.2.1 hc
      simp only [Nat.cast_zero, mul_zero, add_zero] at hf
      omega
    · rw [if_neg hc]
      exact ⟨drv, m, rfl⟩
  | succ n ih =>
    intro drv m hI hf
    simp only [Driver.Move_loop]
    by_cases hc : m.s < d
    · rw [if_pos hc]
      obtain ⟨t1, t2, t3, t4⟩ := Driver.Move_tick_inv env 1 hT lf rf d hd drv m hI hc
      have hq : (Driver.Move_tick env lf rf d drv m).1 = false := by
        rw [(Driver.Move_tick_fields env lf rf d drv m).1]
        exact hN _
      rw [hq]
      simp only [Bool.false_eq_true, if_false]
      apply ih _ _ t1
      have := t4 (le_refl _)
      push_cast at hf
      linarith
    · rw [if_neg hc]
      exact ⟨drv, m, rfl⟩

/-- The loop of `Move` is entered in a state in range. -/
theorem Driver.Move_run_inv (env : Env) (drv : Driver) (d : Int) (hd : 0 ≤ d) :
    Driver.MoveInv env d (drv.GetTime env).2 { start := (drv.GetTime env).1 } := by
  refine ⟨⟨drv.reads, rfl, rfl⟩, ⟨le_refl _, ?_⟩, ?_, le_refl _, hd⟩
  · show (0 : Int) ≤ Wheel.kMaxV
    rw [Wheel.kMaxV_eq]; norm_num
  · show |(0 : Int)| ≤ 2 ^ 47
    norm_num

/-- With ticks of 1 to 21333 timer ticks and a predicate that never answers `true`, every
`Move(.., d)` returns `true`, within `2^52` iterations. -/
theorem Driver.Move_terminates (env : Env) (hT : env.TicksWithin 1 21333)
    (hN : env.NeverInterrupted) (fuel : Nat) (hf : 2 ^ 52 ≤ fuel) (drv : Driver)
    (lf rf d : Int) (hd : 0 ≤ d ∧ d ≤ 65535) :
    ∃ drv1 : Driver, Driver.Move env fuel drv lf rf d = some (true, drv1) := by
  have hfi : (2 : Int) ^ 52 ≤ (fuel : Int) := by exact_mod_cast hf
  obtain ⟨drv1, m1, h⟩ := Driver.Move_loop_terminates env hT hN lf rf d hd.2 fuel
    (drv.GetTime env).2 { start := (drv.GetTime env).1 } (Driver.Move_run_inv env drv d hd.1)
    (by
      show 2 ^ 48 * d - 2 ^ 47 + 1 ≤ 2 ^ 48 * (0 : Int) + 0 + 4123 * (fuel : Int)
      have h1 : (2 : Int) ^ 48 * d ≤ 2 ^ 48 * 65535 :=
        mul_le_mul_of_nonneg_left hd.2 (by norm_num)
      norm_num at h1 hfi ⊢
      omega)
  refine ⟨drv1, ?_⟩
  unfold Driver.Move Driver.Move_run
  rw [h]
  rfl

/-! ## Termination of the commands -/

theorem Env.TicksWithin.timerAdvances (env : Env) (hi : Int) (hT : env.TicksWithin 1 hi) :
    env.TimerAdvances := by
  intro k
  have := (hT k).1
  unfold Env.tick at this
  omega

theorem Driver.ForwardSteps_terminates (env : Env) (hT : env.TicksWithin 1 21333)
    (hN : env.NeverInterrupted) (fuel : Nat) (hf : 2 ^ 52 ≤ fuel) (drv : Driver) (steps : Int) :
    ∃ drv1 : Driver, Driver.ForwardSteps env fuel drv steps = some (true, drv1) :=
  Driver.Move_terminates env hT hN fuel hf drv _ _ _
    (Driver.ForwardSteps_args_distance_range drv steps)

theorem Driver.RotateSteps_terminates (env : Env) (hT : env.TicksWithin 1 21333)
    (hN : env.NeverInterrupted) (fuel : Nat) (hf : 2 ^ 52 ≤ fuel) (drv : Driver) (steps : Int) :
    ∃ drv1 : Driver, Driver.RotateSteps env fuel drv steps = some (true, drv1) := by
  rw [Driver.RotateSteps_eq]
  exact Driver.Move_terminates env hT hN fuel hf _ _ _ _
    (Driver.RotateSteps_args_distance_range drv _)

theorem Driver.Calibration_turns_terminates (env : Env) (hT : env.TicksWithin 1 21333)
    (hN : env.NeverInterrupted) (fuel : Nat) (hf : 2 ^ 52 ≤ fuel) (drv : Driver) :
    ∃ drv1 : Driver, Driver.Calibration_turns env fuel drv = some (true, drv1) := by
  obtain ⟨d1, h1⟩ := Driver.RotateSteps_terminates env hT hN fuel hf drv (Rotate_steps (360 * 60))
  obtain ⟨d2, h2⟩ := Driver.RotateSteps_terminates env hT hN fuel hf d1 (Rotate_steps (360 * 60))
  obtain ⟨d3, h3⟩ := Driver.RotateSteps_terminates env hT hN fuel hf d2 (Rotate_steps (360 * 60))
  refine ⟨d3, ?_⟩
  unfold Driver.Calibration_turns Driver.Rotate
  rw [h1]
  dsimp only [Driver.andThen]
  rw [if_pos rfl, h2]
  dsimp only
  rw [if_pos rfl, h3]

/-- With ticks of 1 to 21333 timer ticks and a predicate that never answers `true`,
`Calibration` returns `true`. -/
theorem Driver.Calibration_terminates (env : Env) (hT : env.TicksWithin 1 21333)
    (hN : env.NeverInterrupted) (fuel : Nat) (hf : 2 ^ 52 ≤ fuel) (drv : Driver) :
    ∃ drv1 : Driver, Driver.Calibration env fuel drv = some (true, drv1) := by
  have hadv := Env.TicksWithin.timerAdvances env 21333 hT
  have hf2 : 3200001 ≤ fuel := le_trans (by norm_num) hf
  obtain ⟨d1, h1⟩ := Driver.Pen_terminates env hadv fuel hf2 drv true
  obtain ⟨d2, h2⟩ := Driver.ForwardSteps_terminates env hT hN fuel hf d1 (Forward_steps 200000)
  obtain ⟨d3, h3⟩ := Driver.Pen_terminates env hadv fuel hf2 d2 false
  obtain ⟨d4, h4⟩ := Driver.RotateSteps_terminates env hT hN fuel hf d3 (Rotate_steps (180 * 60))
  obtain ⟨d5, h5⟩ := Driver.Calibration_turns_terminates env hT hN fuel hf d4
  obtain ⟨d6, h6⟩ := Driver.Pen_terminates env hadv fuel hf2 d5 true
  obtain ⟨d7, h7⟩ := Driver.ForwardSteps_terminates env hT hN fuel hf d6 (Forward_steps 200000)
  obtain ⟨d8, h8⟩ := Driver.Pen_terminates env hadv fuel hf2 d7 false
  refine ⟨d8.Off, ?_⟩
  unfold Driver.Calibration Driver.Forward Driver.Rotate
  rw [h1]
  dsimp only
  rw [h2]
  dsimp only
  rw [h3]
  dsimp only [Driver.andThen]
  rw [if_pos rfl, h4]
  dsimp only
  rw [h5]
  dsimp only
  rw [h6]
  dsimp only
  rw [if_pos rfl, h7]
  dsimp only
  rw [h8]

theorem Driver.Forward_calibration (env : Env) (fuel : Nat) (drv : Driver) (um : Int)
    (b : Bool) (drv1 : Driver) (h : Driver.Forward env fuel drv um = some (b, drv1)) :
    drv1.calibration_ = drv.calibration_ := by
  obtain ⟨ds, e1, _⟩ := Driver.ForwardSteps_effect env fuel drv _ b drv1 h
  exact e1

theorem Driver.Rotate_calibration (env : Env) (fuel : Nat) (drv : Driver) (minutes : Int)
    (b : Bool) (drv1 : Driver) (h : Driver.Rotate env fuel drv minutes = some (b, drv1)) :
    drv1.calibration_ = drv.calibration_ := by
  obtain ⟨ds, e1, _⟩ := Driver.RotateSteps_effect env fuel drv _ b drv1 h
  exact e1

theorem Driver.andThen_calibration (val : Bool) (drv : Driver)
    (f : Driver → Option (Bool × Driver))
    (hf : ∀ (b : Bool) (d1 : Driver), f drv = some (b, d1) → d1.calibration_ = drv.calibration_)
    (r : Bool) (d : Driver) (h : Driver.andThen val drv f = some (r, d)) :
    d.calibration_ = drv.calibration_ := by
  obtain ⟨a1, a2⟩ := Driver.andThen_char val drv f r d h
  cases val with
  | false => rw [(a2 rfl).2]
  | true => exact hf r d (a1 rfl)

theorem Driver.Calibration_turns_calibration (env : Env) (fuel : Nat) (drv : Driver)
    (b : Bool) (drv1 : Driver) (h : Driver.Calibration_turns env fuel drv = some (b, drv1)) :
    drv1.calibration_ = drv.calibration_ := by
  unfold Driver.Calibration_turns at h
  rcases h1 : Driver.Rotate env fuel drv (360 * 60) with _ | ⟨r1, d1⟩
  · rw [h1] at h; simp at h
  rw [h1] at h
  dsimp only at h
  rcases h2 : Driver.andThen r1 d1 (fun d => Driver.Rotate env fuel d (360 * 60))
    with _ | ⟨r2, d2⟩
  · rw [h2] at h; simp at h
  rw [h2] at h
  dsimp only at h
  have c1 := Driver.Rotate_calibration env fuel drv _ r1 d1 h1
  have c2 := Driver.andThen_calibration r1 d1 _
    (fun b0 d0 h0 => Driver.Rotate_calibration env fuel d1 _ b0 d0 h0) r2 d2 h2
  have c3 := Driver.andThen_calibration r2 d2 _
    (fun b0 d0 h0 => Driver.Rotate_calibration env fuel d2 _ b0 d0 h0) b drv1 h
  rw [c3, c2, c1]

/-- A returning `Calibration` ends with `Pen(false)` and `Off()`, and keeps the calibration
record. -/
theorem Driver.Calibration_terminal (env : Env) (fuel : Nat) (drv : Driver) (b : Bool)
    (drv1 : Driver) (h : Driver.Calibration env fuel drv = some (b, drv1)) :
    drv1.pen_ = false ∧ drv1.calibration_ = drv.calibration_ ∧
    ∃ pre : List Event, drv1.log = pre ++
      [Event.ServoSet drv.calibration_.pen_up, Event.LeftOff, Event.RightOff,
        Event.ServoOff] := by
  obtain ⟨d1, d2, d3, d4, d5, d6, d7, d8, f1, r0, t, f2, h1, h2, h3, h4, h5, h6, h7, h8, hb,
    hd⟩ := Driver.Calibration_char env fuel drv b drv1 h
  obtain ⟨k1, e1⟩ := Driver.Pen_frame env fuel drv true d1 h1
  have c1 : d1.calibration_ = drv.calibration_ := by rw [e1]
  have c2 := Driver.Forward_calibration env fuel d1 _ f1 d2 h2
  obtain ⟨k3, e3⟩ := Driver.Pen_frame env fuel d2 false d3 h3
  have c3 : d3.calibration_ = d2.calibration_ := by rw [e3]
  have c4 := Driver.andThen_calibration f1 d3 _
    (fun b0 d0 h0 => Driver.Rotate_calibration env fuel d3 _ b0 d0 h0) r0 d4 h4
  have c5 := Driver.Calibration_turns_calibration env fuel d4 t d5 h5
  obtain ⟨k6, e6⟩ := Driver.Pen_frame env fuel d5 true d6 h6
  have c6 : d6.calibration_ = d5.calibration_ := by rw [e6]
  have c7 := Driver.andThen_calibration r0 d6 _
    (fun b0 d0 h0 => Driver.Forward_calibration env fuel d6 _ b0 d0 h0) f2 d7 h7
  have c : d7.calibration_ = drv.calibration_ := by rw [c7, c6, c5, c4, c3, c2, c1]
  obtain ⟨k, hk⟩ := Driver.Pen_frame env fuel d7 false d8 h8
  rw [hd, hk]
  refine ⟨rfl, c, d7.log, ?_⟩
  simp [Driver.Off, Driver.emit, c]

/-- C28 (the smoke test, generalised). With a tick source that advances by at least 1 and at
most 21333 ticks between consecutive samples and a predicate that never answers `true`:
every `Move(.., d)`, from any state of the driver, returns `true` (within `2^52` loop
iterations); hence `Calibration()` returns, the `main` of the simulator build reaches
`state = 2`, the value returned is `true`, and on return the pen is up (`pen_ = false`, the
servo last set to `pen_up`) and `Off` was called on both steppers and the servo. -/
theorem Calibration_smoke (env : Env) (hT : env.TicksWithin 1 21333)
    (hN : env.NeverInterrupted) (fuel : Nat) (hf : 2 ^ 52 ≤ fuel) :
    (∀ (drv : Driver) (lf rf d : Int), 0 ≤ d ∧ d ≤ 65535 →
      ∃ drv1 : Driver, Driver.Move env fuel drv lf rf d = some (true, drv1)) ∧
    (∀ drv : Driver, ∃ drv1 : Driver,
      Driver.Calibration env fuel drv = some (true, drv1) ∧
      drv1.pen_ = false ∧ drv1.calibration_ = drv.calibration_ ∧
      ∃ pre : List Event, drv1.log = pre ++
        [Event.ServoSet drv.calibration_.pen_up, Event.LeftOff, Event.RightOff,
          Event.ServoOff]) ∧
    smoke_main env fuel = some 2 := by
  refine ⟨fun drv lf rf d hd => Driver.Move_terminates env hT hN fuel hf drv lf rf d hd, ?_, ?_⟩
  · intro drv
    obtain ⟨drv1, h⟩ := Driver.Calibration_terminates env hT hN fuel hf drv
    exact ⟨drv1, h, Driver.Calibration_terminal env fuel drv true drv1 h⟩
  · obtain ⟨drv1, h⟩ := Driver.Calibration_terminates env hT hN fuel hf
      { calibration_ := unityCalibration }
    unfold smoke_main
    rw [h]
    rfl

theorem steadyEnv_ticks : steadyEnv.TicksWithin 1 21333 := by
  intro k
  simp only [Env.tick, steadyEnv, toUInt16]
  push_cast
  omega

theorem Calibration_smoke_witness :
    smoke_main steadyEnv (2 ^ 52) = some 2 ∧
    ∃ drv1 : Driver,
      Driver.Calibration steadyEnv (2 ^ 52) { calibration_ := unityCalibration } =
        some (true, drv1) ∧
      drv1.pen_ = false ∧ drv1.calibration_ = unityCalibration ∧
      ∃ pre : List Event, drv1.log = pre ++
        [Event.ServoSet 800, Event.LeftOff, Event.RightOff, Event.ServoOff] :=
  ⟨(Calibration_smoke steadyEnv steadyEnv_ticks (fun _ => rfl) (2 ^ 52) (le_refl _)).2.2,
    (Calibration_smoke steadyEnv steadyEnv_ticks (fun _ => rfl) (2 ^ 52) (le_refl _)).2.1
      { calibration_ := unityCalibration }⟩

/-! ## Step accounting with unit gear ratios -/

/-- With a fraction `2^14` or `-2^14`, a zero remainder and a position that follows the
previous value `s0` of the virtual counter, `FractionalMove` returns the change of the
counter (signed, as an `int16_t`), follows the counter and keeps the remainder 0. -/
theorem FractionalMove_unit (e s0 s : Int) (he : e = 1 ∨ e = -1) (hs : 0 ≤ s ∧ s ≤ 65535) :
    FractionalMove s (16384 * e) (toInt16 (e * s0)) 0 =
      { ret := toInt16 (e * (s - s0)), position := toInt16 (e * s), remainder := 0 } := by
  obtain ⟨hs0, hs1⟩ := hs
  have hp : FractionalMove_p s (16384 * e) 0 = 16384 * (e * s) := by
    unfold FractionalMove_p
    rcases he with rfl | rfl
    · rw [add_zero, toInt32_eq_self (x := s * (16384 * 1)) ⟨by omega, by omega⟩,
        toInt32_eq_self (x := s * (16384 * 1)) ⟨by omega, by omega⟩]
      ring
    · rw [add_zero, toInt32_eq_self (x := s * (16384 * -1)) ⟨by omega, by omega⟩,
        toInt32_eq_self (x := s * (16384 * -1)) ⟨by omega, by omega⟩]
      ring
  unfold FractionalMove
  simp only [hp, Int_land_mask, Int_shiftRight_floor]
  have e1 : 16384 * (e * s) % 2 ^ 14 = 0 := by norm_num
  have e2 : 16384 * (e * s) / 2 ^ 14 = e * s := by
    norm_num
  rw [e1, e2]
  have e3 : toUInt16 0 = 0 := by decide
  have e4 : toInt16 (toInt32 (e * s - toInt16 (e * s0))) = toInt16 (e * (s - s0)) := by
    rw [toInt16_toInt32]
    have : e * (s - s0) = e * s - e * s0 := by ring
    rw [this]
    generalize e * s = a
    generalize e * s0 = b
    unfold toInt16 wrapSigned
    norm_num
    omega
  rw [e3, e4]

theorem sumLeftMoves_append (l1 l2 : List Event) :
    sumLeftMoves (l1 ++ l2) = sumLeftMoves l1 + sumLeftMoves l2 := by
  induction l1 with
  | nil => simp [sumLeftMoves]
  | cons e es ih =>
    cases e with
    | LeftMove delta =>
      show delta + sumLeftMoves (es ++ l2) = delta + sumLeftMoves es + sumLeftMoves l2
      rw [ih]; ring
    | _ => exact ih

theorem sumRightMoves_append (l1 l2 : List Event) :
    sumRightMoves (l1 ++ l2) = sumRightMoves l1 + sumRightMoves l2 := by
  induction l1 with
  | nil => simp [sumRightMoves]
  | cons e es ih =>
    cases e with
    | RightMove delta =>
      show delta + sumRightMoves (es ++ l2) = delta + sumRightMoves es + sumRightMoves l2
      rw [ih]; ring
    | _ => exact ih

/-- One iteration of the loop of `Move` with fractions `2^14 * el` and `2^14 * er`: when the
virtual counter changes by `u` in `{-1, 0, 1}` (modulo `2^16`), the left stepper receives
`el * u`, the right stepper `er * u`, and the accounting goes on with `total + u`. -/
theorem Driver.Move_tick_accounts (env : Env) (el er d : Int) (hel : el = 1 ∨ el = -1)
    (her : er = 1 ∨ er = -1) (SL SR total : Int) (drv : Driver) (m : MoveLocals)
    (hA : Driver.Accounts el er SL SR total drv m) (u : Int) (hu : u = -1 ∨ u = 0 ∨ u = 1)
    (hs : (Driver.Move_tick env (16384 * el) (16384 * er) d drv m).2.2.s =
      toUInt16 (m.s + u)) :
    Driver.Accounts el er SL SR (total + u)
      (Driver.Move_tick env (16384 * el) (16384 * er) d drv m).2.1
      (Driver.Move_tick env (16384 * el) (16384 * er) d drv m).2.2 ∧
    (Driver.Move_tick env (16384 * el) (16384 * er) d drv m).2.1.log =
      drv.log ++ [Event.LeftMove (el * u), Event.RightMove (er * u),
        Event.Interrupted (env.interrupted drv.polls)] := by
  obtain ⟨a1, a2, a3, a4, a5, a6⟩ := hA
  have hr := toUInt16_range (m.s + u)
  -- the change of the counter, as the allocator sees it
  have hret : ∀ e : Int, e = 1 ∨ e = -1 →
      toInt8 (toInt16 (e * (toUInt16 (m.s + u) - m.s))) = e * u := by
    intro e he
    have h16 : toInt16 (e * (toUInt16 (m.s + u) - m.s)) = e * u := by
      unfold toInt16 wrapSigned toUInt16
      norm_num
      rcases he with rfl | rfl <;> rcases hu with rfl | rfl | rfl <;> omega
    rw [h16]
    rcases he with rfl | rfl <;> rcases hu with rfl | rfl | rfl <;> decide
  have hs2 : toUInt16 (m.s + toInt8
      (m.w.Update (toUInt16 (toUInt16 (env.time drv.reads) - m.start)).toNat
        (if Driver.Move_braking m.w d m.s then -Wheel.kMaxA else Wheel.kMaxA)).2) =
      toUInt16 (m.s + u) := by
    rw [← hs]
    exact (Driver.Move_tick_locals env (16384 * el) (16384 * er) d drv m).2.1.symm
  unfold Driver.Move_tick
  dsimp only [Driver.Poll, Driver.emit, Driver.GetTime]
  rw [hs2, a1, a3, FractionalMove_unit el m.s _ hel hr]
  dsimp only
  rw [a2, a4, FractionalMove_unit er m.s _ her hr]
  dsimp only
  rw [hret el hel, hret er her]
  refine ⟨⟨rfl, rfl, rfl, rfl, ?_, ?_⟩, ?_⟩
  · simp only [sumLeftMoves_append, sumLeftMoves, a5]
    ring
  · simp only [sumRightMoves_append, sumRightMoves, a6]
    ring
  · simp

/-- With ticks of at most 21333 timer ticks the accounting follows the virtual counter through
the loop of `Move`: the total is `s`. -/
theorem Driver.Move_loop_accounts (env : Env) (lo : Int) (hT : env.TicksWithin lo 21333)
    (el er d : Int) (hel : el = 1 ∨ el = -1) (her : er = 1 ∨ er = -1) (hd : d ≤ 65535)
    (SL SR : Int) (fuel : Nat) :
    ∀ (drv : Driver) (m : MoveLocals) (b : Bool) (drv1 : Driver) (m1 : MoveLocals),
      Driver.MoveInv env d drv m → Driver.Accounts el er SL SR m.s drv m →
      Driver.Move_loop env (16384 * el) (16384 * er) d fuel drv m = some (b, drv1, m1) →
      Driver.Accounts el er SL SR m1.s drv1 m1 := by
  have htick : ∀ (drv : Driver) (m : MoveLocals),
      Driver.MoveInv env d drv m → Driver.Accounts el er SL SR m.s drv m → m.s < d →
      Driver.Accounts el er SL SR
        (Driver.Move_tick env (16384 * el) (16384 * er) d drv m).2.2.s
        (Driver.Move_tick env (16384 * el) (16384 * er) d drv m).2.1
        (Driver.Move_tick env (16384 * el) (16384 * er) d drv m).2.2 := by
    intro drv m hI hA hc
    obtain ⟨t1, t2, _, _⟩ := Driver.Move_tick_inv env lo hT _ _ d hd drv m hI hc
    have hs0 := hI.2.2.2.1
    rcases t2 with h | h
    · have := (Driver.Move_tick_accounts env el er d hel her SL SR m.s drv m hA 0
        (Or.inr (Or.inl rfl)) (by
          rw [h, add_zero]
          exact (toUInt16_eq_self ⟨by omega, by omega⟩).symm)).1
      rw [h]
      rw [add_zero] at this
      exact this
    · have := (Driver.Move_tick_accounts env el er d hel her SL SR m.s drv m hA 1
        (Or.inr (Or.inr rfl)) (by
          rw [h]
          exact (toUInt16_eq_self ⟨by omega, by omega⟩).symm)).1
      rw [h]
      exact this
  induction fuel with
  | zero =>
    intro drv m b drv1 m1 hI hA h
    simp only [Driver.Move_loop] at h
    split_ifs at h with hc
    simp only [Option.some.injEq, Prod.mk.injEq] at h
    obtain ⟨_, rfl, rfl⟩ := h
    exact hA
  | succ n ih =>
    intro drv m b drv1 m1 hI hA h
    simp only [Driver.Move_loop] at h
    split_ifs at h with hc ht
    · simp only [Option.some.injEq, Prod.mk.injEq] at h
      obtain ⟨_, rfl, rfl⟩ := h
      exact htick drv m hI hA hc
    · exact ih _ _ _ _ _ (Driver.Move_tick_inv env lo hT _ _ d hd drv m hI hc).1
        (htick drv m hI hA hc) h
    · simp only [Option.some.injEq, Prod.mk.injEq] at h
      obtain ⟨_, rfl, rfl⟩ := h
      exact hA

/-- With ticks of at most 21333 timer ticks, fractions `2^14 * el` and `2^14 * er` and zero
remainders, a `Move(.., d)` that returns `true` has sent deltas summing to `el * d` to the
left stepper and to `er * d` to the right one, and leaves the remainders at 0. -/
theorem Driver.Move_exact_steps (env : Env) (lo : Int) (hT : env.TicksWithin lo 21333)
    (el er d : Int) (hel : el = 1 ∨ el = -1) (her : er = 1 ∨ er = -1)
    (hd : 0 ≤ d ∧ d ≤ 65535) (fuel : Nat) (drv : Driver)
    (hrem : drv.left_remainder_ = 0 ∧ drv.right_remainder_ = 0) (drv1 : Driver)
    (h : Driver.Move env fuel drv (16384 * el) (16384 * er) d = some (true, drv1)) :
    sumLeftMoves drv1.log = sumLeftMoves drv.log + el * d ∧
    sumRightMoves drv1.log = sumRightMoves drv.log + er * d ∧
    drv1.left_remainder_ = 0 ∧ drv1.right_remainder_ = 0 := by
  unfold Driver.Move at h
  rw [Option.map_eq_some'] at h
  obtain ⟨⟨b1, d1, m1⟩, hx, he⟩ := h
  simp only [Prod.mk.injEq] at he
  obtain ⟨rfl, rfl⟩ := he
  unfold Driver.Move_run at hx
  have hI := Driver.Move_run_inv env drv d hd.1
  have hA : Driver.Accounts el er (sumLeftMoves drv.log) (sumRightMoves drv.log)
      ({ start := (drv.GetTime env).1 } : MoveLocals).s (drv.GetTime env).2
      { start := (drv.GetTime env).1 } := by
    refine ⟨hrem.1, hrem.2, ?_, ?_, ?_, ?_⟩
    · show (0 : Int) = toInt16 (el * 0)
      rw [mul_zero]; decide
    · show (0 : Int) = toInt16 (er * 0)
      rw [mul_zero]; decide
    · show sumLeftMoves drv.log = sumLeftMoves drv.log + el * 0
      ring
    · show sumRightMoves drv.log = sumRightMoves drv.log + er * 0
      ring
  obtain ⟨a1, a2, _, _, a5, a6⟩ :=
    Driver.Move_loop_accounts env lo hT el er d hel her hd.2 _ _ fuel _ _ _ _ _ hI hA hx
  have hs := (Driver.Move_loop_inv env lo hT _ _ d hd.2 fuel _ _ _ _ _ hI hx).2 rfl
  rw [hs] at a5 a6
  exact ⟨a5, a6, a1, a2⟩

/-- With unity calibration `ForwardSteps(n)` is `Move(-sign * 2^14, sign * 2^14, |n|)`. -/
theorem Driver.ForwardSteps_unity (env : Env) (fuel : Nat) (drv : Driver)
    (hcal : drv.calibration_.left_fraction = 16384 ∧ drv.calibration_.right_fraction = 16384)
    (n : Int) (hn : -32767 ≤ n ∧ n ≤ 32767) :
    Driver.ForwardSteps env fuel drv n =
      Driver.Move env fuel drv (16384 * (if n < 0 then 1 else -1))
        (16384 * (if n < 0 then -1 else 1)) |n| := by
  have h := Driver.ForwardSteps_args_eq drv n (abs_le.mpr hn)
    (by rw [hcal.1]; norm_num) (by rw [hcal.2]; norm_num)
  unfold Driver.ForwardSteps
  dsimp only
  rw [h, hcal.1, hcal.2]
  by_cases hneg : n < 0
  · simp only [hneg, if_true]
    norm_num
  · simp only [hneg, if_false]
    norm_num

/-- C19 (exact step accounting), as amended. For a tick source that advances by at most
21333 ticks between consecutive samples: with unity calibration
(`left_fraction = right_fraction = 2^14`) and zero remainders, a `ForwardSteps(n)` that
returns `true`, `n` in `[-32767, 32767]`, has sent the left stepper deltas summing to
exactly `-n` and the right stepper deltas summing to exactly `n`, and left both remainders
at 0. -/
theorem ForwardSteps_exact_steps (env : Env) (hT : env.TicksWithin 0 21333) (fuel : Nat)
    (drv : Driver)
    (hcal : drv.calibration_.left_fraction = 16384 ∧ drv.calibration_.right_fraction = 16384)
    (hrem : drv.left_remainder_ = 0 ∧ drv.right_remainder_ = 0)
    (n : Int) (hn : -32767 ≤ n ∧ n ≤ 32767) (drv1 : Driver)
    (h : Driver.ForwardSteps env fuel drv n = some (true, drv1)) :
    sumLeftMoves drv1.log = sumLeftMoves drv.log - n ∧
    sumRightMoves drv1.log = sumRightMoves drv.log + n ∧
    drv1.left_remainder_ = 0 ∧ drv1.right_remainder_ = 0 := by
  rw [Driver.ForwardSteps_unity env fuel drv hcal n hn] at h
  by_cases hneg : n < 0
  · rw [if_pos hneg, if_pos hneg, abs_of_neg hneg] at h
    obtain ⟨e1, e2, e3, e4⟩ := Driver.Move_exact_steps env 0 hT 1 (-1) (-n) (Or.inl rfl)
      (Or.inr rfl) ⟨by omega, by omega⟩ fuel drv hrem drv1 h
    refine ⟨by rw [e1]; ring, by rw [e2]; ring, e3, e4⟩
  · rw [if_neg hneg, if_neg hneg, abs_of_nonneg (not_lt.mp hneg)] at h
    obtain ⟨e1, e2, e3, e4⟩ := Driver.Move_exact_steps env 0 hT (-1) 1 n (Or.inr rfl)
      (Or.inl rfl) ⟨by omega, by omega⟩ fuel drv hrem drv1 h
    refine ⟨by rw [e1]; ring, by rw [e2]; ring, e3, e4⟩

theorem ForwardSteps_exact_steps_witness :
    ∃ drv1 : Driver,
      Driver.ForwardSteps steadyEnv (2 ^ 52) { calibration_ := unityCalibration } (-5) =
        some (true, drv1) ∧
      sumLeftMoves drv1.log = sumLeftMoves [] - (-5) ∧
      sumRightMoves drv1.log = sumRightMoves [] + (-5) ∧
      drv1.left_remainder_ = 0 ∧ drv1.right_remainder_ = 0 := by
  obtain ⟨drv1, h⟩ := Driver.ForwardSteps_terminates steadyEnv steadyEnv_ticks (fun _ => rfl)
    (2 ^ 52) (le_refl _) { calibration_ := unityCalibration } (-5)
  exact ⟨drv1, h, ForwardSteps_exact_steps steadyEnv
    (fun k => ⟨le_trans (by norm_num) (steadyEnv_ticks k).1, (steadyEnv_ticks k).2⟩)
    (2 ^ 52) { calibration_ := unityCalibration } ⟨rfl, rfl⟩ ⟨rfl, rfl⟩ (-5)
    ⟨by norm_num, by norm_num⟩ drv1 h⟩

/-! ## The loop of `Move` followed on a profile -/

theorem toInt8_pulse (u : Int) (hu : u = -1 ∨ u = 0 ∨ u = 1) : toInt8 u = u := by
  rcases hu with rfl | rfl | rfl <;> decide

/-- One iteration of the loop of `Move` with fractions `2^14 * el`, `2^14 * er` follows the
profile. -/
theorem Driver.Move_tick_profile (env : Env) (el er d : Int) (hel : el = 1 ∨ el = -1)
    (her : er = 1 ∨ er = -1) (SL SR : Int) (drv : Driver) (m : MoveLocals) (p : MoveProfile)
    (hP : Driver.AtProfile env el er SL SR drv m p) :
    Driver.AtProfile env el er SL SR
      (Driver.Move_tick env (16384 * el) (16384 * er) d drv m).2.1
      (Driver.Move_tick env (16384 * el) (16384 * er) d drv m).2.2
      (Move_profile_tick env d p) := by
  obtain ⟨p1, p2, p3, p4, p5⟩ := hP
  obtain ⟨l1, l2, l3, l4⟩ := Driver.Move_tick_locals env (16384 * el) (16384 * er) d drv m
  have htick : toUInt16 (toUInt16 (env.time drv.reads) - m.start) = env.tick p.j := by
    rw [p1, p2]; rfl
  rw [htick, p3, p4] at l1 l2
  have hu := Wheel.Update_pulse_cases p.w (env.tick p.j).toNat
    (if Driver.Move_braking p.w d p.s then -Wheel.kMaxA else Wheel.kMaxA)
  have hs : (Driver.Move_tick env (16384 * el) (16384 * er) d drv m).2.2.s =
      toUInt16 (m.s + (p.w.Update (env.tick p.j).toNat
        (if Driver.Move_braking p.w d p.s then -Wheel.kMaxA else Wheel.kMaxA)).2) := by
    rw [l2, toInt8_pulse _ hu, p4]
  have hA := (Driver.Move_tick_accounts env el er d hel her SL SR p.total drv m p5 _ hu hs).1
  refine ⟨by rw [l4, p1]; rfl, by rw [l3, p1]; rfl, l1, ?_, hA⟩
  rw [l2]
  rfl

theorem Move_profile_run_add (env : Env) (d : Int) (a b : Nat) :
    ∀ p : MoveProfile, Move_profile_run env d (a + b) p =
      (Move_profile_run env d a p).bind (Move_profile_run env d b) := by
  induction a with
  | zero => intro p; simp [Move_profile_run]
  | succ a ih =>
    intro p
    rw [show a + 1 + b = (a + b) + 1 by omega]
    simp only [Move_profile_run]
    split_ifs with hc
    · exact ih _
    · rfl

/-- When the profile leaves the loop after `n` iterations and the predicate never answers
`true`, `Move` runs to the end in `n` iterations and the driver is at the final profile. -/
theorem Driver.Move_loop_profile (env : Env) (hN : env.NeverInterrupted) (el er d : Int)
    (hel : el = 1 ∨ el = -1) (her : er = 1 ∨ er = -1) (SL SR : Int) (n : Nat) :
    ∀ (drv : Driver) (m : MoveLocals) (p q : MoveProfile) (fuel : Nat),
      Driver.AtProfile env el er SL SR drv m p →
      Move_profile_run env d n p = some q → ¬ q.s < d → n ≤ fuel →
      ∃ (drv1 : Driver) (m1 : MoveLocals),
        Driver.Move_loop env (16384 * el) (16384 * er) d fuel drv m = some (true, drv1, m1) ∧
        Driver.AtProfile env el er SL SR drv1 m1 q := by
  induction n with
  | zero =>
    intro drv m p q fuel hP hr hq _
    simp only [Move_profile_run, Option.some.injEq] at hr
    subst hr
    have hs : ¬ m.s < d := by rw [hP.2.2.2.1]; exact hq
    refine ⟨drv, m, ?_, hP⟩
    cases fuel <;> simp [Driver.Move_loop, hs]
  | succ n ih =>
    intro drv m p q fuel hP hr hq hf
    obtain ⟨k, rfl⟩ : ∃ k, fuel = k + 1 := ⟨fuel - 1, by omega⟩
    simp only [Move_profile_run] at hr
    split_ifs at hr with hc
    have hs : m.s < d := by rw [hP.2.2.2.1]; exact hc
    have hq0 : (Driver.Move_tick env (16384 * el) (16384 * er) d drv m).1 = false := by
      rw [(Driver.Move_tick_fields env _ _ d drv m).1]
      exact hN _
    obtain ⟨drv1, m1, h1, h2⟩ := ih _ _ _ q k
      (Driver.Move_tick_profile env el er d hel her SL SR drv m p hP) hr hq (by omega)
    refine ⟨drv1, m1, ?_, h2⟩
    simp only [Driver.Move_loop, hs, if_true, hq0, Bool.false_eq_true, if_false]
    exact h1

/-! ## A run in which the profile position overflows -/

theorem overflowEnv_tick_fast (j : Nat) (hj : j < 15831) : overflowEnv.tick j = 65535 := by
  simp only [Env.tick, overflowEnv, toUInt16]
  rw [min_eq_left (by omega : j + 1 ≤ 15831), min_eq_left (by omega : j ≤ 15831)]
  push_cast
  omega

theorem overflowEnv_tick_still (j : Nat) (hj : 15831 ≤ j) : overflowEnv.tick j = 0 := by
  simp only [Env.tick, overflowEnv, toUInt16]
  rw [min_eq_right (by omega : 15831 ≤ j + 1), min_eq_right hj]
  norm_num

/-- At the velocity `kMaxV` the stopping estimate of `Move` is 37 steps. -/
theorem Driver.Move_braking_at_kMaxV (x d s : Int) :
    Driver.Move_braking ⟨x, 13194139533⟩ d s = decide (37 ≥ toUInt16 (d - s)) := by
  unfold Driver.Move_braking
  have h : Int.shiftRight (toInt64 (toInt64 (Int.tdiv 13194139533
      (toInt64 (2 * Wheel.kMaxA))) * 13194139533)) 48 = 37 := by decide
  show decide (Int.shiftRight (toInt64 (toInt64 (Int.tdiv 13194139533
      (toInt64 (2 * Wheel.kMaxA))) * 13194139533)) 48 ≥ toUInt16 (d - s)) = _
  rw [h]

/-- Cruising at `kMaxV` with ticks of 65535 timer ticks: every `Update` returns one pulse and
the position grows by `kMaxV * 65535 - 2^48`, as long as the sum fits in `int64_t`. -/
theorem Wheel.Update_cruise (x : Int) (h0 : -(2 ^ 47) ≤ x)
    (h1 : x ≤ 2 ^ 63 - 1 - 864677934295155) :
    Wheel.Update ⟨x, 13194139533⟩ 65535 Wheel.kMaxA =
      (⟨x + 583202957584499, 13194139533⟩, 1) := by
  norm_num at h0 h1
  have hv2 : Wheel.Update_v2 ⟨x, 13194139533⟩ 65535 Wheel.kMaxA = 13734541143 := by
    show toInt64 (13194139533 + toInt64 (Wheel.kMaxA * ((65535 : Nat) : Int))) = _
    decide
  have hV := Wheel.Update_v_eq ⟨x, 13194139533⟩ 65535 Wheel.kMaxA
  have hp := Wheel.Update_pulse_eq ⟨x, 13194139533⟩ 65535 Wheel.kMaxA
  have hq := Wheel.Update_s_eq ⟨x, 13194139533⟩ 65535 Wheel.kMaxA
  rw [hv2, Wheel.kMaxV_eq, if_pos (by norm_num)] at hV
  rcases hU : Wheel.Update ⟨x, 13194139533⟩ 65535 Wheel.kMaxA with ⟨⟨us, uv⟩, up⟩
  rw [hU] at hV hp hq
  dsimp only at hV hp hq
  subst hV
  have hD : Int.tdiv (toInt64 (toInt64 (13194139533 + 13194139533) *
      ((65535 : Nat) : Int))) 2 = 864677934295155 := by decide
  rw [hD] at hp hq
  have i3 : toInt64 (x + 864677934295155) = x + 864677934295155 :=
    toInt64_eq_self ⟨by omega, by omega⟩
  rw [i3] at hp hq
  have c1 : x + 864677934295155 > 2 ^ 47 := by norm_num; omega
  rw [if_pos c1] at hp hq
  have i4 : toInt64 (x + 864677934295155 - 2 ^ 48) = x + 583202957584499 := by
    rw [toInt64_eq_self ⟨by norm_num; omega, by norm_num; omega⟩]
    norm_num
    omega
  rw [i4] at hq
  rw [hp, hq]

/-- With an empty tick at the velocity `kMaxV` and a position below `-2^47`, `Update`
returns the pulse `-1` and adds `2^48` to the position, whatever the acceleration. -/
theorem Wheel.Update_descent (x a : Int) (h0 : -(2 ^ 63) ≤ x) (h1 : x < -(2 ^ 47)) :
    Wheel.Update ⟨x, 13194139533⟩ 0 a = (⟨x + 281474976710656, 13194139533⟩, -1) := by
  have h1' := h1
  norm_num at h0 h1
  have hv2 : Wheel.Update_v2 ⟨x, 13194139533⟩ 0 a = 13194139533 := by
    show toInt64 (13194139533 + toInt64 (a * ((0 : Nat) : Int))) = _
    rw [Nat.cast_zero, mul_zero]
    decide
  have hV := Wheel.Update_v_eq ⟨x, 13194139533⟩ 0 a
  have hp := Wheel.Update_pulse_eq ⟨x, 13194139533⟩ 0 a
  have hq := Wheel.Update_s_eq ⟨x, 13194139533⟩ 0 a
  rw [hv2, Wheel.kMaxV_eq, if_neg (by norm_num), if_neg (by norm_num)] at hV
  rcases hU : Wheel.Update ⟨x, 13194139533⟩ 0 a with ⟨⟨us, uv⟩, up⟩
  rw [hU] at hV hp hq
  dsimp only at hV hp hq
  subst hV
  have hD : Int.tdiv (toInt64 (toInt64 (13194139533 + 13194139533) *
      ((0 : Nat) : Int))) 2 = 0 := by decide
  rw [hD, add_zero] at hp hq
  have i3 : toInt64 x = x := toInt64_eq_self ⟨by omega, by omega⟩
  rw [i3] at hp hq
  have c1 : ¬ x > 2 ^ 47 := by norm_num; omega
  rw [if_neg c1, if_pos h1'] at hp hq
  have i4 : toInt64 (x + 2 ^ 48) = x + 281474976710656 := by
    rw [toInt64_eq_self ⟨by norm_num; omega, by norm_num; omega⟩]
    norm_num
  rw [i4] at hq
  rw [hp, hq]

/-- Cruising profile: `i` iterations at `kMaxV` with ticks of 65535 timer ticks, far from the
target. -/
theorem Move_profile_cruise (d : Int) (i : Nat) :
    ∀ (j : Nat) (x S T : Int), j + i ≤ 15831 → -(2 ^ 47) ≤ x →
      x + i * 583202957584499 ≤ 9223090561878065151 → 0 ≤ S → S + i + 37 < d → d ≤ 65535 →
      Move_profile_run overflowEnv d i ⟨j, ⟨x, 13194139533⟩, S, T⟩ =
        some ⟨j + i, ⟨x + i * 583202957584499, 13194139533⟩, S + i, T + i⟩ := by
  induction i with
  | zero =>
    intro j x S T _ _ _ _ _ _
    simp [Move_profile_run]
  | succ i ih =>
    intro j x S T hj h0 h1 hS hd hd2
    push_cast at h1 hd
    have hi0 : (0 : Int) ≤ (i : Int) := Int.ofNat_nonneg _
    have hlt : S < d := by omega
    have hbr : Driver.Move_braking ⟨x, 13194139533⟩ d S = false := by
      rw [Driver.Move_braking_at_kMaxV, decide_eq_false_iff_not,
        toUInt16_eq_self (x := d - S) ⟨by omega, by omega⟩]
      omega
    have htick : Move_profile_tick overflowEnv d ⟨j, ⟨x, 13194139533⟩, S, T⟩ =
        ⟨j + 1, ⟨x + 583202957584499, 13194139533⟩, S + 1, T + 1⟩ := by
      unfold Move_profile_tick
      dsimp only
      rw [overflowEnv_tick_fast j (by omega), hbr]
      simp only [Bool.false_eq_true, if_false]
      rw [show (65535 : Int).toNat = 65535 by rfl,
        Wheel.Update_cruise x h0 (by norm_num; omega)]
      dsimp only
      rw [show toInt8 1 = 1 by decide, toUInt16_eq_self (x := S + 1) ⟨by omega, by omega⟩]
    simp only [Move_profile_run, hlt, if_true, htick]
    rw [ih (j + 1) (x + 583202957584499) (S + 1) (T + 1) (by omega) (by norm_num at h0 ⊢; omega)
      (by omega) (by omega) (by omega) hd2]
    congr 2
    · omega
    · push_cast; ring_nf
    · push_cast; ring
    · push_cast; ring

/-- Descending profile: `i` iterations with empty ticks at `kMaxV` and a position below
`-2^47`. -/
theorem Move_profile_descent (d : Int) (i : Nat) :
    ∀ (j : Nat) (x S T : Int), 15831 ≤ j → -(2 ^ 63) ≤ x →
      x + i * 281474976710656 < 2 ^ 47 → i ≤ S → S < d → d ≤ 65535 →
      Move_profile_run overflowEnv d i ⟨j, ⟨x, 13194139533⟩, S, T⟩ =
        some ⟨j + i, ⟨x + i * 281474976710656, 13194139533⟩, S - i, T - i⟩ := by
  induction i with
  | zero =>
    intro j x S T _ _ _ _ _ _
    simp [Move_profile_run]
  | succ i ih =>
    intro j x S T hj h0 h1 hS hd hd2
    push_cast at h1 hS
    have hi0 : (0 : Int) ≤ (i : Int) := Int.ofNat_nonneg _
    have htick : Move_profile_tick overflowEnv d ⟨j, ⟨x, 13194139533⟩, S, T⟩ =
        ⟨j + 1, ⟨x + 281474976710656, 13194139533⟩, S - 1, T - 1⟩ := by
      unfold Move_profile_tick
      dsimp only
      rw [overflowEnv_tick_still j hj, show (0 : Int).toNat = 0 by rfl,
        Wheel.Update_descent x _ h0 (by norm_num at h1 ⊢; omega)]
      dsimp only
      rw [show toInt8 (-1) = -1 by decide,
        toUInt16_eq_self (x := S + -1) ⟨by omega, by omega⟩]
      rfl
    simp only [Move_profile_run, hd, if_true, htick]
    rw [ih (j + 1) (x + 281474976710656) (S - 1) (T - 1) (by omega)
      (by norm_num at h0 ⊢; omega) (by omega) (by omega) (by omega) hd2]
    congr 2
    · omega
    · push_cast; ring_nf
    · push_cast; ring
    · push_cast; ring

set_option maxRecDepth 100000 in
/-- Ramp-up: after 25 iterations from rest with ticks of 65535 timer ticks the velocity is
`kMaxV` and 21 pulses were returned. -/
theorem Move_profile_ramp :
    Move_profile_run overflowEnv 32767 25 ⟨0, ⟨0, 0⟩, 0, 0⟩ =
      some ⟨25, ⟨5145930309628801, 13194139533⟩, 21, 21⟩ := by
  decide

set_option maxRecDepth 100000 in
/-- The iteration in which the position sum exceeds `2^63 - 1`: it wraps, and `Update`
returns `-1`. -/
theorem Move_profile_overflow_tick :
    Move_profile_run overflowEnv 32767 1
        ⟨15830, ⟨9222668674932635496, 13194139533⟩, 15826, 15826⟩ =
      some ⟨15831, ⟨-9222929245865910309, 13194139533⟩, 15825, 15825⟩ := by
  decide

set_option maxRecDepth 100000 in
/-- The iteration in which the virtual counter wraps from 0 to 65535. -/
theorem Move_profile_wrap_tick :
    Move_profile_run overflowEnv 32767 1
        ⟨31656, ⟨-4768587739419779109, 13194139533⟩, 0, 0⟩ =
      some ⟨31657, ⟨-4768306264443068453, 13194139533⟩, 65535, -1⟩ := by
  decide

/-- The whole run: ramp-up, 15805 cruising iterations, the overflow, 15825 descending
iterations and the wrap of the counter. -/
theorem Move_profile_overflow_run :
    Move_profile_run overflowEnv 32767 31657 ⟨0, ⟨0, 0⟩, 0, 0⟩ =
      some ⟨31657, ⟨-4768306264443068453, 13194139533⟩, 65535, -1⟩ := by
  have hc := Move_profile_cruise 32767 15805 25 5145930309628801 21 21 (by norm_num)
    (by norm_num) (by norm_num) (by norm_num) (by norm_num) (by norm_num)
  have hd := Move_profile_descent 32767 15825 15831 (-9222929245865910309) 15825 15825
    (by norm_num) (by norm_num) (by norm_num) (by norm_num) (by norm_num) (by norm_num)
  norm_num at hc hd
  rw [show (31657 : Nat) = 25 + (15805 + (1 + (15825 + 1))) by norm_num,
    Move_profile_run_add, Move_profile_ramp, Option.some_bind,
    Move_profile_run_add, hc, Option.some_bind,
    Move_profile_run_add, Move_profile_overflow_tick, Option.some_bind,
    Move_profile_run_add, hd, Option.some_bind, Move_profile_wrap_tick]

/-- C19 as stated fails when the timer intervals are long: in the world `overflowEnv`
(intervals of 65535 ticks up to sample 15831, then a timer that stands still; the predicate
is never `true`), with unity calibration and zero remainders, `ForwardSteps(32767)` returns
`true` after 31657 iterations, having sent deltas that sum to `1` to the left stepper and to
`-1` to the right one, not `-32767` and `32767`. At `kMaxV` every tick of 65535 timer ticks
advances the position by more than `2^48`, of which `Update` removes only one period, so
the `int64_t` position grows until it overflows; from then on every `Update` returns `-1`
and the virtual counter `s` counts down past 0, wrapping to 65535, which ends the loop. -/
theorem ForwardSteps_exact_steps_counterexample :
    ∃ drv1 : Driver,
      Driver.ForwardSteps overflowEnv 31657 { calibration_ := unityCalibration } 32767 =
        some (true, drv1) ∧
      sumLeftMoves drv1.log = 1 ∧ sumRightMoves drv1.log = -1 := by
  have hP : Driver.AtProfile overflowEnv (-1) 1 0 0
      ((({ calibration_ := unityCalibration } : Driver).GetTime overflowEnv).2)
      { start := (({ calibration_ := unityCalibration } : Driver).GetTime overflowEnv).1 }
      ⟨0, ⟨0, 0⟩, 0, 0⟩ := by
    refine ⟨rfl, rfl, rfl, rfl, rfl, rfl, ?_, ?_, ?_, ?_⟩
    · decide
    · decide
    · decide
    · decide
  obtain ⟨drv1, m1, h1, h2⟩ := Driver.Move_loop_profile overflowEnv (fun _ => rfl) (-1) 1 32767
    (Or.inr rfl) (Or.inl rfl) 0 0 31657 _ _ _ _ 31657 hP Move_profile_overflow_run
    (by norm_num) (le_refl _)
  refine ⟨drv1, ?_, ?_, ?_⟩
  · rw [Driver.ForwardSteps_unity overflowEnv 31657 _ ⟨rfl, rfl⟩ 32767 ⟨by norm_num, by norm_num⟩]
    rw [if_neg (by norm_num), if_neg (by norm_num), abs_of_nonneg (by norm_num)]
    unfold Driver.Move Driver.Move_run
    rw [h1]
    rfl
  · have := h2.2.2.2.2.2.2.2.2.1
    rw [this]
    norm_num
  · have := h2.2.2.2.2.2.2.2.2.2
    rw [this]
    norm_num

/-! ## Profile constants and the stopping estimate -/

/-- C31 (profile constants). At `F_CPU = 16000000`: `kMaxV` is the floor of
`750 * 2^48 / F_CPU`, so `kMaxV * F_CPU <= 750 * 2^48 < (kMaxV + 1) * F_CPU` (at most 750
steps per second); `kMaxA` is the floor of `kMaxV / (F_CPU / 10)`, so
`kMaxA * (F_CPU / 10) <= kMaxV < (kMaxA + 1) * (F_CPU / 10)`; hence accelerating from rest at
`kMaxA` for up to `F_CPU / 10` ticks (100 ms) never exceeds `kMaxV`, and after exactly 100 ms
it falls short of `kMaxV` by less than `F_CPU / 10`. -/
theorem Wheel_profile_constants :
    F_CPU = 16000000 ∧
    Wheel.kMaxV = 750 * 2 ^ 48 / F_CPU ∧
    Wheel.kMaxV * F_CPU ≤ 750 * 2 ^ 48 ∧ 750 * 2 ^ 48 < (Wheel.kMaxV + 1) * F_CPU ∧
    Wheel.kMaxA = Wheel.kMaxV / (F_CPU / 10) ∧
    Wheel.kMaxA * (F_CPU / 10) ≤ Wheel.kMaxV ∧
    Wheel.kMaxV < (Wheel.kMaxA + 1) * (F_CPU / 10) ∧
    Wheel.kMaxV - Wheel.kMaxA * (F_CPU / 10) < F_CPU / 10 ∧
    (∀ t : Int, 0 ≤ t → t ≤ F_CPU / 10 → Wheel.kMaxA * t ≤ Wheel.kMaxV) := by
  refine ⟨rfl, by decide, by decide, by decide, by decide, by decide, by decide, by decide, ?_⟩
  intro t h0 h1
  have hF : F_CPU / 10 = 1600000 := by decide
  rw [hF] at h1
  rw [Wheel.kMaxA_eq, Wheel.kMaxV_eq]
  omega

theorem Driver.Move_braking_eq (w : Wheel) (d s : Int) :
    Driver.Move_braking w d s = decide (Driver.Move_estimate w ≥ toUInt16 (d - s)) := rfl

/-- The stopping estimate for a velocity within the bound: the product does not overflow,
and the estimate is its quotient by `2^48`, between 0 and 37. -/
theorem Driver.Move_estimate_range (w : Wheel) (hv : |w.v_| ≤ Wheel.kMaxV) :
    IsInt64 (Int.tdiv w.v_ (2 * Wheel.kMaxA) * w.v_) ∧
    Driver.Move_estimate w = Int.tdiv w.v_ (2 * Wheel.kMaxA) * w.v_ / 2 ^ 48 ∧
    0 ≤ Driver.Move_estimate w ∧ Driver.Move_estimate w ≤ 37 := by
  obtain ⟨hv0, hv1⟩ := abs_le.mp hv
  rw [Wheel.kMaxV_eq] at hv0 hv1
  have h2A : toInt64 (2 * Wheel.kMaxA) = 16492 := by decide
  have h2A2 : 2 * Wheel.kMaxA = 16492 := by decide
  unfold Driver.Move_estimate
  rw [h2A, h2A2]
  have hc := tdiv_eq_cases w.v_ 16492 (by norm_num)
  -- the product is a product of two numbers of equal sign
  have hprod : ∃ a b : Int, 0 ≤ a ∧ a ≤ 800032 ∧ 0 ≤ b ∧ b ≤ 13194139533 ∧
      Int.tdiv w.v_ 16492 * w.v_ = a * b ∧ -800032 ≤ Int.tdiv w.v_ 16492 ∧
      Int.tdiv w.v_ 16492 ≤ 800032 := by
    by_cases h0 : 0 ≤ w.v_
    · rw [if_pos h0] at hc
      refine ⟨w.v_ / 16492, w.v_, by omega, by omega, h0, hv1, by rw [hc], by rw [hc]; omega,
        by rw [hc]; omega⟩
    · rw [if_neg h0] at hc
      refine ⟨-w.v_ / 16492, -w.v_, by omega, by omega, by omega, by omega, by rw [hc]; ring,
        by rw [hc]; omega, by rw [hc]; omega⟩
  obtain ⟨a, b, ha0, ha1, hb0, hb1, hab, hk0, hk1⟩ := hprod
  have hp0 : 0 ≤ a * b := mul_nonneg ha0 hb0
  have hp1 : a * b ≤ 800032 * 13194139533 := mul_le_mul ha1 hb1 hb0 (by norm_num)
  rw [toInt64_eq_self (x := Int.tdiv w.v_ 16492) ⟨by omega, by omega⟩, hab]
  generalize a * b = P at hp0 hp1
  rw [toInt64_eq_self (x := P) ⟨by omega, by omega⟩, Int_shiftRight_floor]
  refine ⟨⟨by omega, by omega⟩, rfl, ?_, ?_⟩
  · exact Int.ediv_nonneg hp0 (by norm_num)
  · have : P / 2 ^ 48 < 38 := by
      apply Int.ediv_lt_of_lt_mul (by norm_num)
      norm_num
      omega
    omega

/-- C35 (stopping-distance estimate). For every velocity with `|v_| <= kMaxV` the product
`(v_ / (2 * kMaxA)) * v_` fits in 64 bits and the estimate `>> 48` of it is non-negative and
at most 37 virtual steps (37 at `kMaxV`); so `Move` brakes only when at most 37 virtual
steps remain, and the acceleration it hands to `Update` is always exactly `kMaxA` or
`-kMaxA`, within `[-kMaxA, kMaxA]`. -/
theorem Move_stopping_estimate (w : Wheel) (hv : |w.v_| ≤ Wheel.kMaxV) :
    IsInt64 (Int.tdiv w.v_ (2 * Wheel.kMaxA) * w.v_) ∧
    Driver.Move_estimate w = Int.tdiv w.v_ (2 * Wheel.kMaxA) * w.v_ / 2 ^ 48 ∧
    0 ≤ Driver.Move_estimate w ∧ Driver.Move_estimate w ≤ 37 ∧
    Driver.Move_estimate ⟨0, Wheel.kMaxV⟩ = 37 ∧
    (∀ d s : Int, Driver.Move_braking w d s = true → toUInt16 (d - s) ≤ 37) ∧
    (∀ d s : Int,
      ((if Driver.Move_braking w d s then -Wheel.kMaxA else Wheel.kMaxA) = Wheel.kMaxA ∨
        (if Driver.Move_braking w d s then -Wheel.kMaxA else Wheel.kMaxA) = -Wheel.kMaxA) ∧
      |(if Driver.Move_braking w d s then -Wheel.kMaxA else Wheel.kMaxA)| ≤ Wheel.kMaxA) := by
  obtain ⟨e1, e2, e3, e4⟩ := Driver.Move_estimate_range w hv
  refine ⟨e1, e2, e3, e4, by decide, ?_, ?_⟩
  · intro d s hb
    rw [Driver.Move_braking_eq, decide_eq_true_eq] at hb
    omega
  · intro d s
    have hA : (0 : Int) ≤ Wheel.kMaxA := by rw [Wheel.kMaxA_eq]; norm_num
    by_cases hb : Driver.Move_braking w d s = true
    · rw [if_pos hb]
      exact ⟨Or.inr rfl, by rw [abs_neg, abs_of_nonneg hA]⟩
    · rw [if_neg hb]
      exact ⟨Or.inl rfl, by rw [abs_of_nonneg hA]⟩

set_option maxRecDepth 100000 in
theorem Move_stopping_estimate_witness :
    Driver.Move_estimate ⟨0, -5000000000⟩ = 5 ∧
    0 ≤ Driver.Move_estimate ⟨0, -5000000000⟩ ∧ Driver.Move_estimate ⟨0, -5000000000⟩ ≤ 37 :=
  ⟨by decide,
    (Move_stopping_estimate ⟨0, -5000000000⟩ (by decide)).2.2.1,
    (Move_stopping_estimate ⟨0, -5000000000⟩ (by decide)).2.2.2.1⟩

/-! ## Composition of `Stepper::Move` for four coils -/

theorem Stepper.Move_Len (st : Stepper) (delta : Int) : (st.Move delta).c_.Len = st.c_.Len := by
  unfold Stepper.Move
  exact CoilList.ForEach_Len _ _

theorem Stepper.kPeriod_four (st : Stepper) (h4 : st.c_.Len = 4) : st.kPeriod = 8 := by
  unfold Stepper.kPeriod
  rw [h4]
  norm_num

/-- The phase after two `Move` calls on a 4-coil stepper. -/
theorem Stepper.Move_Move_pos (st : Stepper) (h4 : st.c_.Len = 4) (a b : Int) :
    ((st.Move a).Move b).pos_ = (st.pos_ + a + b) % 8 := by
  have hk := Stepper.kPeriod_four st h4
  have hk2 := Stepper.kPeriod_four (st.Move a) (by rw [Stepper.Move_Len, h4])
  have e1 : (st.Move a).pos_ = (st.pos_ + a) % 8 := by
    show st.Move_pos a = _
    rw [Stepper.Move_pos_of_dvd st a (by rw [hk]; norm_num), hk]
  show (st.Move a).Move_pos b = _
  rw [Stepper.Move_pos_of_dvd (st.Move a) b (by rw [hk2]; norm_num), hk2, e1]
  omega

/-- C39 (`Stepper::Move` is additive for four coils). For a 4-coil stepper (period 8) and
every pair of deltas, in particular every pair of `int8_t` values and whether or not the
8-bit intermediate `pos_ + delta` wraps: `Move(a)` followed by `Move(b)` leaves the phase
`(p + a + b) mod 8`, the phase that a single `Move(a + b)` leaves, and the coil outputs that
the energizing rule gives for that phase; `Move(k)` followed by `Move(-k)` restores every
phase `p` in `[0, 8)`. -/
theorem Stepper_Move_additive (st : Stepper) (h4 : st.c_.Len = 4) (a b : Int) :
    ((st.Move a).Move b).pos_ = (st.pos_ + a + b) % 8 ∧
    ((st.Move a).Move b).pos_ = (st.Move (a + b)).pos_ ∧
    ((st.Move a).Move b).levels =
      (List.range 4).map (fun i : Nat =>
        UpdateFn.energized { period := 8, pos := (st.pos_ + a + b) % 8 } (i : Int)) ∧
    ((st.Move a).Move b).levels = (st.Move (a + b)).levels ∧
    (∀ k : Int, 0 ≤ st.pos_ ∧ st.pos_ < 8 → ((st.Move k).Move (-k)).pos_ = st.pos_) := by
  have hk := Stepper.kPeriod_four st h4
  have hLa : (st.Move a).c_.Len = 4 := by rw [Stepper.Move_Len, h4]
  have e1 := Stepper.Move_Move_pos st h4 a b
  have e2 : (st.Move (a + b)).pos_ = (st.pos_ + a + b) % 8 := by
    show st.Move_pos (a + b) = _
    rw [Stepper.Move_pos_of_dvd st (a + b) (by rw [hk]; norm_num), hk, add_assoc]
  have e3 : ((st.Move a).Move b).levels =
      (List.range 4).map (fun i : Nat =>
        UpdateFn.energized { period := 8, pos := (st.pos_ + a + b) % 8 } (i : Int)) := by
    rw [Stepper.Move_levels (st.Move a) b (by rw [hLa]; norm_num), hLa]
    have : (st.Move a).Move_pos b = (st.pos_ + a + b) % 8 := e1
    rw [this]
    rfl
  have e4 : (st.Move (a + b)).levels =
      (List.range 4).map (fun i : Nat =>
        UpdateFn.energized { period := 8, pos := (st.pos_ + a + b) % 8 } (i : Int)) := by
    rw [Stepper.Move_levels st (a + b) (by rw [h4]; norm_num), h4]
    have : st.Move_pos (a + b) = (st.pos_ + a + b) % 8 := e2
    rw [this]
    rfl
  refine ⟨e1, by rw [e1, e2], e3, by rw [e3, e4], ?_⟩
  intro k hp
  rw [Stepper.Move_Move_pos st h4 k (-k)]
  omega

set_option maxRecDepth 100000 in
theorem Stepper_Move_additive_witness :
    (((⟨CoilList.fresh 3, 5⟩ : Stepper).Move 127).Move 127).pos_ = (5 + 127 + 127) % 8 ∧
    (((⟨CoilList.fresh 3, 5⟩ : Stepper).Move 127).Move 127).pos_ = 3 ∧
    (((⟨CoilList.fresh 3, 5⟩ : Stepper).Move (-100)).Move (- -100)).pos_ = 5 :=
  ⟨(Stepper_Move_additive ⟨CoilList.fresh 3, 5⟩ (by decide) 127 127).1, by decide,
    (Stepper_Move_additive ⟨CoilList.fresh 3, 5⟩ (by decide) 127 127).2.2.2.2 (-100)
      ⟨by decide, by decide⟩⟩

/-! ## Zero-length motions -/

theorem Driver.ForwardSteps_zero (env : Env) (fuel : Nat) (drv : Driver) :
    Driver.ForwardSteps env fuel drv 0 = some (true, { drv with reads := drv.reads + 1 }) := by
  unfold Driver.ForwardSteps
  exact Driver.Move_zero env fuel drv _ _ _ (by
    show toUInt16 (if (0 : Int) < 0 then toInt16 (-0) else 0) ≤ 0
    decide)

/-- A `RotateSteps` whose effective step count (bias folded in) is 0 only does the bias
bookkeeping and takes one timer sample. -/
theorem Driver.RotateSteps_zero (env : Env) (fuel : Nat) (drv : Driver) (steps : Int)
    (h0 : toInt16 (steps +
      (Driver.RotateSteps_bias drv.calibration_.angle_offset drv.angle_fraction_).1) = 0) :
    Driver.RotateSteps env fuel drv steps =
      some (true, { drv with
        angle_fraction_ :=
          (Driver.RotateSteps_bias drv.calibration_.angle_offset drv.angle_fraction_).2,
        reads := drv.reads + 1 }) := by
  rw [Driver.RotateSteps_eq, h0]
  exact Driver.Move_zero env fuel _ _ _ _ (by
    show toUInt16 (if (0 : Int) < 0 then toInt16 (-0) else 0) ≤ 0
    decide)

/-- The body of the loop of `DrawImage` for a segment with angle 0 and length 0, with no
calibration bias: it succeeds whatever the predicate, evaluates it not once and calls no
stepper. -/
theorem Driver.DrawImage_segment_idle (env : Env) (hadv : env.TimerAdvances) (fuel : Nat)
    (hf : 3200001 ≤ fuel) (image : Image) (i : Nat) (pen : Bool) (d : Driver)
    (hp : (image.points i).angle = 0 ∧ (image.points i).len = 0)
    (hb : d.calibration_.angle_offset = 0 ∧ d.angle_fraction_ = 0) :
    ∃ (pen1 : Bool) (d1 : Driver) (evs : List Event),
      Driver.DrawImage_segment env fuel image i pen d = some (true, pen1, d1) ∧
      d1.polls = d.polls ∧ d1.calibration_ = d.calibration_ ∧ d1.angle_fraction_ = 0 ∧
      d1.log = d.log ++ evs ∧ (∀ e ∈ evs, e.isMotion = false) := by
  have hpen : ∃ (dp : Driver) (evp : List Event),
      (if (i == 0 || pen != (image.points i).pen) = true
        then Driver.Pen env fuel d (image.points i).pen else some d) = some dp ∧
      dp.log = d.log ++ evp ∧ (∀ e ∈ evp, e.isMotion = false) ∧
      dp.calibration_ = d.calibration_ ∧ dp.angle_fraction_ = d.angle_fraction_ ∧
      dp.polls = d.polls := by
    by_cases hc : (i == 0 || pen != (image.points i).pen) = true
    · obtain ⟨r, hr⟩ := Driver.Pen_terminates env hadv fuel hf d (image.points i).pen
      obtain ⟨k, hk⟩ := Driver.Pen_frame env fuel d _ r hr
      refine ⟨r, _, by rw [if_pos hc]; exact hr, by rw [hk], ?_, by rw [hk], by rw [hk],
        by rw [hk]⟩
      intro e he
      simp only [List.mem_singleton] at he
      rw [he]; rfl
    · exact ⟨d, [], by rw [if_neg hc], by simp, by simp, rfl, rfl, rfl⟩
  obtain ⟨dp, evp, hP, p1, p2, p3, p4, p5⟩ := hpen
  have hbias : Driver.RotateSteps_bias dp.calibration_.angle_offset dp.angle_fraction_ =
      (0, 0) := by
    rw [p3, p4, hb.1, hb.2]
    decide
  have hR := Driver.RotateSteps_zero env fuel dp (image.points i).angle (by
    rw [hbias, hp.1]
    decide)
  rw [hbias] at hR
  have hF := Driver.ForwardSteps_zero env fuel
    ({ dp with angle_fraction_ := (0, 0).2, reads := dp.reads + 1 } : Driver)
  unfold Driver.DrawImage_segment
  dsimp only
  rw [hP]
  dsimp only
  rw [hR]
  dsimp only
  rw [hp.2, hF]
  exact ⟨_, _, evp, rfl, p5, p3, rfl, p1, p2⟩

/-- The loop of `DrawImage` on an idle image, with no calibration bias. -/
theorem Driver.DrawImage_loop_idle (env : Env) (hadv : env.TimerAdvances) (fuel : Nat)
    (hf : 3200001 ≤ fuel) (image : Image) (hI : image.Idle) (n : Nat) :
    ∀ (i : Nat) (pen : Bool) (d : Driver),
      d.calibration_.angle_offset = 0 ∧ d.angle_fraction_ = 0 →
      ∃ (d1 : Driver) (evs : List Event),
        Driver.DrawImage_loop env fuel image n i pen d = some (i + n, d1) ∧
        d1.polls = d.polls ∧ d1.calibration_ = d.calibration_ ∧
        d1.log = d.log ++ evs ∧ (∀ e ∈ evs, e.isMotion = false) := by
  induction n with
  | zero =>
    intro i pen d _
    exact ⟨d, [], rfl, rfl, rfl, by simp, by simp⟩
  | succ n ih =>
    intro i pen d hb
    obtain ⟨pen1, d1, evs, hs, s1, s2, s3, s4, s5⟩ :=
      Driver.DrawImage_segment_idle env hadv fuel hf image i pen d (hI i) hb
    obtain ⟨d2, evs2, hl, l1, l2, l3, l4⟩ := ih (i + 1) pen1 d1 ⟨by rw [s2]; exact hb.1, s3⟩
    refine ⟨d2, evs ++ evs2, ?_, by rw [l1, s1], by rw [l2, s2],
      by rw [l3, s4, List.append_assoc], ?_⟩
    · simp only [Driver.DrawImage_loop, hs]
      rw [hl]
      congr 2
      omega
    · intro e he
      rcases List.mem_append.mp he with h | h
      · exact s5 e h
      · exact l4 e h

/-- C38 (a zero-length motion is not a cancellation point). `Move` with `d = 0` returns
`true` at once, having taken one timer sample: the log of calls and the count of predicate
evaluations are unchanged, so no stepper `Move` was issued and the predicate was not
evaluated. Hence `ForwardSteps(0)`, and `RotateSteps` with an effective step count of 0,
return `true` whatever the predicate would answer; and `DrawImage` on an image whose
segments command no motion (angle 0 and length 0, no calibration bias) returns `true`
without ever evaluating the predicate, although it crosses every segment boundary: the
predicate is only evaluated inside the loop of a non-empty motion. -/
theorem Move_zero_not_cancellation_point (env : Env) (fuel : Nat) (drv : Driver) (lf rf : Int) :
    Driver.Move env fuel drv lf rf 0 = some (true, { drv with reads := drv.reads + 1 }) ∧
    Driver.ForwardSteps env fuel drv 0 = some (true, { drv with reads := drv.reads + 1 }) ∧
    (∀ steps : Int,
      toInt16 (steps +
        (Driver.RotateSteps_bias drv.calibration_.angle_offset drv.angle_fraction_).1) = 0 →
      Driver.RotateSteps env fuel drv steps =
        some (true, { drv with
          angle_fraction_ :=
            (Driver.RotateSteps_bias drv.calibration_.angle_offset drv.angle_fraction_).2,
          reads := drv.reads + 1 })) ∧
    (∀ image : Image, image.Idle → env.TimerAdvances → 3200001 ≤ fuel →
      drv.calibration_.angle_offset = 0 ∧ drv.angle_fraction_ = 0 →
      ∃ (drv1 : Driver) (evs : List Event),
        Driver.DrawImage env fuel drv image = some (true, drv1) ∧
        drv1.polls = drv.polls ∧ drv1.log = drv.log ++ evs ∧
        (∀ e ∈ evs, e.isMotion = false)) := by
  refine ⟨Driver.Move_zero env fuel drv lf rf 0 (le_refl _), Driver.ForwardSteps_zero env fuel drv,
    fun steps h0 => Driver.RotateSteps_zero env fuel drv steps h0, ?_⟩
  intro image hI hadv hf hb
  obtain ⟨d1, evs, hl, l1, l2, l3, l4⟩ :=
    Driver.DrawImage_loop_idle env hadv fuel hf image hI image.num_points 0 false drv hb
  obtain ⟨r, hr⟩ := Driver.Pen_terminates env hadv fuel hf d1 false
  obtain ⟨k, hk⟩ := Driver.Pen_frame env fuel d1 false r hr
  refine ⟨r.Off, evs ++ [Event.ServoSet d1.calibration_.pen_up, Event.LeftOff, Event.RightOff,
    Event.ServoOff], ?_, ?_, ?_, ?_⟩
  · unfold Driver.DrawImage
    rw [hl]
    dsimp only
    rw [hr]
    simp
  · rw [hk]
    exact l1
  · rw [hk]
    simp [Driver.Off, Driver.emit, l3]
  · intro e he
    rcases List.mem_append.mp he with h | h
    · exact l4 e h
    · simp only [List.mem_cons, List.mem_singleton, List.not_mem_nil, or_false] at h
      rcases h with h | h | h | h <;> rw [h] <;> rfl

theorem idleImage_Idle : idleImage.Idle := fun _ => ⟨rfl, rfl⟩

theorem Move_zero_not_cancellation_point_witness :
    (sampleEnv 0).interrupted 0 = true ∧
    ∃ (drv1 : Driver) (evs : List Event),
      Driver.DrawImage (sampleEnv 0) 3200001 { calibration_ := sampleCalibration } idleImage =
        some (true, drv1) ∧
      drv1.polls = 0 ∧ drv1.log = [] ++ evs ∧ (∀ e ∈ evs, e.isMotion = false) :=
  ⟨rfl, (Move_zero_not_cancellation_point (sampleEnv 0) 3200001
    { calibration_ := sampleCalibration } 0 0).2.2.2 idleImage idleImage_Idle
    (sampleEnv_TimerAdvances 0) (le_refl _) ⟨rfl, rfl⟩⟩

/-! ## Position accounting under a bounded tick interval -/

/-- One `Update` with `dt <= 21333` from a state in range: the advance is at most `2^48` in
magnitude, the position stays in range and the pulse accounts for the difference. -/
theorem Wheel.Update_bounded_tick (w : Wheel) (dt_ticks : Nat) (a : Int)
    (hs : |w.s_| ≤ 2 ^ 47) (hv : |w.v_| ≤ Wheel.kMaxV) (hdt : dt_ticks ≤ 21333)
    (ha : |a| ≤ Wheel.kMaxA) :
    (w.Update dt_ticks a).1.v_ =
      max (-Wheel.kMaxV) (min Wheel.kMaxV (w.v_ + a * (dt_ticks : Int))) ∧
    |Int.tdiv ((w.v_ + (w.Update dt_ticks a).1.v_) * dt_ticks) 2| ≤ 2 ^ 48 ∧
    |(w.Update dt_ticks a).1.s_| ≤ 2 ^ 47 ∧
    2 ^ 48 * (w.Update dt_ticks a).2 + (w.Update dt_ticks a).1.s_ =
      w.s_ + Int.tdiv ((w.v_ + (w.Update dt_ticks a).1.v_) * dt_ticks) 2 := by
  have hV := Wheel.Update_abs_v_le w dt_ticks a
  have he := Wheel.Update_exact w dt_ticks a (le_trans hs (by norm_num)) hv (by omega) ha
  have hd : ((dt_ticks : Nat) : Int) ≤ 21333 := by exact_mod_cast hdt
  have hd0 : (0 : Int) ≤ (dt_ticks : Int) := Int.ofNat_nonneg _
  rw [Wheel.kMaxV_eq] at hv hV
  have hve : (w.Update dt_ticks a).1.v_ = (w.Update_spec dt_ticks a).1.v_ := by rw [he]
  rw [he]
  rw [hve] at hV
  unfold Wheel.Update_spec at hV ⊢
  dsimp only at hV ⊢
  refine ⟨rfl, ?_⟩
  generalize max (-Wheel.kMaxV) (min Wheel.kMaxV (w.v_ + a * (dt_ticks : Int))) = V at hV ⊢
  have hsum : |w.v_ + V| ≤ 26388279066 :=
    le_trans (abs_add _ _) (le_trans (add_le_add hv hV) (by norm_num))
  have hprod : |(w.v_ + V) * (dt_ticks : Int)| ≤ 562941157314978 := by
    rw [abs_mul, abs_of_nonneg hd0]
    calc |w.v_ + V| * (dt_ticks : Int) ≤ 26388279066 * 21333 :=
          mul_le_mul hsum hd hd0 (by norm_num)
      _ = 562941157314978 := by norm_num
  have hprodb := abs_le.mp hprod
  have hc := tdiv_eq_cases ((w.v_ + V) * (dt_ticks : Int)) 2 (by norm_num)
  have hdiv : -281470578657489 ≤ Int.tdiv ((w.v_ + V) * (dt_ticks : Int)) 2 ∧
      Int.tdiv ((w.v_ + V) * (dt_ticks : Int)) 2 ≤ 281470578657489 := by
    rw [hc]
    split_ifs <;> constructor <;> omega
  generalize Int.tdiv ((w.v_ + V) * (dt_ticks : Int)) 2 = D at hdiv ⊢
  have hsb := abs_le.mp hs
  have hs1 := hsb.1
  have hs2 := hsb.2
  norm_num at hs1 hs2
  refine ⟨?_, ?_, ?_⟩
  · rw [abs_le]
    norm_num
    constructor <;> omega
  · rw [abs_le]
    norm_num
    split_ifs <;> constructor <;> omega
  · ring

theorem Wheel.run_cons (w : Wheel) (t : Nat × Int) (ts : List (Nat × Int)) :
    w.run (t :: ts) = (w.Update t.1 t.2).1.run ts := rfl

/-- Along a run of bounded ticks the position stays in range and the pulses account for the
whole integral. -/
theorem Wheel.run_accounts (ticks : List (Nat × Int)) :
    ∀ w : Wheel, |w.s_| ≤ 2 ^ 47 → |w.v_| ≤ Wheel.kMaxV →
      (∀ t ∈ ticks, t.1 ≤ 21333 ∧ |t.2| ≤ Wheel.kMaxA) →
      |(w.run ticks).s_| ≤ 2 ^ 47 ∧ |(w.run ticks).v_| ≤ Wheel.kMaxV ∧
      2 ^ 48 * w.run_pulses ticks + (w.run ticks).s_ =
        w.s_ + Wheel.trapezoid_integral w.v_ ticks := by
  induction ticks with
  | nil =>
    intro w hs hv _
    refine ⟨hs, hv, ?_⟩
    show 2 ^ 48 * (0 : Int) + w.s_ = w.s_ + 0
    ring
  | cons t ts ih =>
    intro w hs hv ht
    obtain ⟨h1, h2⟩ := ht t (List.mem_cons_self _ _)
    obtain ⟨u1, _, u3, u4⟩ := Wheel.Update_bounded_tick w t.1 t.2 hs hv h1 h2
    obtain ⟨r1, r2, r3⟩ := ih (w.Update t.1 t.2).1 u3 (Wheel.Update_abs_v_le w t.1 t.2)
      (fun x hx => ht x (List.mem_cons_of_mem _ hx))
    rw [Wheel.run_cons]
    refine ⟨r1, r2, ?_⟩
    show 2 ^ 48 * ((w.Update t.1 t.2).2 + Wheel.run_pulses (w.Update t.1 t.2).1 ts) + _ =
      w.s_ + (Int.tdiv ((w.v_ + max (-Wheel.kMaxV) (min Wheel.kMaxV (w.v_ + t.2 * (t.1 : Int)))) *
        (t.1 : Int)) 2 + Wheel.trapezoid_integral
          (max (-Wheel.kMaxV) (min Wheel.kMaxV (w.v_ + t.2 * (t.1 : Int)))) ts)
    rw [← u1]
    linarith

/-- C33 (position invariant under a bounded tick interval). The bound `21333` is
`floor(F_CPU / 750)`. For every state with `|s_| <= 2^47` and `|v_| <= kMaxV`, every `a` in
`[-kMaxA, kMaxA]` and every `dt_ticks <= 21333`, `Update` advances the position by at most
`2^48` in magnitude and leaves `|s_| <= 2^47`, and `2^48` times the returned pulse plus the
new position is the old position plus the trapezoid increment. Hence along every sequence of
such ticks, `2^48` times the sum of the returned pulses plus the final position equals the
initial position plus the accumulated integral of the trapezoid increments, computed in
unbounded integers. -/
theorem Wheel_Update_bounded_tick_invariant (w : Wheel) (hs : |w.s_| ≤ 2 ^ 47)
    (hv : |w.v_| ≤ Wheel.kMaxV) :
    Int.tdiv F_CPU 750 = 21333 ∧
    (∀ (dt_ticks : Nat) (a : Int), dt_ticks ≤ 21333 → |a| ≤ Wheel.kMaxA →
      |Int.tdiv ((w.v_ + (w.Update dt_ticks a).1.v_) * dt_ticks) 2| ≤ 2 ^ 48 ∧
      |(w.Update dt_ticks a).1.s_| ≤ 2 ^ 47 ∧
      2 ^ 48 * (w.Update dt_ticks a).2 + (w.Update dt_ticks a).1.s_ =
        w.s_ + Int.tdiv ((w.v_ + (w.Update dt_ticks a).1.v_) * dt_ticks) 2) ∧
    (∀ ticks : List (Nat × Int), (∀ t ∈ ticks, t.1 ≤ 21333 ∧ |t.2| ≤ Wheel.kMaxA) →
      |(w.run ticks).s_| ≤ 2 ^ 47 ∧
      2 ^ 48 * w.run_pulses ticks + (w.run ticks).s_ =
        w.s_ + Wheel.trapezoid_integral w.v_ ticks) := by
  refine ⟨by decide, fun dt_ticks a hdt ha =>
    (Wheel.Update_bounded_tick w dt_ticks a hs hv hdt ha).2, fun ticks ht => ?_⟩
  obtain ⟨r1, _, r3⟩ := Wheel.run_accounts ticks w hs hv ht
  exact ⟨r1, r3⟩

set_option maxRecDepth 100000 in
theorem Wheel_Update_bounded_tick_invariant_witness :
    |(⟨140737488355328, 13194139533⟩ : Wheel).s_| ≤ 2 ^ 47 ∧
    |(⟨140737488355328, 13194139533⟩ : Wheel).v_| ≤ Wheel.kMaxV ∧
    Wheel.run_pulses ⟨140737488355328, 13194139533⟩ [(21333, 0), (21333, -8246), (10, 8246)] = 2 ∧
    2 ^ 48 * Wheel.run_pulses ⟨140737488355328, 13194139533⟩
        [(21333, 0), (21333, -8246), (10, 8246)] +
      (Wheel.run ⟨140737488355328, 13194139533⟩ [(21333, 0), (21333, -8246), (10, 8246)]).s_ =
      140737488355328 + Wheel.trapezoid_integral 13194139533
        [(21333, 0), (21333, -8246), (10, 8246)] :=
  ⟨by decide, by decide, by decide,
   ((Wheel_Update_bounded_tick_invariant ⟨140737488355328, 13194139533⟩ (by decide)
      (by decide)).2.2 [(21333, 0), (21333, -8246), (10, 8246)] (by decide)).2⟩

/-! ## Tracking error of the allocator -/

/-- The shifted value of `FractionalMove` is the floor of the ideal `s * fraction / 2^14`,
or one more. -/
theorem FractionalMove_shift_near (s fraction remainder : Int)
    (hs : 0 ≤ s ∧ s ≤ 65535) (hf : IsInt16 fraction)
    (hr : 0 ≤ remainder ∧ remainder < 2 ^ 14) :
    Int.shiftRight (FractionalMove_p s fraction remainder) 14 = s * fraction / 2 ^ 14 ∨
    Int.shiftRight (FractionalMove_p s fraction remainder) 14 = s * fraction / 2 ^ 14 + 1 := by
  obtain ⟨r0, r1⟩ := hr
  norm_num at r1
  obtain ⟨_, _, hp⟩ := FractionalMove_p_no_overflow s fraction remainder hs hf ⟨r0, by omega⟩
  rw [Int_shiftRight_floor, hp]
  generalize s * fraction = x
  norm_num
  omega

theorem FractionalMove_position_eq (s fraction position remainder : Int) :
    (FractionalMove s fraction position remainder).position =
      toInt16 (Int.shiftRight (FractionalMove_p s fraction remainder) 14) := rfl

/-- The cells after a sequence of calls followed by one more call. -/
theorem FractionalMove_seq_snoc (fraction s : Int) (ss : List Int) :
    ∀ position remainder : Int,
      (FractionalMove_seq fraction (ss ++ [s]) position remainder).2 =
        ((FractionalMove s fraction (FractionalMove_seq fraction ss position remainder).2.1
            (FractionalMove_seq fraction ss position remainder).2.2).position,
         (FractionalMove s fraction (FractionalMove_seq fraction ss position remainder).2.1
            (FractionalMove_seq fraction ss position remainder).2.2).remainder) := by
  induction ss with
  | nil => intro position remainder; rfl
  | cons x xs ih =>
    intro position remainder
    exact ih _ _

/-- The remainder cell after any sequence of calls is below `2^14` when it was before. -/
theorem FractionalMove_seq_remainder (fraction : Int) (ss : List Int) :
    ∀ position remainder : Int, 0 ≤ remainder ∧ remainder < 2 ^ 14 →
      0 ≤ (FractionalMove_seq fraction ss position remainder).2.2 ∧
      (FractionalMove_seq fraction ss position remainder).2.2 < 2 ^ 14 := by
  induction ss with
  | nil => intro position remainder h; exact h
  | cons x xs ih =>
    intro position remainder _
    exact ih _ _ (FractionalMove_remainder_range x fraction position remainder)

/-- C36 (tracking error of the allocator), as amended. For every `s` in `[0, 65535]`, every
`int16_t` fraction and every incoming remainder in `[0, 2^14)`, the shifted value `p >> 14`
is `floor(s * fraction / 2^14)` or that value plus one, and the position stored by
`FractionalMove` is `p >> 14` converted to `int16_t`. Whenever `p >> 14` fits in `int16_t`
(as it does for `s <= 32767` and `|fraction| <= 2^14`) the stored position is
`floor(s * fraction / 2^14)` or that value plus one, so `2^14 * position` is within `2^14`
of the ideal `s * fraction`. The outgoing remainder is again in `[0, 2^14)`, so the same
holds after any number of earlier calls on the same cells. The remainder is re-added at each
call: with fraction `8192` two calls with the same `s = 1` return `0` and then `1`. -/
theorem FractionalMove_tracking_error (s fraction position remainder : Int)
    (hs : 0 ≤ s ∧ s ≤ 65535) (hf : IsInt16 fraction)
    (hr : 0 ≤ remainder ∧ remainder < 2 ^ 14) :
    (Int.shiftRight (FractionalMove_p s fraction remainder) 14 = s * fraction / 2 ^ 14 ∨
      Int.shiftRight (FractionalMove_p s fraction remainder) 14 = s * fraction / 2 ^ 14 + 1) ∧
    (FractionalMove s fraction position remainder).position =
      toInt16 (Int.shiftRight (FractionalMove_p s fraction remainder) 14) ∧
    (IsInt16 (Int.shiftRight (FractionalMove_p s fraction remainder) 14) →
      ((FractionalMove s fraction position remainder).position = s * fraction / 2 ^ 14 ∨
        (FractionalMove s fraction position remainder).position = s * fraction / 2 ^ 14 + 1) ∧
      -(2 ^ 14) < 2 ^ 14 * (FractionalMove s fraction position remainder).position -
        s * fraction ∧
      2 ^ 14 * (FractionalMove s fraction position remainder).position - s * fraction <
        2 ^ 14) ∧
    (s ≤ 32767 → |fraction| ≤ 2 ^ 14 →
      IsInt16 (Int.shiftRight (FractionalMove_p s fraction remainder) 14)) ∧
    (0 ≤ (FractionalMove s fraction position remainder).remainder ∧
      (FractionalMove s fraction position remainder).remainder < 2 ^ 14) ∧
    (∀ ss : List Int,
      ∃ q : Int, (q = s * fraction / 2 ^ 14 ∨ q = s * fraction / 2 ^ 14 + 1) ∧
        (FractionalMove_seq fraction (ss ++ [s]) position remainder).2.1 = toInt16 q) ∧
    ((FractionalMove 1 8192 0 0).ret = 0 ∧
      (FractionalMove 1 8192 (FractionalMove 1 8192 0 0).position
        (FractionalMove 1 8192 0 0).remainder).ret = 1) := by
  have hn := FractionalMove_shift_near s fraction remainder hs hf hr
  refine ⟨hn, rfl, ?_, ?_, FractionalMove_remainder_range s fraction position remainder, ?_,
    by decide⟩
  · intro hq
    rw [FractionalMove_position_eq, toInt16_eq_self hq]
    refine ⟨hn, ?_⟩
    obtain ⟨r0, r1⟩ := hr
    norm_num at r1
    obtain ⟨_, _, hp⟩ := FractionalMove_p_no_overflow s fraction remainder hs hf ⟨r0, by omega⟩
    rw [Int_shiftRight_floor, hp]
    generalize s * fraction = x
    norm_num
    omega
  · intro hs2 hf2
    obtain ⟨hs0, _⟩ := hs
    obtain ⟨f0, f1⟩ := abs_le.mp hf2
    norm_num at f0 f1
    have hu : s * fraction ≤ 32767 * 16384 := by nlinarith
    have hl : -(32767 * 16384) ≤ s * fraction := by nlinarith
    obtain ⟨r0, r1⟩ := hr
    norm_num at r1
    obtain ⟨_, _, hp⟩ := FractionalMove_p_no_overflow s fraction remainder
      ⟨hs0, by omega⟩ hf ⟨r0, by omega⟩
    rw [Int_shiftRight_floor, hp]
    generalize s * fraction = x at hu hl
    unfold IsInt16
    norm_num
    omega
  · intro ss
    have hrr := FractionalMove_seq_remainder fraction ss position remainder hr
    refine ⟨Int.shiftRight (FractionalMove_p s fraction
      (FractionalMove_seq fraction ss position remainder).2.2) 14,
      FractionalMove_shift_near s fraction _ hs hf hrr, ?_⟩
    rw [FractionalMove_seq_snoc]
    rfl

theorem FractionalMove_tracking_error_witness :
    ((0 : Int) ≤ 5 ∧ (5 : Int) ≤ 65535) ∧ IsInt16 (-16383) ∧
    ((0 : Int) ≤ 16383 ∧ (16383 : Int) < 2 ^ 14) ∧
    (5 : Int) * -16383 / 2 ^ 14 = -5 ∧
    (FractionalMove 5 (-16383) 0 16383).position = -4 ∧
    ((FractionalMove 5 (-16383) 0 16383).position = 5 * -16383 / 2 ^ 14 ∨
      (FractionalMove 5 (-16383) 0 16383).position = 5 * -16383 / 2 ^ 14 + 1) :=
  ⟨by decide, by decide, by decide, by decide, by decide,
   ((FractionalMove_tracking_error 5 (-16383) 0 16383 (by decide) (by decide) (by decide)).2.2.1
      (by decide)).1⟩

/-- C36 as stated fails when `p >> 14` does not fit the `int16_t` position cell: for
`s = 65535` and `fraction = 32767` with remainder 0 the ideal `floor(s * fraction / 2^14)` is
`131066`, and the stored position is `-6`, neither that value nor that value plus one. -/
theorem FractionalMove_tracking_error_counterexample :
    ((0 : Int) ≤ 65535 ∧ (65535 : Int) ≤ 65535) ∧ IsInt16 32767 ∧
    ((0 : Int) ≤ 0 ∧ (0 : Int) < 2 ^ 14) ∧
    (65535 : Int) * 32767 / 2 ^ 14 = 131066 ∧
    (FractionalMove 65535 32767 0 0).position = -6 ∧
    ¬ ((FractionalMove 65535 32767 0 0).position = 65535 * 32767 / 2 ^ 14 ∨
      (FractionalMove 65535 32767 0 0).position = 65535 * 32767 / 2 ^ 14 + 1) := by
  decide

/-! ## The velocity inside `Move` -/

theorem Driver.Move_tick_s_eq (env : Env) (lf rf d : Int) (drv : Driver) (m : MoveLocals) :
    (Driver.Move_tick env lf rf d drv m).2.2.s =
      toUInt16 (m.s + toInt8 (Driver.Move_tick_pulse env d drv m)) :=
  (Driver.Move_tick_locals env lf rf d drv m).2.1

/-- A property kept by every iteration of the loop of `Move` holds in every state in which an
iteration is entered. -/
theorem Driver.Move_trace_inv (env : Env) (lf rf d : Int) (P : Driver → MoveLocals → Prop)
    (hstep : ∀ (drv : Driver) (m : MoveLocals), P drv m → m.s < d →
      P (Driver.Move_tick env lf rf d drv m).2.1 (Driver.Move_tick env lf rf d drv m).2.2)
    (n : Nat) :
    ∀ (drv : Driver) (m : MoveLocals), P drv m →
      ∀ x ∈ Driver.Move_trace env lf rf d n drv m, P x.1 x.2 ∧ x.2.s < d := by
  induction n with
  | zero =>
    intro drv m _ x hx
    simp [Driver.Move_trace] at hx
  | succ n ih =>
    intro drv m hP x hx
    simp only [Driver.Move_trace] at hx
    split_ifs at hx with hc ht
    · simp only [List.mem_singleton] at hx
      subst hx
      exact ⟨hP, hc⟩
    · rcases List.mem_cons.mp hx with h | h
      · subst h
        exact ⟨hP, hc⟩
      · exact ih _ _ (hstep drv m hP hc) x h
    · simp at hx

/-- One iteration of the loop of `Move(.., d)`, whatever the tick: from `0 <= v_ <= kMaxV`
the velocity stays in that range; braking is only chosen at a velocity above
`kMaxA * 65535`. -/
theorem Driver.Move_tick_velocity (env : Env) (lf rf d : Int) (hd : d ≤ 65535) (drv : Driver)
    (m : MoveLocals)
    (hI : (0 ≤ m.w.v_ ∧ m.w.v_ ≤ Wheel.kMaxV) ∧ (0 ≤ m.s ∧ m.s ≤ 65535)) (hlt : m.s < d) :
    ((0 ≤ (Driver.Move_tick env lf rf d drv m).2.2.w.v_ ∧
        (Driver.Move_tick env lf rf d drv m).2.2.w.v_ ≤ Wheel.kMaxV) ∧
      (0 ≤ (Driver.Move_tick env lf rf d drv m).2.2.s ∧
        (Driver.Move_tick env lf rf d drv m).2.2.s ≤ 65535)) ∧
    (Driver.Move_braking m.w d m.s = true →
      1 ≤ Driver.Move_estimate m.w ∧ Wheel.kMaxA * 65535 < m.w.v_) := by
  obtain ⟨⟨hv0, hv1⟩, hs0, hs1⟩ := hI
  obtain ⟨l1, l2, _, _⟩ := Driver.Move_tick_locals env lf rf d drv m
  have hds : toUInt16 (d - m.s) = d - m.s := toUInt16_eq_self ⟨by omega, by omega⟩
  have hbr : Driver.Move_braking m.w d m.s = true →
      1 ≤ Driver.Move_estimate m.w ∧ 2100000000 ≤ m.w.v_ := by
    intro hb
    refine ⟨?_, Driver.Move_braking_speed m.w d m.s ⟨hv0, hv1⟩ (by rw [hds]; omega) hb⟩
    rw [Driver.Move_braking_eq, decide_eq_true_eq, hds] at hb
    omega
  have hr := toUInt16_range (toUInt16 (env.time drv.reads) - m.start)
  generalize toUInt16 (toUInt16 (env.time drv.reads) - m.start) = dt at l1 l2 hr
  have hnat : ((dt.toNat : Nat) : Int) = dt := Int.toNat_of_nonneg hr.1
  have hdt : dt.toNat ≤ 65535 := by omega
  have hva : |m.w.v_| ≤ Wheel.kMaxV := abs_le.mpr ⟨by rw [Wheel.kMaxV_eq]; omega, hv1⟩
  refine ⟨⟨?_, by rw [l2]; exact toUInt16_range _⟩, fun hb => ?_⟩
  · rw [l1]
    by_cases hb : Driver.Move_braking m.w d m.s = true
    · have h21 := (hbr hb).2
      rw [if_pos hb, Wheel.Update_v_exact m.w dt.toNat _ hva hdt
        (by rw [Wheel.kMaxA_eq]; norm_num), hnat]
      rw [Wheel.kMaxV_eq] at hv1 ⊢
      rw [Wheel.kMaxA_eq, min_eq_right (by omega), max_eq_right (by omega)]
      constructor <;> omega
    · rw [if_neg hb, Wheel.Update_v_exact m.w dt.toNat _ hva hdt
        (by rw [Wheel.kMaxA_eq]; norm_num), hnat]
      rw [Wheel.kMaxV_eq] at hv1 ⊢
      rw [Wheel.kMaxA_eq]
      rcases le_total 13194139533 (m.w.v_ + 8246 * dt) with h1 | h1
      · rw [min_eq_left h1, max_eq_right (by omega)]
        constructor <;> omega
      · rw [min_eq_right h1, max_eq_right (by omega)]
        constructor <;> omega
  · obtain ⟨h1, h2⟩ := hbr hb
    refine ⟨h1, ?_⟩
    rw [Wheel.kMaxA_eq]
    omega

/-- With ticks of at most 21333 timer ticks, `Update` returns 0 or 1 in every iteration of
the loop of `Move`. -/
theorem Driver.Move_tick_pulse_inv (env : Env) (lo : Int) (hT : env.TicksWithin lo 21333)
    (d : Int) (hd : d ≤ 65535) (drv : Driver) (m : MoveLocals)
    (hI : Driver.MoveInv env d drv m) (hlt : m.s < d) :
    Driver.Move_tick_pulse env d drv m = 0 ∨ Driver.Move_tick_pulse env d drv m = 1 := by
  obtain ⟨⟨j, hj, hst⟩, hv, hs, hs0, hs1⟩ := hI
  have htick : toUInt16 ((drv.GetTime env).1 - m.start) = env.tick j := by
    show toUInt16 (toUInt16 (env.time drv.reads) - m.start) = _
    rw [hj, hst]; rfl
  obtain ⟨ht0, ht1⟩ := hT j
  have hr := toUInt16_range ((drv.GetTime env).1 - m.start)
  rw [htick] at hr
  have hnat : ((env.tick j).toNat : Int) = env.tick j := Int.toNat_of_nonneg hr.1
  have hdt : (env.tick j).toNat ≤ 21333 := by omega
  have hds : toUInt16 (d - m.s) = d - m.s := toUInt16_eq_self ⟨by omega, by omega⟩
  have ha : (if Driver.Move_braking m.w d m.s then -Wheel.kMaxA else Wheel.kMaxA) = Wheel.kMaxA ∨
      ((if Driver.Move_braking m.w d m.s then -Wheel.kMaxA else Wheel.kMaxA) = -Wheel.kMaxA ∧
        2100000000 ≤ m.w.v_) := by
    by_cases hb : Driver.Move_braking m.w d m.s = true
    · rw [if_pos hb]
      exact Or.inr ⟨rfl, Driver.Move_braking_speed m.w d m.s hv (by rw [hds]; omega) hb⟩
    · rw [if_neg hb]
      exact Or.inl rfl
  unfold Driver.Move_tick_pulse
  rw [htick]
  exact (Wheel.Update_in_move m.w (env.tick j).toNat _ hs hv hdt ha).1

/-- C34 (the velocity inside `Move`), as amended. For every target `d` (a `uint16_t`), every
tick source and starting from rest, each iteration of the loop of `Move` is entered with
`0 <= v_` and leaves `0 <= v_`; braking is only chosen when the stopping estimate is at
least one step, which forces `v_ > kMaxA * 65535`. When moreover the tick intervals are at
most 21333 timer ticks, `Update` returns 0 or 1 in every iteration (never `-1`), the
virtual counter stays or grows by one, and a `Move` that runs to the end exits with `s = d`;
it does run to the end when no interval is empty and the predicate never answers `true`. -/
theorem Move_velocity_nonnegative (env : Env) (lf rf d : Int) (hd : 0 ≤ d ∧ d ≤ 65535)
    (drv : Driver) :
    (∀ (n : Nat), ∀ x ∈ Driver.Move_trace env lf rf d n (drv.GetTime env).2
        { start := (drv.GetTime env).1 },
      0 ≤ x.2.w.v_ ∧ 0 ≤ (Driver.Move_tick env lf rf d x.1 x.2).2.2.w.v_ ∧
      (Driver.Move_braking x.2.w d x.2.s = true →
        1 ≤ Driver.Move_estimate x.2.w ∧ Wheel.kMaxA * 65535 < x.2.w.v_)) ∧
    (∀ lo : Int, env.TicksWithin lo 21333 →
      (∀ (n : Nat), ∀ x ∈ Driver.Move_trace env lf rf d n (drv.GetTime env).2
          { start := (drv.GetTime env).1 },
        (Driver.Move_tick_pulse env d x.1 x.2 = 0 ∨ Driver.Move_tick_pulse env d x.1 x.2 = 1) ∧
        ((Driver.Move_tick env lf rf d x.1 x.2).2.2.s = x.2.s ∨
          (Driver.Move_tick env lf rf d x.1 x.2).2.2.s = x.2.s + 1)) ∧
      (∀ (fuel : Nat) (drv1 : Driver) (m1 : MoveLocals),
        Driver.Move_run env fuel drv lf rf d = some (true, drv1, m1) → m1.s = d) ∧
      (1 ≤ lo → env.NeverInterrupted → ∃ (drv1 : Driver) (m1 : MoveLocals),
        Driver.Move_run env (2 ^ 52) drv lf rf d = some (true, drv1, m1) ∧ m1.s = d)) := by
  refine ⟨fun n x hx => ?_, fun lo hT => ⟨fun n x hx => ?_, fun fuel drv1 m1 h => ?_,
    fun hlo hN => ?_⟩⟩
  · obtain ⟨hP, hlt⟩ := Driver.Move_trace_inv env lf rf d
      (fun drv m => (0 ≤ m.w.v_ ∧ m.w.v_ ≤ Wheel.kMaxV) ∧ (0 ≤ m.s ∧ m.s ≤ 65535))
      (fun drv m hP hlt => (Driver.Move_tick_velocity env lf rf d hd.2 drv m hP hlt).1) n
      (drv.GetTime env).2 { start := (drv.GetTime env).1 }
      ⟨⟨le_refl _, by show (0 : Int) ≤ Wheel.kMaxV; rw [Wheel.kMaxV_eq]; norm_num⟩,
        le_refl _, by show (0 : Int) ≤ 65535; norm_num⟩ x hx
    obtain ⟨t1, t2⟩ := Driver.Move_tick_velocity env lf rf d hd.2 x.1 x.2 hP hlt
    exact ⟨hP.1.1, t1.1.1, t2⟩
  · obtain ⟨hP, hlt⟩ := Driver.Move_trace_inv env lf rf d (Driver.MoveInv env d)
      (fun drv m hP hlt => (Driver.Move_tick_inv env lo hT lf rf d hd.2 drv m hP hlt).1) n
      (drv.GetTime env).2 { start := (drv.GetTime env).1 } (Driver.Move_run_inv env drv d hd.1)
      x hx
    exact ⟨Driver.Move_tick_pulse_inv env lo hT d hd.2 x.1 x.2 hP hlt,
      (Driver.Move_tick_inv env lo hT lf rf d hd.2 x.1 x.2 hP hlt).2.1⟩
  · exact (Driver.Move_loop_inv env lo hT lf rf d hd.2 fuel _ _ true drv1 m1
      (Driver.Move_run_inv env drv d hd.1) h).2 rfl
  · have hT1 : env.TicksWithin 1 21333 := fun k => ⟨le_trans hlo (hT k).1, (hT k).2⟩
    obtain ⟨drv1, m1, h⟩ := Driver.Move_loop_terminates env hT1 hN lf rf d hd.2 (2 ^ 52)
      (drv.GetTime env).2 { start := (drv.GetTime env).1 } (Driver.Move_run_inv env drv d hd.1)
      (by
        show 2 ^ 48 * d - 2 ^ 47 + 1 ≤ 2 ^ 48 * (0 : Int) + 0 + 4123 * ((2 ^ 52 : Nat) : Int)
        have h1 : (2 : Int) ^ 48 * d ≤ 2 ^ 48 * 65535 :=
          mul_le_mul_of_nonneg_left hd.2 (by norm_num)
        norm_num at h1 ⊢
        omega)
    exact ⟨drv1, m1, h, (Driver.Move_loop_inv env lo hT lf rf d hd.2 (2 ^ 52) _ _ true drv1 m1
      (Driver.Move_run_inv env drv d hd.1) h).2 rfl⟩

set_option maxRecDepth 100000 in
theorem Move_velocity_nonnegative_witness :
    ((0 : Int) ≤ 3 ∧ (3 : Int) ≤ 65535) ∧
    (Driver.Move_trace steadyEnv 16384 16384 3 4
      ((({ calibration_ := unityCalibration } : Driver).GetTime steadyEnv).2)
      { start := (({ calibration_ := unityCalibration } : Driver).GetTime steadyEnv).1 }).length
      = 4 ∧
    ∀ x ∈ Driver.Move_trace steadyEnv 16384 16384 3 4
        ((({ calibration_ := unityCalibration } : Driver).GetTime steadyEnv).2)
        { start := (({ calibration_ := unityCalibration } : Driver).GetTime steadyEnv).1 },
      0 ≤ x.2.w.v_ ∧ 0 ≤ (Driver.Move_tick steadyEnv 16384 16384 3 x.1 x.2).2.2.w.v_ ∧
      (Driver.Move_braking x.2.w 3 x.2.s = true →
        1 ≤ Driver.Move_estimate x.2.w ∧ Wheel.kMaxA * 65535 < x.2.w.v_) :=
  ⟨by decide, by decide,
   (Move_velocity_nonnegative steadyEnv 16384 16384 3 (by decide)
      { calibration_ := unityCalibration }).1 4⟩

set_option maxRecDepth 100000 in
/-- C34 as stated fails in its consequence when the tick intervals are long. In the world
`overflowEnv` (intervals of 65535 ticks up to sample 15831, then a timer that stands still;
every interval is within `[0, 65535]`), `Move(.., 32767)` from rest reaches `s = 15826` after
15830 iterations with `v_ = kMaxV >= 0`; in the next one the `int64_t` position sum wraps,
`Update` returns `-1` and `s` decreases to 15825; the loop ends after 31657 iterations with
`s = 65535`, not `s = d`. -/
theorem Move_velocity_nonnegative_counterexample :
    (∀ k : Nat, 0 ≤ overflowEnv.tick k ∧ overflowEnv.tick k ≤ 65535) ∧
    Move_profile_run overflowEnv 32767 15830 ⟨0, ⟨0, 0⟩, 0, 0⟩ =
      some ⟨15830, ⟨9222668674932635496, 13194139533⟩, 15826, 15826⟩ ∧
    Driver.Move_braking ⟨9222668674932635496, 13194139533⟩ 32767 15826 = false ∧
    Wheel.Update ⟨9222668674932635496, 13194139533⟩ 65535 Wheel.kMaxA =
      (⟨-9222929245865910309, 13194139533⟩, -1) ∧
    Move_profile_run overflowEnv 32767 15831 ⟨0, ⟨0, 0⟩, 0, 0⟩ =
      some ⟨15831, ⟨-9222929245865910309, 13194139533⟩, 15825, 15825⟩ ∧
    ∃ (drv1 : Driver) (m1 : MoveLocals),
      Driver.Move_run overflowEnv 31657 { calibration_ := unityCalibration }
        (16384 * -1) (16384 * 1) 32767 = some (true, drv1, m1) ∧
      m1.s = 65535 ∧ m1.s ≠ 32767 := by
  have hc := Move_profile_cruise 32767 15805 25 5145930309628801 21 21 (by norm_num)
    (by norm_num) (by norm_num) (by norm_num) (by norm_num) (by norm_num)
  norm_num at hc
  have h30 : Move_profile_run overflowEnv 32767 15830 ⟨0, ⟨0, 0⟩, 0, 0⟩ =
      some ⟨15830, ⟨9222668674932635496, 13194139533⟩, 15826, 15826⟩ := by
    rw [show (15830 : Nat) = 25 + 15805 by norm_num, Move_profile_run_add, Move_profile_ramp,
      Option.some_bind, hc]
  have h31 : Move_profile_run overflowEnv 32767 15831 ⟨0, ⟨0, 0⟩, 0, 0⟩ =
      some ⟨15831, ⟨-9222929245865910309, 13194139533⟩, 15825, 15825⟩ := by
    rw [show (15831 : Nat) = 15830 + 1 by norm_num, Move_profile_run_add, h30,
      Option.some_bind, Move_profile_overflow_tick]
  have hP : Driver.AtProfile overflowEnv (-1) 1 0 0
      ((({ calibration_ := unityCalibration } : Driver).GetTime overflowEnv).2)
      { start := (({ calibration_ := unityCalibration } : Driver).GetTime overflowEnv).1 }
      ⟨0, ⟨0, 0⟩, 0, 0⟩ := by
    refine ⟨rfl, rfl, rfl, rfl, rfl, rfl, ?_, ?_, ?_, ?_⟩
    · decide
    · decide
    · decide
    · decide
  obtain ⟨drv1, m1, h1, h2⟩ := Driver.Move_loop_profile overflowEnv (fun _ => rfl) (-1) 1 32767
    (Or.inr rfl) (Or.inl rfl) 0 0 31657 _ _ _ _ 31657 hP Move_profile_overflow_run
    (by norm_num) (le_refl _)
  have hs : m1.s = 65535 := h2.2.2.2.1
  refine ⟨fun k => toUInt16_range _, h30, by decide, by decide, h31, drv1, m1, h1, hs, ?_⟩
  rw [hs]
  norm_num

/-! ## Size of the deltas sent to the steppers -/

/-- After a call with `s` in `[0, 65535]` and an incoming remainder in `[0, 2^14)` the cells
follow `s`. -/
theorem FractionalMove_tracks (s fraction position remainder : Int)
    (hs : 0 ≤ s ∧ s ≤ 65535) (hf : IsInt16 fraction)
    (hr : 0 ≤ remainder ∧ remainder < 2 ^ 14) :
    Driver.Tracks fraction s (FractionalMove s fraction position remainder).position
      (FractionalMove s fraction position remainder).remainder := by
  obtain ⟨r0, r1⟩ := hr
  have r1' := r1
  norm_num at r1'
  obtain ⟨_, _, hp⟩ := FractionalMove_p_no_overflow s fraction remainder hs hf ⟨r0, by omega⟩
  refine ⟨remainder, ⟨r0, r1⟩, ?_, ?_⟩
  · rw [FractionalMove_position_eq, Int_shiftRight_floor, hp]
  · simp only [FractionalMove, Int_land_mask, toUInt16]
    rw [hp]
    generalize s * fraction + remainder = p
    norm_num
    omega

/-- A call whose `s` differs by at most 1 from the `s` that the cells follow, with
`|fraction| <= 2^14`: the returned delta is at most 2 in magnitude and fits in `int8_t`. -/
theorem FractionalMove_unit_step (s0 s1 fraction position remainder : Int)
    (_hs0 : 0 ≤ s0 ∧ s0 ≤ 65535) (hs1 : 0 ≤ s1 ∧ s1 ≤ 65535) (hstep : |s1 - s0| ≤ 1)
    (hf : |fraction| ≤ 2 ^ 14) (hT : Driver.Tracks fraction s0 position remainder) :
    |(FractionalMove s1 fraction position remainder).ret| ≤ 2 ∧
    toInt8 (FractionalMove s1 fraction position remainder).ret =
      (FractionalMove s1 fraction position remainder).ret := by
  obtain ⟨rp, ⟨p0, p1⟩, hpos, hrem⟩ := hT
  obtain ⟨f0, f1⟩ := abs_le.mp hf
  obtain ⟨d0, d1⟩ := abs_le.mp hstep
  norm_num at f0 f1 p1
  have hf16 : IsInt16 fraction := ⟨by omega, by omega⟩
  have hrr : 0 ≤ remainder ∧ remainder ≤ 65535 := by
    rw [hrem]
    generalize s0 * fraction + rp = y
    norm_num
    omega
  obtain ⟨_, _, hp⟩ := FractionalMove_p_no_overflow s1 fraction remainder hs1 hf16 hrr
  have hret : (FractionalMove s1 fraction position remainder).ret =
      toInt16 ((s1 * fraction + remainder) / 2 ^ 14 - position) := by
    simp only [FractionalMove, Int_shiftRight_floor, toInt16_toInt32, hp]
  have hx : ∃ e : Int, s1 * fraction = s0 * fraction + e ∧ -16384 ≤ e ∧ e ≤ 16384 := by
    refine ⟨(s1 - s0) * fraction, by ring, ?_, ?_⟩
    · have hc : s1 - s0 = -1 ∨ s1 - s0 = 0 ∨ s1 - s0 = 1 := by omega
      rcases hc with h | h | h <;> rw [h] <;> omega
    · have hc : s1 - s0 = -1 ∨ s1 - s0 = 0 ∨ s1 - s0 = 1 := by omega
      rcases hc with h | h | h <;> rw [h] <;> omega
  obtain ⟨e, he, e0, e1⟩ := hx
  have hsmall : -2 ≤ toInt16 ((s1 * fraction + remainder) / 2 ^ 14 - position) ∧
      toInt16 ((s1 * fraction + remainder) / 2 ^ 14 - position) ≤ 2 := by
    rw [hpos, hrem, he]
    generalize s0 * fraction = x
    simp only [toInt16, wrapSigned]
    norm_num
    omega
  rw [hret]
  generalize toInt16 ((s1 * fraction + remainder) / 2 ^ 14 - position) = r at hsmall
  refine ⟨abs_le.mpr ⟨by omega, by omega⟩, ?_⟩
  have hc : r = -2 ∨ r = -1 ∨ r = 0 ∨ r = 1 ∨ r = 2 := by omega
  rcases hc with h | h | h | h | h <;> rw [h] <;> decide

/-- What one iteration of the loop of `Move` sends to the steppers and leaves in the
allocator cells. -/
theorem Driver.Move_tick_deltas_spec (env : Env) (lf rf d : Int) (drv : Driver)
    (m : MoveLocals) :
    (Driver.Move_tick env lf rf d drv m).2.1.log = drv.log ++
      [Event.LeftMove (toInt8 (Driver.Move_tick_deltas env lf rf d drv m).1),
       Event.RightMove (toInt8 (Driver.Move_tick_deltas env lf rf d drv m).2),
       Event.Interrupted (env.interrupted drv.polls)] ∧
    (Driver.Move_tick env lf rf d drv m).2.2.l =
      (FractionalMove (Driver.Move_tick env lf rf d drv m).2.2.s lf m.l
        drv.left_remainder_).position ∧
    (Driver.Move_tick env lf rf d drv m).2.1.left_remainder_ =
      (FractionalMove (Driver.Move_tick env lf rf d drv m).2.2.s lf m.l
        drv.left_remainder_).remainder ∧
    (Driver.Move_tick env lf rf d drv m).2.2.r =
      (FractionalMove (Driver.Move_tick env lf rf d drv m).2.2.s rf m.r
        drv.right_remainder_).position ∧
    (Driver.Move_tick env lf rf d drv m).2.1.right_remainder_ =
      (FractionalMove (Driver.Move_tick env lf rf d drv m).2.2.s rf m.r
        drv.right_remainder_).remainder ∧
    (Driver.Move_tick_deltas env lf rf d drv m).1 =
      (FractionalMove (Driver.Move_tick env lf rf d drv m).2.2.s lf m.l
        drv.left_remainder_).ret ∧
    (Driver.Move_tick_deltas env lf rf d drv m).2 =
      (FractionalMove (Driver.Move_tick env lf rf d drv m).2.2.s rf m.r
        drv.right_remainder_).ret := by
  unfold Driver.Move_tick Driver.Move_tick_deltas Driver.Move_tick_pulse
  dsimp only [Driver.Poll, Driver.emit, Driver.GetTime]
  refine ⟨?_, rfl, rfl, rfl, rfl, rfl, rfl⟩
  simp

/-- One iteration of the loop of `Move` keeps the allocator cells following the counter. -/
theorem Driver.Move_tick_tracks (env : Env) (lf rf d : Int) (hl : IsInt16 lf) (hr : IsInt16 rf)
    (drv : Driver) (m : MoveLocals) (hI : Driver.MoveTracks lf rf drv m) :
    Driver.MoveTracks lf rf (Driver.Move_tick env lf rf d drv m).2.1
      (Driver.Move_tick env lf rf d drv m).2.2 := by
  obtain ⟨_, ⟨rl, _, _, hrl⟩, ⟨rr, _, _, hrr⟩⟩ := hI
  obtain ⟨_, t2, t3, t4, t5, _, _⟩ := Driver.Move_tick_deltas_spec env lf rf d drv m
  have hs : 0 ≤ (Driver.Move_tick env lf rf d drv m).2.2.s ∧
      (Driver.Move_tick env lf rf d drv m).2.2.s ≤ 65535 := by
    rw [Driver.Move_tick_s_eq]
    exact toUInt16_range _
  have hL : 0 ≤ drv.left_remainder_ ∧ drv.left_remainder_ < 2 ^ 14 := by
    rw [hrl]
    generalize m.s * lf + rl = y
    norm_num
    omega
  have hR : 0 ≤ drv.right_remainder_ ∧ drv.right_remainder_ < 2 ^ 14 := by
    rw [hrr]
    generalize m.s * rf + rr = y
    norm_num
    omega
  refine ⟨hs, ?_, ?_⟩
  · rw [t2, t3]
    exact FractionalMove_tracks _ lf m.l _ hs hl hL
  · rw [t4, t5]
    exact FractionalMove_tracks _ rf m.r _ hs hr hR

/-- The loop of `Move` is entered with the allocator cells following the counter 0. -/
theorem Driver.Move_run_tracks (env : Env) (lf rf : Int) (drv : Driver)
    (hR : drv.RemaindersOk) :
    Driver.MoveTracks lf rf (drv.GetTime env).2 { start := (drv.GetTime env).1 } := by
  obtain ⟨⟨l0, l1⟩, r0, r1⟩ := hR
  norm_num at l1 r1
  refine ⟨⟨le_refl _, by show (0 : Int) ≤ 65535; norm_num⟩,
    ⟨drv.left_remainder_, ⟨l0, by norm_num; omega⟩, ?_, ?_⟩,
    ⟨drv.right_remainder_, ⟨r0, by norm_num; omega⟩, ?_, ?_⟩⟩
  · show (0 : Int) = toInt16 ((0 * lf + drv.left_remainder_) / 2 ^ 14)
    rw [zero_mul, zero_add, Int.ediv_eq_zero_of_lt l0 (by norm_num; omega)]
    rfl
  · show drv.left_remainder_ = (0 * lf + drv.left_remainder_) % 2 ^ 14
    rw [zero_mul, zero_add, Int.emod_eq_of_lt l0 (by norm_num; omega)]
  · show (0 : Int) = toInt16 ((0 * rf + drv.right_remainder_) / 2 ^ 14)
    rw [zero_mul, zero_add, Int.ediv_eq_zero_of_lt r0 (by norm_num; omega)]
    rfl
  · show drv.right_remainder_ = (0 * rf + drv.right_remainder_) % 2 ^ 14
    rw [zero_mul, zero_add, Int.emod_eq_of_lt r0 (by norm_num; omega)]

/-- The deltas of one iteration of the loop of `Move` in which the counter changes by at
most 1. -/
theorem Driver.Move_tick_deltas_small (env : Env) (lf rf d : Int) (hl : |lf| ≤ 2 ^ 14)
    (hr : |rf| ≤ 2 ^ 14) (drv : Driver) (m : MoveLocals) (hI : Driver.MoveTracks lf rf drv m)
    (hstep : |(Driver.Move_tick env lf rf d drv m).2.2.s - m.s| ≤ 1) :
    (|(Driver.Move_tick_deltas env lf rf d drv m).1| ≤ 2 ∧
      |(Driver.Move_tick_deltas env lf rf d drv m).2| ≤ 2) ∧
    toInt8 (Driver.Move_tick_deltas env lf rf d drv m).1 =
      (Driver.Move_tick_deltas env lf rf d drv m).1 ∧
    toInt8 (Driver.Move_tick_deltas env lf rf d drv m).2 =
      (Driver.Move_tick_deltas env lf rf d drv m).2 := by
  obtain ⟨hs0, hL, hR⟩ := hI
  obtain ⟨_, _, _, _, _, t6, t7⟩ := Driver.Move_tick_deltas_spec env lf rf d drv m
  have hs : 0 ≤ (Driver.Move_tick env lf rf d drv m).2.2.s ∧
      (Driver.Move_tick env lf rf d drv m).2.2.s ≤ 65535 := by
    rw [Driver.Move_tick_s_eq]
    exact toUInt16_range _
  obtain ⟨a1, a2⟩ := FractionalMove_unit_step m.s _ lf m.l drv.left_remainder_ hs0 hs hstep hl hL
  obtain ⟨b1, b2⟩ := FractionalMove_unit_step m.s _ rf m.r drv.right_remainder_ hs0 hs hstep hr hR
  rw [t6, t7]
  exact ⟨⟨a1, b1⟩, a2, b2⟩

/-- C37 (size of the physical step per tick). Within one `Move` with `|left_fraction|` and
`|right_fraction|` at most `2^14`, entered with both remainders in `[0, 2^14)`: every
iteration sends to the steppers the two values returned by `FractionalMove`, narrowed to
`int8_t`; in every iteration in which the virtual counter `s` changes by at most 1 both
returned values have magnitude at most 2, so the narrowing does not change them. With tick
intervals of at most 21333 timer ticks and `d` a `uint16_t` the counter changes by at most 1
in every iteration. -/
theorem Move_tick_delta_bound (env : Env) (lf rf d : Int) (hl : |lf| ≤ 2 ^ 14)
    (hr : |rf| ≤ 2 ^ 14) (drv : Driver) (hR : drv.RemaindersOk) (n : Nat) :
    (∀ x ∈ Driver.Move_trace env lf rf d n (drv.GetTime env).2
        { start := (drv.GetTime env).1 },
      (Driver.Move_tick env lf rf d x.1 x.2).2.1.log = x.1.log ++
        [Event.LeftMove (toInt8 (Driver.Move_tick_deltas env lf rf d x.1 x.2).1),
         Event.RightMove (toInt8 (Driver.Move_tick_deltas env lf rf d x.1 x.2).2),
         Event.Interrupted (env.interrupted x.1.polls)] ∧
      (|(Driver.Move_tick env lf rf d x.1 x.2).2.2.s - x.2.s| ≤ 1 →
        (|(Driver.Move_tick_deltas env lf rf d x.1 x.2).1| ≤ 2 ∧
          |(Driver.Move_tick_deltas env lf rf d x.1 x.2).2| ≤ 2) ∧
        toInt8 (Driver.Move_tick_deltas env lf rf d x.1 x.2).1 =
          (Driver.Move_tick_deltas env lf rf d x.1 x.2).1 ∧
        toInt8 (Driver.Move_tick_deltas env lf rf d x.1 x.2).2 =
          (Driver.Move_tick_deltas env lf rf d x.1 x.2).2)) ∧
    (∀ lo : Int, env.TicksWithin lo 21333 → 0 ≤ d ∧ d ≤ 65535 →
      ∀ x ∈ Driver.Move_trace env lf rf d n (drv.GetTime env).2
          { start := (drv.GetTime env).1 },
        |(Driver.Move_tick env lf rf d x.1 x.2).2.2.s - x.2.s| ≤ 1) := by
  have hl16 : IsInt16 lf := by
    obtain ⟨a, b⟩ := abs_le.mp hl
    norm_num at a b
    exact ⟨by omega, by omega⟩
  have hr16 : IsInt16 rf := by
    obtain ⟨a, b⟩ := abs_le.mp hr
    norm_num at a b
    exact ⟨by omega, by omega⟩
  refine ⟨fun x hx => ?_, fun lo hT hd x hx => ?_⟩
  · obtain ⟨hP, _⟩ := Driver.Move_trace_inv env lf rf d (Driver.MoveTracks lf rf)
      (fun drv m hP _ => Driver.Move_tick_tracks env lf rf d hl16 hr16 drv m hP) n
      (drv.GetTime env).2 { start := (drv.GetTime env).1 }
      (Driver.Move_run_tracks env lf rf drv hR) x hx
    exact ⟨(Driver.Move_tick_deltas_spec env lf rf d x.1 x.2).1,
      fun hstep => Driver.Move_tick_deltas_small env lf rf d hl hr x.1 x.2 hP hstep⟩
  · obtain ⟨hP, hlt⟩ := Driver.Move_trace_inv env lf rf d (Driver.MoveInv env d)
      (fun drv m hP hlt => (Driver.Move_tick_inv env lo hT lf rf d hd.2 drv m hP hlt).1) n
      (drv.GetTime env).2 { start := (drv.GetTime env).1 } (Driver.Move_run_inv env drv d hd.1)
      x hx
    rcases (Driver.Move_tick_inv env lo hT lf rf d hd.2 x.1 x.2 hP hlt).2.1 with h | h
    · rw [h]; norm_num
    · rw [h]; norm_num

set_option maxRecDepth 100000 in
theorem Move_tick_delta_bound_witness :
    |(12000 : Int)| ≤ 2 ^ 14 ∧ |(-16384 : Int)| ≤ 2 ^ 14 ∧
    (Driver.Move_trace steadyEnv 12000 (-16384) 3 4
      ((({ calibration_ := unityCalibration } : Driver).GetTime steadyEnv).2)
      { start := (({ calibration_ := unityCalibration } : Driver).GetTime steadyEnv).1 }).length
      = 4 ∧
    ∀ x ∈ Driver.Move_trace steadyEnv 12000 (-16384) 3 4
        ((({ calibration_ := unityCalibration } : Driver).GetTime steadyEnv).2)
        { start := (({ calibration_ := unityCalibration } : Driver).GetTime steadyEnv).1 },
      |(Driver.Move_tick steadyEnv 12000 (-16384) 3 x.1 x.2).2.2.s - x.2.s| ≤ 1 →
        (|(Driver.Move_tick_deltas steadyEnv 12000 (-16384) 3 x.1 x.2).1| ≤ 2 ∧
          |(Driver.Move_tick_deltas steadyEnv 12000 (-16384) 3 x.1 x.2).2| ≤ 2) ∧
        toInt8 (Driver.Move_tick_deltas steadyEnv 12000 (-16384) 3 x.1 x.2).1 =
          (Driver.Move_tick_deltas steadyEnv 12000 (-16384) 3 x.1 x.2).1 ∧
        toInt8 (Driver.Move_tick_deltas steadyEnv 12000 (-16384) 3 x.1 x.2).2 =
          (Driver.Move_tick_deltas steadyEnv 12000 (-16384) 3 x.1 x.2).2 :=
  ⟨by decide, by decide, by decide, fun x hx =>
   ((Move_tick_delta_bound steadyEnv 12000 (-16384) 3 (by decide) (by decide)
      { calibration_ := unityCalibration } ⟨⟨by decide, by decide⟩, ⟨by decide, by decide⟩⟩ 4).1
      x hx).2⟩

/-! ## The cancellation predicate of `main` -/

/-- One poll with the button not pressed, from a counter in `[0, 3]`. -/
theorem main_interrupted_step (pf : Int) (p : Bool) (h0 : 0 ≤ pf) (h3 : pf ≤ 3) :
    (main_interrupted pf true p).1 = decide (2 < (main_interrupted pf true p).2) ∧
    (main_interrupted pf true p).2 =
      if 2 < pf then pf else if p then 0 else pf + 1 := by
  have hc : pf = 0 ∨ pf = 1 ∨ pf = 2 ∨ pf = 3 := by omega
  rcases hc with h | h | h | h <;> subst h <;> cases p <;> decide

/-- Three consecutive bad polls, in terms of the run length. -/
theorem main_bad_polls_three (power : Nat → Bool) (i : Nat) :
    3 ≤ main_bad_polls power (i + 3) ↔
      power i = false ∧ power (i + 1) = false ∧ power (i + 2) = false := by
  simp only [main_bad_polls]
  cases h0 : power i <;> cases h1 : power (i + 1) <;> cases h2 : power (i + 2) <;> simp

theorem main_bad_polls_lt_three (power : Nat → Bool) (j : Nat) (hj : j < 3) :
    main_bad_polls power j < 3 := by
  have hc : j = 0 ∨ j = 1 ∨ j = 2 := by omega
  rcases hc with h | h | h
  · subst h
    show (0 : Nat) < 3
    omega
  · subst h
    show (if power 0 then 0 else 0 + 1) < 3
    split_ifs <;> omega
  · subst h
    show (if power 1 then 0 else (if power 0 then 0 else 0 + 1) + 1) < 3
    split_ifs <;> omega

/-- The counter before the poll number `k`, with the button never pressed: 3 once three
consecutive bad polls were seen, the length of the current run of bad polls before that. -/
theorem main_power_failures_char (button power : Nat → Bool) (hb : ∀ k, button k = true)
    (k : Nat) :
    ((∃ j, j ≤ k ∧ 3 ≤ main_bad_polls power j) → main_power_failures button power k = 3) ∧
    ((∀ j, j ≤ k → main_bad_polls power j < 3) →
      main_power_failures button power k = (main_bad_polls power k : Int)) := by
  induction k with
  | zero =>
    refine ⟨fun ⟨j, hj, h3⟩ => ?_, fun _ => rfl⟩
    have : j = 0 := by omega
    subst this
    simp [main_bad_polls] at h3
  | succ k ih =>
    have hstep : main_power_failures button power (k + 1) =
        (main_interrupted (main_power_failures button power k) true (power k)).2 := by
      show (main_interrupted (main_power_failures button power k) (button k) (power k)).2 = _
      rw [hb k]
    by_cases hL : ∃ j, j ≤ k ∧ 3 ≤ main_bad_polls power j
    · have hc := ih.1 hL
      have h3 : main_power_failures button power (k + 1) = 3 := by
        rw [hstep, hc]
        cases power k <;> decide
      refine ⟨fun _ => h3, fun hall => ?_⟩
      obtain ⟨j, hj, hj3⟩ := hL
      have := hall j (by omega)
      omega
    · have hall : ∀ j, j ≤ k → main_bad_polls power j < 3 := by
        intro j hj
        by_contra hn
        exact hL ⟨j, hj, by omega⟩
      have hc := ih.2 hall
      have hk := hall k (le_refl _)
      have hs := (main_interrupted_step (main_power_failures button power k) (power k)
        (by rw [hc]; exact Int.ofNat_nonneg _) (by rw [hc]; omega)).2
      rw [← hstep, hc, if_neg (by omega)] at hs
      have hrun : main_bad_polls power (k + 1) =
          if power k then 0 else main_bad_polls power k + 1 := rfl
      refine ⟨fun ⟨j, hj, hj3⟩ => ?_, fun _ => ?_⟩
      · have hjk : j = k + 1 := by
          by_contra hne
          have := hall j (by omega)
          omega
        subst hjk
        rw [hrun] at hj3
        rw [hs]
        cases hp : power k
        · rw [hp] at hj3
          simp only [Bool.false_eq_true, if_false] at hj3 ⊢
          omega
        · rw [hp] at hj3
          simp at hj3
      · rw [hs, hrun]
        cases hp : power k
        · simp
        · simp

/-- The answer at the poll number `k`, with the button never pressed. -/
theorem main_interrupted_at_char (button power : Nat → Bool) (hb : ∀ k, button k = true)
    (k : Nat) :
    main_interrupted_at button power k = true ↔
      ∃ j, j ≤ k + 1 ∧ 3 ≤ main_bad_polls power j := by
  obtain ⟨c1, c2⟩ := main_power_failures_char button power hb k
  obtain ⟨d1, d2⟩ := main_power_failures_char button power hb (k + 1)
  have hrange : 0 ≤ main_power_failures button power k ∧
      main_power_failures button power k ≤ 3 := by
    by_cases hL : ∃ j, j ≤ k ∧ 3 ≤ main_bad_polls power j
    · rw [c1 hL]
      exact ⟨by norm_num, le_refl _⟩
    · have hall : ∀ j, j ≤ k → main_bad_polls power j < 3 := by
        intro j hj
        by_contra hn
        exact hL ⟨j, hj, by omega⟩
      have := hall k (le_refl _)
      rw [c2 hall]
      omega
  have hans : main_interrupted_at button power k =
      decide (2 < main_power_failures button power (k + 1)) := by
    show (main_interrupted (main_power_failures button power k) (button k) (power k)).1 =
      decide (2 < (main_interrupted (main_power_failures button power k) (button k)
        (power k)).2)
    rw [hb k]
    exact (main_interrupted_step _ (power k) hrange.1 hrange.2).1
  rw [hans, decide_eq_true_eq]
  constructor
  · intro h
    by_contra hn
    have hall : ∀ j, j ≤ k + 1 → main_bad_polls power j < 3 := by
      intro j hj
      by_contra hn2
      exact hn ⟨j, hj, by omega⟩
    have := hall (k + 1) (le_refl _)
    rw [d2 hall] at h
    omega
  · intro h
    rw [d1 h]
    norm_num

/-- C32 (cancellation predicate of the main loop). A pressed button makes `interrupted()`
return `true` whatever the power state, leaving the counter alone. With the button not
pressed: a poll with power good from a counter of at most 2 returns `false` and resets the
counter to 0; a poll with power not good increments it and returns `true` exactly when the
counter was 2, that is on the third consecutive bad poll; a counter above 2 is never changed
again and every poll returns `true`. Hence, starting from the counter 0 with the button
never pressed, the poll number `k` returns `true` exactly when three consecutive polls with
power not good have occurred among the polls `0..k`. -/
theorem main_interrupted_spec (button power : Nat → Bool) :
    kMaxConsecutivePowerFailures = 2 ∧
    (∀ (pf : Int) (p : Bool), main_interrupted pf false p = (true, pf)) ∧
    (∀ k : Nat, button k = false → main_interrupted_at button power k = true) ∧
    (∀ pf : Int, 0 ≤ pf → pf ≤ 2 → main_interrupted pf true true = (false, 0)) ∧
    (∀ pf : Int, 0 ≤ pf → pf ≤ 2 →
      main_interrupted pf true false = (decide (pf = 2), pf + 1)) ∧
    (∀ (pf : Int) (b p : Bool), 2 < pf → main_interrupted pf b p = (true, pf)) ∧
    ((∀ k : Nat, button k = true) → ∀ k : Nat,
      (main_interrupted_at button power k = true ↔
        ∃ i : Nat, i + 2 ≤ k ∧ power i = false ∧ power (i + 1) = false ∧
          power (i + 2) = false) ∧
      (main_interrupted_at button power k = true →
        ∀ j : Nat, k ≤ j → main_interrupted_at button power j = true)) := by
  have hchar : (∀ k : Nat, button k = true) → ∀ k : Nat,
      (main_interrupted_at button power k = true ↔
        ∃ i : Nat, i + 2 ≤ k ∧ power i = false ∧ power (i + 1) = false ∧
          power (i + 2) = false) := by
    intro hb k
    rw [main_interrupted_at_char button power hb k]
    constructor
    · rintro ⟨j, hj, h3⟩
      have hj3 : 3 ≤ j := by
        by_contra hn
        have := main_bad_polls_lt_three power j (by omega)
        omega
      obtain ⟨i, rfl⟩ : ∃ i, j = i + 3 := ⟨j - 3, by omega⟩
      exact ⟨i, by omega, (main_bad_polls_three power i).mp h3⟩
    · rintro ⟨i, hi, h⟩
      exact ⟨i + 3, by omega, (main_bad_polls_three power i).mpr h⟩
  refine ⟨rfl, fun pf p => rfl, fun k hk => ?_, fun pf h0 h2 => ?_, fun pf h0 h2 => ?_,
    fun pf b p h => ?_, fun hb k => ⟨hchar hb k, fun h j hj => ?_⟩⟩
  · show (main_interrupted (main_power_failures button power k) (button k) (power k)).1 = true
    rw [hk]
    rfl
  · have hc : pf = 0 ∨ pf = 1 ∨ pf = 2 := by omega
    rcases hc with h | h | h <;> subst h <;> decide
  · have hc : pf = 0 ∨ pf = 1 ∨ pf = 2 := by omega
    rcases hc with h | h | h <;> subst h <;> decide
  · unfold main_interrupted
    cases b
    · rfl
    · have hgt : pf > kMaxConsecutivePowerFailures := h
      simp only [Bool.not_true, Bool.false_eq_true, if_false, hgt, if_true]
  · obtain ⟨i, hi, h3⟩ := (hchar hb k).mp h
    exact (hchar hb j).mpr ⟨i, by omega, h3⟩

theorem main_interrupted_spec_witness :
    main_interrupted_at (fun _ => true) (fun k => decide (k < 1)) 2 = false ∧
    main_interrupted_at (fun _ => true) (fun k => decide (k < 1)) 3 = true :=
  ⟨by decide,
   (((main_interrupted_spec (fun _ => true) (fun k => decide (k < 1))).2.2.2.2.2.2
      (fun _ => rfl) 3).1).mpr ⟨1, by decide, by decide, by decide, by decide⟩⟩

/-! ## A stepper whose period does not fit `uint8_t` -/

/-- With at most 127 coils the period is not 0 as a `uint8_t`, and `Move` has a result. -/
theorem Stepper.Move_checked_eq (st : Stepper) (h : st.c_.Len ≤ 127) (delta : Int) :
    st.Move_checked delta = some (st.Move delta) := by
  have hP := st.kPeriod_pos
  have hk : st.kPeriod ≤ 254 := by
    unfold Stepper.kPeriod
    have : (st.c_.Len : Int) ≤ 127 := by exact_mod_cast h
    omega
  unfold Stepper.Move_checked
  rw [if_neg]
  show ¬ toUInt8 st.kPeriod = 0
  unfold toUInt8
  omega

theorem Stepper.run_checked_eq (N : Nat) (hN : N ≤ 127) (ops : List StepperOp) :
    ∀ st : Stepper, st.c_.Len = N →
      Stepper.run_checked ops st = some (ops.foldl StepperOp.apply st) := by
  induction ops with
  | nil => intro st _; rfl
  | cons op ops ih =>
    intro st hlen
    have h1 : op.apply_checked st = some (op.apply st) := by
      cases op with
      | Init => rfl
      | Off => rfl
      | Move delta => exact Stepper.Move_checked_eq st (by rw [hlen]; exact hN) delta
    show (op.apply_checked st).bind (Stepper.run_checked ops) = _
    rw [h1, Option.some_bind, ih (op.apply st) (by rw [StepperOp.apply_Len, hlen])]
    rfl

/-- C8 (commutation state invariant), as amended. For a stepper with `N` coils, `N ≤ 127` (so
that the period `2N` is not 0 in the `uint8_t` field of `UpdateFn`), starting from phase 0:
every prefix of any sequence of `Init`, `Off` and `Move(delta)` operations (any `delta`, in
particular any `int8_t`) has a result, no `Move` divides by zero, and after it the phase
`pos_` lies in `[0, 2N)`; and `Init` and `Off` leave `pos_` unchanged, so only `Move` changes
it. -/
theorem Stepper_phase_invariant (c : CoilList) (hc : c.Len ≤ 127) (ops : List StepperOp) :
    (∀ k : Nat,
      Stepper.run_checked (ops.take k) { c_ := c, pos_ := 0 } =
        some ((ops.take k).foldl StepperOp.apply { c_ := c, pos_ := 0 })) ∧
    (∀ k : Nat,
      0 ≤ ((ops.take k).foldl StepperOp.apply { c_ := c, pos_ := 0 }).pos_ ∧
      ((ops.take k).foldl StepperOp.apply { c_ := c, pos_ := 0 }).pos_ < 2 * (c.Len : Int)) ∧
    (∀ st : Stepper, st.Init.pos_ = st.pos_ ∧ st.Off.pos_ = st.pos_) := by
  refine ⟨fun k => Stepper.run_checked_eq c.Len hc (ops.take k) _ rfl, fun k => ?_,
    fun st => ⟨rfl, rfl⟩⟩
  apply Stepper.foldl_invariant c.Len
    (by have : (c.Len : Int) ≤ 127 := by exact_mod_cast hc
        omega) (ops.take k) _ rfl
  simp only [CoilList.Len]
  omega

theorem Stepper_phase_invariant_witness :
    (CoilList.fresh 3).Len ≤ 127 ∧
    Stepper.run_checked ([StepperOp.Init, .Move 1, .Move (-3), .Off, .Move 127].take 5)
        { c_ := CoilList.fresh 3, pos_ := 0 } =
      some (([StepperOp.Init, .Move 1, .Move (-3), .Off, .Move 127].take 5).foldl
        StepperOp.apply { c_ := CoilList.fresh 3, pos_ := 0 }) ∧
    0 ≤ (([StepperOp.Init, .Move 1, .Move (-3), .Off, .Move 127].take 5).foldl StepperOp.apply
      { c_ := CoilList.fresh 3, pos_ := 0 }).pos_ ∧
    (([StepperOp.Init, .Move 1, .Move (-3), .Off, .Move 127].take 5).foldl StepperOp.apply
      { c_ := CoilList.fresh 3, pos_ := 0 }).pos_ < 2 * ((CoilList.fresh 3).Len : Int) :=
  ⟨by decide,
   (Stepper_phase_invariant (CoilList.fresh 3) (by decide)
      [StepperOp.Init, .Move 1, .Move (-3), .Off, .Move 127]).1 5,
   (Stepper_phase_invariant (CoilList.fresh 3) (by decide)
      [StepperOp.Init, .Move 1, .Move (-3), .Off, .Move 127]).2.1 5⟩

set_option maxRecDepth 100000 in
/-- C8 as stated fails for `N = 128`, which satisfies `2N ≤ 256`: the period 256 is passed to
`UpdateFn(uint8_t period_, ..)` and arrives as 0, so the first `Move` divides by zero in
`operator()` and has no result. -/
theorem Stepper_phase_invariant_counterexample :
    (CoilList.fresh 127).Len = 128 ∧ 2 * (CoilList.fresh 127).Len ≤ 256 ∧
    Stepper.kPeriod { c_ := CoilList.fresh 127, pos_ := 0 } = 256 ∧
    (UpdateFn.new (Stepper.kPeriod { c_ := CoilList.fresh 127, pos_ := 0 })
      (Stepper.Move_pos { c_ := CoilList.fresh 127, pos_ := 0 } 1)).period = 0 ∧
    Stepper.Move_checked { c_ := CoilList.fresh 127, pos_ := 0 } 1 = none ∧
    Stepper.run_checked [StepperOp.Move 1] { c_ := CoilList.fresh 127, pos_ := 0 } = none := by
  decide

/-! ## Calibration bias along successive `RotateSteps` calls -/

/-- The step count with the bias folded in is the one `RotateSteps` hands to `Move`. -/
theorem Driver.RotateSteps_folds (env : Env) (fuel : Nat) (drv : Driver) (steps : Int) :
    Driver.RotateSteps env fuel drv steps =
      Driver.Move env fuel
        { drv with angle_fraction_ :=
            (Driver.RotateSteps_bias drv.calibration_.angle_offset drv.angle_fraction_).2 }
        (Driver.RotateSteps_args drv (drv.RotateSteps_count steps)).1
        (Driver.RotateSteps_args drv (drv.RotateSteps_count steps)).2.1
        (Driver.RotateSteps_args drv (drv.RotateSteps_count steps)).2.2 :=
  Driver.RotateSteps_eq env fuel drv steps

/-- The folded count, when nothing overflows. -/
theorem Driver.RotateSteps_count_eq (drv : Driver) (steps : Int)
    (ho : |drv.calibration_.angle_offset| ≤ 32512) (haf : |drv.angle_fraction_| < 256)
    (hs : |steps| ≤ 32000) :
    drv.RotateSteps_count steps =
      steps + (Driver.RotateSteps_bias drv.calibration_.angle_offset drv.angle_fraction_).1 ∧
    |drv.RotateSteps_count steps| ≤ 32767 := by
  obtain ⟨s1, s2⟩ := RotateSteps_bias_step _ _ ho haf
  obtain ⟨o1, o2⟩ := abs_le.mp ho
  obtain ⟨a1, a2⟩ := abs_lt.mp haf
  obtain ⟨c1, c2⟩ := abs_le.mp hs
  obtain ⟨r1, r2⟩ := abs_lt.mp s2
  have hfit : IsInt16 (steps +
      (Driver.RotateSteps_bias drv.calibration_.angle_offset drv.angle_fraction_).1) := by
    constructor <;> omega
  unfold Driver.RotateSteps_count
  rw [toInt16_eq_self hfit]
  exact ⟨rfl, abs_le.mpr ⟨by omega, by omega⟩⟩

/-- Bias accounting along a returning sequence of `RotateSteps` calls, from any accumulator
below one step and for any commanded counts. -/
theorem Driver.RotateSteps_seq_accounts (env : Env) (fuel : Nat) (cmds : List Int) :
    ∀ (drv : Driver) (qs : List Int) (drv1 : Driver),
      |drv.calibration_.angle_offset| ≤ 32512 → |drv.angle_fraction_| < 256 →
      Driver.RotateSteps_seq env fuel drv cmds = some (qs, drv1) →
      qs.length = cmds.length ∧
      256 * qs.sum + drv1.angle_fraction_ =
        drv.angle_fraction_ + cmds.length * drv.calibration_.angle_offset ∧
      |drv1.angle_fraction_| < 256 ∧ drv1.calibration_ = drv.calibration_ := by
  induction cmds with
  | nil =>
    intro drv qs drv1 _ haf h
    simp only [Driver.RotateSteps_seq, Option.some.injEq, Prod.mk.injEq] at h
    obtain ⟨rfl, rfl⟩ := h
    exact ⟨rfl, by simp, haf, rfl⟩
  | cons s rest ih =>
    intro drv qs drv1 ho haf h
    simp only [Driver.RotateSteps_seq] at h
    rcases hR : Driver.RotateSteps env fuel drv s with _ | ⟨b, d1⟩
    · rw [hR] at h
      simp at h
    · rw [hR] at h
      dsimp only at h
      rcases hS : Driver.RotateSteps_seq env fuel d1 rest with _ | ⟨cs, d2⟩
      · rw [hS] at h
        simp at h
      · rw [hS] at h
        simp only [Option.some.injEq, Prod.mk.injEq] at h
        obtain ⟨rfl, rfl⟩ := h
        obtain ⟨ds, e1, e2, _⟩ := Driver.RotateSteps_effect env fuel drv s b d1 hR
        have e1' : d1.calibration_ = drv.calibration_ := e1
        have e2' : d1.angle_fraction_ =
            (Driver.RotateSteps_bias drv.calibration_.angle_offset drv.angle_fraction_).2 := e2
        obtain ⟨s1, s2⟩ := RotateSteps_bias_step _ _ ho haf
        obtain ⟨i1, i2, i3, i4⟩ := ih d1 cs d2 (by rw [e1']; exact ho) (by rw [e2']; exact s2) hS
        refine ⟨by simp [i1], ?_, i3, by rw [i4, e1']⟩
        rw [e1', e2'] at i2
        simp only [List.sum_cons, List.length_cons]
        push_cast
        linarith

/-- A sequence of `RotateSteps` calls returns when no timer interval is empty or longer than
21333 ticks and the predicate never answers `true`. -/
theorem Driver.RotateSteps_seq_terminates (env : Env) (hT : env.TicksWithin 1 21333)
    (hN : env.NeverInterrupted) (fuel : Nat) (hf : 2 ^ 52 ≤ fuel) (cmds : List Int) :
    ∀ drv : Driver, ∃ (qs : List Int) (drv1 : Driver),
      Driver.RotateSteps_seq env fuel drv cmds = some (qs, drv1) := by
  induction cmds with
  | nil => intro drv; exact ⟨[], drv, rfl⟩
  | cons s rest ih =>
    intro drv
    obtain ⟨d1, h1⟩ := Driver.RotateSteps_terminates env hT hN fuel hf drv s
    obtain ⟨cs, d2, h2⟩ := ih d1
    refine ⟨(Driver.RotateSteps_bias drv.calibration_.angle_offset drv.angle_fraction_).1 :: cs,
      d2, ?_⟩
    simp only [Driver.RotateSteps_seq, h1, h2]

/-- The distance that `RotateSteps` hands to `Move` is the magnitude of the folded count. -/
theorem Driver.RotateSteps_args_distance (drv : Driver) (c : Int) (hc : |c| ≤ 32767) :
    (drv.RotateSteps_args c).2.2 = |c| := by
  obtain ⟨c1, c2⟩ := abs_le.mp hc
  show toUInt16 (if c < 0 then toInt16 (-c) else c) = |c|
  by_cases hneg : c < 0
  · rw [if_pos hneg, abs_of_neg hneg, toInt16_eq_self (x := -c) ⟨by omega, by omega⟩,
      toUInt16_eq_self (x := -c) ⟨by omega, by omega⟩]
  · rw [if_neg hneg, abs_of_nonneg (not_lt.mp hneg), toUInt16_eq_self (x := c) ⟨by omega, by omega⟩]

set_option maxRecDepth 100000 in
theorem Driver.biasAfterFirst_run :
    Driver.RotateSteps (sampleEnv 1000) 60 { calibration_ := kCalibrationData } (-2) =
      some (true, biasAfterFirst) := by
  decide

set_option maxRecDepth 100000 in
theorem Driver.biasAfterSecond_run :
    Driver.RotateSteps (sampleEnv 1000) 60 biasAfterFirst (-2) = some (true, biasAfterSecond) := by
  decide

/-- Two successive `RotateSteps(-2)` calls of the firmware: each folds in one bias step. -/
theorem Driver.biasAfterSecond_seq :
    Driver.RotateSteps_seq (sampleEnv 1000) 60 { calibration_ := kCalibrationData } [-2, -2] =
      some ([1, 1], biasAfterSecond) := by
  simp only [Driver.RotateSteps_seq, Driver.biasAfterFirst_run, Driver.biasAfterSecond_run]
  decide

/-- C11 (drift-free calibration bias). For every `angle_offset` with
`|angle_offset| ≤ 32512`. Every `RotateSteps(steps)` call adds the bias steps
`angle_fraction_ / 256` (the quotient taken after `angle_fraction_ += angle_offset`) to its
`steps` and is the `Move` on the resulting count: its distance is `|steps + bias steps|`
when `|steps| ≤ 32000`; and a call that returns has stored the remainder in
`angle_fraction_`. Hence for every sequence of `n` successive `RotateSteps` calls that
return, whatever the commanded counts and starting from a zero accumulator,
`256 * (total bias steps) + angle_fraction_ = n * angle_offset` with
`|angle_fraction_| < 256`, so the total of the bias steps folded into the commanded step
counts differs from `n * angle_offset / 256` by less than one step; the same holds of the
bookkeeping recursion `RotateSteps_bias_run`. The calls do return when no timer interval is
empty or longer than 21333 ticks and the predicate never answers `true`. -/
theorem RotateSteps_bias_drift_free (angle_offset : Int) (ho : |angle_offset| ≤ 32512) (n : Nat) :
    256 * (RotateSteps_bias_run angle_offset n).1 + (RotateSteps_bias_run angle_offset n).2 =
      n * angle_offset ∧
    |(RotateSteps_bias_run angle_offset n).2| < 256 ∧
    |256 * (RotateSteps_bias_run angle_offset n).1 - n * angle_offset| < 256 ∧
    (∀ (env : Env) (fuel : Nat) (drv : Driver) (steps : Int) (b : Bool) (drv1 : Driver),
      Driver.RotateSteps env fuel drv steps = some (b, drv1) →
      drv1.calibration_ = drv.calibration_ ∧
      drv1.angle_fraction_ =
        (Driver.RotateSteps_bias drv.calibration_.angle_offset drv.angle_fraction_).2) ∧
    (∀ (env : Env) (fuel : Nat) (drv : Driver) (steps : Int),
      Driver.RotateSteps env fuel drv steps =
        Driver.Move env fuel
          { drv with angle_fraction_ :=
              (Driver.RotateSteps_bias drv.calibration_.angle_offset drv.angle_fraction_).2 }
          (Driver.RotateSteps_args drv (drv.RotateSteps_count steps)).1
          (Driver.RotateSteps_args drv (drv.RotateSteps_count steps)).2.1
          (Driver.RotateSteps_args drv (drv.RotateSteps_count steps)).2.2 ∧
      (drv.calibration_.angle_offset = angle_offset → |drv.angle_fraction_| < 256 →
        |steps| ≤ 32000 →
        drv.RotateSteps_count steps = steps +
          (Driver.RotateSteps_bias drv.calibration_.angle_offset drv.angle_fraction_).1 ∧
        (Driver.RotateSteps_args drv (drv.RotateSteps_count steps)).2.2 =
          |steps +
            (Driver.RotateSteps_bias drv.calibration_.angle_offset drv.angle_fraction_).1|)) ∧
    (∀ (env : Env) (fuel : Nat) (drv : Driver) (cmds qs : List Int) (drv1 : Driver),
      drv.calibration_.angle_offset = angle_offset → drv.angle_fraction_ = 0 →
      cmds.length = n →
      Driver.RotateSteps_seq env fuel drv cmds = some (qs, drv1) →
      qs.length = n ∧
      256 * qs.sum + drv1.angle_fraction_ = n * angle_offset ∧
      |drv1.angle_fraction_| < 256 ∧
      |256 * qs.sum - n * angle_offset| < 256) ∧
    (∀ env : Env, env.TicksWithin 1 21333 → env.NeverInterrupted →
      ∀ (fuel : Nat), 2 ^ 52 ≤ fuel → ∀ (drv : Driver) (cmds : List Int),
        ∃ (qs : List Int) (drv1 : Driver),
          Driver.RotateSteps_seq env fuel drv cmds = some (qs, drv1)) := by
  obtain ⟨h1, h2⟩ := RotateSteps_bias_run_inv angle_offset ho n
  refine ⟨h1, h2, ?_, ?_, ?_, ?_, ?_⟩
  · have : 256 * (RotateSteps_bias_run angle_offset n).1 - n * angle_offset =
        -(RotateSteps_bias_run angle_offset n).2 := by linarith
    rw [this, abs_neg]
    exact h2
  · intro env fuel drv steps b drv1 h
    obtain ⟨ds, e1, e2, _⟩ := Driver.RotateSteps_effect env fuel drv steps b drv1 h
    exact ⟨e1, e2⟩
  · intro env fuel drv steps
    refine ⟨Driver.RotateSteps_folds env fuel drv steps, fun hoff haf hs => ?_⟩
    obtain ⟨c1, c2⟩ := Driver.RotateSteps_count_eq drv steps (by rw [hoff]; exact ho) haf hs
    refine ⟨c1, ?_⟩
    rw [Driver.RotateSteps_args_distance drv _ c2, c1]
  · intro env fuel drv cmds qs drv1 hoff haf hlen h
    obtain ⟨a1, a2, a3, _⟩ := Driver.RotateSteps_seq_accounts env fuel cmds drv qs drv1
      (by rw [hoff]; exact ho) (by rw [haf]; norm_num) h
    rw [haf, hoff, hlen, zero_add] at a2
    refine ⟨by rw [a1, hlen], a2, a3, ?_⟩
    have : 256 * qs.sum - n * angle_offset = -drv1.angle_fraction_ := by
      linarith
    rw [this, abs_neg]
    exact a3
  · intro env hT hN fuel hf drv cmds
    exact Driver.RotateSteps_seq_terminates env hT hN fuel hf cmds drv

theorem RotateSteps_bias_drift_free_witness :
    |(256 : Int)| ≤ 32512 ∧
    Driver.RotateSteps_seq (sampleEnv 1000) 60 { calibration_ := kCalibrationData } [-2, -2] =
      some ([1, 1], biasAfterSecond) ∧
    Driver.RotateSteps_count { calibration_ := kCalibrationData } (-2) = -1 ∧
    sumLeftMoves biasAfterSecond.log = 2 ∧ sumRightMoves biasAfterSecond.log = 2 ∧
    ([1, 1] : List Int).length = 2 ∧
    256 * ([1, 1] : List Int).sum + biasAfterSecond.angle_fraction_ = (2 : Nat) * 256 ∧
    |biasAfterSecond.angle_fraction_| < 256 ∧
    |256 * ([1, 1] : List Int).sum - (2 : Nat) * 256| < 256 :=
  ⟨by decide, Driver.biasAfterSecond_seq, by decide, by decide, by decide,
    (RotateSteps_bias_drift_free 256 (by decide) 2).2.2.2.2.2.1 (sampleEnv 1000) 60
      { calibration_ := kCalibrationData } [-2, -2] [1, 1] biasAfterSecond rfl rfl rfl
      Driver.biasAfterSecond_seq⟩

/-! ## The pen at segment 0 -/

set_option maxRecDepth 100000 in
/-- C16 as stated fails at segment 0: the pen of a new driver is up and the flag of segment 0
of `penUpImage` is up as well, so nothing differs, yet `DrawImage` calls `Pen` for segment 0
(one `Set` call on the servo with `pen_up`, and its settle delay); segment 1, with the same
flag, causes no further call. The whole run makes two `Set` calls, the second one being the
final `Pen(false)` after the loop. -/
theorem DrawImage_pen_toggles_counterexample :
    ({ calibration_ := sampleCalibration } : Driver).pen_ = false ∧
    (penUpImage.points 0).pen = false ∧ (penUpImage.points 1).pen = false ∧
    (Driver.DrawImage_played (sampleEnv 1000) 60 penUpImage
      { calibration_ := sampleCalibration } 0).map (fun x => x.2.log) = some [] ∧
    (Driver.DrawImage_played (sampleEnv 1000) 60 penUpImage
      { calibration_ := sampleCalibration } 1).map (fun x => x.2.log) =
        some [Event.ServoSet 800] ∧
    (Driver.DrawImage_played (sampleEnv 1000) 60 penUpImage
      { calibration_ := sampleCalibration } 2).map (fun x => x.2.log) =
        some [Event.ServoSet 800] ∧
    (Driver.DrawImage (sampleEnv 1000) 60 { calibration_ := sampleCalibration }
      penUpImage).map (fun x => (x.1, x.2.log)) =
        some (true, [Event.ServoSet 800, Event.ServoSet 800, Event.LeftOff, Event.RightOff,
          Event.ServoOff]) := by
  decide

end Avrostr
